import Mathlib

/-!
# A minimum-spanning-tree engine: binary heap, disjoint sets, adjacency-matrix graph, Kruskal, BFS

Shallow embedding of `heap.c`, `dsets.c`, `edge.c`, `graph.c`, `fifo.c` and `kruskal.c`.

Conventions of the embedding.

* C objects that are mutated in place are passed and returned explicitly.
* An operation that can leave defined behaviour (a failed `assert`, a `NULL`
  dereference, an access outside an allocated array, a signed overflow, the use
  of a pointer to no live object, a call of `exit(1)`) returns
  `Except Fault _`; `Fault.fuel` is the only fault that is an artefact of the
  embedding (the bound given to a loop ran out); the theorems on the heap, on
  `dsets_find_set` and on `kruskal` show that it does not occur in well-formed states.
* `malloc` is assumed to succeed. `graph_new` and `graph_add_vertex` never write the
  arrays that they allocate: `graph_new_in`, `graph_add_vertex_in` and
  `graph_add_edge_in` take the content that `malloc` left in them as an argument, and
  `graph_new`, `graph_add_vertex` and `graph_add_edge` are these functions on memory
  that is filled with `NULL` (`graph_new_in_null`, `graph_add_vertex_in_null`,
  `graph_add_edge_in_clear`).
* An `int` is an integer with the bound `INT_MAX` tested where the code adds to it. A
  `float` weight is a value of any type with a decidable comparison, of which nothing
  is assumed; `CFloat` is such a type with a NaN.
* A `void *` cell is an `Option α`: `none` is `NULL`.
-/

set_option autoImplicit false

namespace DataStructures

/-! ## Faults -/

/-- The ways in which an operation can leave defined behaviour. -/
inductive Fault where
  | assertion
  | nullDeref
  | outOfBounds
  | overflow
  | dangling
  | exit
  | fuel
  deriving DecidableEq

/-- Equality of results is decidable when equality of values is. -/
instance decEqExcept {ε α : Type} [DecidableEq ε] [DecidableEq α] : DecidableEq (Except ε α)
  | Except.ok a, Except.ok b =>
    if h : a = b then isTrue (congrArg Except.ok h) else isFalse (fun h2 => h (Except.ok.inj h2))
  | Except.error a, Except.error b =>
    if h : a = b then isTrue (congrArg Except.error h)
    else isFalse (fun h2 => h (Except.error.inj h2))
  | Except.ok _, Except.error _ => isFalse (fun h => Except.noConfusion h)
  | Except.error _, Except.ok _ => isFalse (fun h => Except.noConfusion h)

/-! ## Machine integers -/

/-- The largest `int`. -/
def INT_MAX : Nat := 2147483647

/-! ## heap.h / heap.c -/

/-- Macro `heap_left_son(i)`: `2*((i)+1)-1`. -/
def heap_left_son (i : Nat) : Nat := 2 * (i + 1) - 1

/-- Macro `heap_right_son(i)`: `2*((i)+1)+1-1`. -/
def heap_right_son (i : Nat) : Nat := 2 * (i + 1) + 1 - 1

/-- Macro `heap_father(i)`: `((int) ((i)+1)/2-1)`, wrong for `i == 0` as the source says
(there the C value is `-1`; here the subtraction truncates to `0`; the value is never used). -/
def heap_father (i : Nat) : Nat := (i + 1) / 2 - 1

/-- The C `struct Heap`: `tab` is the array of `max` item pointers. -/
structure Heap (α : Type) where
  size : Nat
  max : Nat
  rel : α → α → Bool
  tab : List (Option α)

variable {α : Type}

/-- Function `heap_create`: asserts `max_size > 0`, allocates `tab`, sets `size = 0`. -/
def heap_create (max_size : Nat) (rel : α → α → Bool) : Except Fault (Heap α) :=
  if 0 < max_size then
    Except.ok { size := 0, max := max_size, rel := rel, tab := List.replicate max_size none }
  else Except.error Fault.assertion

/-- Function `heap_size`. -/
def heap_size (h : Heap α) : Nat := h.size

/-- Function `heap_max_size`. -/
def heap_max_size (h : Heap α) : Nat := h.max

/-- Read of the cell `h->tab[i]`. -/
def heap_peek (h : Heap α) (i : Nat) : Except Fault (Option α) :=
  match h.tab[i]? with
  | some c => Except.ok c
  | none => Except.error Fault.outOfBounds

/-- Write of the cell `h->tab[i] = c`. -/
def heap_poke (h : Heap α) (i : Nat) (c : Option α) : Except Fault (Heap α) :=
  if i < h.tab.length then Except.ok { h with tab := h.tab.set i c }
  else Except.error Fault.outOfBounds

/-- Call `h->rel(p, q)`: the relation is defined on items, not on `NULL`. -/
def heap_rel (h : Heap α) (p q : Option α) : Except Fault Bool :=
  match p, q with
  | some a, some b => Except.ok (h.rel a b)
  | _, _ => Except.error Fault.nullDeref

/-- The three assignments `tmp = tab[i]; tab[i] = tab[j]; tab[j] = tmp`. -/
def heap_swap (h : Heap α) (i j : Nat) : Except Fault (Heap α) := do
  let tmp ← heap_peek h i
  let c ← heap_peek h j
  let h1 ← heap_poke h i c
  heap_poke h1 j tmp

/-- Function `heap_root`: asserts `h->size != 0`, returns `h->tab[0]`. -/
def heap_root (h : Heap α) : Except Fault (Option α) :=
  if h.size ≠ 0 then heap_peek h 0 else Except.error Fault.assertion

/-- The `while` loop of `heap_shift_down`; the first argument bounds the iterations. -/
def heap_shift_down_loop (max_i : Nat) : Nat → Heap α → Nat → Except Fault (Heap α)
  | 0, h, i =>
    if heap_left_son i ≤ max_i ∨ heap_right_son i ≤ max_i then Except.error Fault.fuel
    else Except.ok h
  | fuel + 1, h, i =>
    if heap_left_son i ≤ max_i ∨ heap_right_son i ≤ max_i then do
      let l ← heap_peek h (heap_left_son i)
      let next_i ←
        if heap_right_son i ≤ max_i then do
          let r ← heap_peek h (heap_right_son i)
          let b ← heap_rel h l r
          pure (if b then heap_right_son i else heap_left_son i)
        else pure (heap_left_son i)
      let a ← heap_peek h i
      let c ← heap_peek h next_i
      let b ← heap_rel h a c
      if b then do
        let h1 ← heap_swap h i next_i
        heap_shift_down_loop max_i fuel h1 next_i
      else pure h
    else Except.ok h

/-- Function `heap_shift_down`. -/
def heap_shift_down (h : Heap α) (i : Nat) : Except Fault (Heap α) :=
  let max_i := heap_size h - 1
  if heap_size h = 0 then Except.ok h
  else heap_shift_down_loop max_i (heap_size h) h i

/-- The `while` loop of `heap_shift_up`; the first argument bounds the iterations. -/
def heap_shift_up_loop : Nat → Heap α → Nat → Nat → Except Fault (Heap α)
  | 0, h, f, i => do
    let a ← heap_peek h f
    let c ← heap_peek h i
    let b ← heap_rel h a c
    if b then Except.error Fault.fuel else pure h
  | fuel + 1, h, f, i => do
    let a ← heap_peek h f
    let c ← heap_peek h i
    let b ← heap_rel h a c
    if b then do
      let h1 ← heap_swap h f i
      if f = 0 then pure h1 else heap_shift_up_loop fuel h1 (heap_father f) f
    else pure h

/-- Function `heap_shift_up`. -/
def heap_shift_up (h : Heap α) (i : Nat) : Except Fault (Heap α) :=
  let f := heap_father i
  if i = 0 then Except.ok h else heap_shift_up_loop i h f i

/-- Function `heap_extract_root`: `NULL` on an empty heap, else the old root. -/
def heap_extract_root (h : Heap α) : Except Fault (Heap α × Option α) :=
  if heap_size h = 0 then Except.ok (h, none)
  else do
    let tmp ← heap_peek h 0
    let last ← heap_peek h (h.size - 1)
    let h1 ← heap_poke h 0 last
    let h2 := { h1 with size := h1.size - 1 }
    let h3 ← heap_shift_down h2 0
    pure (h3, tmp)

/-- Function `heap_insert`: returns `0` when the heap is full. -/
def heap_insert (h : Heap α) (item : α) : Except Fault (Heap α × Bool) :=
  if heap_size h = heap_max_size h then Except.ok (h, false)
  else do
    let h1 ← heap_poke h h.size (some item)
    let h2 := { h1 with size := h1.size + 1 }
    let h3 ← heap_shift_up h2 (h2.size - 1)
    pure (h3, true)

/-! ## edge.h / edge.c -/

/-- Colour `WHITE` (an edge not yet visited). -/
def WHITE : Int := 0
/-- Colour `GREY`. -/
def GREY : Int := 1
/-- Colour `BLACK`. -/
def BLACK : Int := 2
/-- Colour `BLUE` (an edge selected by Kruskal). -/
def BLUE : Int := 3
/-- Colour `RED` (an edge rejected by Kruskal). -/
def RED : Int := 4

/-- The C `struct Edge`. The weight type `W` stands for `float` without NaN: any linear order. -/
structure Edge (W : Type) where
  v1 : Nat
  v2 : Nat
  weight : W
  attr : Int
  deriving DecidableEq

/-- A non-null `Edge *`: the position of the object among the allocated edges. -/
abbrev EdgePtr := Nat

/-! ## graph.h / graph.c -/

/-- The C `struct Graph` (`size`, `vertex`) together with the `Edge` objects allocated by
`edge_new` (`store`; a freed object is `none`). A row `Vertex` is `none` when `NULL`. -/
structure Graph (W : Type) where
  size : Nat
  vertex : List (Option (List (Option EdgePtr)))
  store : List (Option (Edge W))
  deriving DecidableEq

variable {W : Type}

/-- Dereference of an `Edge *`. -/
def edge_deref (g : Graph W) (e : EdgePtr) : Except Fault (Edge W) :=
  match g.store[e]? with
  | some (some ed) => Except.ok ed
  | _ => Except.error Fault.dangling

/-- Function `edge_get_attr`. -/
def edge_get_attr (g : Graph W) (e : EdgePtr) : Except Fault Int := do
  let ed ← edge_deref g e
  pure ed.attr

/-- Function `edge_set_attr`: `e->attr = attr`. -/
def edge_set_attr (g : Graph W) (e : EdgePtr) (attr : Int) : Except Fault (Graph W) := do
  let ed ← edge_deref g e
  pure { g with store := g.store.set e (some { ed with attr := attr }) }

/-- Function `edge_new`: a fresh object; its pointer is returned with the new store. -/
def edge_new (g : Graph W) (v1 v2 : Nat) (w : W) (attr : Int) : Graph W × EdgePtr :=
  ({ g with store := g.store ++ [some { v1 := v1, v2 := v2, weight := w, attr := attr }] },
    g.store.length)

/-- Function `graph_new` on memory that `malloc` returns uncleared: `junk i` is the
content found in the cell `i` of the array of rows, which `graph_new` never writes (a
non-`NULL` content is a pointer to no allocated row: `some []`). -/
def graph_new_in (junk : Nat → Option (List (Option EdgePtr))) (size : Nat) :
    Except Fault (Graph W) :=
  if 0 < size then
    Except.ok { size := size, vertex := (List.range size).map junk, store := [] }
  else Except.error Fault.assertion

/-- Function `graph_new` when the memory that `malloc` returns happens to be filled with
`NULL`: the graph is then empty. -/
def graph_new (size : Nat) : Except Fault (Graph W) := graph_new_in (fun _ => none) size

/-- Function `graph_max_size`. -/
def graph_max_size (g : Graph W) : Nat := g.size

/-- Read of the row pointer `g->vertex[i]`. -/
def graph_row (g : Graph W) (i : Nat) : Except Fault (Option (List (Option EdgePtr))) :=
  match g.vertex[i]? with
  | some r => Except.ok r
  | none => Except.error Fault.outOfBounds

/-- Read of the cell `g->vertex[i][j]`. -/
def graph_cell (g : Graph W) (i j : Nat) : Except Fault (Option EdgePtr) := do
  let r ← graph_row g i
  match r with
  | none => Except.error Fault.nullDeref
  | some row =>
    match row[j]? with
    | some c => Except.ok c
    | none => Except.error Fault.outOfBounds

/-- Write of the cell `g->vertex[i][j] = c`. -/
def graph_set_cell (g : Graph W) (i j : Nat) (c : Option EdgePtr) : Except Fault (Graph W) := do
  let r ← graph_row g i
  match r with
  | none => Except.error Fault.nullDeref
  | some row =>
    if j < row.length then Except.ok { g with vertex := g.vertex.set i (some (row.set j c)) }
    else Except.error Fault.outOfBounds

/-- Function `graph_has_vertex`: asserts `g->size > 0`. -/
def graph_has_vertex (g : Graph W) (v : Nat) : Except Fault Bool :=
  if 0 < g.size then
    if v ≥ g.size then Except.ok false
    else do
      let r ← graph_row g v
      pure r.isSome
  else Except.error Fault.assertion

/-- Function `graph_has_edge`. -/
def graph_has_edge (g : Graph W) (v1 v2 : Nat) : Except Fault Bool := do
  let b1 ← graph_has_vertex g v1
  if b1 then
    let b2 ← graph_has_vertex g v2
    if b2 then
      let c ← graph_cell g v1 v2
      pure c.isSome
    else pure false
  else pure false

/-- Function `graph_get_edge`. -/
def graph_get_edge (g : Graph W) (v1 v2 : Nat) : Except Fault (Option EdgePtr) := do
  let b ← graph_has_edge g v1 v2
  if b then graph_cell g v1 v2 else pure none

/-- Inner loop of `graph_first_edge`: columns `j, j+1, ...` of row `i`, `n` of them. -/
def graph_first_edge_row (g : Graph W) (i : Nat) : Nat → Nat → Except Fault (Option EdgePtr)
  | 0, _ => Except.ok none
  | n + 1, j => do
    let c ← graph_cell g i j
    match c with
    | some e => pure (some e)
    | none => graph_first_edge_row g i n (j + 1)

/-- Outer loop of `graph_first_edge`: rows `i, i+1, ...`, `n` of them. -/
def graph_first_edge_rows (g : Graph W) : Nat → Nat → Except Fault (Option EdgePtr)
  | 0, _ => Except.ok none
  | n + 1, i => do
    let r ← graph_row g i
    let tmp ← if r.isSome then graph_first_edge_row g i g.size 0 else pure none
    match tmp with
    | some e => pure (some e)
    | none => graph_first_edge_rows g n (i + 1)

/-- Function `graph_first_edge`. -/
def graph_first_edge (g : Graph W) : Except Fault (Option EdgePtr) :=
  graph_first_edge_rows g g.size 0

/-- The step `if (++j >= i) { i += 1; j = 0; }` of `graph_next_edge`. -/
def graph_next_pos (i j : Nat) : Nat × Nat :=
  if j + 1 ≥ i then (i + 1, 0) else (i, j + 1)

/-- The `while` loop of `graph_next_edge`; the first argument bounds the iterations. -/
def graph_next_edge_loop (g : Graph W) : Nat → Nat → Nat → Except Fault (Nat × Nat)
  | 0, i, j =>
    if i < g.size then do
      let c ← graph_cell g i j
      if c.isNone then Except.error Fault.fuel else pure (i, j)
    else pure (i, j)
  | fuel + 1, i, j =>
    if i < g.size then do
      let c ← graph_cell g i j
      if c.isNone then
        graph_next_edge_loop g fuel (graph_next_pos i j).1 (graph_next_pos i j).2
      else pure (i, j)
    else pure (i, j)

/-- Function `graph_next_edge`. -/
def graph_next_edge (g : Graph W) (e : EdgePtr) : Except Fault (Option EdgePtr) := do
  let ed ← edge_deref g e
  if ed.v1 ≥ g.size ∨ ed.v2 ≥ g.size then pure none
  else
    let i := if ed.v1 ≥ ed.v2 then ed.v1 else ed.v2
    let j := if ed.v1 ≥ ed.v2 then ed.v2 else ed.v1
    let p ← graph_next_edge_loop g (g.size * g.size + g.size) (graph_next_pos i j).1
      (graph_next_pos i j).2
    if p.1 ≥ g.size then pure none else graph_get_edge g p.1 p.2

/-- Function `graph_add_vertex` on memory that `malloc` returns uncleared: `junk j` is
the content found in the cell `j` of the new row, which `graph_add_vertex` never
writes. -/
def graph_add_vertex_in (junk : Nat → Option EdgePtr) (g : Graph W) (v : Nat) :
    Except Fault (Graph W × Bool) :=
  if v ≥ graph_max_size g then Except.ok (g, false)
  else do
    let r ← graph_row g v
    match r with
    | none =>
      pure ({ g with vertex := g.vertex.set v (some ((List.range g.size).map junk)) }, true)
    | some _ => pure (g, true)

/-- Function `graph_add_vertex` when the memory that `malloc` returns happens to be
filled with `NULL`: the new row is then empty. -/
def graph_add_vertex (g : Graph W) (v : Nat) : Except Fault (Graph W × Bool) :=
  graph_add_vertex_in (fun _ => none) g v

/-- Function `graph_add_edge` on memory that `malloc` returns uncleared: `junk1` and
`junk2` are the contents found in the rows that `graph_add_vertex` allocates for `v1`
and for `v2`, when it allocates them; only the cells `(v1, v2)` and `(v2, v1)` are
written. -/
def graph_add_edge_in (junk1 junk2 : Nat → Option EdgePtr) (g : Graph W) (v1 v2 : Nat)
    (w : W) (attr : Int) : Except Fault (Graph W × Bool) :=
  if v1 ≥ graph_max_size g ∨ v2 ≥ graph_max_size g then Except.ok (g, false)
  else do
    let b1 ← graph_has_vertex g v1
    let g1 ← if b1 then pure g else do
      let r ← graph_add_vertex_in junk1 g v1
      pure r.1
    let b2 ← graph_has_vertex g1 v2
    let g2 ← if b2 then pure g1 else do
      let r ← graph_add_vertex_in junk2 g1 v2
      pure r.1
    let g3 := (edge_new g2 v1 v2 w attr).1
    let e := (edge_new g2 v1 v2 w attr).2
    let g4 ← graph_set_cell g3 v1 v2 (some e)
    let g5 ← graph_set_cell g4 v2 v1 (some e)
    pure (g5, true)

/-- Function `graph_add_edge` when the memory that `malloc` returns happens to be filled
with `NULL`. -/
def graph_add_edge (g : Graph W) (v1 v2 : Nat) (w : W) (attr : Int) :
    Except Fault (Graph W × Bool) :=
  graph_add_edge_in (fun _ => none) (fun _ => none) g v1 v2 w attr

/-! ## dsets.h / dsets.c -/

/-- The C `struct DSets`: `father[i] = -1` marks an element placed in no set. -/
structure DSets where
  size : Nat
  father : List Int
  rank : List Int
  deriving DecidableEq

/-- Function `dsets_new`: asserts `size > 0`. -/
def dsets_new (size : Nat) : Except Fault DSets :=
  if 0 < size then
    Except.ok { size := size, father := List.replicate size (-1), rank := List.replicate size 0 }
  else Except.error Fault.assertion

/-- Read of `ds->father[n]`. -/
def dsets_father (ds : DSets) (n : Int) : Except Fault Int :=
  if 0 ≤ n then
    match ds.father[n.toNat]? with
    | some x => Except.ok x
    | none => Except.error Fault.outOfBounds
  else Except.error Fault.outOfBounds

/-- Read of `ds->rank[n]`. -/
def dsets_rank (ds : DSets) (n : Int) : Except Fault Int :=
  if 0 ≤ n then
    match ds.rank[n.toNat]? with
    | some x => Except.ok x
    | none => Except.error Fault.outOfBounds
  else Except.error Fault.outOfBounds

/-- Write `ds->father[n] = x`. -/
def dsets_set_father (ds : DSets) (n : Int) (x : Int) : Except Fault DSets :=
  if 0 ≤ n ∧ n.toNat < ds.father.length then
    Except.ok { ds with father := ds.father.set n.toNat x }
  else Except.error Fault.outOfBounds

/-- Write `ds->rank[n] = x`. -/
def dsets_set_rank (ds : DSets) (n : Int) (x : Int) : Except Fault DSets :=
  if 0 ≤ n ∧ n.toNat < ds.rank.length then
    Except.ok { ds with rank := ds.rank.set n.toNat x }
  else Except.error Fault.outOfBounds

/-- Function `dsets_make_set`: the guard is `n > ds->size`. -/
def dsets_make_set (ds : DSets) (n : Nat) : Except Fault DSets :=
  if n > ds.size then Except.ok ds
  else do
    let ds1 ← dsets_set_father ds n n
    dsets_set_rank ds1 n 0

/-- The `while` loop of `dsets_find_set` and its `return ds->father[n]`; the first
argument bounds the iterations. The first operand of the condition reads
`father[father[n]]` before the second tests `father[n] != -1`. -/
def dsets_find_set_loop : Nat → DSets → Int → Except Fault (DSets × Int)
  | 0, ds, n => do
    let fn ← dsets_father ds n
    let ffn ← dsets_father ds fn
    if ffn ≠ fn ∧ fn ≠ -1 then Except.error Fault.fuel
    else pure (ds, fn)
  | fuel + 1, ds, n => do
    let fn ← dsets_father ds n
    let ffn ← dsets_father ds fn
    if ffn ≠ fn ∧ fn ≠ -1 then do
      let ds1 ← dsets_set_father ds n ffn
      let fn1 ← dsets_father ds1 n
      let n1 ← dsets_father ds1 fn1
      dsets_find_set_loop fuel ds1 n1
    else pure (ds, fn)

/-- Function `dsets_find_set`: the guard is `n > ds->size`. -/
def dsets_find_set (ds : DSets) (n : Nat) : Except Fault (DSets × Int) :=
  if n > ds.size then Except.ok (ds, -1)
  else dsets_find_set_loop ds.size ds n

/-- Function `dsets_union`. The ranks are `int`: `ds->rank[father] += 1` on a rank equal
to `INT_MAX` is a signed overflow. -/
def dsets_union (ds : DSets) (n1 n2 : Nat) : Except Fault DSets :=
  if n1 > ds.size ∨ n2 > ds.size then Except.ok ds
  else do
    let r1 ← dsets_find_set ds n1
    let r2 ← dsets_find_set r1.1 n2
    let ds2 := r2.1
    let n1 := r1.2
    let n2 := r2.2
    if n1 = -1 ∨ n2 = -1 then pure ds2
    else do
      let k1 ← dsets_rank ds2 n1
      let k2 ← dsets_rank ds2 n2
      let father := if k1 > k2 then n1 else n2
      let son := if k1 > k2 then n2 else n1
      let ds3 ← dsets_set_father ds2 son father
      let k1 ← dsets_rank ds3 n1
      let k2 ← dsets_rank ds3 n2
      if k1 = k2 then do
        let kf ← dsets_rank ds3 father
        if kf < (INT_MAX : Int) then dsets_set_rank ds3 father (kf + 1)
        else Except.error Fault.overflow
      else pure ds3

/-- Function `dsets_same_set`. -/
def dsets_same_set (ds : DSets) (n1 n2 : Nat) : Except Fault (DSets × Bool) := do
  let r1 ← dsets_find_set ds n1
  let r2 ← dsets_find_set r1.1 n2
  if r1.2 = -1 ∨ r2.2 = -1 then pure (r2.1, false)
  else pure (r2.1, decide (r1.2 = r2.2))

/-! ## fifo.h / fifo.c -/

/-- The C `struct Fifo`: a ring of `max_size` cells, one of which stays free. -/
structure Fifo (α : Type) where
  max_size : Nat
  newest : Nat
  oldest : Nat
  items : List (Option α)
  deriving DecidableEq

/-- Function `fifo_new`: asserts `max_size > 0`, allocates `max_size + 1` cells. -/
def fifo_new (max_size : Nat) : Except Fault (Fifo α) :=
  if 0 < max_size then
    Except.ok { max_size := max_size + 1, newest := 0, oldest := 0,
                items := List.replicate (max_size + 1) none }
  else Except.error Fault.assertion

/-- Function `fifo_max_size`. -/
def fifo_max_size (f : Fifo α) : Nat := f.max_size - 1

/-- Function `fifo_length`. -/
def fifo_length (f : Fifo α) : Nat :=
  if f.newest ≥ f.oldest then f.newest - f.oldest
  else f.max_size - (f.oldest - f.newest)

/-- Function `fifo_empty`. -/
def fifo_empty (f : Fifo α) : Bool := fifo_length f = 0

/-- Function `fifo_full`. -/
def fifo_full (f : Fifo α) : Bool := fifo_length f = fifo_max_size f

/-- Function `fifo_put`: asserts `item != NULL`; does nothing when the queue is full. -/
def fifo_put (f : Fifo α) (item : Option α) : Except Fault (Fifo α) :=
  match item with
  | none => Except.error Fault.assertion
  | some x =>
    if fifo_length f = fifo_max_size f then Except.ok f
    else if f.newest < f.items.length then
      let f1 := { f with items := f.items.set f.newest (some x), newest := f.newest + 1 }
      Except.ok (if f1.newest = f1.max_size then { f1 with newest := 0 } else f1)
    else Except.error Fault.outOfBounds

/-- Function `fifo_get`: `NULL` when the queue is empty. -/
def fifo_get (f : Fifo α) : Except Fault (Fifo α × Option α) :=
  if fifo_empty f then Except.ok (f, none)
  else
    match f.items[f.oldest]? with
    | none => Except.error Fault.outOfBounds
    | some ret =>
      let f1 := { f with oldest := f.oldest + 1 }
      Except.ok (if f1.oldest = f1.max_size then { f1 with oldest := 0 } else f1, ret)

/-! ## kruskal.c -/

/-- A value of the C type `float` as the comparison `>=` sees it: a number (an integer is
enough for the examples) or a NaN. -/
inductive CFloat where
  | num (x : Int)
  | nan
  deriving DecidableEq

/-- The comparison `<=` of `float`: false as soon as one side is a NaN. -/
def CFloat.le : CFloat → CFloat → Bool
  | CFloat.num x, CFloat.num y => decide (x ≤ y)
  | _, _ => false

/-- The comparisons `<=` and `>=` on `CFloat`. -/
instance instLECFloat : LE CFloat := ⟨fun a b => CFloat.le a b = true⟩

/-- The comparisons of `CFloat` are decidable. -/
instance instDecidableLECFloat : DecidableRel (α := CFloat) (· ≤ ·) :=
  fun a b => inferInstanceAs (Decidable (CFloat.le a b = true))

/-- Function `edge_relation`: `e1->weight >= e2->weight`, with the comparison of the type
of the weights, of which nothing is assumed: on `float` it is not total, a NaN being
related to no value (see `CFloat`). Both pointers are asserted non-`NULL`, which holds of
every `EdgePtr`; for a pointer to no live object the embedding answers `false`. -/
def edge_relation [LE W] [DecidableRel (α := W) (· ≤ ·)] (g : Graph W) (e1 e2 : EdgePtr) :
    Bool :=
  match g.store[e1]?, g.store[e2]? with
  | some (some a), some (some b) => decide (a.weight ≥ b.weight)
  | _, _ => false

/-- First loop of `kruskal`: `dsets_make_set` for the present vertices `i, i+1, ...`,
`n` of them. -/
def kruskal_init (g : Graph W) : Nat → Nat → DSets → Except Fault DSets
  | 0, _, groups => Except.ok groups
  | n + 1, i, groups => do
    let b ← graph_has_vertex g i
    let groups1 ← if b then dsets_make_set groups i else pure groups
    kruskal_init g n (i + 1) groups1

/-- Second loop of `kruskal`: every enumerated edge is inserted in the heap and coloured
`RED`; the first argument bounds the iterations. -/
def kruskal_fill : Nat → Graph W → Heap EdgePtr → Option EdgePtr →
    Except Fault (Graph W × Heap EdgePtr)
  | _, g, h, none => Except.ok (g, h)
  | 0, _, _, some _ => Except.error Fault.fuel
  | fuel + 1, g, h, some current => do
    let r ← heap_insert h current
    let g1 ← edge_set_attr g current RED
    let nxt ← graph_next_edge g1 current
    kruskal_fill fuel g1 r.1 nxt

/-- Third loop of `kruskal`: the edges leave the heap one by one; an edge whose ends are
not in the same set is coloured `BLUE` and the two sets are united. The first argument
bounds the iterations. -/
def kruskal_process : Nat → Graph W → Heap EdgePtr → DSets →
    Except Fault (Graph W × Heap EdgePtr × DSets)
  | 0, g, h, groups =>
    if heap_size h ≠ 0 then Except.error Fault.fuel else Except.ok (g, h, groups)
  | fuel + 1, g, h, groups =>
    if heap_size h ≠ 0 then do
      let r ← heap_extract_root h
      match r.2 with
      | none => Except.error Fault.nullDeref
      | some current =>
        let ed ← edge_deref g current
        let s ← dsets_same_set groups ed.v1 ed.v2
        if !s.2 then do
          let g1 ← edge_set_attr g current BLUE
          let ed1 ← edge_deref g1 current
          let groups2 ← dsets_union s.1 ed1.v1 ed1.v2
          kruskal_process fuel g1 r.1 groups2
        else kruskal_process fuel g r.1 s.1
    else Except.ok (g, h, groups)

/-- Function `kruskal`. The relation handed to `heap_create` reads the weights in the
store of `g` at that moment; `kruskal` writes no weight afterwards, only colours. -/
def kruskal [LE W] [DecidableRel (α := W) (· ≤ ·)] (g : Graph W) : Except Fault (Graph W) :=
  let size := graph_max_size g
  if 0 < size then
    if size * size ≤ INT_MAX then do
      let h ← heap_create (size * size) (edge_relation g)
      let groups ← dsets_new size
      let groups1 ← kruskal_init g size 0 groups
      let first ← graph_first_edge g
      let filled ← kruskal_fill (size * size) g h first
      let done ← kruskal_process (heap_size filled.2) filled.1 filled.2 groups1
      pure done.1
    else Except.error Fault.overflow
  else Except.error Fault.assertion

/-- Read of `a[i]` in an `int` array. -/
def arr_get (a : List Int) (i : Nat) : Except Fault Int :=
  match a[i]? with
  | some x => Except.ok x
  | none => Except.error Fault.outOfBounds

/-- Write `a[i] = x` in an `int` array. -/
def arr_set (a : List Int) (i : Nat) (x : Int) : Except Fault (List Int) :=
  if i < a.length then Except.ok (a.set i x) else Except.error Fault.outOfBounds

/-- The queue, the marks and the parents, as `bfs_visit` updates them. -/
structure BfsState where
  f : Fifo Nat
  mark : List Int
  parent : List Int
  deriving DecidableEq

/-- The `for` loop of `bfs_visit` over the columns `k, k+1, ...` (`n` of them) of the row
`u` taken from the queue. A row pointer `g->vertex[k]` is the index `k` of a row that is
allocated. -/
def bfs_visit_row (g : Graph W) (u : Nat) : Nat → Nat → BfsState → Except Fault BfsState
  | 0, _, st => Except.ok st
  | n + 1, k, st => do
    let c ← graph_cell g u k
    match c with
    | none => bfs_visit_row g u n (k + 1) st
    | some e =>
      let mk ← arr_get st.mark k
      let sel ← if mk = 0 then do
          let a ← edge_get_attr g e
          pure (decide (a = BLUE))
        else pure false
      if sel then do
        let ed ← edge_deref g e
        let nn := if ed.v1 = k then ed.v2 else ed.v1
        let rk ← graph_row g k
        let f1 ← fifo_put st.f (rk.map (fun _ => k))
        let mark1 ← arr_set st.mark k 1
        let parent1 ← arr_set st.parent k (nn : Int)
        bfs_visit_row g u n (k + 1) { f := f1, mark := mark1, parent := parent1 }
      else bfs_visit_row g u n (k + 1) st

/-- The `while (!fifo_empty(f))` loop of `bfs_visit`; the first argument bounds the
iterations. -/
def bfs_visit_loop (g : Graph W) : Nat → BfsState → Except Fault BfsState
  | 0, st => if fifo_empty st.f then Except.ok st else Except.error Fault.fuel
  | fuel + 1, st =>
    if fifo_empty st.f then Except.ok st
    else do
      let r ← fifo_get st.f
      match r.2 with
      | none => Except.error Fault.nullDeref
      | some u =>
        let st1 ← bfs_visit_row g u g.size 0 { st with f := r.1 }
        bfs_visit_loop g fuel st1

/-- Function `bfs_visit`. -/
def bfs_visit (g : Graph W) (i : Nat) (mark parent : List Int) :
    Except Fault (List Int × List Int) := do
  let size := graph_max_size g
  let f ← fifo_new size
  let mark1 ← arr_set mark i 1
  let ri ← graph_row g i
  let f1 ← fifo_put f (ri.map (fun _ => i))
  let st ← bfs_visit_loop g size { f := f1, mark := mark1, parent := parent }
  pure (st.mark, st.parent)

/-- First loop of `bfs`: `mark[i] = 0; parent[i] = -1`. -/
def bfs_init : Nat → Nat → List Int → List Int → Except Fault (List Int × List Int)
  | 0, _, mark, parent => Except.ok (mark, parent)
  | n + 1, i, mark, parent => do
    let mark1 ← arr_set mark i 0
    let parent1 ← arr_set parent i (-1)
    bfs_init n (i + 1) mark1 parent1

/-- Second loop of `bfs`: a visit from every present vertex not yet marked. -/
def bfs_loop (g : Graph W) : Nat → Nat → List Int → List Int →
    Except Fault (List Int × List Int)
  | 0, _, mark, parent => Except.ok (mark, parent)
  | n + 1, i, mark, parent => do
    let b ← graph_has_vertex g i
    let go ← if b then do
        let mi ← arr_get mark i
        pure (decide (mi = 0))
      else pure false
    let r ← if go then bfs_visit g i mark parent else pure (mark, parent)
    bfs_loop g n (i + 1) r.1 r.2

/-- Function `bfs`: `parent` is the caller's array; the result is its final content. -/
def bfs (g : Graph W) (parent : List Int) : Except Fault (List Int) := do
  let size := graph_max_size g
  let r ← bfs_init size 0 (List.replicate size 0) parent
  let r1 ← bfs_loop g size 0 r.1 r.2
  pure r1.2

/-! ## Vocabulary of the statements about the heap -/

/-- The item in cell `i` of the heap array; `none` for `NULL` and outside the array. -/
def heap_cell (h : Heap α) (i : Nat) : Option α := (h.tab[i]?).getD none

/-- The items held by the heap: the content of the cells `0 .. size-1`. -/
def heap_items (h : Heap α) : List α := (List.range h.size).filterMap (heap_cell h)

/-- A call of the heap interface. -/
inductive HeapOp (α : Type) where
  | insert (item : α)
  | extract

/-- A heap together with the number of inserts that succeeded and the number of
extractions made on a non-empty heap. -/
structure HeapTrace (α : Type) where
  heap : Heap α
  inserted : Nat
  extracted : Nat

/-- One call, with the bookkeeping of `HeapTrace`. -/
def heap_apply (t : HeapTrace α) : HeapOp α → Except Fault (HeapTrace α)
  | HeapOp.insert x => do
    let r ← heap_insert t.heap x
    pure { heap := r.1, inserted := t.inserted + (if r.2 then 1 else 0),
           extracted := t.extracted }
  | HeapOp.extract => do
    let r ← heap_extract_root t.heap
    pure { heap := r.1, inserted := t.inserted,
           extracted := t.extracted + (if heap_size t.heap = 0 then 0 else 1) }

/-- A sequence of calls. -/
def heap_run (t : HeapTrace α) : List (HeapOp α) → Except Fault (HeapTrace α)
  | [] => Except.ok t
  | op :: ops => do
    let t1 ← heap_apply t op
    heap_run t1 ops

/-- A sequence of calls on the heap fresh from `heap_create`. -/
def heap_session (max_size : Nat) (rel : α → α → Bool) (ops : List (HeapOp α)) :
    Except Fault (HeapTrace α) := do
  let h ← heap_create max_size rel
  heap_run { heap := h, inserted := 0, extracted := 0 } ops

/-- Shape of a heap: the size is within the capacity, the array has `max` cells and the
cells below `size` hold items. -/
structure HeapWF (h : Heap α) : Prop where
  size_le : h.size ≤ h.max
  tab_len : h.tab.length = h.max
  filled : ∀ i, i < h.size → ∃ a, heap_cell h i = some a

/-- The relation holds from the item of cell `c` to the item of cell `p`. -/
def HeapRel (h : Heap α) (c p : Nat) : Prop :=
  ∀ a b, heap_cell h c = some a → heap_cell h p = some b → h.rel a b = true

/-- The order of the heap: the relation holds from every cell to its father. -/
def HeapOrdered (h : Heap α) : Prop :=
  ∀ c, 0 < c → c < h.size → HeapRel h c (heap_father c)

/-- Every item held satisfies `P`. -/
def HeapAll (P : α → Prop) (h : Heap α) : Prop :=
  ∀ i a, i < h.size → heap_cell h i = some a → P a

/-- The relation `R` is a total preorder on the items that satisfy `P`. -/
structure TotalPreorderOn (P : α → Prop) (R : α → α → Bool) : Prop where
  total : ∀ a b, P a → P b → R a b = true ∨ R b a = true
  trans : ∀ a b c, P a → P b → P c → R a b = true → R b c = true → R a c = true

/-- The items of a list inserted one after the other, as the second loop of `kruskal`
does (the value returned by `heap_insert` is not looked at). -/
def heap_insert_all (h : Heap α) : List α → Except Fault (Heap α)
  | [] => Except.ok h
  | x :: xs => do
    let r ← heap_insert h x
    heap_insert_all r.1 xs

/-- The loop `while (heap_size(h) != 0) heap_extract_root(h)`, as the third loop of
`kruskal` runs it: the values returned, in the order of the calls. The first argument
bounds the iterations. -/
def heap_drain : Nat → Heap α → Except Fault (List (Option α))
  | 0, h => if heap_size h ≠ 0 then Except.error Fault.fuel else Except.ok []
  | fuel + 1, h =>
    if heap_size h ≠ 0 then do
      let r ← heap_extract_root h
      let rest ← heap_drain fuel r.1
      pure (r.2 :: rest)
    else Except.ok []

/-- The pointer `e` points to a live `Edge` of the store of `g`. -/
def edge_live (g : Graph W) (e : EdgePtr) : Prop := ∃ ed, g.store[e]? = some (some ed)

/-- The relation `a >= b` on numbers: the shape of the relation `kruskal` gives to its heap. -/
def nat_relation (a b : Nat) : Bool := decide (b ≤ a)

/-- A heap of capacity 3 ordered by `nat_relation`, holding 1, 2 and 3. -/
def heap_example : Heap Nat :=
  { size := 3, max := 3, rel := nat_relation, tab := [some 1, some 2, some 3] }

/-- The square `0 - 1 - 2 - 3 - 0` with the weights 1, 2, 1 and 5, every edge `WHITE`:
the graph of capacity 4 after `graph_add_edge` of `(0,1,1)`, `(1,2,2)`, `(2,3,1)`, `(0,3,5)`. -/
def graph_square : Graph Int :=
  { size := 4,
    vertex := [some [none, some 0, none, some 3], some [some 0, none, some 1, none],
               some [none, some 1, none, some 2], some [some 3, none, some 2, none]],
    store := [some { v1 := 0, v2 := 1, weight := 1, attr := WHITE },
              some { v1 := 1, v2 := 2, weight := 2, attr := WHITE },
              some { v1 := 2, v2 := 3, weight := 1, attr := WHITE },
              some { v1 := 0, v2 := 3, weight := 5, attr := WHITE }] }

/-- The empty heap of capacity 3 ordered by `nat_relation`. -/
def heap_empty_example : Heap Nat :=
  { size := 0, max := 3, rel := nat_relation, tab := [none, none, none] }

/-! ## Vocabulary of the statements about graphs -/

/-- The reading loop of `main`: `graph_add_edge` with colour `WHITE` for every line
`v1 v2 w`; `exit(1)` when an edge is refused. -/
def graph_add_edges (g : Graph W) : List (Nat × Nat × W) → Except Fault (Graph W)
  | [] => Except.ok g
  | (v1, v2, w) :: rest => do
    let r ← graph_add_edge g v1 v2 w WHITE
    if r.2 then graph_add_edges r.1 rest else Except.error Fault.exit

/-- The graph that `main` builds: `graph_new` and then the reading loop. -/
def graph_of_edges (size : Nat) (lines : List (Nat × Nat × W)) : Except Fault (Graph W) := do
  let g ← graph_new size
  graph_add_edges g lines

/-- The loop `for (e = graph_first_edge(g); e != NULL; e = graph_next_edge(g, e))` of
`print_edges` and `kruskal`, from the current edge on: the edges in the order in which
they come. The first argument bounds the iterations. -/
def graph_enumerate_from (g : Graph W) : Nat → Option EdgePtr → Except Fault (List EdgePtr)
  | _, none => Except.ok []
  | 0, some _ => Except.error Fault.fuel
  | fuel + 1, some e => do
    let nxt ← graph_next_edge g e
    let rest ← graph_enumerate_from g fuel nxt
    pure (e :: rest)

/-- The whole enumeration `graph_first_edge`, `graph_next_edge`, ... -/
def graph_enumerate (g : Graph W) : Except Fault (List EdgePtr) := do
  let first ← graph_first_edge g
  graph_enumerate_from g (g.size * g.size) first

/-- The content of the cell `(i, j)` of the matrix: `none` for an empty cell, an absent
row and outside the matrix. -/
def graph_cell_ptr (g : Graph W) (i j : Nat) : Option EdgePtr :=
  match g.vertex[i]? with
  | some (some row) => (row[j]?).getD none
  | _ => none

/-- The edges present in the graph: the distinct `Edge` objects that the cells of the
matrix point to. -/
def graph_edge_ptrs (g : Graph W) : List EdgePtr :=
  ((List.range g.size).flatMap
    (fun i => (List.range g.size).filterMap (graph_cell_ptr g i))).dedup

/-- The vertex `v` is present: its row is allocated. -/
def graph_present (g : Graph W) (v : Nat) : Bool :=
  match g.vertex[v]? with
  | some (some _) => true
  | _ => false

/-- The present vertices. -/
def graph_vertices (g : Graph W) : List Nat := (List.range g.size).filter (graph_present g)

/-- The colour of a live edge. -/
def edge_colour (g : Graph W) (e : EdgePtr) : Option Int :=
  match g.store[e]? with
  | some (some ed) => some ed.attr
  | _ => none

/-- The two ends of a live edge. -/
def edge_ends (g : Graph W) (e : EdgePtr) : Option (Nat × Nat) :=
  match g.store[e]? with
  | some (some ed) => some (ed.v1, ed.v2)
  | _ => none

/-- The weight of a live edge. -/
def edge_weight (g : Graph W) (e : EdgePtr) : Option W :=
  match g.store[e]? with
  | some (some ed) => some ed.weight
  | _ => none

/-- The edges of the graph of a given colour. -/
def graph_coloured (g : Graph W) (c : Int) : List EdgePtr :=
  (graph_edge_ptrs g).filter (fun e => decide (edge_colour g e = some c))

/-- The edges of the graph that are `SELECTED` (`BLUE`). -/
def graph_selected (g : Graph W) : List EdgePtr := graph_coloured g BLUE

/-- The ends of the edges of a list. -/
def edges_ends (g : Graph W) (es : List EdgePtr) : List (Nat × Nat) :=
  es.filterMap (edge_ends g)

/-- One step along an edge of the list, in either direction. -/
def EdgeStep (es : List (Nat × Nat)) (u v : Nat) : Prop := (u, v) ∈ es ∨ (v, u) ∈ es

/-- The vertices `u` and `v` are joined by a path of edges of the list. -/
def Reach (es : List (Nat × Nat)) : Nat → Nat → Prop := Relation.ReflTransGen (EdgeStep es)

/-- The edges of the list, read from the last one to the first one, were each added
between two vertices that the edges before it did not join. -/
def AddedAcrossComponents : List (Nat × Nat) → Prop
  | [] => True
  | e :: es => ¬ Reach es e.1 e.2 ∧ AddedAcrossComponents es

/-- The path `0 - 3 - 2 - 1`, every edge of weight 1 and `WHITE`: the graph of capacity 4
after `graph_add_edge` of `(0,3,1)`, `(1,2,1)`, `(2,3,1)`. It is connected, has no
self-loop and all its four vertices are present. -/
def graph_path : Graph Int :=
  { size := 4,
    vertex := [some [none, none, none, some 0], some [none, none, some 1, none],
               some [none, some 1, none, some 2], some [some 0, none, some 2, none]],
    store := [some { v1 := 0, v2 := 3, weight := 1, attr := WHITE },
              some { v1 := 1, v2 := 2, weight := 1, attr := WHITE },
              some { v1 := 2, v2 := 3, weight := 1, attr := WHITE }] }

/-- The colour of the edge between `v1` and `v2`, read through `graph_get_edge` and
`edge_get_attr`; `none` when there is no such edge. -/
def graph_edge_attr (g : Graph W) (v1 v2 : Nat) : Except Fault (Option Int) := do
  let e ← graph_get_edge g v1 v2
  match e with
  | none => pure none
  | some p => do
    let a ← edge_get_attr g p
    pure (some a)

/-- What `kruskal` leaves of `graph_square`. -/
def graph_square_done : Graph Int :=
  { graph_square with
    store := [some { v1 := 0, v2 := 1, weight := 1, attr := BLUE },
              some { v1 := 1, v2 := 2, weight := 2, attr := BLUE },
              some { v1 := 2, v2 := 3, weight := 1, attr := BLUE },
              some { v1 := 0, v2 := 3, weight := 5, attr := RED }] }

/-- What `kruskal` leaves of `graph_path`: the edge between 1 and 2 is still `WHITE`. -/
def graph_path_done : Graph Int :=
  { graph_path with
    store := [some { v1 := 0, v2 := 3, weight := 1, attr := BLUE },
              some { v1 := 1, v2 := 2, weight := 1, attr := WHITE },
              some { v1 := 2, v2 := 3, weight := 1, attr := BLUE }] }

/-! ## Vocabulary of the statements about disjoint sets -/

/-- The element `v` of the universe was placed in a set: `father[v]` is not `-1`. -/
def dsets_placed (ds : DSets) (v : Nat) : Prop :=
  v < ds.size ∧ ∃ x : Int, ds.father[v]? = some x ∧ x ≠ -1

/-- The `father` links of the placed elements form a forest: together with a function
`root` that gives the root of the tree of every placed element and a function `height`
that grows strictly along the links. -/
structure DSetsInv (ds : DSets) (root : Nat → Nat) (height : Nat → Nat) : Prop where
  father_len : ds.father.length = ds.size
  rank_len : ds.rank.length = ds.size
  link : ∀ v, dsets_placed ds v → ∃ p : Nat, ds.father[v]? = some (p : Int) ∧
    dsets_placed ds p ∧ root p = root v ∧ (p = v → root v = v) ∧ (p ≠ v → height v < height p)
  root_placed : ∀ v, dsets_placed ds v →
    dsets_placed ds (root v) ∧ ds.father[root v]? = some ((root v : Nat) : Int)

/-- Every element of the universe is either not placed or alone in its set, as after
`dsets_new` and `dsets_make_set` on fresh elements. -/
def DSetsSingletons (ds : DSets) : Prop :=
  ds.father.length = ds.size ∧ ds.rank.length = ds.size ∧
    ∀ v, v < ds.size → ds.father[v]? = some (-1) ∨ ds.father[v]? = some (v : Int)

/-! ## Vocabulary of the statements about Kruskal -/

/-- Every live edge has its two ends below the capacity of the graph: `edge_new` is
called by `graph_add_edge` only, after the test of `v1` and `v2` against the capacity. -/
def GraphEndsInRange (g : Graph W) : Prop :=
  ∀ p a b, edge_ends g p = some (a, b) → a < g.size ∧ b < g.size

/-- Every edge of the graph is `WHITE` (not yet visited). -/
def GraphAllWhite (g : Graph W) : Prop :=
  ∀ e, e ∈ graph_edge_ptrs g → edge_colour g e = some WHITE

/-- The invariant of the third loop of `kruskal`, started on the graph `g0`: `sel` lists
the edges coloured `BLUE` so far, the last one first. -/
structure KruskalInv (g0 g : Graph W) (groups : DSets) (sel : List EdgePtr) : Prop where
  vertex_eq : g.vertex = g0.vertex
  size_eq : g.size = g0.size
  ends_eq : ∀ p, edge_ends g p = edge_ends g0 p
  groups_size : groups.size = g0.size
  blue : ∀ p, edge_colour g p = some BLUE → p ∈ sel ∨ edge_colour g0 p = some BLUE
  nodup : sel.Nodup
  across : AddedAcrossComponents (edges_ends g0 sel)
  forest : ∃ (root height : Nat → Nat), DSetsInv groups root height ∧
    (∀ u v, dsets_placed groups u → dsets_placed groups v → root u = root v →
      Reach (edges_ends g0 sel) u v) ∧
    (∀ a b, (a, b) ∈ edges_ends g0 sel →
      dsets_placed groups a ∧ dsets_placed groups b ∧ root a = root b)

/-- The shape of a graph made by `graph_new`, `graph_add_vertex` and `graph_add_edge`:
the capacity is positive, the array of rows and every allocated row have `size` cells,
and the edge that a cell `(i, j)` points to is live and has the ends `i` and `j`. -/
structure GraphWF (g : Graph W) : Prop where
  size_pos : 0 < g.size
  rows : g.vertex.length = g.size
  cols : ∀ (i : Nat) (row : List (Option EdgePtr)), g.vertex[i]? = some (some row) →
    row.length = g.size
  cell_ends : ∀ i j, i < g.size → j < g.size → ∀ p, graph_cell_ptr g i j = some p →
    (edge_ends g p = some (i, j) ∨ edge_ends g p = some (j, i))

/-- Every vertex below the capacity is present. -/
def GraphFull (g : Graph W) : Prop := ∀ v, v < g.size → graph_present g v = true

/-- The place of a live edge in the scan of the lower triangle: row `max (v1, v2)`,
column `min (v1, v2)`, the rows counted with `size` cells. -/
def graph_code (g : Graph W) (e : EdgePtr) : Nat :=
  match edge_ends g e with
  | some (a, b) => max a b * g.size + min a b
  | none => 0

/-! ## Sequences of calls on a collection of disjoint sets -/

/-- A call of the interface of `dsets.h` that changes the collection. -/
inductive DSetsOp where
  | make_set (n : Nat)
  | find_set (n : Nat)
  | union (n1 n2 : Nat)
  deriving DecidableEq

/-- One call; the value returned by `dsets_find_set` is dropped. -/
def dsets_apply (ds : DSets) : DSetsOp → Except Fault DSets
  | DSetsOp.make_set n => dsets_make_set ds n
  | DSetsOp.find_set n => do
    let r ← dsets_find_set ds n
    pure r.1
  | DSetsOp.union n1 n2 => dsets_union ds n1 n2

/-- A sequence of calls. -/
def dsets_run (ds : DSets) : List DSetsOp → Except Fault DSets
  | [] => Except.ok ds
  | op :: ops => do
    let ds1 ← dsets_apply ds op
    dsets_run ds1 ops

/-- A sequence of calls on the collection fresh from `dsets_new`. -/
def dsets_session (size : Nat) (ops : List DSetsOp) : Except Fault DSets := do
  let ds ← dsets_new size
  dsets_run ds ops

/-- The call is `dsets_find_set` or `dsets_union`. -/
def dsets_op_keeps_sets : DSetsOp → Bool
  | DSetsOp.make_set _ => false
  | _ => true

/-- The father links lead from `u` to `v` in zero or more steps. -/
def FatherPath (ds : DSets) : Nat → Nat → Prop :=
  Relation.ReflTransGen (fun u v => ds.father[u]? = some (v : Int))

/-- The `father` links of the placed elements form a forest: the father of a placed
element is placed, and a function `height` grows strictly along the links that do not
loop on a root. -/
structure DSetsForest (ds : DSets) (height : Nat → Nat) : Prop where
  father_len : ds.father.length = ds.size
  rank_len : ds.rank.length = ds.size
  link : ∀ v, dsets_placed ds v → ∃ p : Nat, ds.father[v]? = some (p : Int) ∧
    dsets_placed ds p ∧ (p ≠ v → height v < height p)

/-- Every element named by the call is below the capacity and, for `dsets_find_set` and
`dsets_union`, placed. -/
def dsets_op_placed (ds : DSets) : DSetsOp → Prop
  | DSetsOp.make_set n => n < ds.size
  | DSetsOp.find_set n => dsets_placed ds n
  | DSetsOp.union n1 n2 => dsets_placed ds n1 ∧ dsets_placed ds n2

/-- Four singletons merged into the pairs `{0, 1}` and `{2, 3}`. -/
def dsets_pairs_ops : List DSetsOp :=
  [DSetsOp.make_set 0, DSetsOp.make_set 1, DSetsOp.make_set 2, DSetsOp.make_set 3,
    DSetsOp.union 0 1, DSetsOp.union 2 3]

/-- The collection made by `dsets_pairs_ops`: roots `1` and `3`, both of rank 1. -/
def dsets_pairs : DSets := { size := 4, father := [1, 1, 3, 3], rank := [0, 1, 0, 1] }

/-- The collection made by `dsets_pairs_ops` followed by `dsets_union 0 2`: the father
links `0 → 1 → 3` and `2 → 3`. -/
def dsets_chain : DSets := { size := 4, father := [1, 3, 3, 3], rank := [0, 1, 0, 2] }

/-! ## Removal of edges and vertices, sequences of calls on a graph -/

/-- Function `edge_free`: asserts `e != NULL` and releases the object (`free` of an
object already released is a use of a dangling pointer). -/
def edge_free (g : Graph W) (e : Option EdgePtr) : Except Fault (Graph W) :=
  match e with
  | none => Except.error Fault.assertion
  | some p =>
    match g.store[p]? with
    | some (some _) => Except.ok { g with store := g.store.set p none }
    | _ => Except.error Fault.dangling

/-- Function `graph_remove_edge`. -/
def graph_remove_edge (g : Graph W) (v1 v2 : Nat) : Except Fault (Graph W × Bool) := do
  let b1 ← graph_has_vertex g v1
  if !b1 then pure (g, false)
  else do
    let b2 ← graph_has_vertex g v2
    if !b2 then pure (g, false)
    else do
      let e ← graph_get_edge g v1 v2
      let g1 ← edge_free g e
      let g2 ← graph_set_cell g1 v2 v1 none
      let g3 ← graph_set_cell g2 v1 v2 none
      pure (g3, true)

/-- The `for` loop of `graph_remove_vertex`: the rows `i, i+1, ...`, `n` of them. -/
def graph_remove_vertex_loop (v : Nat) : Nat → Nat → Graph W → Except Fault (Graph W)
  | 0, _, g => Except.ok g
  | n + 1, i, g => do
    let b ← graph_has_edge g i v
    let g1 ← if b then do
      let r ← graph_remove_edge g i v
      pure r.1
    else pure g
    graph_remove_vertex_loop v n (i + 1) g1

/-- Function `graph_remove_vertex`. -/
def graph_remove_vertex (g : Graph W) (v : Nat) : Except Fault (Graph W × Bool) := do
  let b ← graph_has_vertex g v
  if !b then pure (g, false)
  else do
    let g1 ← graph_remove_vertex_loop v g.size 0 g
    let _ ← graph_row g1 v
    pure ({ g1 with vertex := g1.vertex.set v none }, true)

/-- A call of the interface of `graph.h` that changes the graph. -/
inductive GraphOp (W : Type) where
  | add_vertex (v : Nat)
  | add_edge (v1 v2 : Nat) (w : W) (attr : Int)
  | remove_edge (v1 v2 : Nat)
  | remove_vertex (v : Nat)

/-- One call; the value returned is dropped. -/
def graph_apply (g : Graph W) : GraphOp W → Except Fault (Graph W)
  | GraphOp.add_vertex v => do
    let r ← graph_add_vertex g v
    pure r.1
  | GraphOp.add_edge v1 v2 w attr => do
    let r ← graph_add_edge g v1 v2 w attr
    pure r.1
  | GraphOp.remove_edge v1 v2 => do
    let r ← graph_remove_edge g v1 v2
    pure r.1
  | GraphOp.remove_vertex v => do
    let r ← graph_remove_vertex g v
    pure r.1

/-- A sequence of calls. -/
def graph_run (g : Graph W) : List (GraphOp W) → Except Fault (Graph W)
  | [] => Except.ok g
  | op :: ops => do
    let g1 ← graph_apply g op
    graph_run g1 ops

/-- A sequence of calls on the graph fresh from `graph_new`. -/
def graph_session (size : Nat) (ops : List (GraphOp W)) : Except Fault (Graph W) := do
  let g ← graph_new size
  graph_run g ops

/-- The call is not `graph_add_edge` with twice the same vertex. -/
def graph_op_no_loop : GraphOp W → Bool
  | GraphOp.add_edge v1 v2 _ _ => decide (v1 ≠ v2)
  | _ => true

/-- The cells `(i, j)` and `(j, i)` of the matrix have the same content. -/
def GraphSymmetric (g : Graph W) : Prop :=
  ∀ i j, graph_cell_ptr g i j = graph_cell_ptr g j i

/-- The capacity is positive, the array of rows and every allocated row have `size`
cells. -/
structure GraphShape (g : Graph W) : Prop where
  size_pos : 0 < g.size
  rows : g.vertex.length = g.size
  cols : ∀ (i : Nat) (row : List (Option EdgePtr)), g.vertex[i]? = some (some row) →
    row.length = g.size

/-- Three calls on a graph of capacity 3: the edges `(0, 1)` and `(1, 2)` are added and
`(0, 1)` is removed. -/
def graph_removal_ops : List (GraphOp Int) :=
  [GraphOp.add_edge 0 1 5 WHITE, GraphOp.add_edge 1 2 7 WHITE, GraphOp.remove_edge 0 1]

/-- The graph made by `graph_removal_ops`: the three vertices are present, the edge
`(1, 2)` remains and the object of the edge `(0, 1)` is released. -/
def graph_removal : Graph Int :=
  { size := 3
    vertex := [some [none, none, none], some [none, none, some 1], some [none, some 1, none]]
    store := [none, some { v1 := 1, v2 := 2, weight := 7, attr := WHITE }] }

/-! ## Vocabulary of the statements about the queue -/

/-- The index of the cell that holds the item of rank `k` from the oldest: the ring
wraps at `max_size`. -/
def fifo_index (f : Fifo α) (k : Nat) : Nat :=
  if f.oldest + k < f.max_size then f.oldest + k else f.oldest + k - f.max_size

/-- The cells that the queue holds, the oldest first. -/
def fifo_contents (f : Fifo α) : List (Option α) :=
  (List.range (fifo_length f)).map (fun k => (f.items[fifo_index f k]?).getD none)

/-- The shape of a queue: the ring has `max_size` cells, at least two, and both indices
are inside it. -/
structure FifoWF (f : Fifo α) : Prop where
  items_len : f.items.length = f.max_size
  newest_lt : f.newest < f.max_size
  oldest_lt : f.oldest < f.max_size

/-- The `for` loop of `graph_vertex_degree`: the columns `i, i+1, ...`, `n` of them. -/
def graph_vertex_degree_loop (g : Graph W) (v : Nat) : Nat → Nat → Nat → Except Fault Nat
  | 0, _, deg => Except.ok deg
  | n + 1, i, deg => do
    let b ← graph_has_edge g v i
    graph_vertex_degree_loop g v n (i + 1) (if b then deg + 1 else deg)

/-- Function `graph_vertex_degree`. -/
def graph_vertex_degree (g : Graph W) (v : Nat) : Except Fault Nat := do
  let b ← graph_has_vertex g v
  if !b then pure 0 else graph_vertex_degree_loop g v g.size 0 0

/-! ## Vocabulary of the statements about the traversal -/

/-- The vertices `a` and `b` are joined by an edge of the graph that is `SELECTED`
(`BLUE`). -/
def BlueStep (g : Graph W) (a b : Nat) : Prop :=
  ∃ e, graph_cell_ptr g a b = some e ∧ edge_colour g e = some BLUE

/-- The vertices are joined by a path of `SELECTED` edges. -/
def BlueReach (g : Graph W) : Nat → Nat → Prop := Relation.ReflTransGen (BlueStep g)

/-- The vertex `v` has the smallest id of its component of the `SELECTED` subgraph: no
present vertex of smaller id is joined to it. -/
def BlueRoot (g : Graph W) (v : Nat) : Prop :=
  ∀ w, w < v → graph_present g w = true → ¬ BlueReach g w v

/-- The number of vertices below `n` whose mark is 0. -/
def bfs_unmarked (n : Nat) (mark : List Int) : Nat :=
  ((Finset.range n).filter (fun (v : Nat) => mark[v]? = some 0)).card

/-- What `bfs` maintains on the marks and the parents, with the rank `time` at which
each marked vertex was marked (all below `bound`): a marked vertex is present, an
unmarked one has the parent `-1`, and a marked one either has the parent `-1` and the
smallest id of its component, or has as parent a vertex marked before it and joined to
it by a `SELECTED` edge, and is joined to a present vertex of smaller id. -/
structure BfsCore (g : Graph W) (mark parent : List Int) (time : Nat → Nat) (bound : Nat) :
    Prop where
  mark_len : mark.length = g.size
  parent_len : parent.length = g.size
  mark_bin : ∀ v : Nat, v < g.size → mark[v]? = some 0 ∨ mark[v]? = some 1
  marked_present : ∀ v : Nat, mark[v]? = some 1 → graph_present g v = true
  unmarked_parent : ∀ v : Nat, mark[v]? = some 0 → parent[v]? = some (-1)
  time_lt : ∀ v : Nat, mark[v]? = some 1 → time v < bound
  tree : ∀ v : Nat, mark[v]? = some 1 →
    (parent[v]? = some (-1) ∧ BlueRoot g v) ∨
    (∃ u : Nat, parent[v]? = some (u : Int) ∧ mark[u]? = some 1 ∧ BlueStep g v u ∧
      time u < time v ∧ ∃ r, r < v ∧ graph_present g r = true ∧ BlueReach g r v)

/-- Every `SELECTED` neighbour of the vertex `a` is marked. -/
def BfsDone (g : Graph W) (mark : List Int) (a : Nat) : Prop :=
  ∀ b, BlueStep g a b → mark[b]? = some 1

/-- What `bfs_visit` started on the vertex `r` maintains on its queue, which holds the
vertices of `q`: the queue has room for every vertex not yet marked, its vertices are
marked and joined to `r`, and `r` and every present vertex of smaller id are marked. -/
structure BfsQueue (g : Graph W) (r : Nat) (q : List Nat) (st : BfsState) : Prop where
  fifo_wf : FifoWF st.f
  fifo_max : st.f.max_size = g.size + 1
  fifo_q : fifo_contents st.f = q.map some
  q_marked : ∀ u, u ∈ q → st.mark[u]? = some 1 ∧ BlueReach g r u
  room : q.length + bfs_unmarked g.size st.mark ≤ g.size
  root_marked : st.mark[r]? = some 1
  root_present : graph_present g r = true
  low : ∀ j, j < r → graph_present g j = true → st.mark[j]? = some 1

/-! ## Vocabulary of the last statements -/

/-- The choice of the son in `heap_shift_down`: `next_i = heap_left_son(i)`, replaced by
`heap_right_son(i)` when the right son is within `max_i` and the relation holds from
the left son to the right son. -/
def heap_shift_down_next (h : Heap α) (max_i i : Nat) : Except Fault Nat := do
  let l ← heap_peek h (heap_left_son i)
  if heap_right_son i ≤ max_i then do
    let r ← heap_peek h (heap_right_son i)
    let b ← heap_rel h l r
    pure (if b then heap_right_son i else heap_left_son i)
  else pure (heap_left_son i)

/-- A heap of capacity 4 ordered by `nat_relation`, holding 1, 2, 3 and 4. -/
def heap_four : Heap Nat :=
  { size := 4, max := 4, rel := nat_relation, tab := [some 1, some 2, some 3, some 4] }

/-- The heap `heap_four` inside `heap_extract_root`, when `heap_shift_down` is called:
the last item is in the root and the size is 3. -/
def heap_four_sift : Heap Nat :=
  { size := 3, max := 4, rel := nat_relation, tab := [some 4, some 2, some 3, some 4] }

/-- The heap `heap_four` after `heap_extract_root`. -/
def heap_four_done : Heap Nat :=
  { size := 3, max := 4, rel := nat_relation, tab := [some 2, some 4, some 3, some 4] }

/-- The graph of capacity 3 with the single edge `(0, 1)`: the vertex `2` is absent. -/
def graph_single : Graph Int :=
  { size := 3
    vertex := [some [none, some 0, none], some [some 0, none, none], none]
    store := [some { v1 := 0, v2 := 1, weight := 1, attr := WHITE }] }

/-! ## Vocabulary of the statement about ranks -/

/-- The element reached from `v` by `k` father links, when each of them leads to an
element. -/
def dsets_ancestor (ds : DSets) : Nat → Nat → Option Nat
  | 0, v => some v
  | k + 1, v =>
    match ds.father[v]? with
    | some p => if 0 ≤ p then dsets_ancestor ds k p.toNat else none
    | none => none

/-- The call is not `dsets_make_set` on an element already placed: the element given to
`dsets_make_set` has the father `-1`. -/
def dsets_op_fresh (ds : DSets) : DSetsOp → Bool
  | DSetsOp.make_set n => decide (ds.father[n]? = some (-1))
  | _ => true

/-- No call of the sequence is `dsets_make_set` on an element placed when it is
called. -/
def dsets_run_fresh (ds : DSets) : List DSetsOp → Bool
  | [] => true
  | op :: ops =>
    dsets_op_fresh ds op &&
      (match dsets_apply ds op with
        | Except.ok ds1 => dsets_run_fresh ds1 ops
        | Except.error _ => true)

/-- No call of the sequence, run on the collection fresh from `dsets_new`, is
`dsets_make_set` on an element placed when it is called. -/
def dsets_session_fresh (size : Nat) (ops : List DSetsOp) : Bool :=
  match dsets_new size with
  | Except.ok ds => dsets_run_fresh ds ops
  | Except.error _ => true

/-- The rank of every root is at least its height. -/
def DSetsRanked (ds : DSets) (height : Nat → Nat) : Prop :=
  ∀ r : Nat, ds.father[r]? = some (r : Int) →
    ∃ x : Int, ds.rank[r]? = some x ∧ (height r : Int) ≤ x

/-- Two singletons merged, then `dsets_make_set` on the root of the pair. -/
def dsets_reset_ops : List DSetsOp :=
  [DSetsOp.make_set 0, DSetsOp.make_set 1, DSetsOp.union 0 1, DSetsOp.make_set 1]

/-- The collection made by `dsets_reset_ops`: the root `1` has the son `0` and the
rank 0. -/
def dsets_reset : DSets := { size := 2, father := [1, 1], rank := [0, 0] }

/-! ## The calls of `fifo_put` made by the traversal -/

/-- A record of the calls of `fifo_put` made by `bfs`: the vertices whose row was given
to `fifo_put`, the latest first, and those of them given to it when the queue was full
(`fifo_put` then drops the item). -/
structure BfsLog where
  puts : List Nat
  full : List Nat
  deriving DecidableEq

/-- The record after a call of `fifo_put` on the queue `f` with the row of `k`. -/
def bfs_log_put (f : Fifo Nat) (k : Nat) (log : BfsLog) : BfsLog :=
  { puts := k :: log.puts, full := if fifo_full f then k :: log.full else log.full }

/-- The loop `bfs_visit_row` with the record of its calls of `fifo_put`. -/
def bfs_visit_row_traced (g : Graph W) (u : Nat) :
    Nat → Nat → BfsState → BfsLog → Except Fault (BfsState × BfsLog)
  | 0, _, st, log => Except.ok (st, log)
  | n + 1, k, st, log => do
    let c ← graph_cell g u k
    match c with
    | none => bfs_visit_row_traced g u n (k + 1) st log
    | some e =>
      let mk ← arr_get st.mark k
      let sel ← if mk = 0 then do
          let a ← edge_get_attr g e
          pure (decide (a = BLUE))
        else pure false
      if sel then do
        let ed ← edge_deref g e
        let nn := if ed.v1 = k then ed.v2 else ed.v1
        let rk ← graph_row g k
        let f1 ← fifo_put st.f (rk.map (fun _ => k))
        let mark1 ← arr_set st.mark k 1
        let parent1 ← arr_set st.parent k (nn : Int)
        bfs_visit_row_traced g u n (k + 1) { f := f1, mark := mark1, parent := parent1 }
          (bfs_log_put st.f k log)
      else bfs_visit_row_traced g u n (k + 1) st log

/-- The loop `bfs_visit_loop` with the record of the calls of `fifo_put`. -/
def bfs_visit_loop_traced (g : Graph W) :
    Nat → BfsState → BfsLog → Except Fault (BfsState × BfsLog)
  | 0, st, log => if fifo_empty st.f then Except.ok (st, log) else Except.error Fault.fuel
  | fuel + 1, st, log =>
    if fifo_empty st.f then Except.ok (st, log)
    else do
      let r ← fifo_get st.f
      match r.2 with
      | none => Except.error Fault.nullDeref
      | some u =>
        let t1 ← bfs_visit_row_traced g u g.size 0 { st with f := r.1 } log
        bfs_visit_loop_traced g fuel t1.1 t1.2

/-- Function `bfs_visit` with the record of the calls of `fifo_put`. -/
def bfs_visit_traced (g : Graph W) (i : Nat) (mark parent : List Int) (log : BfsLog) :
    Except Fault ((List Int × List Int) × BfsLog) := do
  let size := graph_max_size g
  let f ← fifo_new size
  let mark1 ← arr_set mark i 1
  let ri ← graph_row g i
  let f1 ← fifo_put f (ri.map (fun _ => i))
  let t ← bfs_visit_loop_traced g size { f := f1, mark := mark1, parent := parent }
    (bfs_log_put f i log)
  pure ((t.1.mark, t.1.parent), t.2)

/-- Second loop of `bfs` with the record of the calls of `fifo_put`. -/
def bfs_loop_traced (g : Graph W) : Nat → Nat → List Int → List Int → BfsLog →
    Except Fault ((List Int × List Int) × BfsLog)
  | 0, _, mark, parent, log => Except.ok ((mark, parent), log)
  | n + 1, i, mark, parent, log => do
    let b ← graph_has_vertex g i
    let go ← if b then do
        let mi ← arr_get mark i
        pure (decide (mi = 0))
      else pure false
    let r ← if go then bfs_visit_traced g i mark parent log else pure ((mark, parent), log)
    bfs_loop_traced g n (i + 1) r.1.1 r.1.2 r.2

/-- Function `bfs` with the record of the calls of `fifo_put`, empty at the start. -/
def bfs_traced (g : Graph W) (parent : List Int) : Except Fault (List Int × BfsLog) := do
  let size := graph_max_size g
  let r ← bfs_init size 0 (List.replicate size 0) parent
  let r1 ← bfs_loop_traced g size 0 r.1 r.2 { puts := [], full := [] }
  pure (r1.1.2, r1.2)

/-- What `bfs` maintains on the record of its calls of `fifo_put`: no call was made on
a full queue, and the vertices given to `fifo_put` are distinct, marked and present. -/
structure BfsLogInv (g : Graph W) (mark : List Int) (log : BfsLog) : Prop where
  mark_len : mark.length = g.size
  mark_bin : ∀ v : Nat, v < g.size → mark[v]? = some 0 ∨ mark[v]? = some 1
  full_nil : log.full = []
  puts_nodup : log.puts.Nodup
  puts_marked : ∀ v : Nat, v ∈ log.puts → mark[v]? = some 1
  puts_present : ∀ v : Nat, v ∈ log.puts → graph_present g v = true

/-- The queue of `bfs_visit` has room for every vertex not yet marked. -/
structure BfsRoom (g : Graph W) (f : Fifo Nat) (mark : List Int) : Prop where
  fifo_wf : FifoWF f
  fifo_max : f.max_size = g.size + 1
  room : fifo_length f + bfs_unmarked g.size mark ≤ g.size

/-- The ends of the edge `e` are joined by a path of edges of the list `sel`, each of
them an edge `s` for which `edge_relation(e, s)` holds: the weight of `e` is at least
the weight of `s`. -/
def KruskalJoined [LE W] [DecidableRel (α := W) (· ≤ ·)] (g : Graph W)
    (sel : List EdgePtr) (e : EdgePtr) : Prop :=
  ∃ a b, edge_ends g e = some (a, b) ∧
    Reach (edges_ends g (sel.filter (fun s => edge_relation g e s))) a b

/-! ## Vocabulary of the statements about the ranks as `int` -/

/-- Every rank of the collection can grow `n` times by one without passing `INT_MAX`. -/
def dsets_rank_room (ds : DSets) (n : Nat) : Bool :=
  ds.rank.all (fun k => decide (k + (n : Int) ≤ (INT_MAX : Int)))

/-- The collection of the single element 0, its own root, whose rank is `INT_MAX`. -/
def dsets_top : DSets := { size := 1, father := [0], rank := [(INT_MAX : Int)] }

/-- The collection of the pair `{0, 1}` with the root 1, whose rank is `INT_MAX`. -/
def dsets_pair_top : DSets := { size := 2, father := [1, 1], rank := [0, (INT_MAX : Int)] }

/-! ## Vocabulary of the statements about `float` weights -/

/-- The square `0 - 1 - 2 - 3 - 0` with the `float` weights 1, 2, 1 and 5, every edge
`WHITE`: the graph of capacity 4 after `graph_add_edge` of `(0,1,1)`, `(1,2,2)`,
`(2,3,1)`, `(0,3,5)`. -/
def graph_square_float : Graph CFloat :=
  { size := 4,
    vertex := [some [none, some 0, none, some 3], some [some 0, none, some 1, none],
               some [none, some 1, none, some 2], some [some 3, none, some 2, none]],
    store := [some { v1 := 0, v2 := 1, weight := CFloat.num 1, attr := WHITE },
              some { v1 := 1, v2 := 2, weight := CFloat.num 2, attr := WHITE },
              some { v1 := 2, v2 := 3, weight := CFloat.num 1, attr := WHITE },
              some { v1 := 0, v2 := 3, weight := CFloat.num 5, attr := WHITE }] }

/-- What `kruskal` leaves of `graph_square_float`. -/
def graph_square_float_done : Graph CFloat :=
  { graph_square_float with
    store := [some { v1 := 0, v2 := 1, weight := CFloat.num 1, attr := BLUE },
              some { v1 := 1, v2 := 2, weight := CFloat.num 2, attr := BLUE },
              some { v1 := 2, v2 := 3, weight := CFloat.num 1, attr := BLUE },
              some { v1 := 0, v2 := 3, weight := CFloat.num 5, attr := RED }] }

/-- A graph with a NaN weight: the graph of capacity 4 after `graph_add_edge` of
`(0,1,1)`, `(0,2,NaN)`, `(0,3,1)`, `(1,3,5)`, every edge `WHITE`. -/
def graph_nan : Graph CFloat :=
  { size := 4,
    vertex := [some [none, some 0, some 1, some 2], some [some 0, none, none, some 3],
               some [some 1, none, none, none], some [some 2, some 3, none, none]],
    store := [some { v1 := 0, v2 := 1, weight := CFloat.num 1, attr := WHITE },
              some { v1 := 0, v2 := 2, weight := CFloat.nan, attr := WHITE },
              some { v1 := 0, v2 := 3, weight := CFloat.num 1, attr := WHITE },
              some { v1 := 1, v2 := 3, weight := CFloat.num 5, attr := WHITE }] }

/-- What `kruskal` leaves of `graph_nan`: the edge `(0,1)` of weight 1 is `RED`, the
edges `(0,3)` of weight 1, `(1,3)` of weight 5 and `(0,2)` of weight NaN are `BLUE`. -/
def graph_nan_done : Graph CFloat :=
  { graph_nan with
    store := [some { v1 := 0, v2 := 1, weight := CFloat.num 1, attr := RED },
              some { v1 := 0, v2 := 2, weight := CFloat.nan, attr := BLUE },
              some { v1 := 0, v2 := 3, weight := CFloat.num 1, attr := BLUE },
              some { v1 := 1, v2 := 3, weight := CFloat.num 5, attr := BLUE }] }

/-! ## Calls of `graph.h` on memory that `malloc` does not clear -/

/-- A call of the interface of `graph.h` that changes the graph, with the content of the
memory that `malloc` returns during the call. -/
inductive GraphOpIn (W : Type) where
  | add_vertex (junk : Nat → Option EdgePtr) (v : Nat)
  | add_edge (junk1 junk2 : Nat → Option EdgePtr) (v1 v2 : Nat) (w : W) (attr : Int)
  | remove_edge (v1 v2 : Nat)
  | remove_vertex (v : Nat)

/-- One call on uncleared memory; the value returned is dropped. -/
def graph_apply_in (g : Graph W) : GraphOpIn W → Except Fault (Graph W)
  | GraphOpIn.add_vertex junk v => do
    let r ← graph_add_vertex_in junk g v
    pure r.1
  | GraphOpIn.add_edge junk1 junk2 v1 v2 w attr => do
    let r ← graph_add_edge_in junk1 junk2 g v1 v2 w attr
    pure r.1
  | GraphOpIn.remove_edge v1 v2 => do
    let r ← graph_remove_edge g v1 v2
    pure r.1
  | GraphOpIn.remove_vertex v => do
    let r ← graph_remove_vertex g v
    pure r.1

/-- A sequence of calls on uncleared memory. -/
def graph_run_in (g : Graph W) : List (GraphOpIn W) → Except Fault (Graph W)
  | [] => Except.ok g
  | op :: ops => do
    let g1 ← graph_apply_in g op
    graph_run_in g1 ops

/-- A sequence of calls on the graph fresh from `graph_new`, all on uncleared memory:
`junk` is the content of the array of rows. -/
def graph_session_in (junk : Nat → Option (List (Option EdgePtr))) (size : Nat)
    (ops : List (GraphOpIn W)) : Except Fault (Graph W) := do
  let g ← graph_new_in junk size
  graph_run_in g ops

/-- Three calls on a graph of capacity 3: the edge `(1, 2)` is added and removed, on
memory filled with `NULL`, then the vertex 0 is added and `malloc` returns for its row a
block whose cell 1 holds the address of the `Edge` released before. -/
def graph_dirty_ops : List (GraphOpIn Int) :=
  [GraphOpIn.add_edge (fun _ => none) (fun _ => none) 1 2 5 WHITE,
    GraphOpIn.remove_edge 1 2,
    GraphOpIn.add_vertex (fun j => if j = 1 then some 0 else none) 0]

/-- The graph made by `graph_dirty_ops`: the three vertices are present, the cell
`(0, 1)` holds what `malloc` left there and the cell `(1, 0)` is `NULL`. -/
def graph_dirty : Graph Int :=
  { size := 3
    vertex := [some [none, some 0, none], some [none, none, none], some [none, none, none]]
    store := [none] }

/-- The graph of capacity 3 whose only vertex is 2, without edge. -/
def graph_lone : Graph Int :=
  { size := 3
    vertex := [none, none, some [none, none, none]]
    store := [] }

/-- The graph made from `graph_lone` by `graph_add_edge` on the vertices 0 and 1 when
`malloc` returns for the row of 0 a block whose cell 2 is not `NULL`. -/
def graph_lone_edge : Graph Int :=
  { size := 3
    vertex := [some [none, some 0, some 7], some [some 0, none, none],
               some [none, none, none]]
    store := [some { v1 := 0, v2 := 1, weight := 5, attr := WHITE }] }

/-! # Theorems -/

/-! ## The functions of `graph.c` on memory filled with `NULL` -/

theorem range_map_const_none {β : Type} (n : Nat) :
    (List.range n).map (fun _ => (none : Option β)) = List.replicate n none := by
  apply List.ext_getElem?
  intro k
  by_cases hk : k < n
  · rw [List.getElem?_map, List.getElem?_range hk, List.getElem?_replicate, if_pos hk]
    rfl
  · rw [List.getElem?_eq_none (by simp only [List.length_map, List.length_range]; omega),
      List.getElem?_eq_none (by simp only [List.length_replicate]; omega)]

theorem graph_new_eq (size : Nat) :
    (graph_new size : Except Fault (Graph W)) =
      if 0 < size then
        Except.ok { size := size, vertex := List.replicate size none, store := [] }
      else Except.error Fault.assertion := by
  unfold graph_new graph_new_in
  rw [range_map_const_none]

theorem graph_add_vertex_eq (g : Graph W) (v : Nat) :
    graph_add_vertex g v =
      (if v ≥ graph_max_size g then Except.ok (g, false)
      else do
        let r ← graph_row g v
        match r with
        | none =>
          pure ({ g with vertex := g.vertex.set v (some (List.replicate g.size none)) }, true)
        | some _ => pure (g, true)) := by
  unfold graph_add_vertex graph_add_vertex_in
  rw [range_map_const_none]

theorem graph_add_edge_eq (g : Graph W) (v1 v2 : Nat) (w : W) (attr : Int) :
    graph_add_edge g v1 v2 w attr =
      (if v1 ≥ graph_max_size g ∨ v2 ≥ graph_max_size g then Except.ok (g, false)
      else do
        let b1 ← graph_has_vertex g v1
        let g1 ← if b1 then pure g else do
          let r ← graph_add_vertex g v1
          pure r.1
        let b2 ← graph_has_vertex g1 v2
        let g2 ← if b2 then pure g1 else do
          let r ← graph_add_vertex g1 v2
          pure r.1
        let g3 := (edge_new g2 v1 v2 w attr).1
        let e := (edge_new g2 v1 v2 w attr).2
        let g4 ← graph_set_cell g3 v1 v2 (some e)
        let g5 ← graph_set_cell g4 v2 v1 (some e)
        pure (g5, true)) := rfl

/-! ## The heap -/

theorem heap_cell_eq_of_getElem {h : Heap α} {i : Nat} {c : Option α}
    (hc : h.tab[i]? = some c) : heap_cell h i = c := by
  simp [heap_cell, hc]

theorem heap_peek_of_lt {h : Heap α} {i : Nat} (hi : i < h.tab.length) :
    heap_peek h i = Except.ok (heap_cell h i) := by
  simp [heap_peek, heap_cell, List.getElem?_eq_getElem hi]

theorem heap_cell_poke {h h1 : Heap α} {i : Nat} {c : Option α}
    (hp : heap_poke h i c = Except.ok h1) (k : Nat) :
    heap_cell h1 k = if k = i then c else heap_cell h k := by
  unfold heap_poke at hp
  split at hp
  · next hi =>
    cases hp
    by_cases hk : k = i
    · subst hk; simp [heap_cell, hi]
    · have : i ≠ k := fun e => hk e.symm
      simp [heap_cell, List.getElem?_set_ne this, hk]
  · cases hp

theorem heap_poke_of_lt {h : Heap α} {i : Nat} (c : Option α) (hi : i < h.tab.length) :
    heap_poke h i c = Except.ok { h with tab := h.tab.set i c } := by
  simp [heap_poke, hi]

theorem heap_swap_of_lt {h : Heap α} {i j : Nat} (hi : i < h.tab.length)
    (hj : j < h.tab.length) :
    ∃ h1, heap_swap h i j = Except.ok h1 ∧ h1.size = h.size ∧ h1.max = h.max ∧
      h1.rel = h.rel ∧ h1.tab.length = h.tab.length ∧
      ∀ k, heap_cell h1 k =
        if k = j then heap_cell h i else if k = i then heap_cell h j else heap_cell h k := by
  refine ⟨{ h with tab := (h.tab.set i (heap_cell h j)).set j (heap_cell h i) }, ?_, rfl, rfl,
    rfl, by simp, ?_⟩
  · simp [heap_swap, heap_peek_of_lt hi, heap_peek_of_lt hj, heap_poke_of_lt, hi, hj, bind,
      Except.bind]
  · intro k
    by_cases hkj : k = j
    · subst hkj; simp [heap_cell, hj]
    · by_cases hki : k = i
      · subst hki
        have : j ≠ k := fun e => hkj e.symm
        simp [heap_cell, List.getElem?_set_ne this, hi, hkj]
      · have h1 : j ≠ k := fun e => hkj e.symm
        have h2 : i ≠ k := fun e => hki e.symm
        simp [heap_cell, List.getElem?_set_ne h1, List.getElem?_set_ne h2, hkj, hki]

theorem heapRel_trans {P : α → Prop} {R : α → α → Bool} (hR : TotalPreorderOn P R)
    {h : Heap α} (hrel : h.rel = R) (hall : HeapAll P h) (hwf : HeapWF h) {x y z : Nat}
    (hx : x < h.size) (hy : y < h.size) (hz : z < h.size)
    (h1 : HeapRel h x y) (h2 : HeapRel h y z) : HeapRel h x z := by
  intro a c hxa hzc
  obtain ⟨b, hyb⟩ := hwf.filled y hy
  have r1 := h1 a b hxa hyb
  have r2 := h2 b c hyb hzc
  rw [hrel] at r1 r2 ⊢
  exact hR.trans a b c (hall x a hx hxa) (hall y b hy hyb) (hall z c hz hzc) r1 r2

theorem heap_father_lt {c : Nat} (hc : 0 < c) : heap_father c < c := by
  unfold heap_father; omega

theorem heap_swapped_wf {h h1 : Heap α} {i j : Nat} (hwf : HeapWF h) (hi : i < h.size)
    (hj : j < h.size) (hs : h1.size = h.size) (hm : h1.max = h.max)
    (hl : h1.tab.length = h.tab.length)
    (hc : ∀ k, heap_cell h1 k =
        if k = j then heap_cell h i else if k = i then heap_cell h j else heap_cell h k) :
    HeapWF h1 := by
  refine ⟨by rw [hs, hm]; exact hwf.size_le, by rw [hl, hm]; exact hwf.tab_len, ?_⟩
  intro k hk
  rw [hs] at hk
  rw [hc k]
  split
  · exact hwf.filled i hi
  · split
    · exact hwf.filled j hj
    · exact hwf.filled k hk

theorem heap_swapped_all {P : α → Prop} {h h1 : Heap α} {i j : Nat} (hall : HeapAll P h)
    (hi : i < h.size) (hj : j < h.size) (hs : h1.size = h.size)
    (hc : ∀ k, heap_cell h1 k =
        if k = j then heap_cell h i else if k = i then heap_cell h j else heap_cell h k) :
    HeapAll P h1 := by
  intro k a hk hka
  rw [hs] at hk
  rw [hc k] at hka
  split at hka
  · exact hall i a hi hka
  · split at hka
    · exact hall j a hj hka
    · exact hall k a hk hka

theorem range_map_swap_perm (n i j : Nat) (hi : i < n) (hj : j < n) :
    ((List.range n).map (fun k => if k = j then i else if k = i then j else k)).Perm
      (List.range n) := by
  have hinj : Function.Injective (fun k : Nat => if k = j then i else if k = i then j else k) := by
    intro a b hab
    simp only at hab
    split_ifs at hab <;> omega
  rw [List.perm_ext_iff_of_nodup ((List.nodup_range n).map hinj) (List.nodup_range n)]
  intro a
  simp only [List.mem_map, List.mem_range]
  constructor
  · rintro ⟨b, hb, rfl⟩
    split_ifs <;> omega
  · intro ha
    by_cases h1 : a = i
    · exact ⟨j, hj, by subst h1; simp⟩
    · by_cases h2 : a = j
      · refine ⟨i, hi, ?_⟩
        subst h2
        by_cases h3 : i = a
        · simp [h3]
        · simp [h3]
      · exact ⟨a, ha, by simp [h1, h2]⟩

theorem heap_swapped_items {h h1 : Heap α} {i j : Nat}
    (hi : i < h.size) (hj : j < h.size) (hs : h1.size = h.size)
    (hc : ∀ k, heap_cell h1 k =
        if k = j then heap_cell h i else if k = i then heap_cell h j else heap_cell h k) :
    (heap_items h1).Perm (heap_items h) := by
  unfold heap_items
  rw [hs]
  have hfun : heap_cell h1 = fun k =>
      heap_cell h (if k = j then i else if k = i then j else k) := by
    funext k
    rw [hc k]
    split_ifs <;> rfl
  rw [hfun]
  have := (range_map_swap_perm h.size i j hi hj).filterMap (heap_cell h)
  rwa [List.filterMap_map] at this

theorem heap_shift_up_loop_succ {h : Heap α} {f i fuel : Nat} {af ai : α}
    (hf : f < h.tab.length) (hi : i < h.tab.length)
    (hcf : heap_cell h f = some af) (hci : heap_cell h i = some ai) :
    heap_shift_up_loop (fuel + 1) h f i =
      if h.rel af ai = true then
        (heap_swap h f i >>= fun h1 =>
          if f = 0 then pure h1 else heap_shift_up_loop fuel h1 (heap_father f) f)
      else pure h := by
  simp only [heap_shift_up_loop, heap_peek_of_lt hf, heap_peek_of_lt hi, hcf, hci, heap_rel,
    bind, Except.bind]

theorem heap_shift_up_loop_spec {P : α → Prop} {R : α → α → Bool} (hR : TotalPreorderOn P R) :
    ∀ (fuel : Nat) (h : Heap α) (i : Nat),
      h.rel = R → HeapWF h → HeapAll P h → 0 < i → i < h.size → i ≤ fuel →
      (∀ c, 0 < c → c < h.size → c ≠ i → HeapRel h c (heap_father c)) →
      (∀ c, 0 < c → c < h.size → heap_father c = i → HeapRel h c (heap_father i)) →
      ∃ h1, heap_shift_up_loop fuel h (heap_father i) i = Except.ok h1 ∧
        h1.size = h.size ∧ h1.max = h.max ∧ h1.rel = h.rel ∧ HeapWF h1 ∧ HeapAll P h1 ∧
        (heap_items h1).Perm (heap_items h) ∧ HeapOrdered h1 := by
  intro fuel
  induction fuel with
  | zero => intro h i _ _ _ h0 _ hle; omega
  | succ fuel ih =>
    intro h i hrel hwf hall hi0 his hfuel hA hB
    have hfi : heap_father i < i := heap_father_lt hi0
    have hlen : h.size ≤ h.tab.length := by rw [hwf.tab_len]; exact hwf.size_le
    obtain ⟨af, hcf⟩ := hwf.filled (heap_father i) (by omega)
    obtain ⟨ai, hci⟩ := hwf.filled i his
    rw [heap_shift_up_loop_succ (by omega) (by omega) hcf hci]
    by_cases hb : h.rel af ai = true
    · rw [if_pos hb]
      obtain ⟨h1, hsw, hs1, hm1, hr1, hl1, hc1⟩ :=
        heap_swap_of_lt (h := h) (i := heap_father i) (j := i) (by omega) (by omega)
      have hwf1 : HeapWF h1 := heap_swapped_wf hwf (by omega) his hs1 hm1 hl1 hc1
      have hall1 : HeapAll P h1 := heap_swapped_all hall (by omega) his hs1 hc1
      have hperm1 := @heap_swapped_items _ h h1 (heap_father i) i
        (by omega) his hs1 hc1
      have hci1 : heap_cell h1 i = some af := by rw [hc1 i]; simp [hcf]
      have hcf1 : heap_cell h1 (heap_father i) = some ai := by
        rw [hc1 (heap_father i)]; simp [hci, Nat.ne_of_lt hfi]
      have hother : ∀ k, k ≠ i → k ≠ heap_father i → heap_cell h1 k = heap_cell h k := by
        intro k h1k h2k; rw [hc1 k]; simp [h1k, h2k]
      -- the order at every cell but the father of `i`
      have hA1 : ∀ c, 0 < c → c < h1.size → c ≠ heap_father i →
          HeapRel h1 c (heap_father c) := by
        intro c hc0 hcs hcf' a b hca hcb
        rw [hs1] at hcs
        by_cases hci' : c = i
        · subst hci'
          rw [hci1] at hca; rw [hcf1] at hcb
          rw [← Option.some.inj hca, ← Option.some.inj hcb, hr1]; exact hb
        · rw [hother c hci' hcf'] at hca
          have hPa := hall c a hcs hca
          by_cases hfc : heap_father c = i
          · rw [hfc, hci1] at hcb
            rw [← Option.some.inj hcb, hr1]
            exact hB c hc0 hcs hfc a af hca hcf
          · by_cases hfc2 : heap_father c = heap_father i
            · rw [hfc2, hcf1] at hcb
              have r1 := hA c hc0 hcs hci' a af hca (by rw [hfc2]; exact hcf)
              rw [← Option.some.inj hcb, hr1, hrel]; rw [hrel] at r1 hb
              exact hR.trans a af ai hPa (hall _ af (by omega) hcf) (hall i ai his hci) r1 hb
            · rw [hother _ hfc hfc2] at hcb
              rw [hr1]
              exact hA c hc0 hcs hci' a b hca hcb
      simp only [hsw, bind, Except.bind]
      by_cases hf0 : heap_father i = 0
      · rw [if_pos hf0]
        refine ⟨h1, rfl, hs1, hm1, hr1, hwf1, hall1, hperm1, ?_⟩
        intro c hc0 hcs
        exact hA1 c hc0 hcs (by omega)
      · rw [if_neg hf0]
        have hB1 : ∀ c, 0 < c → c < h1.size → heap_father c = heap_father i →
            HeapRel h1 c (heap_father (heap_father i)) := by
          intro c hc0 hcs hfc a b hca hcb
          rw [hs1] at hcs
          have hff : heap_father (heap_father i) < heap_father i :=
            heap_father_lt (by omega)
          rw [hother _ (by omega) (by omega)] at hcb
          have hAf := hA (heap_father i) (by omega) (by omega) (by omega)
          by_cases hci' : c = i
          · subst hci'
            rw [hci1] at hca
            rw [← Option.some.inj hca, hr1]
            exact hAf af b hcf hcb
          · have hcne : c ≠ heap_father i := by
              have := heap_father_lt hc0; omega
            rw [hother c hci' hcne] at hca
            have r1 := hA c hc0 hcs hci' a af hca (by rw [hfc]; exact hcf)
            have r2 := hAf af b hcf hcb
            rw [hr1, hrel]; rw [hrel] at r1 r2
            exact hR.trans a af b (hall c a hcs hca) (hall _ af (by omega) hcf)
              (hall _ b (by omega) hcb) r1 r2
        obtain ⟨h2, hrun, hs2, hm2, hr2, hwf2, hall2, hperm2, hord2⟩ :=
          ih h1 (heap_father i) (hr1.trans hrel) hwf1 hall1 (by omega) (by omega) (by omega)
            hA1 hB1
        exact ⟨h2, hrun, hs2.trans hs1, hm2.trans hm1, hr2.trans hr1, hwf2, hall2,
          hperm2.trans hperm1, hord2⟩
    · rw [if_neg hb]
      refine ⟨h, rfl, rfl, rfl, rfl, hwf, hall, List.Perm.refl _, ?_⟩
      intro c hc0 hcs
      by_cases hci' : c = i
      · subst hci'
        intro a b hca hcb
        rw [hci] at hca; rw [hcf] at hcb
        rw [← Option.some.inj hca, ← Option.some.inj hcb]
        rw [hrel] at hb ⊢
        rcases hR.total af ai (hall _ af (by omega) hcf) (hall c ai his hci) with r | r
        · exact absurd r hb
        · exact r
      · exact hA c hc0 hcs hci'

theorem heap_shift_down_loop_step {P : α → Prop} {R : α → α → Bool}
    (hR : TotalPreorderOn P R) {h : Heap α} {i : Nat} (fuel : Nat) {ai : α}
    (hrel : h.rel = R) (hwf : HeapWF h) (hall : HeapAll P h)
    (hleft : heap_left_son i ≤ h.size - 1) (hs : 0 < h.size)
    (hci : heap_cell h i = some ai) :
    ∃ next an, (next = heap_left_son i ∨ next = heap_right_son i) ∧ next < h.size ∧
      heap_cell h next = some an ∧
      (∀ o, o < h.size → heap_father o = i → 0 < o → o ≠ next → HeapRel h o next) ∧
      heap_shift_down_loop (h.size - 1) (fuel + 1) h i =
        if h.rel ai an = true then
          (heap_swap h i next >>= fun h1 => heap_shift_down_loop (h.size - 1) fuel h1 next)
        else pure h := by
  have hlen : h.size ≤ h.tab.length := by rw [hwf.tab_len]; exact hwf.size_le
  have hL : heap_left_son i = 2 * i + 1 := by unfold heap_left_son; omega
  have hRt : heap_right_son i = 2 * i + 2 := by unfold heap_right_son; omega
  have hi : i < h.size := by omega
  obtain ⟨al, hcl⟩ := hwf.filled (heap_left_son i) (by omega)
  have hkids : ∀ o, heap_father o = i → 0 < o → o = heap_left_son i ∨ o = heap_right_son i := by
    intro o ho h0; unfold heap_father at ho; omega
  by_cases hright : heap_right_son i ≤ h.size - 1
  · obtain ⟨ar, hcr⟩ := hwf.filled (heap_right_son i) (by omega)
    by_cases hb : h.rel al ar = true
    · refine ⟨heap_right_son i, ar, Or.inr rfl, by omega, hcr, ?_, ?_⟩
      · intro o _ hfo ho0 hne a b hoa hob
        rcases hkids o hfo ho0 with e | e
        · subst e
          rw [hcl] at hoa; rw [hcr] at hob
          rw [← Option.some.inj hoa, ← Option.some.inj hob]; exact hb
        · exact absurd e hne
      · simp only [heap_shift_down_loop, hleft, true_or, if_true, hright,
          heap_peek_of_lt (show heap_left_son i < h.tab.length by omega),
          heap_peek_of_lt (show heap_right_son i < h.tab.length by omega),
          heap_peek_of_lt (show i < h.tab.length by omega),
          hcl, hcr, hci, heap_rel, bind, Except.bind, pure, Except.pure, hb]
    · refine ⟨heap_left_son i, al, Or.inl rfl, by omega, hcl, ?_, ?_⟩
      · intro o _ hfo ho0 hne a b hoa hob
        rcases hkids o hfo ho0 with e | e
        · exact absurd e hne
        · subst e
          rw [hcr] at hoa; rw [hcl] at hob
          rw [← Option.some.inj hoa, ← Option.some.inj hob, hrel]
          rw [hrel] at hb
          rcases hR.total al ar (hall _ al (by omega) hcl) (hall _ ar (by omega) hcr) with r | r
          · exact absurd r hb
          · exact r
      · simp only [heap_shift_down_loop, hleft, true_or, if_true, hright,
          heap_peek_of_lt (show heap_left_son i < h.tab.length by omega),
          heap_peek_of_lt (show heap_right_son i < h.tab.length by omega),
          heap_peek_of_lt (show i < h.tab.length by omega),
          hcl, hcr, hci, heap_rel, bind, Except.bind, pure, Except.pure, hb]
        simp only [Bool.false_eq_true, if_false,
          heap_peek_of_lt (show heap_left_son i < h.tab.length by omega), hcl]
  · refine ⟨heap_left_son i, al, Or.inl rfl, by omega, hcl, ?_, ?_⟩
    · intro o hos hfo ho0 hne
      rcases hkids o hfo ho0 with e | e
      · exact absurd e hne
      · omega
    · simp only [heap_shift_down_loop, hleft, true_or, if_true, hright, if_false,
        heap_peek_of_lt (show heap_left_son i < h.tab.length by omega),
        heap_peek_of_lt (show i < h.tab.length by omega),
        hcl, hci, heap_rel, bind, Except.bind, pure, Except.pure]

theorem heap_shift_down_loop_spec {P : α → Prop} {R : α → α → Bool}
    (hR : TotalPreorderOn P R) :
    ∀ (fuel : Nat) (h : Heap α) (i : Nat),
      h.rel = R → HeapWF h → HeapAll P h → i < h.size → h.size ≤ fuel + i →
      (∀ c, 0 < c → c < h.size → heap_father c ≠ i → HeapRel h c (heap_father c)) →
      (∀ c, 0 < c → c < h.size → heap_father c = i → 0 < i → HeapRel h c (heap_father i)) →
      ∃ h1, heap_shift_down_loop (h.size - 1) fuel h i = Except.ok h1 ∧
        h1.size = h.size ∧ h1.max = h.max ∧ h1.rel = h.rel ∧ HeapWF h1 ∧ HeapAll P h1 ∧
        (heap_items h1).Perm (heap_items h) ∧ HeapOrdered h1 := by
  intro fuel
  induction fuel with
  | zero => intro h i _ _ _ hi hle; omega
  | succ fuel ih =>
    intro h i hrel hwf hall hi hfuel hA hB
    have hlen : h.size ≤ h.tab.length := by rw [hwf.tab_len]; exact hwf.size_le
    have hL : heap_left_son i = 2 * i + 1 := by unfold heap_left_son; omega
    have hRt : heap_right_son i = 2 * i + 2 := by unfold heap_right_son; omega
    have hkids : ∀ o, heap_father o = i → 0 < o →
        o = heap_left_son i ∨ o = heap_right_son i := by
      intro o ho h0; unfold heap_father at ho; omega
    by_cases hleft : heap_left_son i ≤ h.size - 1
    · obtain ⟨ai, hci⟩ := hwf.filled i hi
      obtain ⟨next, an, hnx, hns, hcn, hoth, heq⟩ :=
        heap_shift_down_loop_step hR fuel hrel hwf hall hleft (by omega) hci
      have hfn : heap_father next = i := by
        unfold heap_father; omega
      have hin : i < next := by omega
      rw [heq]
      by_cases hb : h.rel ai an = true
      · rw [if_pos hb]
        obtain ⟨h1, hsw, hs1, hm1, hr1, hl1, hc1⟩ :=
          heap_swap_of_lt (h := h) (i := i) (j := next) (by omega) (by omega)
        have hwf1 : HeapWF h1 := heap_swapped_wf hwf hi hns hs1 hm1 hl1 hc1
        have hall1 : HeapAll P h1 := heap_swapped_all hall hi hns hs1 hc1
        have hperm1 := @heap_swapped_items _ h h1 i next
          hi hns hs1 hc1
        have hcn1 : heap_cell h1 next = some ai := by rw [hc1 next]; simp [hci]
        have hci1 : heap_cell h1 i = some an := by
          rw [hc1 i]; simp [hcn, Nat.ne_of_lt hin]
        have hother : ∀ k, k ≠ next → k ≠ i → heap_cell h1 k = heap_cell h k := by
          intro k h1k h2k; rw [hc1 k]; simp [h1k, h2k]
        have hA1 : ∀ c, 0 < c → c < h1.size → heap_father c ≠ next →
            HeapRel h1 c (heap_father c) := by
          intro c hc0 hcs hfc a b hca hcb
          rw [hs1] at hcs
          rw [hr1]
          by_cases hcn' : c = next
          · subst hcn'
            rw [hcn1] at hca; rw [hfn, hci1] at hcb
            rw [← Option.some.inj hca, ← Option.some.inj hcb]; exact hb
          · by_cases hci' : c = i
            · subst hci'
              have hfc' := heap_father_lt hc0
              rw [hci1] at hca
              rw [hother _ (by omega) (by omega)] at hcb
              rw [← Option.some.inj hca]
              exact hB next (by omega) hns hfn hc0 an b hcn hcb
            · rw [hother c hcn' hci'] at hca
              by_cases hfi : heap_father c = i
              · rw [hfi, hci1] at hcb
                rw [← Option.some.inj hcb]
                exact hoth c hcs hfi hc0 hcn' a an hca hcn
              · rw [hother _ hfc hfi] at hcb
                exact hA c hc0 hcs hfi a b hca hcb
        have hB1 : ∀ c, 0 < c → c < h1.size → heap_father c = next → 0 < next →
            HeapRel h1 c (heap_father next) := by
          intro c hc0 hcs hfc _ a b hca hcb
          rw [hs1] at hcs
          have hfc' := heap_father_lt hc0
          rw [hother c (by omega) (by omega)] at hca
          rw [hfn, hci1] at hcb
          rw [hr1, ← Option.some.inj hcb]
          exact hA c hc0 hcs (by omega) a an hca (by rw [hfc]; exact hcn)
        simp only [hsw, bind, Except.bind]
        have hsz : h.size - 1 = h1.size - 1 := by rw [hs1]
        rw [hsz]
        obtain ⟨h2, hrun, hs2, hm2, hr2, hwf2, hall2, hperm2, hord2⟩ :=
          ih h1 next (hr1.trans hrel) hwf1 hall1 (by omega) (by omega) hA1 hB1
        exact ⟨h2, hrun, hs2.trans hs1, hm2.trans hm1, hr2.trans hr1, hwf2, hall2,
          hperm2.trans hperm1, hord2⟩
      · rw [if_neg hb]
        refine ⟨h, rfl, rfl, rfl, rfl, hwf, hall, List.Perm.refl _, ?_⟩
        intro c hc0 hcs
        by_cases hfi : heap_father c = i
        · have hni : HeapRel h next i := by
            intro a b hna hib
            rw [hcn] at hna; rw [hci] at hib
            rw [← Option.some.inj hna, ← Option.some.inj hib, hrel]
            rw [hrel] at hb
            rcases hR.total ai an (hall i ai hi hci) (hall next an hns hcn) with r | r
            · exact absurd r hb
            · exact r
          rw [hfi]
          by_cases hcn' : c = next
          · rw [hcn']; exact hni
          · exact heapRel_trans hR hrel hall hwf hcs hns hi (hoth c hcs hfi hc0 hcn') hni
        · exact hA c hc0 hcs hfi
    · have hnol : ¬ (heap_left_son i ≤ h.size - 1 ∨ heap_right_son i ≤ h.size - 1) := by
        omega
      refine ⟨h, ?_, rfl, rfl, rfl, hwf, hall, List.Perm.refl _, ?_⟩
      · simp only [heap_shift_down_loop, hnol, if_false]
      · intro c hc0 hcs
        by_cases hfi : heap_father c = i
        · rcases hkids c hfi hc0 with e | e <;> omega
        · exact hA c hc0 hcs hfi

theorem mem_heap_items {h : Heap α} {y : α} :
    y ∈ heap_items h ↔ ∃ i, i < h.size ∧ heap_cell h i = some y := by
  simp [heap_items, List.mem_filterMap]

theorem filterMap_range_swap_perm (f : Nat → Option α) (n i j : Nat) (hi : i < n)
    (hj : j < n) :
    ((List.range n).filterMap (fun k => f (if k = j then i else if k = i then j else k))).Perm
      ((List.range n).filterMap f) := by
  have := (range_map_swap_perm n i j hi hj).filterMap f
  rwa [List.filterMap_map] at this

theorem filterMap_range_congr {f g : Nat → Option α} {n : Nat}
    (hfg : ∀ k, k < n → f k = g k) :
    (List.range n).filterMap f = (List.range n).filterMap g := by
  induction n with
  | zero => rfl
  | succ n ih =>
    rw [List.range_succ, List.filterMap_append, List.filterMap_append,
      ih (fun k hk => hfg k (by omega))]
    simp only [List.filterMap_cons, hfg n (by omega), List.filterMap_nil]

theorem heap_root_rel {P : α → Prop} {R : α → α → Bool} (hR : TotalPreorderOn P R)
    {h : Heap α} (hrel : h.rel = R) (hwf : HeapWF h) (hall : HeapAll P h)
    (hord : HeapOrdered h) : ∀ i, i < h.size → HeapRel h i 0 := by
  intro i
  induction i using Nat.strong_induction_on with
  | _ i ih =>
    intro hi
    by_cases h0 : i = 0
    · subst h0
      intro a b hca hcb
      rw [hca] at hcb
      rw [← Option.some.inj hcb, hrel]
      have hPa := hall 0 a hi hca
      rcases hR.total a a hPa hPa with r | r <;> exact r
    · have hf := heap_father_lt (Nat.pos_of_ne_zero h0)
      exact heapRel_trans hR hrel hall hwf hi (by omega) (by omega)
        (hord i (Nat.pos_of_ne_zero h0) hi) (ih _ hf (by omega))

theorem heap_insert_full {h : Heap α} (x : α) (hfull : h.size = h.max) :
    heap_insert h x = Except.ok (h, false) := by
  simp [heap_insert, heap_size, heap_max_size, hfull]

theorem heap_insert_spec {P : α → Prop} {R : α → α → Bool} (hR : TotalPreorderOn P R)
    {h : Heap α} (x : α) (hrel : h.rel = R) (hwf : HeapWF h) (hall : HeapAll P h)
    (hord : HeapOrdered h) (hx : P x) (hroom : h.size ≠ h.max) :
    ∃ h1, heap_insert h x = Except.ok (h1, true) ∧ h1.size = h.size + 1 ∧ h1.max = h.max ∧
      h1.rel = h.rel ∧ HeapWF h1 ∧ HeapAll P h1 ∧ HeapOrdered h1 ∧
      (heap_items h1).Perm (x :: heap_items h) := by
  have hlt : h.size < h.tab.length := by
    have := hwf.size_le; rw [hwf.tab_len]; omega
  -- the heap after `h->tab[h->size++] = item`
  let h2 : Heap α := { h with tab := h.tab.set h.size (some x), size := h.size + 1 }
  have hcell : ∀ k, heap_cell h2 k = if k = h.size then some x else heap_cell h k := by
    intro k
    have hp : heap_poke h h.size (some x) =
        Except.ok { h with tab := h.tab.set h.size (some x) } := heap_poke_of_lt _ hlt
    have := heap_cell_poke hp k
    simpa [heap_cell] using this
  have hwf2 : HeapWF h2 := by
    refine ⟨?_, ?_, ?_⟩
    · show h.size + 1 ≤ h.max
      have := hwf.size_le; omega
    · show (h.tab.set h.size (some x)).length = h.max
      rw [List.length_set]; exact hwf.tab_len
    · intro k hk
      rw [hcell k]
      split
      · exact ⟨x, rfl⟩
      · exact hwf.filled k (by
          have : k < h.size + 1 := hk
          omega)
  have hall2 : HeapAll P h2 := by
    intro k a hk hka
    rw [hcell k] at hka
    split at hka
    · rw [← Option.some.inj hka]; exact hx
    · exact hall k a (by
        have : k < h.size + 1 := hk
        omega) hka
  have hitems : heap_items h2 = heap_items h ++ [x] := by
    show (List.range (h.size + 1)).filterMap (heap_cell h2) = _
    rw [List.range_succ, List.filterMap_append]
    have : (List.range h.size).filterMap (heap_cell h2) = heap_items h :=
      filterMap_range_congr (fun k hk => by rw [hcell k]; simp [Nat.ne_of_lt hk])
    rw [this]
    simp [hcell]
  have hperm2 : (heap_items h2).Perm (x :: heap_items h) := by
    rw [hitems]; exact List.perm_append_singleton x _
  have hstart : heap_insert h x = (heap_shift_up h2 h.size >>= fun h3 => pure (h3, true)) := by
    simp only [heap_insert, heap_size, heap_max_size, hroom, if_false, heap_poke_of_lt _ hlt,
      bind, Except.bind]
    rfl
  rw [hstart]
  by_cases h0 : h.size = 0
  · refine ⟨h2, ?_, rfl, rfl, rfl, hwf2, hall2, ?_, hperm2⟩
    · simp [heap_shift_up, h0, bind, Except.bind, pure, Except.pure]
    · intro c hc0 hcs
      have : c < h.size + 1 := hcs
      omega
  · have hA : ∀ c, 0 < c → c < h2.size → c ≠ h.size → HeapRel h2 c (heap_father c) := by
      intro c hc0 hcs hne a b hca hcb
      have hc : c < h.size := by
        have : c < h.size + 1 := hcs
        omega
      have hf := heap_father_lt hc0
      rw [hcell c, if_neg hne] at hca
      rw [hcell _, if_neg (by omega)] at hcb
      exact hord c hc0 hc a b hca hcb
    have hB : ∀ c, 0 < c → c < h2.size → heap_father c = h.size →
        HeapRel h2 c (heap_father h.size) := by
      intro c hc0 hcs hfc
      have hf := heap_father_lt hc0
      have : c < h.size + 1 := hcs
      omega
    obtain ⟨h3, hrun, hs3, hm3, hr3, hwf3, hall3, hperm3, hord3⟩ :=
      heap_shift_up_loop_spec hR h.size h2 h.size hrel hwf2 hall2 (by omega)
        (show h.size < h.size + 1 by omega) (le_refl _) hA hB
    refine ⟨h3, ?_, hs3, hm3, hr3, hwf3, hall3, hord3, hperm3.trans hperm2⟩
    simp only [heap_shift_up, h0, if_false, hrun, bind, Except.bind, pure, Except.pure]

theorem heap_extract_root_empty {h : Heap α} (h0 : h.size = 0) :
    heap_extract_root h = Except.ok (h, none) := by
  simp [heap_extract_root, heap_size, h0]

theorem heap_extract_root_spec {P : α → Prop} {R : α → α → Bool} (hR : TotalPreorderOn P R)
    {h : Heap α} (hrel : h.rel = R) (hwf : HeapWF h) (hall : HeapAll P h)
    (hord : HeapOrdered h) (hne : h.size ≠ 0) :
    ∃ x h1, heap_extract_root h = Except.ok (h1, some x) ∧ heap_cell h 0 = some x ∧
      h1.size + 1 = h.size ∧ h1.max = h.max ∧ h1.rel = h.rel ∧ HeapWF h1 ∧ HeapAll P h1 ∧
      HeapOrdered h1 ∧ (x :: heap_items h1).Perm (heap_items h) ∧
      ∀ y, y ∈ heap_items h → R y x = true := by
  have hlen : h.size ≤ h.tab.length := by rw [hwf.tab_len]; exact hwf.size_le
  obtain ⟨x, hx⟩ := hwf.filled 0 (by omega)
  obtain ⟨last, hlast⟩ := hwf.filled (h.size - 1) (by omega)
  obtain ⟨n, hn⟩ := Nat.exists_eq_succ_of_ne_zero hne
  have hstart : heap_extract_root h =
      (heap_shift_down { h with tab := h.tab.set 0 (some last), size := h.size - 1 } 0 >>=
        fun h3 => pure (h3, some x)) := by
    simp only [heap_extract_root, heap_size, hne, if_false,
      heap_peek_of_lt (show 0 < h.tab.length by omega),
      heap_peek_of_lt (show h.size - 1 < h.tab.length by omega), hx, hlast,
      heap_poke_of_lt _ (show 0 < h.tab.length by omega), bind, Except.bind]
  have hcell0 : ∀ k, heap_cell
      ({ h with tab := h.tab.set 0 (some last), size := h.size - 1 } : Heap α) k =
      if k = 0 then some last else heap_cell h k := by
    intro k
    have hp : heap_poke h 0 (some last) =
        Except.ok { h with tab := h.tab.set 0 (some last) } := heap_poke_of_lt _ (by omega)
    have := heap_cell_poke hp k
    simpa [heap_cell] using this
  obtain ⟨h2, hh2⟩ : ∃ h2 : Heap α,
      h2 = { h with tab := h.tab.set 0 (some last), size := h.size - 1 } := ⟨_, rfl⟩
  rw [← hh2] at hstart hcell0
  have hcell : ∀ k, heap_cell h2 k = if k = 0 then some last else heap_cell h k := hcell0
  have hs2 : h2.size = n := by rw [hh2]; show h.size - 1 = n; omega
  have hm2 : h2.max = h.max := by rw [hh2]
  have hr2 : h2.rel = h.rel := by rw [hh2]
  have hl2 : h2.tab.length = h.max := by
    rw [hh2]; show (h.tab.set 0 (some last)).length = h.max
    rw [List.length_set]; exact hwf.tab_len
  have hlast' : heap_cell h n = some last := by
    have : h.size - 1 = n := by omega
    rw [← this]; exact hlast
  have hwf2 : HeapWF h2 := by
    refine ⟨?_, ?_, ?_⟩
    · rw [hs2, hm2]
      have := hwf.size_le; omega
    · rw [hl2, hm2]
    · intro k hk
      rw [hcell k]
      split
      · exact ⟨last, rfl⟩
      · exact hwf.filled k (by rw [hs2] at hk; omega)
  have hall2 : HeapAll P h2 := by
    intro k a hk hka
    rw [hcell k] at hka
    split at hka
    · rw [← Option.some.inj hka]; exact hall _ last (by omega) hlast
    · exact hall k a (by rw [hs2] at hk; omega) hka
  have hperm2 : (x :: heap_items h2).Perm (heap_items h) := by
    have hsw := filterMap_range_swap_perm (heap_cell h) (n + 1) 0 n (by omega) (by omega)
    have hih : heap_items h = (List.range (n + 1)).filterMap (heap_cell h) := by
      unfold heap_items; rw [hn]
    have hsplit : (List.range (n + 1)).filterMap
        (fun k => heap_cell h (if k = n then 0 else if k = 0 then n else k))
        = heap_items h2 ++ [x] := by
      rw [List.range_succ, List.filterMap_append]
      have e1 : (List.range n).filterMap
          (fun k => heap_cell h (if k = n then 0 else if k = 0 then n else k)) =
          heap_items h2 := by
        unfold heap_items
        rw [hs2]
        apply filterMap_range_congr
        intro k hk
        rw [hcell k]
        by_cases hk0 : k = 0
        · subst hk0
          simp [Nat.ne_of_lt hk, hlast']
        · simp [hk0, Nat.ne_of_lt hk]
      rw [e1]
      simp [hx]
    rw [hsplit] at hsw
    rw [hih]
    exact (List.perm_append_singleton x _).symm.trans hsw
  have hmin : ∀ y, y ∈ heap_items h → R y x = true := by
    intro y hy
    obtain ⟨i, hi, hiy⟩ := mem_heap_items.mp hy
    have := heap_root_rel hR hrel hwf hall hord i hi y x hiy hx
    rwa [hrel] at this
  rw [hstart]
  by_cases h0 : h2.size = 0
  · refine ⟨x, h2, ?_, hx, by rw [hs2]; omega, hm2, hr2, hwf2, hall2, ?_, hperm2, hmin⟩
    · simp [heap_shift_down, heap_size, h0, bind, Except.bind, pure, Except.pure]
    · intro c hc0 hcs
      omega
  · have hA : ∀ c, 0 < c → c < h2.size → heap_father c ≠ 0 →
        HeapRel h2 c (heap_father c) := by
      intro c hc0 hcs hfc a b hca hcb
      rw [hcell c, if_neg (by omega)] at hca
      rw [hcell _, if_neg hfc] at hcb
      rw [hr2]
      exact hord c hc0 (by rw [hs2] at hcs; omega) a b hca hcb
    have hB : ∀ c, 0 < c → c < h2.size → heap_father c = 0 → 0 < 0 →
        HeapRel h2 c (heap_father 0) := by
      intro c _ _ _ hlt
      omega
    obtain ⟨h3, hrun, hs3, hm3, hr3, hwf3, hall3, hperm3, hord3⟩ :=
      heap_shift_down_loop_spec hR h2.size h2 0 (hr2.trans hrel) hwf2 hall2 (by omega)
        (by omega) hA hB
    refine ⟨x, h3, ?_, hx, by rw [hs3, hs2]; omega, hm3.trans hm2, hr3.trans hr2, hwf3,
      hall3, hord3,
      (List.Perm.cons x hperm3).trans hperm2, hmin⟩
    simp only [heap_shift_down, heap_size, h0, if_false, hrun, bind, Except.bind, pure,
      Except.pure]

theorem heap_shift_up_loop_shape :
    ∀ (fuel : Nat) (h : Heap α) (i : Nat),
      HeapWF h → 0 < i → i < h.size → i ≤ fuel →
      ∃ h1, heap_shift_up_loop fuel h (heap_father i) i = Except.ok h1 ∧
        h1.size = h.size ∧ h1.max = h.max ∧ h1.rel = h.rel ∧ HeapWF h1 := by
  intro fuel
  induction fuel with
  | zero => intro h i _ h0 _ hle; omega
  | succ fuel ih =>
    intro h i hwf hi0 his hfuel
    have hfi : heap_father i < i := heap_father_lt hi0
    have hlen : h.size ≤ h.tab.length := by rw [hwf.tab_len]; exact hwf.size_le
    obtain ⟨af, hcf⟩ := hwf.filled (heap_father i) (by omega)
    obtain ⟨ai, hci⟩ := hwf.filled i his
    rw [heap_shift_up_loop_succ (by omega) (by omega) hcf hci]
    by_cases hb : h.rel af ai = true
    · rw [if_pos hb]
      obtain ⟨h1, hsw, hs1, hm1, hr1, hl1, hc1⟩ :=
        heap_swap_of_lt (h := h) (i := heap_father i) (j := i) (by omega) (by omega)
      have hwf1 : HeapWF h1 := heap_swapped_wf hwf (by omega) his hs1 hm1 hl1 hc1
      simp only [hsw, bind, Except.bind]
      by_cases hf0 : heap_father i = 0
      · rw [if_pos hf0]
        exact ⟨h1, rfl, hs1, hm1, hr1, hwf1⟩
      · rw [if_neg hf0]
        obtain ⟨h2, hrun, hs2, hm2, hr2, hwf2⟩ :=
          ih h1 (heap_father i) hwf1 (by omega) (by omega) (by omega)
        exact ⟨h2, hrun, hs2.trans hs1, hm2.trans hm1, hr2.trans hr1, hwf2⟩
    · rw [if_neg hb]
      exact ⟨h, rfl, rfl, rfl, rfl, hwf⟩

theorem heap_shift_down_loop_step_shape {h : Heap α} {i : Nat} (fuel : Nat) {ai : α}
    (hwf : HeapWF h) (hleft : heap_left_son i ≤ h.size - 1) (hs : 0 < h.size)
    (hci : heap_cell h i = some ai) :
    ∃ next an, (next = heap_left_son i ∨ next = heap_right_son i) ∧ next < h.size ∧
      heap_cell h next = some an ∧
      heap_shift_down_loop (h.size - 1) (fuel + 1) h i =
        if h.rel ai an = true then
          (heap_swap h i next >>= fun h1 => heap_shift_down_loop (h.size - 1) fuel h1 next)
        else pure h := by
  have hlen : h.size ≤ h.tab.length := by rw [hwf.tab_len]; exact hwf.size_le
  have hL : heap_left_son i = 2 * i + 1 := by unfold heap_left_son; omega
  have hRt : heap_right_son i = 2 * i + 2 := by unfold heap_right_son; omega
  have hi : i < h.size := by omega
  obtain ⟨al, hcl⟩ := hwf.filled (heap_left_son i) (by omega)
  by_cases hright : heap_right_son i ≤ h.size - 1
  · obtain ⟨ar, hcr⟩ := hwf.filled (heap_right_son i) (by omega)
    by_cases hb : h.rel al ar = true
    · refine ⟨heap_right_son i, ar, Or.inr rfl, by omega, hcr, ?_⟩
      simp only [heap_shift_down_loop, hleft, true_or, if_true, hright,
        heap_peek_of_lt (show heap_left_son i < h.tab.length by omega),
        heap_peek_of_lt (show heap_right_son i < h.tab.length by omega),
        heap_peek_of_lt (show i < h.tab.length by omega),
        hcl, hcr, hci, heap_rel, bind, Except.bind, pure, Except.pure, hb]
    · refine ⟨heap_left_son i, al, Or.inl rfl, by omega, hcl, ?_⟩
      simp only [heap_shift_down_loop, hleft, true_or, if_true, hright,
        heap_peek_of_lt (show heap_left_son i < h.tab.length by omega),
        heap_peek_of_lt (show heap_right_son i < h.tab.length by omega),
        heap_peek_of_lt (show i < h.tab.length by omega),
        hcl, hcr, hci, heap_rel, bind, Except.bind, pure, Except.pure, hb]
      simp only [Bool.false_eq_true, if_false,
        heap_peek_of_lt (show heap_left_son i < h.tab.length by omega), hcl]
  · refine ⟨heap_left_son i, al, Or.inl rfl, by omega, hcl, ?_⟩
    simp only [heap_shift_down_loop, hleft, true_or, if_true, hright, if_false,
      heap_peek_of_lt (show heap_left_son i < h.tab.length by omega),
      heap_peek_of_lt (show i < h.tab.length by omega),
      hcl, hci, heap_rel, bind, Except.bind, pure, Except.pure]

theorem heap_shift_down_loop_shape :
    ∀ (fuel : Nat) (h : Heap α) (i : Nat),
      HeapWF h → i < h.size → h.size ≤ fuel + i →
      ∃ h1, heap_shift_down_loop (h.size - 1) fuel h i = Except.ok h1 ∧
        h1.size = h.size ∧ h1.max = h.max ∧ h1.rel = h.rel ∧ HeapWF h1 := by
  intro fuel
  induction fuel with
  | zero => intro h i _ hi hle; omega
  | succ fuel ih =>
    intro h i hwf hi hfuel
    have hlen : h.size ≤ h.tab.length := by rw [hwf.tab_len]; exact hwf.size_le
    have hL : heap_left_son i = 2 * i + 1 := by unfold heap_left_son; omega
    have hRt : heap_right_son i = 2 * i + 2 := by unfold heap_right_son; omega
    by_cases hleft : heap_left_son i ≤ h.size - 1
    · obtain ⟨ai, hci⟩ := hwf.filled i hi
      obtain ⟨next, an, hnx, hns, hcn, heq⟩ :=
        heap_shift_down_loop_step_shape fuel hwf hleft (by omega) hci
      have hin : i < next := by omega
      rw [heq]
      by_cases hb : h.rel ai an = true
      · rw [if_pos hb]
        obtain ⟨h1, hsw, hs1, hm1, hr1, hl1, hc1⟩ :=
          heap_swap_of_lt (h := h) (i := i) (j := next) (by omega) (by omega)
        have hwf1 : HeapWF h1 := heap_swapped_wf hwf hi hns hs1 hm1 hl1 hc1
        simp only [hsw, bind, Except.bind]
        have hsz : h.size - 1 = h1.size - 1 := by rw [hs1]
        rw [hsz]
        obtain ⟨h2, hrun, hs2, hm2, hr2, hwf2⟩ := ih h1 next hwf1 (by omega) (by omega)
        exact ⟨h2, hrun, hs2.trans hs1, hm2.trans hm1, hr2.trans hr1, hwf2⟩
      · rw [if_neg hb]
        exact ⟨h, rfl, rfl, rfl, rfl, hwf⟩
    · have hnol : ¬ (heap_left_son i ≤ h.size - 1 ∨ heap_right_son i ≤ h.size - 1) := by
        omega
      refine ⟨h, ?_, rfl, rfl, rfl, hwf⟩
      simp only [heap_shift_down_loop, hnol, if_false]

theorem heap_insert_shape {h : Heap α} (x : α) (hwf : HeapWF h) (hroom : h.size ≠ h.max) :
    ∃ h1, heap_insert h x = Except.ok (h1, true) ∧ h1.size = h.size + 1 ∧ h1.max = h.max ∧
      h1.rel = h.rel ∧ HeapWF h1 := by
  have hlt : h.size < h.tab.length := by
    have := hwf.size_le; rw [hwf.tab_len]; omega
  have hstart : heap_insert h x =
      (heap_shift_up { h with tab := h.tab.set h.size (some x), size := h.size + 1 } h.size
        >>= fun h3 => pure (h3, true)) := by
    simp only [heap_insert, heap_size, heap_max_size, hroom, if_false, heap_poke_of_lt _ hlt,
      bind, Except.bind]
    rfl
  have hcell0 : ∀ k, heap_cell
      ({ h with tab := h.tab.set h.size (some x), size := h.size + 1 } : Heap α) k =
      if k = h.size then some x else heap_cell h k := by
    intro k
    have hp : heap_poke h h.size (some x) =
        Except.ok { h with tab := h.tab.set h.size (some x) } := heap_poke_of_lt _ hlt
    have := heap_cell_poke hp k
    simpa [heap_cell] using this
  obtain ⟨h2, hh2⟩ : ∃ h2 : Heap α,
      h2 = { h with tab := h.tab.set h.size (some x), size := h.size + 1 } := ⟨_, rfl⟩
  rw [← hh2] at hstart hcell0
  have hs2 : h2.size = h.size + 1 := by rw [hh2]
  have hm2 : h2.max = h.max := by rw [hh2]
  have hr2 : h2.rel = h.rel := by rw [hh2]
  have hl2 : h2.tab.length = h.max := by
    rw [hh2]; show (h.tab.set h.size (some x)).length = h.max
    rw [List.length_set]; exact hwf.tab_len
  have hwf2 : HeapWF h2 := by
    refine ⟨?_, ?_, ?_⟩
    · rw [hs2, hm2]
      have := hwf.size_le; omega
    · rw [hl2, hm2]
    · intro k hk
      rw [hcell0 k]
      split
      · exact ⟨x, rfl⟩
      · exact hwf.filled k (by rw [hs2] at hk; omega)
  rw [hstart]
  by_cases h0 : h.size = 0
  · refine ⟨h2, ?_, hs2, hm2, hr2, hwf2⟩
    simp [heap_shift_up, h0, bind, Except.bind, pure, Except.pure]
  · obtain ⟨h3, hrun, hs3, hm3, hr3, hwf3⟩ :=
      heap_shift_up_loop_shape h.size h2 h.size hwf2 (by omega) (by omega) (le_refl _)
    refine ⟨h3, ?_, hs3.trans hs2, hm3.trans hm2, hr3.trans hr2, hwf3⟩
    simp only [heap_shift_up, h0, if_false, hrun, bind, Except.bind, pure, Except.pure]

theorem heap_extract_root_shape {h : Heap α} (hwf : HeapWF h) (hne : h.size ≠ 0) :
    ∃ x h1, heap_extract_root h = Except.ok (h1, some x) ∧ heap_cell h 0 = some x ∧
      h1.size + 1 = h.size ∧ h1.max = h.max ∧ h1.rel = h.rel ∧ HeapWF h1 := by
  have hlen : h.size ≤ h.tab.length := by rw [hwf.tab_len]; exact hwf.size_le
  obtain ⟨x, hx⟩ := hwf.filled 0 (by omega)
  obtain ⟨last, hlast⟩ := hwf.filled (h.size - 1) (by omega)
  have hstart : heap_extract_root h =
      (heap_shift_down { h with tab := h.tab.set 0 (some last), size := h.size - 1 } 0 >>=
        fun h3 => pure (h3, some x)) := by
    simp only [heap_extract_root, heap_size, hne, if_false,
      heap_peek_of_lt (show 0 < h.tab.length by omega),
      heap_peek_of_lt (show h.size - 1 < h.tab.length by omega), hx, hlast,
      heap_poke_of_lt _ (show 0 < h.tab.length by omega), bind, Except.bind]
  have hcell0 : ∀ k, heap_cell
      ({ h with tab := h.tab.set 0 (some last), size := h.size - 1 } : Heap α) k =
      if k = 0 then some last else heap_cell h k := by
    intro k
    have hp : heap_poke h 0 (some last) =
        Except.ok { h with tab := h.tab.set 0 (some last) } := heap_poke_of_lt _ (by omega)
    have := heap_cell_poke hp k
    simpa [heap_cell] using this
  obtain ⟨h2, hh2⟩ : ∃ h2 : Heap α,
      h2 = { h with tab := h.tab.set 0 (some last), size := h.size - 1 } := ⟨_, rfl⟩
  rw [← hh2] at hstart hcell0
  have hs2 : h2.size = h.size - 1 := by rw [hh2]
  have hm2 : h2.max = h.max := by rw [hh2]
  have hr2 : h2.rel = h.rel := by rw [hh2]
  have hl2 : h2.tab.length = h.max := by
    rw [hh2]; show (h.tab.set 0 (some last)).length = h.max
    rw [List.length_set]; exact hwf.tab_len
  have hwf2 : HeapWF h2 := by
    refine ⟨?_, ?_, ?_⟩
    · rw [hs2, hm2]
      have := hwf.size_le; omega
    · rw [hl2, hm2]
    · intro k hk
      rw [hcell0 k]
      split
      · exact ⟨last, rfl⟩
      · exact hwf.filled k (by rw [hs2] at hk; omega)
  rw [hstart]
  by_cases h0 : h2.size = 0
  · refine ⟨x, h2, ?_, hx, by rw [hs2]; omega, hm2, hr2, hwf2⟩
    simp [heap_shift_down, heap_size, h0, bind, Except.bind, pure, Except.pure]
  · obtain ⟨h3, hrun, hs3, hm3, hr3, hwf3⟩ :=
      heap_shift_down_loop_shape h2.size h2 0 hwf2 (by omega) (by omega)
    refine ⟨x, h3, ?_, hx, by rw [hs3, hs2]; omega, hm3.trans hm2, hr3.trans hr2, hwf3⟩
    simp only [heap_shift_down, heap_size, h0, if_false, hrun, bind, Except.bind, pure,
      Except.pure]

theorem heap_create_spec (max_size : Nat) (R : α → α → Bool) (hmax : 0 < max_size) :
    ∃ h, heap_create max_size R = Except.ok h ∧ h.size = 0 ∧ h.max = max_size ∧ h.rel = R ∧
      HeapWF h ∧ HeapOrdered h ∧ (∀ P : α → Prop, HeapAll P h) := by
  refine ⟨{ size := 0, max := max_size, rel := R, tab := List.replicate max_size none },
    by simp [heap_create, hmax], rfl, rfl, rfl, ⟨Nat.zero_le _, by simp, ?_⟩, ?_, ?_⟩
  · intro i hi; exact absurd hi (Nat.not_lt_zero i)
  · intro c _ hc; exact absurd hc (Nat.not_lt_zero c)
  · intro P i a hi; exact absurd hi (Nat.not_lt_zero i)

theorem heap_apply_shape {t : HeapTrace α} (op : HeapOp α) (hwf : HeapWF t.heap) :
    ∃ t1, heap_apply t op = Except.ok t1 ∧ t1.heap.rel = t.heap.rel ∧
      t1.heap.max = t.heap.max ∧ HeapWF t1.heap ∧
      t1.heap.size + t1.extracted + t.inserted = t1.inserted + (t.heap.size + t.extracted) := by
  cases op with
  | insert x =>
    by_cases hfull : t.heap.size = t.heap.max
    · refine ⟨{ heap := t.heap, inserted := t.inserted + 0, extracted := t.extracted }, ?_,
        rfl, rfl, hwf, ?_⟩
      · simp [heap_apply, heap_insert_full x hfull, bind, Except.bind, pure, Except.pure]
      · simp only; omega
    · obtain ⟨h1, hins, hs1, hm1, hr1, hwf1⟩ := heap_insert_shape x hwf hfull
      refine ⟨{ heap := h1, inserted := t.inserted + 1, extracted := t.extracted }, ?_,
        hr1, hm1, hwf1, ?_⟩
      · simp [heap_apply, hins, bind, Except.bind, pure, Except.pure]
      · simp only; omega
  | extract =>
    by_cases h0 : t.heap.size = 0
    · refine ⟨{ heap := t.heap, inserted := t.inserted, extracted := t.extracted + 0 }, ?_,
        rfl, rfl, hwf, ?_⟩
      · simp [heap_apply, heap_extract_root_empty h0, heap_size, h0, bind, Except.bind, pure,
          Except.pure]
      · simp only; omega
    · obtain ⟨x, h1, hext, _, hs1, hm1, hr1, hwf1⟩ := heap_extract_root_shape hwf h0
      refine ⟨{ heap := h1, inserted := t.inserted, extracted := t.extracted + 1 }, ?_,
        hr1, hm1, hwf1, ?_⟩
      · simp [heap_apply, hext, heap_size, h0, bind, Except.bind, pure, Except.pure]
      · simp only; omega

theorem heap_run_shape (ops : List (HeapOp α)) :
    ∀ (t : HeapTrace α), HeapWF t.heap →
    ∃ t1, heap_run t ops = Except.ok t1 ∧ t1.heap.rel = t.heap.rel ∧
      t1.heap.max = t.heap.max ∧ HeapWF t1.heap ∧
      t1.heap.size + t1.extracted + t.inserted = t1.inserted + (t.heap.size + t.extracted) := by
  induction ops with
  | nil => intro t hwf; exact ⟨t, rfl, rfl, rfl, hwf, by omega⟩
  | cons op ops ih =>
    intro t hwf
    obtain ⟨t1, h1, hr1, hm1, hwf1, hc1⟩ := heap_apply_shape op hwf
    obtain ⟨t2, h2, hr2, hm2, hwf2, hc2⟩ := ih t1 hwf1
    refine ⟨t2, ?_, hr2.trans hr1, hm2.trans hm1, hwf2, by omega⟩
    simp [heap_run, h1, h2, bind, Except.bind]

theorem heap_apply_ordered {P : α → Prop} {R : α → α → Bool} (hR : TotalPreorderOn P R)
    {t : HeapTrace α} (op : HeapOp α) (hop : ∀ x, op = HeapOp.insert x → P x)
    (hrel : t.heap.rel = R) (hwf : HeapWF t.heap) (hall : HeapAll P t.heap)
    (hord : HeapOrdered t.heap) :
    ∃ t1, heap_apply t op = Except.ok t1 ∧ t1.heap.rel = R ∧ HeapWF t1.heap ∧
      HeapAll P t1.heap ∧ HeapOrdered t1.heap := by
  cases op with
  | insert x =>
    by_cases hfull : t.heap.size = t.heap.max
    · refine ⟨{ heap := t.heap, inserted := t.inserted + 0, extracted := t.extracted }, ?_,
        hrel, hwf, hall, hord⟩
      simp [heap_apply, heap_insert_full x hfull, bind, Except.bind, pure, Except.pure]
    · obtain ⟨h1, hins, _, _, hr1, hwf1, hall1, hord1, _⟩ :=
        heap_insert_spec hR x hrel hwf hall hord (hop x rfl) hfull
      refine ⟨{ heap := h1, inserted := t.inserted + 1, extracted := t.extracted }, ?_,
        hr1.trans hrel, hwf1, hall1, hord1⟩
      simp [heap_apply, hins, bind, Except.bind, pure, Except.pure]
  | extract =>
    by_cases h0 : t.heap.size = 0
    · refine ⟨{ heap := t.heap, inserted := t.inserted, extracted := t.extracted + 0 }, ?_,
        hrel, hwf, hall, hord⟩
      simp [heap_apply, heap_extract_root_empty h0, heap_size, h0, bind, Except.bind, pure,
        Except.pure]
    · obtain ⟨x, h1, hext, _, _, _, hr1, hwf1, hall1, hord1, _⟩ :=
        heap_extract_root_spec hR hrel hwf hall hord h0
      refine ⟨{ heap := h1, inserted := t.inserted, extracted := t.extracted + 1 }, ?_,
        hr1.trans hrel, hwf1, hall1, hord1⟩
      simp [heap_apply, hext, heap_size, h0, bind, Except.bind, pure, Except.pure]

theorem heap_run_ordered {P : α → Prop} {R : α → α → Bool} (hR : TotalPreorderOn P R)
    (ops : List (HeapOp α)) (hops : ∀ x, HeapOp.insert x ∈ ops → P x) :
    ∀ (t : HeapTrace α), t.heap.rel = R → HeapWF t.heap → HeapAll P t.heap →
      HeapOrdered t.heap →
    ∃ t1, heap_run t ops = Except.ok t1 ∧ t1.heap.rel = R ∧ HeapWF t1.heap ∧
      HeapAll P t1.heap ∧ HeapOrdered t1.heap := by
  induction ops with
  | nil => intro t hrel hwf hall hord; exact ⟨t, rfl, hrel, hwf, hall, hord⟩
  | cons op ops ih =>
    intro t hrel hwf hall hord
    obtain ⟨t1, h1, hr1, hwf1, hall1, hord1⟩ :=
      heap_apply_ordered hR op (fun x hx => hops x (by rw [hx]; exact List.mem_cons_self _ _))
        hrel hwf hall hord
    obtain ⟨t2, h2, hr2, hwf2, hall2, hord2⟩ :=
      ih (fun x hx => hops x (List.mem_cons_of_mem _ hx)) t1 hr1 hwf1 hall1 hord1
    refine ⟨t2, ?_, hr2, hwf2, hall2, hord2⟩
    simp [heap_run, h1, h2, bind, Except.bind]

theorem heap_session_ordered {R : α → α → Bool}
    (htotal : ∀ a b, R a b = true ∨ R b a = true)
    (htrans : ∀ a b c, R a b = true → R b c = true → R a c = true)
    (max_size : Nat) (ops : List (HeapOp α)) (t : HeapTrace α)
    (hrun : heap_session max_size R ops = Except.ok t) :
    TotalPreorderOn (fun _ => True) R ∧ t.heap.rel = R ∧ HeapWF t.heap ∧
      HeapAll (fun _ => True) t.heap ∧ HeapOrdered t.heap := by
  have hR : TotalPreorderOn (fun _ : α => True) R :=
    ⟨fun a b _ _ => htotal a b, fun a b c _ _ _ => htrans a b c⟩
  by_cases hmax : 0 < max_size
  · obtain ⟨h0, hc, _, _, hr0, hwf0, hord0, hall0⟩ := heap_create_spec max_size R hmax
    obtain ⟨t1, h1, hr1, hwf1, hall1, hord1⟩ :=
      heap_run_ordered hR ops (fun _ _ => trivial)
        { heap := h0, inserted := 0, extracted := 0 } hr0 hwf0 (hall0 _) hord0
    have : heap_session max_size R ops = Except.ok t1 := by
      simp [heap_session, hc, h1, bind, Except.bind]
    rw [this] at hrun
    cases hrun
    exact ⟨hR, hr1, hwf1, hall1, hord1⟩
  · simp [heap_session, heap_create, hmax, bind, Except.bind] at hrun

theorem heap_insert_all_spec {P : α → Prop} {R : α → α → Bool} (hR : TotalPreorderOn P R)
    (es : List α) :
    ∀ (h : Heap α), h.rel = R → HeapWF h → HeapAll P h → HeapOrdered h →
      (∀ e, e ∈ es → P e) → h.size + es.length ≤ h.max →
      ∃ h1, heap_insert_all h es = Except.ok h1 ∧ h1.rel = R ∧ HeapWF h1 ∧ HeapAll P h1 ∧
        HeapOrdered h1 ∧ h1.max = h.max ∧ h1.size = h.size + es.length ∧
        (heap_items h1).Perm (es ++ heap_items h) := by
  induction es with
  | nil =>
    intro h hrel hwf hall hord _ _
    exact ⟨h, rfl, hrel, hwf, hall, hord, rfl, rfl, List.Perm.refl _⟩
  | cons x es ih =>
    intro h hrel hwf hall hord hP hcap
    have hroom : h.size ≠ h.max := by
      simp only [List.length_cons] at hcap; omega
    obtain ⟨h1, hins, hs1, hm1, hr1, hwf1, hall1, hord1, hperm1⟩ :=
      heap_insert_spec hR x hrel hwf hall hord (hP x (List.mem_cons_self _ _)) hroom
    obtain ⟨h2, hrun, hr2, hwf2, hall2, hord2, hm2, hs2, hperm2⟩ :=
      ih h1 (hr1.trans hrel) hwf1 hall1 hord1 (fun e he => hP e (List.mem_cons_of_mem _ he))
        (by simp only [List.length_cons] at hcap; omega)
    refine ⟨h2, ?_, hr2, hwf2, hall2, hord2, hm2.trans hm1, ?_, ?_⟩
    · simp [heap_insert_all, hins, hrun, bind, Except.bind]
    · simp only [List.length_cons]; omega
    · have h3 : (es ++ heap_items h1).Perm (es ++ x :: heap_items h) :=
        List.Perm.append_left es hperm1
      exact hperm2.trans (h3.trans List.perm_middle)

theorem heap_items_of_size_zero {h : Heap α} (h0 : h.size = 0) : heap_items h = [] := by
  simp [heap_items, h0]

theorem heap_drain_spec {P : α → Prop} {R : α → α → Bool} (hR : TotalPreorderOn P R) :
    ∀ (fuel : Nat) (h : Heap α), h.rel = R → HeapWF h → HeapAll P h → HeapOrdered h →
      h.size ≤ fuel →
      ∃ out : List α, heap_drain fuel h = Except.ok (out.map some) ∧
        out.Perm (heap_items h) ∧ out.Pairwise (fun a b => R b a = true) := by
  intro fuel
  induction fuel with
  | zero =>
    intro h _ _ _ _ hle
    have h0 : h.size = 0 := by omega
    refine ⟨[], ?_, by rw [heap_items_of_size_zero h0], List.Pairwise.nil⟩
    simp [heap_drain, heap_size, h0]
  | succ fuel ih =>
    intro h hrel hwf hall hord hle
    by_cases h0 : h.size = 0
    · refine ⟨[], ?_, by rw [heap_items_of_size_zero h0], List.Pairwise.nil⟩
      simp [heap_drain, heap_size, h0]
    · obtain ⟨x, h1, hext, _, hs1, _, hr1, hwf1, hall1, hord1, hperm1, hmin⟩ :=
        heap_extract_root_spec hR hrel hwf hall hord h0
      obtain ⟨out, hrun, hperm, hpw⟩ :=
        ih h1 (hr1.trans hrel) hwf1 hall1 hord1 (by omega)
      refine ⟨x :: out, ?_, (List.Perm.cons x hperm).trans hperm1, ?_⟩
      · simp [heap_drain, heap_size, h0, hext, hrun, bind, Except.bind, pure, Except.pure]
      · refine List.Pairwise.cons ?_ hpw
        intro b hb
        apply hmin
        exact hperm1.subset (List.mem_cons_of_mem _ (hperm.subset hb))

theorem edge_relation_of_live [LE W] [DecidableRel (α := W) (· ≤ ·)] {g : Graph W} {a b : EdgePtr}
    {x y : Edge W}
    (ha : g.store[a]? = some (some x)) (hb : g.store[b]? = some (some y)) :
    edge_relation g a b = decide (x.weight ≥ y.weight) := by
  simp [edge_relation, ha, hb]

theorem edge_relation_total_of_numbers (g : Graph CFloat)
    (h : ∀ (e : EdgePtr) (ed : Edge CFloat), g.store[e]? = some (some ed) →
      ∃ x, ed.weight = CFloat.num x) :
    TotalPreorderOn (edge_live g) (edge_relation g) := by
  have hle : ∀ x y : Int, (CFloat.num x ≤ CFloat.num y) ↔ x ≤ y := by
    intro x y
    show CFloat.le (CFloat.num x) (CFloat.num y) = true ↔ x ≤ y
    simp [CFloat.le]
  constructor
  · rintro a b ⟨x, hx⟩ ⟨y, hy⟩
    obtain ⟨u, hu⟩ := h a x hx
    obtain ⟨v, hv⟩ := h b y hy
    rw [edge_relation_of_live hx hy, edge_relation_of_live hy hx, hu, hv]
    simp only [decide_eq_true_eq, ge_iff_le, hle]
    exact le_total v u
  · rintro a b c ⟨x, hx⟩ ⟨y, hy⟩ ⟨z, hz⟩
    obtain ⟨u, hu⟩ := h a x hx
    obtain ⟨v, hv⟩ := h b y hy
    obtain ⟨w, hw⟩ := h c z hz
    rw [edge_relation_of_live hx hy, edge_relation_of_live hy hz, edge_relation_of_live hx hz,
      hu, hv, hw]
    simp only [decide_eq_true_eq, ge_iff_le, hle]
    intro h1 h2
    exact le_trans h2 h1

theorem graph_square_float_numbers :
    TotalPreorderOn (edge_live graph_square_float) (edge_relation graph_square_float) := by
  apply edge_relation_total_of_numbers
  intro e ed h
  rcases e with _ | _ | _ | _ | e <;> simp [graph_square_float] at h <;> subst h <;>
    exact ⟨_, rfl⟩

theorem graph_square_float_ends_in_range : GraphEndsInRange graph_square_float := by
  intro p a b h
  rcases p with _ | _ | _ | _ | p <;> simp [edge_ends, graph_square_float] at h <;>
    simp [graph_square_float, ← h.1, ← h.2]

theorem graph_square_float_wf : GraphWF graph_square_float := by
  refine ⟨by decide, rfl, ?_, ?_⟩
  · intro i row h
    rcases i with _ | _ | _ | _ | i <;> simp [graph_square_float] at h <;> subst h <;> rfl
  · have key : ∀ i, i < 4 → ∀ j, j < 4 → ∀ p, p ∈ graph_cell_ptr graph_square_float i j →
        (edge_ends graph_square_float p = some (i, j) ∨
          edge_ends graph_square_float p = some (j, i)) := by
      decide
    intro i j hi hj p hp
    exact key i hi j hj p hp

theorem graph_square_float_full : GraphFull graph_square_float := by
  unfold GraphFull
  decide

theorem nat_relation_total (a b : Nat) : nat_relation a b = true ∨ nat_relation b a = true := by
  simp only [nat_relation, decide_eq_true_eq]; omega

theorem nat_relation_trans (a b c : Nat) (h1 : nat_relation a b = true)
    (h2 : nat_relation b c = true) : nat_relation a c = true := by
  simp only [nat_relation, decide_eq_true_eq] at *; omega

/-- C7: for a total preorder `R` given to `heap_create` and a heap reached from the empty
heap by any sequence of `heap_insert` and `heap_extract_root` calls, `heap_extract_root`
on a non-empty heap returns an item `x` that the heap holds and that is minimal:
`R y x` holds for every item `y` held before the call; the items left are the others. -/
theorem heap_extract_root_minimal (R : α → α → Bool)
    (htotal : ∀ a b, R a b = true ∨ R b a = true)
    (htrans : ∀ a b c, R a b = true → R b c = true → R a c = true)
    (max_size : Nat) (ops : List (HeapOp α)) (t : HeapTrace α)
    (hrun : heap_session max_size R ops = Except.ok t) (hne : heap_size t.heap ≠ 0) :
    ∃ x h1, heap_extract_root t.heap = Except.ok (h1, some x) ∧ x ∈ heap_items t.heap ∧
      (∀ y, y ∈ heap_items t.heap → R y x = true) ∧
      (x :: heap_items h1).Perm (heap_items t.heap) := by
  obtain ⟨hR, hrel, hwf, hall, hord⟩ := heap_session_ordered htotal htrans max_size ops t hrun
  obtain ⟨x, h1, hext, _, _, _, _, _, _, _, hperm, hmin⟩ :=
    heap_extract_root_spec hR hrel hwf hall hord hne
  exact ⟨x, h1, hext, hperm.subset (List.mem_cons_self _ _), hmin, hperm⟩

/-- Witness of C7: three inserts into a heap of capacity 3 ordered by `>=`. -/
theorem heap_extract_root_minimal_witness :
    heap_session 3 nat_relation [HeapOp.insert 2, HeapOp.insert 1, HeapOp.insert 3] =
        Except.ok { heap := heap_example, inserted := 3, extracted := 0 } ∧
      heap_size heap_example ≠ 0 ∧
      ∃ x h1, heap_extract_root heap_example = Except.ok (h1, some x) ∧
        x ∈ heap_items heap_example ∧
        (∀ y, y ∈ heap_items heap_example → nat_relation y x = true) ∧
        (x :: heap_items h1).Perm (heap_items heap_example) :=
  ⟨rfl, by decide, heap_extract_root_minimal nat_relation nat_relation_total
    nat_relation_trans 3 [HeapOp.insert 2, HeapOp.insert 1, HeapOp.insert 3]
    { heap := heap_example, inserted := 3, extracted := 0 } rfl (by decide)⟩

/-- C8, amended to weights without NaN: with the relation of `kruskal` (`edge_relation`:
`R a b` iff `weight a >= weight b`) on a graph where `>=` is a total preorder on the
weights of the edges (for `float` weights: none of them is a NaN), inserting a list of live edges no
longer than the capacity into the empty heap and calling `heap_extract_root` until the
heap is empty returns a permutation of the inserted edges in non-decreasing order of
weight. -/
theorem heap_sort_edge_relation [LE W] [DecidableRel (α := W) (· ≤ ·)] (g : Graph W)
    (es : List EdgePtr) (max_size : Nat)
    (hnum : TotalPreorderOn (edge_live g) (edge_relation g))
    (hlive : ∀ e, e ∈ es → edge_live g e) (hlen : es.length ≤ max_size)
    (hmax : 0 < max_size) :
    ∃ (h0 h1 : Heap EdgePtr) (out : List EdgePtr), heap_create max_size (edge_relation g) = Except.ok h0 ∧
      heap_insert_all h0 es = Except.ok h1 ∧
      heap_drain (heap_size h1) h1 = Except.ok (out.map some) ∧ heap_size h1 = es.length ∧
      out.Perm es ∧
      out.Pairwise (fun a b => ∃ x y, edge_deref g a = Except.ok x ∧
        edge_deref g b = Except.ok y ∧ x.weight ≤ y.weight) := by
  have hR := hnum
  obtain ⟨h0, hc, hs0, hm0, hr0, hwf0, hord0, hall0⟩ :=
    heap_create_spec max_size (edge_relation g) hmax
  obtain ⟨h1, hins, hr1, hwf1, hall1, hord1, _, hs1, hperm1⟩ :=
    heap_insert_all_spec hR es h0 hr0 hwf0 (hall0 _) hord0 hlive (by rw [hs0, hm0]; omega)
  obtain ⟨out, hdr, hperm, hpw⟩ :=
    heap_drain_spec hR h1.size h1 hr1 hwf1 hall1 hord1 (le_refl _)
  have hperm2 : out.Perm es := by
    have : heap_items h0 = [] := heap_items_of_size_zero hs0
    rw [this, List.append_nil] at hperm1
    exact hperm.trans hperm1
  refine ⟨h0, h1, out, hc, hins, hdr, by simp [heap_size, hs1, hs0], hperm2, ?_⟩
  refine List.Pairwise.imp_of_mem ?_ hpw
  intro a b ha hb hab
  obtain ⟨x, hx⟩ := hlive a (hperm2.subset ha)
  obtain ⟨y, hy⟩ := hlive b (hperm2.subset hb)
  refine ⟨x, y, by simp [edge_deref, hx], by simp [edge_deref, hy], ?_⟩
  rw [edge_relation_of_live hy hx] at hab
  simpa using hab

/-- Witness of C8 (amended): the four edges of the square with `float` weights, none of them a
NaN, in a heap of capacity 16. -/
theorem heap_sort_edge_relation_witness :
    TotalPreorderOn (edge_live graph_square_float) (edge_relation graph_square_float) ∧
      (∀ e, e ∈ [0, 1, 2, 3] → edge_live graph_square_float e) ∧
      ∃ (h0 h1 : Heap EdgePtr) (out : List EdgePtr), heap_create 16 (edge_relation graph_square_float) = Except.ok h0 ∧
        heap_insert_all h0 [0, 1, 2, 3] = Except.ok h1 ∧
        heap_drain (heap_size h1) h1 = Except.ok (out.map some) ∧
        heap_size h1 = [0, 1, 2, 3].length ∧ out.Perm [0, 1, 2, 3] ∧
        out.Pairwise (fun a b => ∃ x y, edge_deref graph_square_float a = Except.ok x ∧
          edge_deref graph_square_float b = Except.ok y ∧ x.weight ≤ y.weight) :=
  have hlive : ∀ e, e ∈ [0, 1, 2, 3] → edge_live graph_square_float e := by
    intro e he
    simp only [List.mem_cons, List.mem_singleton, List.not_mem_nil, or_false] at he
    rcases he with rfl | rfl | rfl | rfl <;> exact ⟨_, rfl⟩
  ⟨graph_square_float_numbers, hlive,
    heap_sort_edge_relation graph_square_float [0, 1, 2, 3] 16 graph_square_float_numbers
      hlive (by decide) (by decide)⟩

/-- Counterexample to C8: the four edges of `graph_nan`, of weights 1, NaN, 1 and 5,
inserted in the empty heap of capacity 16 ordered by `edge_relation` and extracted until
the heap is empty, come out as the edges 2, 3, 0, 1, of weights 1, 5, 1, NaN: the edge
of weight 5 leaves the heap before an edge of weight 1. -/
theorem heap_sort_nan_counterexample :
    graph_of_edges 4 [(0, 1, CFloat.num 1), (0, 2, CFloat.nan), (0, 3, CFloat.num 1),
        (1, 3, CFloat.num 5)] = Except.ok graph_nan ∧
      (∀ e, e ∈ [0, 1, 2, 3] → edge_live graph_nan e) ∧
      (∃ (h0 h1 : Heap EdgePtr), heap_create 16 (edge_relation graph_nan) = Except.ok h0 ∧
        heap_insert_all h0 [0, 1, 2, 3] = Except.ok h1 ∧
        heap_drain (heap_size h1) h1 = Except.ok ([2, 3, 0, 1].map some)) ∧
      edge_weight graph_nan 3 = some (CFloat.num 5) ∧
      edge_weight graph_nan 0 = some (CFloat.num 1) ∧
      ¬ ([2, 3, 0, 1] : List EdgePtr).Pairwise (fun a b => ∃ x y,
        edge_deref graph_nan a = Except.ok x ∧ edge_deref graph_nan b = Except.ok y ∧
          x.weight ≤ y.weight) := by
  refine ⟨by decide, ?_, ⟨_, _, rfl, rfl, rfl⟩, rfl, rfl, ?_⟩
  · intro e he
    simp only [List.mem_cons, List.mem_singleton, List.not_mem_nil, or_false] at he
    rcases he with rfl | rfl | rfl | rfl <;> exact ⟨_, rfl⟩
  · intro h
    obtain ⟨x, y, hx, hy, hle⟩ :=
      (List.pairwise_cons.mp (List.pairwise_cons.mp h).2).1 0 (by simp)
    cases hx
    cases hy
    exact absurd hle (by decide)

/-- C9: for every sequence of `heap_insert` and `heap_extract_root` calls from the empty
heap, no call faults, `heap_size` is the number of inserts that succeeded minus the
number of extractions made on a non-empty heap, it never exceeds the capacity, and an
insert made when the size is the capacity returns `0` and leaves the heap as it is. -/
theorem heap_size_accounting (R : α → α → Bool) (max_size : Nat) (hmax : 0 < max_size)
    (ops : List (HeapOp α)) :
    ∃ t, heap_session max_size R ops = Except.ok t ∧
      heap_size t.heap + t.extracted = t.inserted ∧
      heap_size t.heap ≤ max_size ∧ heap_max_size t.heap = max_size ∧
      ∀ x, heap_size t.heap = heap_max_size t.heap →
        heap_insert t.heap x = Except.ok (t.heap, false) := by
  obtain ⟨h0, hc, hs0, hm0, _, hwf0, _, _⟩ := heap_create_spec max_size R hmax
  obtain ⟨t, hrun, _, hm, hwf, hcount⟩ :=
    heap_run_shape ops { heap := h0, inserted := 0, extracted := 0 } hwf0
  have hm' : t.heap.max = max_size := hm.trans hm0
  refine ⟨t, ?_, ?_, ?_, hm', ?_⟩
  · simp [heap_session, hc, hrun, bind, Except.bind]
  · simp only [heap_size]; simp only [hs0] at hcount; omega
  · simp only [heap_size]; rw [← hm']; exact hwf.size_le
  · intro x hfull
    exact heap_insert_full x hfull

/-- Witness of C9: capacity 2, three inserts (the third one refused) and one extraction. -/
theorem heap_size_accounting_witness :
    0 < 2 ∧ ∃ t, heap_session 2 nat_relation
        [HeapOp.insert 1, HeapOp.insert 2, HeapOp.insert 3, HeapOp.extract] = Except.ok t ∧
      heap_size t.heap + t.extracted = t.inserted ∧
      heap_size t.heap ≤ 2 ∧ heap_max_size t.heap = 2 ∧
      ∀ x, heap_size t.heap = heap_max_size t.heap →
        heap_insert t.heap x = Except.ok (t.heap, false) :=
  ⟨by decide, heap_size_accounting nat_relation 2 (by decide)
    [HeapOp.insert 1, HeapOp.insert 2, HeapOp.insert 3, HeapOp.extract]⟩

/-- C10, as the code has it: on an empty heap `heap_extract_root` returns `NULL` and
leaves the heap unchanged, while `heap_root` requires a non-empty heap: its assertion
`h->size != 0` fails and no value is returned. -/
theorem heap_empty_extract_root_and_root (h : Heap α) (hempty : heap_size h = 0) :
    heap_extract_root h = Except.ok (h, none) ∧
      heap_root h = Except.error Fault.assertion := by
  have h0 : h.size = 0 := hempty
  exact ⟨heap_extract_root_empty h0, by simp [heap_root, h0]⟩

/-- Witness of C10 (amended): the heap fresh from `heap_create 3`. -/
theorem heap_empty_extract_root_and_root_witness :
    heap_size heap_empty_example = 0 ∧
      heap_extract_root heap_empty_example = Except.ok (heap_empty_example, none) ∧
      heap_root heap_empty_example = Except.error Fault.assertion :=
  ⟨rfl, heap_empty_extract_root_and_root heap_empty_example rfl⟩

/-- Counterexample to C10 as stated: on the empty heap fresh from `heap_create 3`,
`heap_root` does not return `NULL`. -/
theorem heap_root_empty_counterexample :
    heap_create 3 nat_relation = Except.ok heap_empty_example ∧
      heap_size heap_empty_example = 0 ∧
      ¬ (heap_root heap_empty_example = Except.ok none) := by
  refine ⟨rfl, rfl, ?_⟩
  intro h
  simp [heap_root, heap_empty_example] at h

/-! ## Kruskal and BFS on two concrete graphs -/

theorem reach_of_step {es : List (Nat × Nat)} {u v : Nat} (h : EdgeStep es u v) :
    Reach es u v := Relation.ReflTransGen.single h

theorem reach_refl (es : List (Nat × Nat)) (u : Nat) : Reach es u u :=
  Relation.ReflTransGen.refl

theorem reach_trans {es : List (Nat × Nat)} {u v w : Nat} (h1 : Reach es u v)
    (h2 : Reach es v w) : Reach es u w := Relation.ReflTransGen.trans h1 h2

theorem edgeStep_symm {es : List (Nat × Nat)} {u v : Nat} (h : EdgeStep es u v) :
    EdgeStep es v u := Or.symm h

theorem reach_symm {es : List (Nat × Nat)} {u v : Nat} (h : Reach es u v) : Reach es v u := by
  induction h with
  | refl => exact reach_refl _ _
  | tail _ hbc ih => exact reach_trans (reach_of_step (edgeStep_symm hbc)) ih

theorem graph_path_connected (u v : Nat) (hu : u ∈ graph_vertices graph_path)
    (hv : v ∈ graph_vertices graph_path) :
    Reach (edges_ends graph_path (graph_edge_ptrs graph_path)) u v := by
  have hes : edges_ends graph_path (graph_edge_ptrs graph_path) = [(1, 2), (0, 3), (2, 3)] := by
    decide
  rw [hes]
  have h03 : Reach [(1, 2), (0, 3), (2, 3)] 0 3 := reach_of_step (Or.inl (by decide))
  have h32 : Reach [(1, 2), (0, 3), (2, 3)] 3 2 := reach_of_step (Or.inr (by decide))
  have h21 : Reach [(1, 2), (0, 3), (2, 3)] 2 1 := reach_of_step (Or.inr (by decide))
  have key : ∀ w, w ∈ graph_vertices graph_path → Reach [(1, 2), (0, 3), (2, 3)] 0 w := by
    intro w hw
    have hvs : graph_vertices graph_path = [0, 1, 2, 3] := by decide
    rw [hvs] at hw
    simp only [List.mem_cons, List.mem_singleton, List.not_mem_nil, or_false] at hw
    rcases hw with rfl | rfl | rfl | rfl
    · exact reach_refl _ _
    · exact reach_trans h03 (reach_trans h32 h21)
    · exact reach_trans h03 h32
    · exact h03
  exact reach_trans (reach_symm (key u hu)) (key v hv)

/-- C1 on the failing input: `graph_path` is connected, without self-loop, all `WHITE`,
yet after `kruskal` the `SELECTED` edges are `(0,3)` and `(2,3)` only: the present vertex
1 is touched by no selected edge, so they are not a spanning tree. -/
theorem kruskal_path_not_spanning :
    graph_of_edges 4 [(0, 3, (1 : Int)), (1, 2, 1), (2, 3, 1)] = Except.ok graph_path ∧
      kruskal graph_path = Except.ok graph_path_done ∧
      edges_ends graph_path_done (graph_selected graph_path_done) = [(0, 3), (2, 3)] ∧
      graph_present graph_path_done 1 = true ∧
      ¬ Reach (edges_ends graph_path_done (graph_selected graph_path_done)) 0 1 ∧
      ∀ u v, u ∈ graph_vertices graph_path → v ∈ graph_vertices graph_path →
        Reach (edges_ends graph_path (graph_edge_ptrs graph_path)) u v := by
  refine ⟨by decide, by decide, by decide, by decide, ?_, graph_path_connected⟩
  have hes : edges_ends graph_path_done (graph_selected graph_path_done) = [(0, 3), (2, 3)] := by
    decide
  rw [hes]
  intro h
  have key : ∀ a b, Reach [(0, 3), (2, 3)] a b → b = 1 → a = 1 := by
    intro a b hab
    induction hab with
    | refl => exact id
    | tail _ hstep ih =>
      intro hc
      subst hc
      rcases hstep with hm | hm <;>
        simp only [List.mem_cons, List.mem_singleton, Prod.mk.injEq, List.not_mem_nil,
          or_false] at hm <;> omega
  exact absurd (key 0 1 h rfl) (by decide)

/-- C2 on the failing input: `graph_path` has 4 present vertices in one connected
component, and after `kruskal` it has 2 `SELECTED` edges, not `4 - 1`. -/
theorem kruskal_path_selected_count :
    kruskal graph_path = Except.ok graph_path_done ∧
      (graph_selected graph_path_done).length = 2 ∧
      (graph_vertices graph_path).length = 4 ∧
      ∀ u v, u ∈ graph_vertices graph_path → v ∈ graph_vertices graph_path →
        Reach (edges_ends graph_path (graph_edge_ptrs graph_path)) u v :=
  ⟨by decide, by decide, by decide, graph_path_connected⟩

/-- C3 on the failing input: after `kruskal` the edge between 1 and 2 of `graph_path`
is still in the graph and still `WHITE`, neither `BLUE` nor `RED`. -/
theorem kruskal_path_leaves_white :
    kruskal graph_path = Except.ok graph_path_done ∧
      graph_edge_attr graph_path 1 2 = Except.ok (some WHITE) ∧
      graph_edge_attr graph_path_done 1 2 = Except.ok (some WHITE) ∧
      graph_coloured graph_path_done WHITE = [1] := by
  decide

/-- C4 on the failing input: on `graph_path` (symmetric, no self-loop) the enumeration
is the edge `(0,3)`, then `(2,3)`, then `NULL`; the edge between 1 and 2 never comes. -/
theorem graph_enumerate_path_skips :
    graph_first_edge graph_path = Except.ok (some 0) ∧
      graph_next_edge graph_path 0 = Except.ok (some 2) ∧
      graph_next_edge graph_path 2 = Except.ok none ∧
      graph_enumerate graph_path = Except.ok [0, 2] ∧
      graph_get_edge graph_path 1 2 = Except.ok (some 1) ∧
      1 ∈ graph_edge_ptrs graph_path ∧
      edges_ends graph_path [0, 1, 2] = [(0, 3), (1, 2), (2, 3)] := by
  decide

/-- C5: on the square built by `graph_add_edge` of `(0,1,1)`, `(1,2,2)`, `(2,3,1)`,
`(0,3,5)` with colour `WHITE`, `kruskal` colours `(0,1)`, `(2,3)` and `(1,2)` `BLUE`
(total weight 4) and `(0,3)` `RED`, and `bfs` then yields the parents `[-1, 0, 1, 2]`. -/
theorem kruskal_bfs_square :
    graph_of_edges 4 [(0, 1, (1 : Int)), (1, 2, 2), (2, 3, 1), (0, 3, 5)] =
        Except.ok graph_square ∧
      kruskal graph_square = Except.ok graph_square_done ∧
      graph_edge_attr graph_square_done 0 1 = Except.ok (some BLUE) ∧
      graph_edge_attr graph_square_done 2 3 = Except.ok (some BLUE) ∧
      graph_edge_attr graph_square_done 1 2 = Except.ok (some BLUE) ∧
      graph_edge_attr graph_square_done 0 3 = Except.ok (some RED) ∧
      ((graph_selected graph_square_done).filterMap (edge_weight graph_square_done)).sum = 4 ∧
      bfs graph_square_done [0, 0, 0, 0] = Except.ok [-1, 0, 1, 2] := by
  decide

/-! ## Paths and cycles in a list of edges -/

theorem reach_mono {es es2 : List (Nat × Nat)} (hsub : ∀ e, e ∈ es → e ∈ es2) {u v : Nat}
    (h : Reach es u v) : Reach es2 u v := by
  refine Relation.ReflTransGen.mono ?_ h
  intro a b hab
  rcases hab with hab | hab
  · exact Or.inl (hsub _ hab)
  · exact Or.inr (hsub _ hab)

theorem reach_nil {u v : Nat} (h : Reach [] u v) : u = v := by
  induction h with
  | refl => rfl
  | tail _ hstep _ => rcases hstep with hm | hm <;> simp at hm

theorem reach_cons_of_ends {a b : Nat} {es : List (Nat × Nat)} {u v : Nat}
    (h1 : Reach es u a) (h2 : Reach es b v) : Reach ((a, b) :: es) u v :=
  reach_trans (reach_mono (fun _ he => List.mem_cons_of_mem _ he) h1)
    (reach_trans (reach_of_step (Or.inl (List.mem_cons_self _ _)))
      (reach_mono (fun _ he => List.mem_cons_of_mem _ he) h2))

theorem bind_ok {ε β γ : Type} {x : Except ε β} {f : β → Except ε γ} {c : γ}
    (h : (x >>= f) = Except.ok c) : ∃ a, x = Except.ok a ∧ f a = Except.ok c := by
  cases x with
  | error e => simp [bind, Except.bind] at h
  | ok a => exact ⟨a, rfl, h⟩

theorem dsets_father_of_get {ds : DSets} {v : Nat} {x : Int} (h : ds.father[v]? = some x) :
    dsets_father ds (v : Int) = Except.ok x := by
  simp [dsets_father, h]

theorem dsets_father_neg_one (ds : DSets) :
    dsets_father ds (-1) = Except.error Fault.outOfBounds := by
  simp [dsets_father]

theorem dsets_set_father_of_lt {ds : DSets} {v : Nat} (x : Int) (hv : v < ds.father.length) :
    dsets_set_father ds (v : Int) x = Except.ok { ds with father := ds.father.set v x } := by
  simp [dsets_set_father, hv]

theorem dsets_placed_set_father {ds : DSets} {n : Nat} {x : Int} (hx : x ≠ -1)
    (hn : dsets_placed ds n) (hlen : ds.father.length = ds.size) (v : Nat) :
    dsets_placed { ds with father := ds.father.set n x } v ↔ dsets_placed ds v := by
  unfold dsets_placed
  by_cases hvn : v = n
  · subst hvn
    constructor
    · intro _; exact hn
    · intro h
      refine ⟨h.1, x, ?_, hx⟩
      have : v < ds.father.length := by rw [hlen]; exact h.1
      simp [this]
  · have : n ≠ v := fun e => hvn e.symm
    simp only [List.getElem?_set_ne this]

theorem dsets_find_set_loop_spec {root height : Nat → Nat} :
    ∀ (fuel : Nat) (ds : DSets) (n : Nat) (ds1 : DSets) (r : Int),
      DSetsInv ds root height → dsets_placed ds n →
      dsets_find_set_loop fuel ds (n : Int) = Except.ok (ds1, r) →
      DSetsInv ds1 root height ∧ r = (root n : Int) ∧ ds1.size = ds.size ∧
        ds1.rank = ds.rank ∧ ∀ v, dsets_placed ds1 v ↔ dsets_placed ds v := by
  intro fuel
  induction fuel with
  | zero =>
    intro ds n ds1 r inv hn hrun
    obtain ⟨p, hfp, hpp, hrp, _, _⟩ := inv.link n hn
    obtain ⟨q, hfq, _, _, hselfq, _⟩ := inv.link p hpp
    simp only [dsets_find_set_loop, dsets_father_of_get hfp, dsets_father_of_get hfq, bind,
      Except.bind] at hrun
    by_cases hqp : q = p
    · rw [if_neg (by omega)] at hrun
      cases hrun
      exact ⟨inv, by rw [← hrp, hselfq hqp], rfl, rfl, fun _ => Iff.rfl⟩
    · rw [if_pos ⟨by omega, by omega⟩] at hrun
      cases hrun
  | succ fuel ih =>
    intro ds n ds1 r inv hn hrun
    obtain ⟨p, hfp, hpp, hrp, hselfn, hhn⟩ := inv.link n hn
    obtain ⟨q, hfq, hqq, hrq, hselfq, hhq⟩ := inv.link p hpp
    obtain ⟨s, hfs, hss, hrs, _, _⟩ := inv.link q hqq
    simp only [dsets_find_set_loop, dsets_father_of_get hfp, dsets_father_of_get hfq, bind,
      Except.bind] at hrun
    by_cases hqp : q = p
    · rw [if_neg (by omega)] at hrun
      cases hrun
      exact ⟨inv, by rw [← hrp, hselfq hqp], rfl, rfl, fun _ => Iff.rfl⟩
    · rw [if_pos ⟨by omega, by omega⟩] at hrun
      have hnlen : n < ds.father.length := by rw [inv.father_len]; exact hn.1
      have hpn : p ≠ n := by
        intro e
        rw [e, hfp] at hfq
        exact hqp (by
          have := Option.some.inj hfq
          omega)
      have hqn : q ≠ n := by
        intro e
        have h1 := hhn hpn
        have h2 := hhq hqp
        rw [e] at h2
        omega
      -- the state after `ds->father[n] = ds->father[ds->father[n]]`
      obtain ⟨ds2, hds2⟩ : ∃ ds2 : DSets, ds2 = { ds with father := ds.father.set n (q : Int) } :=
        ⟨_, rfl⟩
      have hget2 : ∀ v, ds2.father[v]? = if v = n then some (q : Int) else ds.father[v]? := by
        intro v
        rw [hds2]
        by_cases hvn : v = n
        · subst hvn; simp [hnlen]
        · have : n ≠ v := fun e => hvn e.symm
          simp [List.getElem?_set_ne this, hvn]
      have hpl2 : ∀ v, dsets_placed ds2 v ↔ dsets_placed ds v := by
        intro v
        rw [hds2]
        exact dsets_placed_set_father (by omega) hn inv.father_len v
      have hsz2 : ds2.size = ds.size := by rw [hds2]
      have inv2 : DSetsInv ds2 root height := by
        refine ⟨?_, ?_, ?_, ?_⟩
        · rw [hds2]; simp only [List.length_set]; exact inv.father_len
        · rw [hds2]; exact inv.rank_len
        · intro v hv
          by_cases hvn : v = n
          · subst hvn
            refine ⟨q, by rw [hget2]; simp, (hpl2 q).mpr hqq, hrq.trans hrp,
              fun e => absurd e hqn, fun _ => ?_⟩
            have h1 := hhn hpn
            have h2 := hhq hqp
            omega
          · obtain ⟨pv, hfpv, hpvp, hrpv, hselfv, hhv⟩ := inv.link v ((hpl2 v).mp hv)
            exact ⟨pv, by rw [hget2, if_neg hvn]; exact hfpv, (hpl2 pv).mpr hpvp, hrpv,
              hselfv, hhv⟩
        · intro v hv
          obtain ⟨h1, h2⟩ := inv.root_placed v ((hpl2 v).mp hv)
          refine ⟨(hpl2 _).mpr h1, ?_⟩
          rw [hget2]
          by_cases hrn : root v = n
          · exfalso
            rw [hrn, hfp] at h2
            exact hpn (by
              have := Option.some.inj h2
              omega)
          · rw [if_neg hrn]; exact h2
      have hf2n : ds2.father[n]? = some (q : Int) := by rw [hget2]; simp
      have hf2q : ds2.father[q]? = some (s : Int) := by rw [hget2, if_neg hqn]; exact hfs
      rw [dsets_set_father_of_lt _ hnlen, ← hds2] at hrun
      simp only [dsets_father_of_get hf2n, dsets_father_of_get hf2q] at hrun
      obtain ⟨inv1, hr, hs1, hk1, hpl1⟩ := ih ds2 s ds1 r inv2 ((hpl2 s).mpr hss) hrun
      refine ⟨inv1, ?_, hs1.trans hsz2, ?_, fun v => (hpl1 v).trans (hpl2 v)⟩
      · rw [hr, hrs, hrq, hrp]
      · rw [hk1, hds2]

theorem dsets_find_set_spec {root height : Nat → Nat} {ds ds1 : DSets} {n : Nat} {r : Int}
    (inv : DSetsInv ds root height) (hn : dsets_placed ds n)
    (hrun : dsets_find_set ds n = Except.ok (ds1, r)) :
    DSetsInv ds1 root height ∧ r = (root n : Int) ∧ ds1.size = ds.size ∧
      ds1.rank = ds.rank ∧ ∀ v, dsets_placed ds1 v ↔ dsets_placed ds v := by
  unfold dsets_find_set at hrun
  rw [if_neg (by have := hn.1; omega)] at hrun
  exact dsets_find_set_loop_spec ds.size ds n ds1 r inv hn hrun

theorem dsets_find_set_placed {root height : Nat → Nat} {ds : DSets} {n : Nat}
    {x : DSets × Int} (inv : DSetsInv ds root height) (hn : n < ds.size)
    (hrun : dsets_find_set ds n = Except.ok x) : dsets_placed ds n := by
  have hlen : n < ds.father.length := by rw [inv.father_len]; exact hn
  refine ⟨hn, ds.father[n], by simp [hlen], ?_⟩
  intro hneg
  have hget : ds.father[n]? = some (-1) := by simp [hlen, hneg]
  unfold dsets_find_set at hrun
  rw [if_neg (by omega)] at hrun
  cases hsz : ds.size with
  | zero => omega
  | succ k =>
    rw [hsz] at hrun
    simp [dsets_find_set_loop, dsets_father_of_get hget, dsets_father_neg_one, bind,
      Except.bind] at hrun

theorem dsets_same_set_spec {root height : Nat → Nat} {ds ds1 : DSets} {a b : Nat} {s : Bool}
    (inv : DSetsInv ds root height) (ha : a < ds.size) (hb : b < ds.size)
    (hrun : dsets_same_set ds a b = Except.ok (ds1, s)) :
    dsets_placed ds a ∧ dsets_placed ds b ∧ DSetsInv ds1 root height ∧
      s = decide (root a = root b) ∧ ds1.size = ds.size ∧
      ∀ v, dsets_placed ds1 v ↔ dsets_placed ds v := by
  unfold dsets_same_set at hrun
  obtain ⟨r1, h1, hrun⟩ := bind_ok hrun
  obtain ⟨r2, h2, hrun⟩ := bind_ok hrun
  have hpa := dsets_find_set_placed inv ha h1
  obtain ⟨inv1, hr1, hs1, _, hpl1⟩ := @dsets_find_set_spec _ _ _ r1.1 _ r1.2 inv hpa h1
  have hpb1 := dsets_find_set_placed inv1 (by rw [hs1]; exact hb) h2
  obtain ⟨inv2, hr2, hs2, _, hpl2⟩ :=
    @dsets_find_set_spec _ _ _ r2.1 _ r2.2 inv1 hpb1 h2
  rw [if_neg (by rw [hr1, hr2]; omega)] at hrun
  cases hrun
  refine ⟨hpa, (hpl1 b).mp hpb1, inv2, ?_, hs2.trans hs1, fun v => (hpl2 v).trans (hpl1 v)⟩
  rw [hr1, hr2]
  simp

theorem dsetsInv_congr {root height : Nat → Nat} {ds ds1 : DSets}
    (hf : ds1.father = ds.father) (hs : ds1.size = ds.size)
    (hk : ds1.rank.length = ds.rank.length) (inv : DSetsInv ds root height) :
    DSetsInv ds1 root height := by
  have hpl : ∀ v, dsets_placed ds1 v ↔ dsets_placed ds v := by
    intro v; unfold dsets_placed; rw [hf, hs]
  refine ⟨by rw [hf, hs]; exact inv.father_len, by rw [hk, hs]; exact inv.rank_len, ?_, ?_⟩
  · intro v hv
    obtain ⟨p, h1, h2, h3⟩ := inv.link v ((hpl v).mp hv)
    exact ⟨p, by rw [hf]; exact h1, (hpl p).mpr h2, h3⟩
  · intro v hv
    obtain ⟨h1, h2⟩ := inv.root_placed v ((hpl v).mp hv)
    exact ⟨(hpl _).mpr h1, by rw [hf]; exact h2⟩

theorem dsets_root_of_root {root height : Nat → Nat} {ds : DSets}
    (inv : DSetsInv ds root height) {v : Nat} (hv : dsets_placed ds v) :
    root (root v) = root v := by
  obtain ⟨h1, h2⟩ := inv.root_placed v hv
  obtain ⟨p, hfp, _, _, hself, _⟩ := inv.link (root v) h1
  rw [h2] at hfp
  have : p = root v := by
    have := Option.some.inj hfp
    omega
  exact hself this

theorem dsets_link_inv {root height : Nat → Nat} {ds : DSets}
    (inv : DSetsInv ds root height) {sn fr : Nat} (hsn : dsets_placed ds sn)
    (hfr : dsets_placed ds fr) (hrsn : root sn = sn) (hrfr : root fr = fr)
    (hffr : ds.father[fr]? = some (fr : Int)) (hne : sn ≠ fr) :
    DSetsInv { ds with father := ds.father.set sn (fr : Int) }
      (fun v => if root v = sn then fr else root v)
      (fun v => if v = fr then max (height fr) (height sn + 1) else height v) ∧
    ∀ v, dsets_placed { ds with father := ds.father.set sn (fr : Int) } v ↔
      dsets_placed ds v := by
  have hlen : sn < ds.father.length := by rw [inv.father_len]; exact hsn.1
  have hpl : ∀ v, dsets_placed { ds with father := ds.father.set sn (fr : Int) } v ↔
      dsets_placed ds v := fun v => dsets_placed_set_father (by omega) hsn inv.father_len v
  have hget : ∀ v, (ds.father.set sn (fr : Int))[v]? =
      if v = sn then some (fr : Int) else ds.father[v]? := by
    intro v
    by_cases hvn : v = sn
    · subst hvn; simp [hlen]
    · have : sn ≠ v := fun e => hvn e.symm
      simp [List.getElem?_set_ne this, hvn]
  refine ⟨⟨?_, inv.rank_len, ?_, ?_⟩, hpl⟩
  · show (ds.father.set sn (fr : Int)).length = ds.size
    rw [List.length_set]; exact inv.father_len
  · intro v hv
    have hv' := (hpl v).mp hv
    by_cases hvs : v = sn
    · subst hvs
      refine ⟨fr, ?_, (hpl fr).mpr hfr, ?_, fun e => absurd e.symm hne, fun _ => ?_⟩
      · show (ds.father.set v (fr : Int))[v]? = _
        rw [hget]; simp
      · simp [hrsn, hrfr, hne.symm]
      · show (if v = fr then _ else height v) <
          (if fr = fr then max (height fr) (height v + 1) else height fr)
        rw [if_neg hne, if_pos rfl]
        exact lt_of_lt_of_le (Nat.lt_succ_self _) (le_max_right _ _)
    · obtain ⟨p, hfp, hpp, hrp, hself, hh⟩ := inv.link v hv'
      refine ⟨p, ?_, (hpl p).mpr hpp, ?_, ?_, ?_⟩
      · show (ds.father.set sn (fr : Int))[v]? = _
        rw [hget, if_neg hvs]; exact hfp
      · simp only [hrp]
      · intro e
        have := hself e
        simp only [this, if_neg hvs]
      · intro e
        have hvfr : v ≠ fr := by
          intro e2
          rw [e2, hffr] at hfp
          have := Option.some.inj hfp
          omega
        have := hh e
        show (if v = fr then _ else height v) <
          (if p = fr then max (height fr) (height sn + 1) else height p)
        rw [if_neg hvfr]
        split
        · next hpf => rw [hpf] at this; exact lt_of_lt_of_le this (le_max_left _ _)
        · exact this
  · intro v hv
    have hv' := (hpl v).mp hv
    obtain ⟨h1, h2⟩ := inv.root_placed v hv'
    simp only
    by_cases hrv : root v = sn
    · rw [if_pos hrv]
      refine ⟨(hpl fr).mpr hfr, ?_⟩
      show (ds.father.set sn (fr : Int))[fr]? = _
      rw [hget, if_neg hne.symm]; exact hffr
    · rw [if_neg hrv]
      refine ⟨(hpl _).mpr h1, ?_⟩
      show (ds.father.set sn (fr : Int))[root v]? = _
      rw [hget, if_neg hrv]; exact h2

theorem dsets_set_rank_spec {ds ds1 : DSets} {n x : Int}
    (h : dsets_set_rank ds n x = Except.ok ds1) :
    ds1.father = ds.father ∧ ds1.size = ds.size ∧ ds1.rank.length = ds.rank.length := by
  unfold dsets_set_rank at h
  split at h
  · cases h
    exact ⟨rfl, rfl, by simp⟩
  · cases h

theorem dsets_union_rank_step {ds3 ds1 : DSets} {c : Prop} [Decidable c] {f : Int}
    (h : (if c then (dsets_rank ds3 f >>= fun kf =>
        if kf < (INT_MAX : Int) then dsets_set_rank ds3 f (kf + 1)
        else Except.error Fault.overflow)
      else pure ds3) = Except.ok ds1) :
    ds1.father = ds3.father ∧ ds1.size = ds3.size ∧ ds1.rank.length = ds3.rank.length := by
  split at h
  · obtain ⟨kf, _, h2⟩ := bind_ok h
    split at h2
    · exact dsets_set_rank_spec h2
    · cases h2
  · cases h
    exact ⟨rfl, rfl, rfl⟩

theorem merge_iff (x y s f : Nat) :
    ((if x = s then f else x) = (if y = s then f else y)) ↔
      (x = y ∨ (x = f ∧ y = s) ∨ (x = s ∧ y = f)) := by
  split_ifs <;> omega

theorem dsets_union_spec {root height : Nat → Nat} {ds ds1 : DSets} {a b : Nat}
    (inv : DSetsInv ds root height) (ha : dsets_placed ds a) (hb : dsets_placed ds b)
    (hne : root a ≠ root b) (hrun : dsets_union ds a b = Except.ok ds1) :
    ∃ (root1 height1 : Nat → Nat), DSetsInv ds1 root1 height1 ∧ ds1.size = ds.size ∧
      (∀ v, dsets_placed ds1 v ↔ dsets_placed ds v) ∧
      ∀ u v, (root1 u = root1 v ↔
        (root u = root v ∨ (root u = root a ∧ root v = root b) ∨
          (root u = root b ∧ root v = root a))) := by
  unfold dsets_union at hrun
  rw [if_neg (by have := ha.1; have := hb.1; omega)] at hrun
  obtain ⟨r1, h1, hrun⟩ := bind_ok hrun
  obtain ⟨r2, h2, hrun⟩ := bind_ok hrun
  obtain ⟨inv1, hr1, hs1, _, hpl1⟩ := @dsets_find_set_spec _ _ _ r1.1 _ r1.2 inv ha h1
  obtain ⟨inv2, hr2, hs2, _, hpl2⟩ :=
    @dsets_find_set_spec _ _ _ r2.1 _ r2.2 inv1 ((hpl1 b).mpr hb) h2
  have hpl : ∀ v, dsets_placed r2.1 v ↔ dsets_placed ds v :=
    fun v => (hpl2 v).trans (hpl1 v)
  have ha2 := (hpl a).mpr ha
  have hb2 := (hpl b).mpr hb
  obtain ⟨hpra, hfra⟩ := inv2.root_placed a ha2
  obtain ⟨hprb, hfrb⟩ := inv2.root_placed b hb2
  have hrra := dsets_root_of_root inv2 ha2
  have hrrb := dsets_root_of_root inv2 hb2
  dsimp only at hrun
  rw [hr1, hr2, if_neg (by omega)] at hrun
  obtain ⟨k1, _, hrun⟩ := bind_ok hrun
  obtain ⟨k2, _, hrun⟩ := bind_ok hrun
  obtain ⟨ds3, h3, hrun⟩ := bind_ok hrun
  obtain ⟨k1', _, hrun⟩ := bind_ok hrun
  obtain ⟨k2', _, hrun⟩ := bind_ok hrun
  obtain ⟨hf13, hs13, hk13⟩ := dsets_union_rank_step hrun
  by_cases hk : k1 > k2
  · rw [if_pos hk, if_pos hk,
      dsets_set_father_of_lt _ (by rw [inv2.father_len]; exact hprb.1)] at h3
    cases h3
    obtain ⟨inv3, hpl3⟩ := dsets_link_inv inv2 hprb hpra hrrb hrra hfra (Ne.symm hne)
    refine ⟨_, _, dsetsInv_congr hf13 hs13 hk13 inv3, by rw [hs13]; exact hs2.trans hs1,
      ?_, ?_⟩
    · intro v
      have : dsets_placed ds1 v ↔
          dsets_placed { r2.1 with father := r2.1.father.set (root b) (root a : Int) } v := by
        unfold dsets_placed; rw [hf13, hs13]
      exact this.trans ((hpl3 v).trans (hpl v))
    · intro u v
      have := merge_iff (root u) (root v) (root b) (root a)
      refine Iff.trans this ?_
      omega
  · rw [if_neg hk, if_neg hk,
      dsets_set_father_of_lt _ (by rw [inv2.father_len]; exact hpra.1)] at h3
    cases h3
    obtain ⟨inv3, hpl3⟩ := dsets_link_inv inv2 hpra hprb hrra hrrb hfrb hne
    refine ⟨_, _, dsetsInv_congr hf13 hs13 hk13 inv3, by rw [hs13]; exact hs2.trans hs1,
      ?_, ?_⟩
    · intro v
      have : dsets_placed ds1 v ↔
          dsets_placed { r2.1 with father := r2.1.father.set (root a) (root b : Int) } v := by
        unfold dsets_placed; rw [hf13, hs13]
      exact this.trans ((hpl3 v).trans (hpl v))
    · intro u v
      have := merge_iff (root u) (root v) (root a) (root b)
      refine Iff.trans this ?_
      omega

theorem dsets_new_spec {n : Nat} {ds : DSets} (h : dsets_new n = Except.ok ds) :
    DSetsSingletons ds ∧ ds.size = n := by
  unfold dsets_new at h
  split at h
  · cases h
    refine ⟨⟨by simp, by simp, ?_⟩, rfl⟩
    intro v hv
    left
    simp only [List.getElem?_replicate]
    rw [if_pos hv]
  · cases h

theorem dsets_make_set_spec {ds ds1 : DSets} {i : Nat} (hs : DSetsSingletons ds)
    (h : dsets_make_set ds i = Except.ok ds1) :
    DSetsSingletons ds1 ∧ ds1.size = ds.size := by
  obtain ⟨hfl, hrl, hcells⟩ := hs
  unfold dsets_make_set at h
  split at h
  · cases h
    exact ⟨⟨hfl, hrl, hcells⟩, rfl⟩
  · obtain ⟨ds2, h2, h3⟩ := bind_ok h
    unfold dsets_set_father at h2
    split at h2
    · next hc =>
      cases h2
      obtain ⟨hf3, hs3, hk3⟩ := dsets_set_rank_spec h3
      refine ⟨⟨?_, ?_, ?_⟩, hs3⟩
      · rw [hf3, hs3]; simp only [List.length_set]; exact hfl
      · rw [hk3, hs3]; exact hrl
      · intro v hv
        rw [hf3]
        rw [hs3] at hv
        simp only [Int.toNat_ofNat]
        by_cases hvi : v = i
        · subst hvi
          right
          have : v < ds.father.length := by rw [hfl]; exact hv
          simp [this]
        · have : i ≠ v := fun e => hvi e.symm
          simp only [List.getElem?_set_ne this]
          exact hcells v hv
    · cases h2

theorem kruskal_init_spec (g : Graph W) :
    ∀ (n i : Nat) (groups groups1 : DSets), DSetsSingletons groups →
      kruskal_init g n i groups = Except.ok groups1 →
      DSetsSingletons groups1 ∧ groups1.size = groups.size := by
  intro n
  induction n with
  | zero =>
    intro i groups groups1 hs h
    simp only [kruskal_init] at h
    cases h
    exact ⟨hs, rfl⟩
  | succ n ih =>
    intro i groups groups1 hs h
    simp only [kruskal_init] at h
    obtain ⟨b, _, h⟩ := bind_ok h
    split at h
    · obtain ⟨groups2, h2, h⟩ := bind_ok h
      obtain ⟨hs2, hsz2⟩ := dsets_make_set_spec hs h2
      obtain ⟨hs1, hsz1⟩ := ih (i + 1) groups2 groups1 hs2 h
      exact ⟨hs1, hsz1.trans hsz2⟩
    · obtain ⟨groups2, h2, h⟩ := bind_ok h
      cases h2
      exact ih (i + 1) groups groups1 hs h

theorem dsetsSingletons_inv {ds : DSets} (hs : DSetsSingletons ds) :
    DSetsInv ds (fun v => v) (fun _ => 0) := by
  obtain ⟨hfl, hrl, hcells⟩ := hs
  have hself : ∀ v, dsets_placed ds v → ds.father[v]? = some (v : Int) := by
    intro v hv
    obtain ⟨hlt, x, hx, hne⟩ := hv
    rcases hcells v hlt with h | h
    · rw [h] at hx
      exact absurd (Option.some.inj hx).symm hne
    · exact h
  refine ⟨hfl, hrl, ?_, ?_⟩
  · intro v hv
    exact ⟨v, hself v hv, hv, rfl, fun _ => rfl, fun h => absurd rfl h⟩
  · intro v hv
    exact ⟨hv, hself v hv⟩

theorem edge_ends_of_deref {g : Graph W} {e : EdgePtr} {ed : Edge W}
    (h : edge_deref g e = Except.ok ed) : edge_ends g e = some (ed.v1, ed.v2) := by
  unfold edge_deref at h
  unfold edge_ends
  split at h
  · next ed' heq =>
    cases h
    simp [heq]
  · cases h

theorem edge_set_attr_spec {g g1 : Graph W} {e : EdgePtr} {c : Int}
    (h : edge_set_attr g e c = Except.ok g1) :
    g1.vertex = g.vertex ∧ g1.size = g.size ∧ (∀ p, edge_ends g1 p = edge_ends g p) ∧
      (∀ p, edge_colour g1 p = if p = e then some c else edge_colour g p) := by
  unfold edge_set_attr at h
  obtain ⟨ed, hd, h⟩ := bind_ok h
  cases h
  unfold edge_deref at hd
  split at hd
  · next ed' heq =>
    cases hd
    have hlt : e < g.store.length := by
      rcases Nat.lt_or_ge e g.store.length with hc | hc
      · exact hc
      · rw [List.getElem?_eq_none hc] at heq
        cases heq
    refine ⟨rfl, rfl, ?_, ?_⟩
    · intro p
      unfold edge_ends
      by_cases hpe : p = e
      · subst hpe
        simp [hlt, heq]
      · have : e ≠ p := fun x => hpe x.symm
        simp only [List.getElem?_set_ne this]
    · intro p
      unfold edge_colour
      by_cases hpe : p = e
      · subst hpe
        simp [hlt]
      · have : e ≠ p := fun x => hpe x.symm
        simp only [List.getElem?_set_ne this, if_neg hpe]
  · cases hd

theorem kruskal_fill_spec :
    ∀ (fuel : Nat) (g : Graph W) (h : Heap EdgePtr) (cur : Option EdgePtr)
      (r : Graph W × Heap EdgePtr),
      kruskal_fill fuel g h cur = Except.ok r →
      r.1.vertex = g.vertex ∧ r.1.size = g.size ∧ (∀ p, edge_ends r.1 p = edge_ends g p) ∧
        (∀ p, edge_colour r.1 p = some BLUE → edge_colour g p = some BLUE) := by
  intro fuel
  induction fuel with
  | zero =>
    intro g h cur r hrun
    cases cur with
    | none =>
      simp only [kruskal_fill] at hrun
      cases hrun
      exact ⟨rfl, rfl, fun _ => rfl, fun _ hp => hp⟩
    | some c =>
      simp only [kruskal_fill] at hrun
      cases hrun
  | succ fuel ih =>
    intro g h cur r hrun
    cases cur with
    | none =>
      simp only [kruskal_fill] at hrun
      cases hrun
      exact ⟨rfl, rfl, fun _ => rfl, fun _ hp => hp⟩
    | some c =>
      simp only [kruskal_fill] at hrun
      obtain ⟨r1, _, hrun⟩ := bind_ok hrun
      obtain ⟨g1, hset, hrun⟩ := bind_ok hrun
      obtain ⟨nxt, _, hrun⟩ := bind_ok hrun
      obtain ⟨hv1, hs1, he1, hc1⟩ := edge_set_attr_spec hset
      obtain ⟨hv, hs, he, hc⟩ := ih g1 r1.1 nxt r hrun
      refine ⟨hv.trans hv1, hs.trans hs1, fun p => (he p).trans (he1 p), ?_⟩
      intro p hp
      have := hc p hp
      rw [hc1 p] at this
      split at this
      · exact absurd (Option.some.inj this) (by decide)
      · exact this

/-! ## Kruskal -/

theorem reach_root_eq {es : List (Nat × Nat)} {root : Nat → Nat}
    (hJ : ∀ a b, (a, b) ∈ es → root a = root b) {u v : Nat} (h : Reach es u v) :
    root u = root v := by
  induction h with
  | refl => rfl
  | tail _ hstep ih =>
    rcases hstep with hm | hm
    · exact ih.trans (hJ _ _ hm)
    · exact ih.trans (hJ _ _ hm).symm

theorem edges_ends_cons {g : Graph W} {e : EdgePtr} {a b : Nat} (sel : List EdgePtr)
    (h : edge_ends g e = some (a, b)) :
    edges_ends g (e :: sel) = (a, b) :: edges_ends g sel := by
  simp [edges_ends, List.filterMap_cons, h]

theorem mem_edges_ends_of_mem {g : Graph W} {e : EdgePtr} {a b : Nat} {sel : List EdgePtr}
    (he : e ∈ sel) (h : edge_ends g e = some (a, b)) : (a, b) ∈ edges_ends g sel := by
  unfold edges_ends
  exact List.mem_filterMap.mpr ⟨e, he, h⟩

theorem kruskal_select_inv {g0 g g1 : Graph W} {groups groups1 groups2 : DSets}
    {sel : List EdgePtr} {current : EdgePtr} {ed ed1 : Edge W} {s : Bool}
    (hends : GraphEndsInRange g0) (inv : KruskalInv g0 g groups sel)
    (hd : edge_deref g current = Except.ok ed)
    (hsame : dsets_same_set groups ed.v1 ed.v2 = Except.ok (groups1, s))
    (hs : s = false)
    (hset : edge_set_attr g current BLUE = Except.ok g1)
    (hd1 : edge_deref g1 current = Except.ok ed1)
    (hun : dsets_union groups1 ed1.v1 ed1.v2 = Except.ok groups2) :
    KruskalInv g0 g1 groups2 (current :: sel) := by
  obtain ⟨root, height, dinv, hfwd, hJ⟩ := inv.forest
  obtain ⟨hv1, hs1, he1, hc1⟩ := edge_set_attr_spec hset
  have hends0 : edge_ends g0 current = some (ed.v1, ed.v2) := by
    rw [← inv.ends_eq]; exact edge_ends_of_deref hd
  have hed1 : ed1.v1 = ed.v1 ∧ ed1.v2 = ed.v2 := by
    have h1 := edge_ends_of_deref hd1
    rw [he1, edge_ends_of_deref hd] at h1
    have := Option.some.inj h1
    exact ⟨(Prod.mk.inj this).1.symm, (Prod.mk.inj this).2.symm⟩
  rw [hed1.1, hed1.2] at hun
  obtain ⟨hr1, hr2⟩ := hends current ed.v1 ed.v2 hends0
  rw [← inv.groups_size] at hr1 hr2
  obtain ⟨hp1, hp2, dinv1, hsdec, hsz1, hpl1⟩ := dsets_same_set_spec dinv hr1 hr2 hsame
  have hne : root ed.v1 ≠ root ed.v2 := by
    intro e
    rw [hs] at hsdec
    simp [e] at hsdec
  obtain ⟨root2, height2, dinv2, hsz2, hpl2, hiff⟩ :=
    dsets_union_spec dinv1 ((hpl1 _).mpr hp1) ((hpl1 _).mpr hp2) hne hun
  have hpl : ∀ v, dsets_placed groups2 v ↔ dsets_placed groups v :=
    fun v => (hpl2 v).trans (hpl1 v)
  have hJr : ∀ a b, (a, b) ∈ edges_ends g0 sel → root a = root b :=
    fun a b hab => (hJ a b hab).2.2
  have hes : edges_ends g0 (current :: sel) = (ed.v1, ed.v2) :: edges_ends g0 sel :=
    edges_ends_cons sel hends0
  refine ⟨hv1.trans inv.vertex_eq, hs1.trans inv.size_eq,
    fun p => (he1 p).trans (inv.ends_eq p), ?_, ?_, ?_, ?_, ?_⟩
  · rw [hsz2, hsz1]; exact inv.groups_size
  · intro p hp
    rw [hc1 p] at hp
    split at hp
    · next hpe => left; rw [hpe]; exact List.mem_cons_self _ _
    · rcases inv.blue p hp with h | h
      · exact Or.inl (List.mem_cons_of_mem _ h)
      · exact Or.inr h
  · refine List.nodup_cons.mpr ⟨?_, inv.nodup⟩
    intro hmem
    exact hne (hJr _ _ (mem_edges_ends_of_mem hmem hends0))
  · rw [hes]
    exact ⟨fun hr => hne (reach_root_eq hJr hr), inv.across⟩
  · refine ⟨root2, height2, dinv2, ?_, ?_⟩
    · intro u v hu hv huv
      rw [hes]
      have hu' := (hpl u).mp hu
      have hv' := (hpl v).mp hv
      rcases (hiff u v).mp huv with h | ⟨h1, h2⟩ | ⟨h1, h2⟩
      · exact reach_mono (fun _ he => List.mem_cons_of_mem _ he) (hfwd u v hu' hv' h)
      · exact reach_cons_of_ends (hfwd u _ hu' hp1 h1) (hfwd _ v hp2 hv' h2.symm)
      · exact reach_symm
          (reach_cons_of_ends (hfwd v _ hv' hp1 h2) (hfwd _ u hp2 hu' h1.symm))
    · intro a b hab
      rw [hes] at hab
      rcases List.mem_cons.mp hab with h | h
      · have ha : a = ed.v1 := (Prod.mk.inj h).1
        have hb : b = ed.v2 := (Prod.mk.inj h).2
        rw [ha, hb]
        exact ⟨(hpl _).mpr hp1, (hpl _).mpr hp2, (hiff _ _).mpr (Or.inr (Or.inl ⟨rfl, rfl⟩))⟩
      · obtain ⟨h1, h2, h3⟩ := hJ a b h
        exact ⟨(hpl _).mpr h1, (hpl _).mpr h2, (hiff _ _).mpr (Or.inl h3)⟩

theorem kruskal_reject_inv {g0 g : Graph W} {groups groups1 : DSets}
    {sel : List EdgePtr} {current : EdgePtr} {ed : Edge W} {s : Bool}
    (hends : GraphEndsInRange g0) (inv : KruskalInv g0 g groups sel)
    (hd : edge_deref g current = Except.ok ed)
    (hsame : dsets_same_set groups ed.v1 ed.v2 = Except.ok (groups1, s)) :
    KruskalInv g0 g groups1 sel := by
  obtain ⟨root, height, dinv, hfwd, hJ⟩ := inv.forest
  have hends0 : edge_ends g0 current = some (ed.v1, ed.v2) := by
    rw [← inv.ends_eq]; exact edge_ends_of_deref hd
  obtain ⟨hr1, hr2⟩ := hends current ed.v1 ed.v2 hends0
  rw [← inv.groups_size] at hr1 hr2
  obtain ⟨_, _, dinv1, _, hsz1, hpl1⟩ := dsets_same_set_spec dinv hr1 hr2 hsame
  refine ⟨inv.vertex_eq, inv.size_eq, inv.ends_eq, hsz1.trans inv.groups_size, inv.blue,
    inv.nodup, inv.across, root, height, dinv1, ?_, ?_⟩
  · intro u v hu hv huv
    exact hfwd u v ((hpl1 u).mp hu) ((hpl1 v).mp hv) huv
  · intro a b hab
    obtain ⟨h1, h2, h3⟩ := hJ a b hab
    exact ⟨(hpl1 _).mpr h1, (hpl1 _).mpr h2, h3⟩

theorem graph_edge_ptrs_congr {g g1 : Graph W} (hv : g1.vertex = g.vertex)
    (hs : g1.size = g.size) : graph_edge_ptrs g1 = graph_edge_ptrs g := by
  have hcell : graph_cell_ptr g1 = graph_cell_ptr g := by
    funext i j
    simp only [graph_cell_ptr, hv]
  unfold graph_edge_ptrs
  rw [hcell, hs]

theorem card_above_lt {height : Nat → Nat} {N v p : Nat} (hp : p < N)
    (hvp : height v < height p) :
    ((Finset.range N).filter (fun m => height p < height m)).card <
      ((Finset.range N).filter (fun m => height v < height m)).card := by
  apply Finset.card_lt_card
  constructor
  · intro m hm
    simp only [Finset.mem_filter, Finset.mem_range] at hm ⊢
    exact ⟨hm.1, lt_trans hvp hm.2⟩
  · intro hsub
    have : p ∈ (Finset.range N).filter (fun m => height p < height m) :=
      hsub (by simp [hp, hvp])
    simp at this

theorem card_above_le (height : Nat → Nat) (N v : Nat) :
    ((Finset.range N).filter (fun m => height v < height m)).card ≤ N := by
  calc ((Finset.range N).filter (fun m => height v < height m)).card
      ≤ (Finset.range N).card := Finset.card_filter_le _ _
    _ = N := Finset.card_range N

theorem dsets_find_set_loop_total {root height : Nat → Nat} :
    ∀ (fuel : Nat) (ds : DSets) (n : Nat),
      DSetsInv ds root height → dsets_placed ds n →
      ((Finset.range ds.size).filter (fun m => height n < height m)).card ≤ fuel →
      ∃ r, dsets_find_set_loop fuel ds (n : Int) = Except.ok r := by
  intro fuel
  induction fuel with
  | zero =>
    intro ds n inv hn hcard
    obtain ⟨p, hfp, hpp, _, _, hhn⟩ := inv.link n hn
    obtain ⟨q, hfq, hqq, _, _, hhq⟩ := inv.link p hpp
    simp only [dsets_find_set_loop, dsets_father_of_get hfp, dsets_father_of_get hfq, bind,
      Except.bind]
    by_cases hqp : q = p
    · rw [if_neg (by omega)]
      exact ⟨_, rfl⟩
    · exfalso
      have hpn : p ≠ n := by
        intro e
        rw [e, hfp] at hfq
        exact hqp (by
          have := Option.some.inj hfq
          omega)
      have := card_above_lt hpp.1 (hhn hpn)
      omega
  | succ fuel ih =>
    intro ds n inv hn hcard
    obtain ⟨p, hfp, hpp, hrp, hselfn, hhn⟩ := inv.link n hn
    obtain ⟨q, hfq, hqq, hrq, hselfq, hhq⟩ := inv.link p hpp
    obtain ⟨s, hfs, hss, hrs, _, hhs⟩ := inv.link q hqq
    by_cases hqp : q = p
    · simp only [dsets_find_set_loop, dsets_father_of_get hfp, dsets_father_of_get hfq, bind,
        Except.bind]
      rw [if_neg (by omega)]
      exact ⟨_, rfl⟩
    · have hnlen : n < ds.father.length := by rw [inv.father_len]; exact hn.1
      have hpn : p ≠ n := by
        intro e
        rw [e, hfp] at hfq
        exact hqp (by
          have := Option.some.inj hfq
          omega)
      have hqn : q ≠ n := by
        intro e
        have h1 := hhn hpn
        have h2 := hhq hqp
        rw [e] at h2
        omega
      -- the first step of the loop, replayed through the specification
      have hstep : dsets_find_set_loop (fuel + 1) ds (n : Int) =
          dsets_find_set_loop fuel { ds with father := ds.father.set n (q : Int) } (s : Int) := by
        have hf2n : ({ ds with father := ds.father.set n (q : Int) } : DSets).father[n]? =
            some (q : Int) := by simp [hnlen]
        have hf2q : ({ ds with father := ds.father.set n (q : Int) } : DSets).father[q]? =
            some (s : Int) := by
          have : n ≠ q := fun e => hqn e.symm
          simp only [List.getElem?_set_ne this]
          exact hfs
        simp only [dsets_find_set_loop, dsets_father_of_get hfp, dsets_father_of_get hfq, bind,
          Except.bind]
        rw [if_pos ⟨by omega, by omega⟩, dsets_set_father_of_lt _ hnlen]
        simp only [dsets_father_of_get hf2n, dsets_father_of_get hf2q]
      rw [hstep]
      -- the invariant of the new state: one more run of the loop with fuel 0 gives it
      have hinv2 : DSetsInv { ds with father := ds.father.set n (q : Int) } root height ∧
          dsets_placed { ds with father := ds.father.set n (q : Int) } s := by
        have hpl2 := dsets_placed_set_father (x := (q : Int)) (by omega) hn inv.father_len
        refine ⟨⟨?_, inv.rank_len, ?_, ?_⟩, (hpl2 s).mpr hss⟩
        · show (ds.father.set n (q : Int)).length = ds.size
          rw [List.length_set]; exact inv.father_len
        · intro v hv
          by_cases hvn : v = n
          · subst hvn
            refine ⟨q, by simp [hnlen], (hpl2 q).mpr hqq, hrq.trans hrp,
              fun e => absurd e hqn, fun _ => ?_⟩
            have h1 := hhn hpn
            have h2 := hhq hqp
            omega
          · obtain ⟨pv, hfpv, hpvp, hrpv, hselfv, hhv⟩ := inv.link v ((hpl2 v).mp hv)
            have : n ≠ v := fun e => hvn e.symm
            exact ⟨pv, by simp only [List.getElem?_set_ne this]; exact hfpv,
              (hpl2 pv).mpr hpvp, hrpv, hselfv, hhv⟩
        · intro v hv
          obtain ⟨h1, h2⟩ := inv.root_placed v ((hpl2 v).mp hv)
          refine ⟨(hpl2 _).mpr h1, ?_⟩
          have hrn : n ≠ root v := by
            intro e
            rw [← e, hfp] at h2
            exact hpn (by
              have := Option.some.inj h2
              omega)
          simp only [List.getElem?_set_ne hrn]
          exact h2
      apply ih _ s hinv2.1 hinv2.2
      show ((Finset.range ds.size).filter (fun m => height s < height m)).card ≤ fuel
      have c1 := card_above_lt (N := ds.size) hpp.1 (hhn hpn)
      have c2 := card_above_lt (N := ds.size) hqq.1 (hhq hqp)
      have c3 : ((Finset.range ds.size).filter (fun m => height s < height m)).card ≤
          ((Finset.range ds.size).filter (fun m => height q < height m)).card := by
        by_cases hsq : s = q
        · rw [hsq]
        · exact le_of_lt (card_above_lt hss.1 (hhs hsq))
      omega

theorem dsets_find_set_total {root height : Nat → Nat} {ds : DSets} {n : Nat}
    (inv : DSetsInv ds root height) (hn : dsets_placed ds n) :
    ∃ r, dsets_find_set ds n = Except.ok r := by
  unfold dsets_find_set
  rw [if_neg (by have := hn.1; omega)]
  exact dsets_find_set_loop_total ds.size ds n inv hn (card_above_le _ _ _)

theorem dsets_same_set_total {root height : Nat → Nat} {ds : DSets} {a b : Nat}
    (inv : DSetsInv ds root height) (ha : dsets_placed ds a) (hb : dsets_placed ds b) :
    ∃ r, dsets_same_set ds a b = Except.ok r := by
  obtain ⟨r1, h1⟩ := dsets_find_set_total inv ha
  obtain ⟨inv1, _, _, _, hpl1⟩ := @dsets_find_set_spec _ _ _ r1.1 _ r1.2 inv ha h1
  obtain ⟨r2, h2⟩ := dsets_find_set_total inv1 ((hpl1 b).mpr hb)
  unfold dsets_same_set
  simp only [h1, h2, bind, Except.bind]
  split <;> exact ⟨_, rfl⟩

theorem dsets_rank_total {ds : DSets} {v : Nat} (hv : v < ds.rank.length) :
    ∃ k, dsets_rank ds (v : Int) = Except.ok k := by
  refine ⟨ds.rank[v], ?_⟩
  simp [dsets_rank, hv]

theorem dsets_set_rank_total {ds : DSets} {v : Nat} (x : Int) (hv : v < ds.rank.length) :
    ∃ ds1, dsets_set_rank ds (v : Int) x = Except.ok ds1 := by
  refine ⟨{ ds with rank := ds.rank.set v x }, ?_⟩
  simp [dsets_set_rank, hv]

theorem dsets_union_total {root height : Nat → Nat} {ds : DSets} {a b : Nat}
    (inv : DSetsInv ds root height) (ha : dsets_placed ds a) (hb : dsets_placed ds b)
    (hroom : ∀ (v : Nat) (k : Int), ds.rank[v]? = some k → k < (INT_MAX : Int)) :
    ∃ ds1, dsets_union ds a b = Except.ok ds1 := by
  obtain ⟨r1, h1⟩ := dsets_find_set_total inv ha
  obtain ⟨inv1, hr1, _, hrk1, hpl1⟩ := @dsets_find_set_spec _ _ _ r1.1 _ r1.2 inv ha h1
  obtain ⟨r2, h2⟩ := dsets_find_set_total inv1 ((hpl1 b).mpr hb)
  obtain ⟨inv2, hr2, _, hrk2, hpl2⟩ :=
    @dsets_find_set_spec _ _ _ r2.1 _ r2.2 inv1 ((hpl1 b).mpr hb) h2
  have ha2 := (hpl2 a).mpr ((hpl1 a).mpr ha)
  have hb2 := (hpl2 b).mpr ((hpl1 b).mpr hb)
  obtain ⟨hpra, _⟩ := inv2.root_placed a ha2
  obtain ⟨hprb, _⟩ := inv2.root_placed b hb2
  have hla : root a < r2.1.rank.length := by rw [inv2.rank_len]; exact hpra.1
  have hlb : root b < r2.1.rank.length := by rw [inv2.rank_len]; exact hprb.1
  have hfa : root a < r2.1.father.length := by rw [inv2.father_len]; exact hpra.1
  have hfb : root b < r2.1.father.length := by rw [inv2.father_len]; exact hprb.1
  obtain ⟨k1, hk1⟩ := dsets_rank_total hla
  obtain ⟨k2, hk2⟩ := dsets_rank_total hlb
  unfold dsets_union
  rw [if_neg (by have := ha.1; have := hb.1; omega)]
  simp only [h1, h2, bind, Except.bind]
  rw [hr1, hr2, if_neg (by omega)]
  simp only [hk1, hk2]
  by_cases hk : k1 > k2
  · simp only [if_pos hk, dsets_set_father_of_lt _ hfb]
    have hk1' : dsets_rank { r2.1 with father := r2.1.father.set (root b) (root a : Int) }
        (root a : Int) = Except.ok k1 := hk1
    have hk2' : dsets_rank { r2.1 with father := r2.1.father.set (root b) (root a : Int) }
        (root b : Int) = Except.ok k2 := hk2
    simp only [hk1', hk2']
    rw [if_neg (by omega)]
    exact ⟨_, rfl⟩
  · simp only [if_neg hk, dsets_set_father_of_lt _ hfa]
    have hk1' : dsets_rank { r2.1 with father := r2.1.father.set (root a) (root b : Int) }
        (root a : Int) = Except.ok k1 := hk1
    have hk2' : dsets_rank { r2.1 with father := r2.1.father.set (root a) (root b : Int) }
        (root b : Int) = Except.ok k2 := hk2
    simp only [hk1', hk2']
    split
    · have hlb' : root b <
          ({ r2.1 with father := r2.1.father.set (root a) (root b : Int) } : DSets).rank.length :=
        hlb
      have hk2lt : k2 < (INT_MAX : Int) := by
        apply hroom (root b) k2
        unfold dsets_rank at hk2
        rw [if_pos (by omega)] at hk2
        simp only [Int.toNat_ofNat] at hk2
        rw [← hrk1, ← hrk2]
        cases hx : r2.1.rank[root b]? with
        | none => rw [hx] at hk2; cases hk2
        | some x => rw [hx] at hk2; cases hk2; rfl
      rw [if_pos hk2lt]
      obtain ⟨ds1, hds1⟩ := dsets_set_rank_total (k2 + 1) hlb'
      exact ⟨ds1, hds1⟩
    · exact ⟨_, rfl⟩

/-! ## Reading a well-formed graph -/

theorem graph_row_of_present {g : Graph W} (hwf : GraphWF g) {i : Nat}
    (hp : graph_present g i = true) :
    ∃ row, g.vertex[i]? = some (some row) ∧ row.length = g.size ∧
      graph_row g i = Except.ok (some row) := by
  unfold graph_present at hp
  split at hp
  · next row heq =>
    exact ⟨row, heq, hwf.cols i row heq, by simp [graph_row, heq]⟩
  · cases hp

theorem graph_cell_of_present {g : Graph W} (hwf : GraphWF g) {i j : Nat}
    (hp : graph_present g i = true) (hj : j < g.size) :
    graph_cell g i j = Except.ok (graph_cell_ptr g i j) := by
  obtain ⟨row, heq, hlen, hrow⟩ := graph_row_of_present hwf hp
  have hjr : j < row.length := by rw [hlen]; exact hj
  simp [graph_cell, graph_cell_ptr, hrow, heq, bind, Except.bind, List.getElem?_eq_getElem hjr]

theorem graph_has_vertex_of_present {g : Graph W} (hwf : GraphWF g) {i : Nat}
    (hi : i < g.size) (hp : graph_present g i = true) :
    graph_has_vertex g i = Except.ok true := by
  obtain ⟨row, heq, hlen, hrow⟩ := graph_row_of_present hwf hp
  simp [graph_has_vertex, hwf.size_pos, hi, hrow, bind, Except.bind, pure, Except.pure]

theorem graph_get_edge_of_present {g : Graph W} (hwf : GraphWF g) {i j : Nat}
    (hi : i < g.size) (hj : j < g.size) (hpi : graph_present g i = true)
    (hpj : graph_present g j = true) :
    graph_get_edge g i j = Except.ok (graph_cell_ptr g i j) := by
  simp only [graph_get_edge, graph_has_edge, graph_has_vertex_of_present hwf hi hpi,
    graph_has_vertex_of_present hwf hj hpj, graph_cell_of_present hwf hpi hj, bind,
    Except.bind, pure, Except.pure, if_true]
  cases h : graph_cell_ptr g i j <;> simp

theorem graph_first_edge_row_spec {g : Graph W} (hwf : GraphWF g) {i : Nat}
    (hp : graph_present g i = true) :
    ∀ (n j : Nat), j + n ≤ g.size →
      ∃ r, graph_first_edge_row g i n j = Except.ok r ∧
        ∀ p, r = some p → ∃ j2, j2 < g.size ∧ graph_cell_ptr g i j2 = some p := by
  intro n
  induction n with
  | zero =>
    intro j _
    exact ⟨none, rfl, fun p hp => by cases hp⟩
  | succ n ih =>
    intro j hj
    have hjs : j < g.size := by omega
    simp only [graph_first_edge_row, graph_cell_of_present hwf hp hjs, bind, Except.bind]
    cases hc : graph_cell_ptr g i j with
    | none => exact ih (j + 1) (by omega)
    | some e =>
      refine ⟨some e, rfl, ?_⟩
      intro p hpe
      exact ⟨j, hjs, by rw [hc, hpe]⟩

theorem graph_first_edge_rows_spec {g : Graph W} (hwf : GraphWF g) (hfull : GraphFull g) :
    ∀ (n i : Nat), i + n ≤ g.size →
      ∃ r, graph_first_edge_rows g n i = Except.ok r ∧
        ∀ p, r = some p →
          ∃ i2 j2, i2 < g.size ∧ j2 < g.size ∧ graph_cell_ptr g i2 j2 = some p := by
  intro n
  induction n with
  | zero =>
    intro i _
    exact ⟨none, rfl, fun p hp => by cases hp⟩
  | succ n ih =>
    intro i hi
    have his : i < g.size := by omega
    obtain ⟨row, heq, hlen, hrow⟩ := graph_row_of_present hwf (hfull i his)
    obtain ⟨r, hr, hspec⟩ := graph_first_edge_row_spec hwf (hfull i his) g.size 0 (by omega)
    simp only [graph_first_edge_rows, hrow, bind, Except.bind, Option.isSome_some, if_true, hr]
    cases r with
    | none => exact ih (i + 1) (by omega)
    | some e =>
      refine ⟨some e, rfl, ?_⟩
      intro p hpe
      obtain ⟨j2, hj2, hc⟩ := hspec p hpe
      exact ⟨i, j2, his, hj2, hc⟩

theorem graph_first_edge_spec {g : Graph W} (hwf : GraphWF g) (hfull : GraphFull g) :
    ∃ r, graph_first_edge g = Except.ok r ∧
      ∀ p, r = some p →
        ∃ i2 j2, i2 < g.size ∧ j2 < g.size ∧ graph_cell_ptr g i2 j2 = some p :=
  graph_first_edge_rows_spec hwf hfull g.size 0 (by omega)

theorem edge_deref_of_ends {g : Graph W} {e : EdgePtr} {a b : Nat}
    (h : edge_ends g e = some (a, b)) :
    ∃ ed, g.store[e]? = some (some ed) ∧ edge_deref g e = Except.ok ed ∧ ed.v1 = a ∧
      ed.v2 = b := by
  unfold edge_ends at h
  split at h
  · next ed heq =>
    have := Option.some.inj h
    exact ⟨ed, heq, by simp [edge_deref, heq], (Prod.mk.inj this).1, (Prod.mk.inj this).2⟩
  · cases h

theorem graph_next_edge_loop_spec {g : Graph W} (hwf : GraphWF g) (hfull : GraphFull g) :
    ∀ (fuel i j : Nat), j < i → i ≤ g.size → g.size * g.size ≤ fuel + (i * g.size + j) →
      ∃ i2 j2, graph_next_edge_loop g fuel i j = Except.ok (i2, j2) ∧ j2 < i2 ∧
        i * g.size + j ≤ i2 * g.size + j2 ∧
        (i2 < g.size → ∃ p, graph_cell_ptr g i2 j2 = some p) := by
  intro fuel
  induction fuel with
  | zero =>
    intro i j hji hi hfuel
    by_cases his : i < g.size
    · exfalso
      have h1 : (i + 1) * g.size ≤ g.size * g.size := Nat.mul_le_mul_right _ his
      rw [Nat.succ_mul] at h1
      omega
    · refine ⟨i, j, ?_, hji, le_refl _, fun h => absurd h his⟩
      simp [graph_next_edge_loop, his, pure, Except.pure]
  | succ fuel ih =>
    intro i j hji hi hfuel
    by_cases his : i < g.size
    · have hjs : j < g.size := by omega
      simp only [graph_next_edge_loop, his, if_true, graph_cell_of_present hwf (hfull i his) hjs,
        bind, Except.bind]
      cases hc : graph_cell_ptr g i j with
      | none =>
        simp only [Option.isNone_none, if_true]
        by_cases hd : j + 1 ≥ i
        · have hnp : graph_next_pos i j = (i + 1, 0) := by simp [graph_next_pos, hd]
          rw [hnp]
          have h1 : (i + 1) * g.size = i * g.size + g.size := Nat.succ_mul _ _
          obtain ⟨i2, j2, hrun, hlt, hle, hcell⟩ :=
            ih (i + 1) 0 (by omega) (by omega) (by omega)
          exact ⟨i2, j2, hrun, hlt, by omega, hcell⟩
        · have hnp : graph_next_pos i j = (i, j + 1) := by simp [graph_next_pos, hd]
          rw [hnp]
          obtain ⟨i2, j2, hrun, hlt, hle, hcell⟩ :=
            ih i (j + 1) (by omega) hi (by omega)
          exact ⟨i2, j2, hrun, hlt, by omega, hcell⟩
      | some p =>
        refine ⟨i, j, ?_, hji, le_refl _, fun _ => ⟨p, hc⟩⟩
        simp [pure, Except.pure]
    · refine ⟨i, j, ?_, hji, le_refl _, fun h => absurd h his⟩
      simp [graph_next_edge_loop, his, pure, Except.pure]

theorem graph_code_of_cell {g : Graph W} (hwf : GraphWF g) {i j : Nat} {p : EdgePtr}
    (hi : i < g.size) (hji : j < i) (hc : graph_cell_ptr g i j = some p) :
    graph_code g p = i * g.size + j ∧ ∃ a b, edge_ends g p = some (a, b) := by
  rcases hwf.cell_ends i j hi (by omega) p hc with h | h
  · refine ⟨?_, _, _, h⟩
    simp only [graph_code, h]
    rw [Nat.max_eq_left (by omega), Nat.min_eq_right (by omega)]
  · refine ⟨?_, _, _, h⟩
    simp only [graph_code, h]
    rw [Nat.max_eq_right (by omega), Nat.min_eq_left (by omega)]

theorem graph_next_edge_spec {g : Graph W} (hwf : GraphWF g) (hfull : GraphFull g)
    {e : EdgePtr} {a b : Nat} (he : edge_ends g e = some (a, b)) (ha : a < g.size)
    (hb : b < g.size) :
    ∃ r, graph_next_edge g e = Except.ok r ∧
      ∀ p, r = some p → graph_code g e < graph_code g p ∧
        graph_code g p < g.size * g.size ∧ ∃ a2 b2, edge_ends g p = some (a2, b2) := by
  obtain ⟨ed, _, hd, hv1, hv2⟩ := edge_deref_of_ends he
  -- the position of `e` and the position where the scan starts
  obtain ⟨i, j, hij, his, hcode, hrun⟩ : ∃ i j, j ≤ i ∧ i < g.size ∧
      graph_code g e = i * g.size + j ∧
      graph_next_edge g e =
        (graph_next_edge_loop g (g.size * g.size + g.size) (graph_next_pos i j).1
          (graph_next_pos i j).2 >>= fun p =>
          if p.1 ≥ g.size then pure none else graph_get_edge g p.1 p.2) := by
    by_cases hab : a ≥ b
    · refine ⟨a, b, hab, ha, ?_, ?_⟩
      · simp only [graph_code, he]
        rw [Nat.max_eq_left hab, Nat.min_eq_right hab]
      · simp only [graph_next_edge, hd, bind, Except.bind, hv1, hv2]
        rw [if_neg (by omega)]
        simp only [if_pos hab]
    · refine ⟨b, a, by omega, hb, ?_, ?_⟩
      · simp only [graph_code, he]
        rw [Nat.max_eq_right (by omega), Nat.min_eq_left (by omega)]
      · simp only [graph_next_edge, hd, bind, Except.bind, hv1, hv2]
        rw [if_neg (by omega)]
        simp only [if_neg hab]
  have hsm : (i + 1) * g.size = i * g.size + g.size := Nat.succ_mul _ _
  obtain ⟨i1, j1, hnp, hlt1, hle1, hc1⟩ : ∃ i1 j1, graph_next_pos i j = (i1, j1) ∧ j1 < i1 ∧
      i1 ≤ g.size ∧ i * g.size + j < i1 * g.size + j1 := by
    by_cases hd : j + 1 ≥ i
    · exact ⟨i + 1, 0, by simp [graph_next_pos, hd], by omega, by omega, by omega⟩
    · exact ⟨i, j + 1, by simp [graph_next_pos, hd], by omega, by omega, by omega⟩
  obtain ⟨i2, j2, hloop, hlt2, hle2, hcell⟩ :=
    graph_next_edge_loop_spec hwf hfull (g.size * g.size + g.size) i1 j1 hlt1 hle1 (by omega)
  rw [hrun, hnp]
  simp only [hloop, bind, Except.bind]
  by_cases hout : i2 ≥ g.size
  · rw [if_pos hout]
    exact ⟨none, rfl, fun p hp => by cases hp⟩
  · rw [if_neg hout]
    have hi2 : i2 < g.size := by omega
    obtain ⟨p, hp⟩ := hcell hi2
    refine ⟨some p, ?_, ?_⟩
    · rw [graph_get_edge_of_present hwf hi2 (by omega) (hfull i2 hi2) (hfull j2 (by omega)), hp]
    · intro p2 hp2
      have : p = p2 := Option.some.inj hp2
      subst this
      obtain ⟨hcp, hends⟩ := graph_code_of_cell hwf hi2 hlt2 hp
      have h1 : (i2 + 1) * g.size ≤ g.size * g.size := Nat.mul_le_mul_right _ hi2
      rw [Nat.succ_mul] at h1
      exact ⟨by omega, by omega, hends⟩

/-! ## `kruskal` runs to its end on a well-formed graph whose vertices are all present -/

theorem graph_cell_ptr_congr {g g1 : Graph W} (hv : g1.vertex = g.vertex) (i j : Nat) :
    graph_cell_ptr g1 i j = graph_cell_ptr g i j := by
  simp only [graph_cell_ptr, hv]

theorem graphWF_congr {g g1 : Graph W} (hv : g1.vertex = g.vertex) (hs : g1.size = g.size)
    (he : ∀ p, edge_ends g1 p = edge_ends g p) (hwf : GraphWF g) : GraphWF g1 := by
  refine ⟨by rw [hs]; exact hwf.size_pos, by rw [hv, hs]; exact hwf.rows, ?_, ?_⟩
  · intro i row hrow
    rw [hv] at hrow
    rw [hs]
    exact hwf.cols i row hrow
  · intro i j hi hj p hp
    rw [graph_cell_ptr_congr hv] at hp
    rw [hs] at hi hj
    rw [he p]
    exact hwf.cell_ends i j hi hj p hp

theorem graphFull_congr {g g1 : Graph W} (hv : g1.vertex = g.vertex) (hs : g1.size = g.size)
    (hfull : GraphFull g) : GraphFull g1 := by
  intro v hvlt
  rw [hs] at hvlt
  have := hfull v hvlt
  simpa only [graph_present, hv] using this

theorem graph_code_congr {g g1 : Graph W} (hs : g1.size = g.size)
    (he : ∀ p, edge_ends g1 p = edge_ends g p) (p : EdgePtr) :
    graph_code g1 p = graph_code g p := by
  simp only [graph_code, he p, hs]

theorem edge_live_iff_ends {g : Graph W} {e : EdgePtr} :
    edge_live g e ↔ ∃ a b, edge_ends g e = some (a, b) := by
  constructor
  · rintro ⟨ed, hed⟩
    exact ⟨ed.v1, ed.v2, by simp [edge_ends, hed]⟩
  · rintro ⟨a, b, h⟩
    obtain ⟨ed, hed, _⟩ := edge_deref_of_ends h
    exact ⟨ed, hed⟩

theorem edge_set_attr_total {g : Graph W} {e : EdgePtr} {a b : Nat} (c : Int)
    (h : edge_ends g e = some (a, b)) : ∃ g1, edge_set_attr g e c = Except.ok g1 := by
  obtain ⟨ed, _, hd, _, _⟩ := edge_deref_of_ends h
  refine ⟨{ g with store := g.store.set e (some { ed with attr := c }) }, ?_⟩
  simp only [edge_set_attr, hd, bind, Except.bind, pure, Except.pure]

theorem heap_insert_inv {P : α → Prop} {R : α → α → Bool} (hR : TotalPreorderOn P R)
    {h : Heap α} (x : α) (hrel : h.rel = R) (hwf : HeapWF h) (hall : HeapAll P h)
    (hord : HeapOrdered h) (hx : P x) :
    ∃ r, heap_insert h x = Except.ok r ∧ r.1.rel = R ∧ HeapWF r.1 ∧ HeapAll P r.1 ∧
      HeapOrdered r.1 ∧ r.1.max = h.max := by
  by_cases hfull : h.size = h.max
  · exact ⟨(h, false), heap_insert_full x hfull, hrel, hwf, hall, hord, rfl⟩
  · obtain ⟨h1, hins, _, hm1, hr1, hwf1, hall1, hord1, _⟩ :=
      heap_insert_spec hR x hrel hwf hall hord hx hfull
    exact ⟨(h1, true), hins, hr1.trans hrel, hwf1, hall1, hord1, hm1⟩

theorem kruskal_fill_total [LE W] [DecidableRel (α := W) (· ≤ ·)] {g0 : Graph W}
    (hR : TotalPreorderOn (edge_live g0) (edge_relation g0)) (hwf0 : GraphWF g0)
    (hfull0 : GraphFull g0) (hends0 : GraphEndsInRange g0) :
    ∀ (fuel : Nat) (g : Graph W) (h : Heap EdgePtr) (cur : Option EdgePtr),
      g.vertex = g0.vertex → g.size = g0.size → (∀ p, edge_ends g p = edge_ends g0 p) →
      h.rel = edge_relation g0 → HeapWF h → HeapAll (edge_live g0) h → HeapOrdered h →
      (∀ e, cur = some e → (∃ a b, edge_ends g0 e = some (a, b)) ∧
        g0.size * g0.size ≤ fuel + graph_code g0 e ∧ graph_code g0 e < g0.size * g0.size) →
      ∃ r, kruskal_fill fuel g h cur = Except.ok r ∧ r.2.rel = edge_relation g0 ∧
        HeapWF r.2 ∧ HeapAll (edge_live g0) r.2 ∧ HeapOrdered r.2 ∧ r.2.max = h.max := by
  intro fuel
  induction fuel with
  | zero =>
    intro g h cur _ _ _ hrel hwf hall hord hcur
    cases cur with
    | none => exact ⟨(g, h), by simp only [kruskal_fill], hrel, hwf, hall, hord, rfl⟩
    | some e =>
      obtain ⟨_, h1, h2⟩ := hcur e rfl
      omega
  | succ fuel ih =>
    intro g h cur hv hs he hrel hwf hall hord hcur
    cases cur with
    | none => exact ⟨(g, h), by simp only [kruskal_fill], hrel, hwf, hall, hord, rfl⟩
    | some e =>
      obtain ⟨⟨a, b, hab⟩, hfuel, hlt⟩ := hcur e rfl
      have hlive : edge_live g0 e := edge_live_iff_ends.mpr ⟨a, b, hab⟩
      obtain ⟨r1, hins, hr1, hwf1, hall1, hord1, hmax1⟩ :=
        heap_insert_inv hR e hrel hwf hall hord hlive
      have habg : edge_ends g e = some (a, b) := by rw [he]; exact hab
      obtain ⟨g1, hset⟩ := edge_set_attr_total RED habg
      obtain ⟨hv1, hs1, he1, _⟩ := edge_set_attr_spec hset
      have hv10 : g1.vertex = g0.vertex := hv1.trans hv
      have hs10 : g1.size = g0.size := hs1.trans hs
      have he10 : ∀ p, edge_ends g1 p = edge_ends g0 p := fun p => (he1 p).trans (he p)
      have hwfg1 : GraphWF g1 := graphWF_congr hv10 hs10 he10 hwf0
      have hfullg1 : GraphFull g1 := graphFull_congr hv10 hs10 hfull0
      obtain ⟨ha, hb⟩ := hends0 e a b hab
      obtain ⟨nxt, hnext, hspec⟩ :=
        graph_next_edge_spec hwfg1 hfullg1 (e := e) (a := a) (b := b)
          (by rw [he10]; exact hab) (by rw [hs10]; exact ha) (by rw [hs10]; exact hb)
      obtain ⟨r, hrun, hres⟩ := ih g1 r1.1 nxt hv10 hs10 he10 hr1 hwf1 hall1 hord1 (by
        intro p hp
        obtain ⟨hc1, hc2, a2, b2, hends2⟩ := hspec p hp
        rw [graph_code_congr hs10 he10, graph_code_congr hs10 he10] at hc1
        rw [graph_code_congr hs10 he10, hs10] at hc2
        rw [he10] at hends2
        exact ⟨⟨a2, b2, hends2⟩, by omega, hc2⟩)
      obtain ⟨hq1, hq2, hq3, hq4, hq5⟩ := hres
      refine ⟨r, ?_, hq1, hq2, hq3, hq4, hq5.trans hmax1⟩
      simp only [kruskal_fill, hins, hset, hnext, bind, Except.bind]
      exact hrun

theorem dsets_make_set_total {ds : DSets} {i : Nat} (hs : DSetsSingletons ds)
    (hi : i < ds.size) :
    ∃ ds1, dsets_make_set ds i = Except.ok ds1 ∧ DSetsSingletons ds1 ∧ ds1.size = ds.size ∧
      ds1.father[i]? = some (i : Int) ∧
      ∀ v, v ≠ i → ds1.father[v]? = ds.father[v]? := by
  obtain ⟨hfl, hrl, hcells⟩ := hs
  have hil : i < ds.father.length := by rw [hfl]; exact hi
  have hir : i < ds.rank.length := by rw [hrl]; exact hi
  have hrun : dsets_make_set ds i =
      Except.ok { ds with father := ds.father.set i (i : Int), rank := ds.rank.set i 0 } := by
    simp [dsets_make_set, dsets_set_father, dsets_set_rank, hil, hir, bind, Except.bind,
      Nat.not_lt.mpr (Nat.le_of_lt hi)]
  obtain ⟨hs1, hsz1⟩ := dsets_make_set_spec ⟨hfl, hrl, hcells⟩ hrun
  refine ⟨_, hrun, hs1, hsz1, by simp [hil], ?_⟩
  intro v hv
  have : i ≠ v := fun e => hv e.symm
  simp only [List.getElem?_set_ne this]

theorem kruskal_init_total {g : Graph W} (hwf : GraphWF g) (hfull : GraphFull g) :
    ∀ (n i : Nat) (groups : DSets), DSetsSingletons groups → groups.size = g.size →
      i + n ≤ g.size → (∀ v, v < i → groups.father[v]? = some (v : Int)) →
      ∃ groups1, kruskal_init g n i groups = Except.ok groups1 ∧
        ∀ v, v < i + n → groups1.father[v]? = some (v : Int) := by
  intro n
  induction n with
  | zero =>
    intro i groups _ _ _ hdone
    exact ⟨groups, rfl, fun v hv => hdone v (by omega)⟩
  | succ n ih =>
    intro i groups hs hsz hin hdone
    have hi : i < g.size := by omega
    obtain ⟨ds1, hms, hs1, hsz1, hfi, hoth⟩ := dsets_make_set_total hs (by rw [hsz]; exact hi)
    obtain ⟨groups1, hrun, hres⟩ := ih (i + 1) ds1 hs1 (hsz1.trans hsz) (by omega) (by
      intro v hv
      by_cases hvi : v = i
      · rw [hvi]; exact hfi
      · rw [hoth v hvi]; exact hdone v (by omega))
    refine ⟨groups1, ?_, fun v hv => hres v (by omega)⟩
    simp only [kruskal_init, graph_has_vertex_of_present hwf hi (hfull i hi), bind,
      Except.bind, if_true, hms]
    exact hrun

theorem dsets_placed_of_self {ds : DSets} {v : Nat} (hv : v < ds.size)
    (h : ds.father[v]? = some (v : Int)) : dsets_placed ds v :=
  ⟨hv, (v : Int), h, by omega⟩

theorem list_getElem?_set {α : Type} (l : List α) (i n : Nat) (x : α) (hi : i < l.length) :
    (l.set i x)[n]? = if n = i then some x else l[n]? := by
  by_cases h : n = i
  · subst h
    rw [List.getElem?_set_self hi, if_pos rfl]
  · rw [List.getElem?_set_ne (fun e => h e.symm), if_neg h]

theorem dsets_set_father_rank {ds ds1 : DSets} {n x : Int}
    (h : dsets_set_father ds n x = Except.ok ds1) : ds1.rank = ds.rank := by
  unfold dsets_set_father at h
  split at h
  · cases h
    rfl
  · cases h

theorem dsets_same_set_rank {root height : Nat → Nat} {ds ds1 : DSets} {a b : Nat} {s : Bool}
    (inv : DSetsInv ds root height) (ha : a < ds.size) (hb : b < ds.size)
    (hrun : dsets_same_set ds a b = Except.ok (ds1, s)) : ds1.rank = ds.rank := by
  unfold dsets_same_set at hrun
  obtain ⟨r1, h1, hrun⟩ := bind_ok hrun
  obtain ⟨r2, h2, hrun⟩ := bind_ok hrun
  have hpa := dsets_find_set_placed inv ha h1
  obtain ⟨inv1, hr1, hs1, hrk1, _⟩ := @dsets_find_set_spec _ _ _ r1.1 _ r1.2 inv hpa h1
  have hpb1 := dsets_find_set_placed inv1 (by rw [hs1]; exact hb) h2
  obtain ⟨_, hr2, _, hrk2, _⟩ := @dsets_find_set_spec _ _ _ r2.1 _ r2.2 inv1 hpb1 h2
  rw [if_neg (by rw [hr1, hr2]; omega)] at hrun
  cases hrun
  exact hrk2.trans hrk1

/-- A call of `dsets_union` that returns raises no rank by more than one. -/
theorem dsets_union_rank_le {root height : Nat → Nat} {ds ds1 : DSets} {a b : Nat}
    (inv : DSetsInv ds root height) (ha : dsets_placed ds a) (hb : dsets_placed ds b)
    (hrun : dsets_union ds a b = Except.ok ds1) :
    ∀ (v : Nat) (k1 : Int), ds1.rank[v]? = some k1 →
      ∃ k, ds.rank[v]? = some k ∧ k1 ≤ k + 1 := by
  unfold dsets_union at hrun
  rw [if_neg (by have := ha.1; have := hb.1; omega)] at hrun
  obtain ⟨r1, h1, hrun⟩ := bind_ok hrun
  obtain ⟨r2, h2, hrun⟩ := bind_ok hrun
  obtain ⟨inv1, hr1, _, hrk1, hpl1⟩ := @dsets_find_set_spec _ _ _ r1.1 _ r1.2 inv ha h1
  obtain ⟨_, hr2, _, hrk2, _⟩ :=
    @dsets_find_set_spec _ _ _ r2.1 _ r2.2 inv1 ((hpl1 b).mpr hb) h2
  dsimp only at hrun
  rw [hr1, hr2, if_neg (by omega)] at hrun
  obtain ⟨k1, _, hrun⟩ := bind_ok hrun
  obtain ⟨k2, _, hrun⟩ := bind_ok hrun
  obtain ⟨ds3, h3, hrun⟩ := bind_ok hrun
  obtain ⟨k3, _, hrun⟩ := bind_ok hrun
  obtain ⟨k4, _, hrun⟩ := bind_ok hrun
  have hrk3 : ds3.rank = ds.rank := (dsets_set_father_rank h3).trans (hrk2.trans hrk1)
  intro v kv hv
  split at hrun
  · obtain ⟨kf, hkf, h4⟩ := bind_ok hrun
    split at h4
    · generalize (if k1 > k2 then ((root a : Nat) : Int) else ((root b : Nat) : Int)) = f
        at hkf h4
      unfold dsets_rank at hkf
      unfold dsets_set_rank at h4
      split at h4
      · next hc =>
        cases h4
        rw [if_pos hc.1] at hkf
        have hv' : (ds3.rank.set f.toNat (kf + 1))[v]? = some kv := hv
        rw [list_getElem?_set _ _ _ _ hc.2] at hv'
        split at hv'
        · next hvf =>
          cases hv'
          refine ⟨kf, ?_, le_refl _⟩
          rw [← hrk3, hvf]
          cases hx : ds3.rank[f.toNat]? with
          | none => rw [hx] at hkf; cases hkf
          | some x => rw [hx] at hkf; cases hkf; rfl
        · exact ⟨kv, by rw [← hrk3]; exact hv', by omega⟩
      · cases h4
    · cases h4
  · cases hrun
    exact ⟨kv, by rw [← hrk3]; exact hv, by omega⟩

theorem kruskal_init_rank (g : Graph W) :
    ∀ (n i : Nat) (groups groups1 : DSets),
      (∀ (v : Nat) (k : Int), groups.rank[v]? = some k → k = 0) →
      kruskal_init g n i groups = Except.ok groups1 →
      ∀ (v : Nat) (k : Int), groups1.rank[v]? = some k → k = 0 := by
  intro n
  induction n with
  | zero =>
    intro i groups groups1 hz h
    simp only [kruskal_init] at h
    cases h
    exact hz
  | succ n ih =>
    intro i groups groups1 hz h
    simp only [kruskal_init] at h
    obtain ⟨b, _, h⟩ := bind_ok h
    split at h
    · obtain ⟨groups2, h2, h⟩ := bind_ok h
      refine ih (i + 1) groups2 groups1 ?_ h
      unfold dsets_make_set at h2
      split at h2
      · cases h2
        exact hz
      · obtain ⟨d, h3, h4⟩ := bind_ok h2
        unfold dsets_set_father at h3
        split at h3
        · cases h3
          unfold dsets_set_rank at h4
          split at h4
          · next hc =>
            cases h4
            intro v k hv
            have hv' : (groups.rank.set (i : Int).toNat 0)[v]? = some k := hv
            have hc2 : (i : Int).toNat < groups.rank.length := hc.2
            rw [list_getElem?_set _ _ _ _ hc2] at hv'
            split at hv'
            · exact (Option.some.inj hv').symm
            · exact hz v k hv'
          · cases h4
        · cases h3
    · obtain ⟨groups2, h2, h⟩ := bind_ok h
      cases h2
      exact ih (i + 1) groups groups1 hz h

theorem kruskal_process_total [LE W] [DecidableRel (α := W) (· ≤ ·)] {g0 : Graph W}
    (hR : TotalPreorderOn (edge_live g0) (edge_relation g0)) (hends0 : GraphEndsInRange g0) :
    ∀ (fuel : Nat) (g : Graph W) (h : Heap EdgePtr) (groups : DSets) (sel : List EdgePtr),
      KruskalInv g0 g groups sel → (∀ v, v < g0.size → dsets_placed groups v) →
      h.rel = edge_relation g0 → HeapWF h → HeapAll (edge_live g0) h → HeapOrdered h →
      h.size ≤ fuel →
      (∀ (v : Nat) (k : Int), groups.rank[v]? = some k → k + (fuel : Int) ≤ (INT_MAX : Int)) →
      ∃ r, kruskal_process fuel g h groups = Except.ok r := by
  intro fuel
  induction fuel with
  | zero =>
    intro g h groups sel _ _ _ _ _ _ hle _
    have h0 : h.size = 0 := by omega
    exact ⟨(g, h, groups), by simp [kruskal_process, heap_size, h0]⟩
  | succ fuel ih =>
    intro g h groups sel inv hplaced hrel hwf hall hord hle hrank
    by_cases h0 : h.size = 0
    · exact ⟨(g, h, groups), by simp [kruskal_process, heap_size, h0]⟩
    · obtain ⟨x, h1, hext, hx0, hs1, _, hr1, hwf1, hall1, hord1, _, _⟩ :=
        heap_extract_root_spec hR hrel hwf hall hord h0
      have hlive : edge_live g0 x := hall 0 x (by omega) hx0
      obtain ⟨a, b, hab⟩ := edge_live_iff_ends.mp hlive
      have habg : edge_ends g x = some (a, b) := by rw [inv.ends_eq]; exact hab
      obtain ⟨ed, _, hd, hv1, hv2⟩ := edge_deref_of_ends habg
      obtain ⟨ha, hb⟩ := hends0 x a b hab
      obtain ⟨root, height, dinv, _, _⟩ := inv.forest
      obtain ⟨s, hsame⟩ := dsets_same_set_total dinv (hplaced a ha) (hplaced b hb)
      have hsame' : dsets_same_set groups ed.v1 ed.v2 = Except.ok (s.1, s.2) := by
        rw [hv1, hv2]; exact hsame
      have hasz : ed.v1 < groups.size := by rw [hv1, inv.groups_size]; exact ha
      have hbsz : ed.v2 < groups.size := by rw [hv2, inv.groups_size]; exact hb
      obtain ⟨hp1, hp2, dinv1, hsdec, _, hpl1⟩ := dsets_same_set_spec dinv hasz hbsz hsame'
      have hrk1 : s.1.rank = groups.rank := dsets_same_set_rank dinv hasz hbsz hsame'
      have hstart : kruskal_process (fuel + 1) g h groups =
          (if (!s.2) = true then
            (edge_set_attr g x BLUE >>= fun g1 =>
              edge_deref g1 x >>= fun ed1 =>
                dsets_union s.1 ed1.v1 ed1.v2 >>= fun groups2 =>
                  kruskal_process fuel g1 h1 groups2)
          else kruskal_process fuel g h1 s.1) := by
        simp only [kruskal_process, heap_size, ne_eq, h0, not_false_eq_true, if_true, hext,
          hd, hsame', bind, Except.bind]
      rw [hstart]
      cases hs2 : s.2 with
      | true =>
        simp only [Bool.not_true, Bool.false_eq_true, if_false]
        exact ih g h1 s.1 sel (kruskal_reject_inv hends0 inv hd hsame')
          (fun v hv => (hpl1 v).mpr (hplaced v hv)) (hr1.trans hrel) hwf1 hall1 hord1
          (by omega) (by
            intro v k hv
            rw [hrk1] at hv
            have := hrank v k hv
            push_cast at this
            omega)
      | false =>
        simp only [Bool.not_false, if_true]
        obtain ⟨g1, hset⟩ := edge_set_attr_total BLUE habg
        obtain ⟨_, _, he1, _⟩ := edge_set_attr_spec hset
        obtain ⟨ed1, _, hd1, hw1, hw2⟩ :=
          edge_deref_of_ends (show edge_ends g1 x = some (a, b) by rw [he1]; exact habg)
        have hne : root ed.v1 ≠ root ed.v2 := by
          intro e
          rw [hs2] at hsdec
          simp [e] at hsdec
        have hq1 : dsets_placed s.1 ed1.v1 := by rw [hw1, ← hv1]; exact (hpl1 _).mpr hp1
        have hq2 : dsets_placed s.1 ed1.v2 := by rw [hw2, ← hv2]; exact (hpl1 _).mpr hp2
        obtain ⟨groups2, hun⟩ := dsets_union_total dinv1 hq1 hq2 (by
          intro v k hv
          rw [hrk1] at hv
          have := hrank v k hv
          push_cast at this
          omega)
        have hgrow := dsets_union_rank_le dinv1 hq1 hq2 hun
        have hne1 : root ed1.v1 ≠ root ed1.v2 := by rw [hw1, hw2, ← hv1, ← hv2]; exact hne
        obtain ⟨_, _, _, _, hpl2, _⟩ := dsets_union_spec dinv1 hq1 hq2 hne1 hun
        simp only [hset, hd1, hun, bind, Except.bind]
        exact ih g1 h1 groups2 (x :: sel)
          (kruskal_select_inv hends0 inv hd hsame' hs2 hset hd1 hun)
          (fun v hv => (hpl2 v).mpr ((hpl1 v).mpr (hplaced v hv))) (hr1.trans hrel) hwf1
          hall1 hord1 (by omega) (by
            intro v k hv
            obtain ⟨k0, hk0, hle0⟩ := hgrow v k hv
            rw [hrk1] at hk0
            have := hrank v k0 hk0
            push_cast at this
            omega)

theorem kruskal_returns [LE W] [DecidableRel (α := W) (· ≤ ·)] {g : Graph W}
    (hR : TotalPreorderOn (edge_live g) (edge_relation g)) (hwf : GraphWF g) (hfull : GraphFull g)
    (hends : GraphEndsInRange g) (hsize : g.size * g.size ≤ INT_MAX) :
    ∃ g1, kruskal g = Except.ok g1 := by
  have hpos := hwf.size_pos
  have hsq : 0 < g.size * g.size := Nat.mul_pos hpos hpos
  obtain ⟨h, hc, hs0, hm0, hr0, hwf0, hord0, hall0⟩ :=
    heap_create_spec (g.size * g.size) (edge_relation g) hsq
  have hnew : dsets_new g.size = Except.ok
      { size := g.size, father := List.replicate g.size (-1),
        rank := List.replicate g.size 0 } := by
    simp [dsets_new, hpos]
  obtain ⟨hsing, hsz⟩ := dsets_new_spec hnew
  obtain ⟨groups1, hinit, hall1⟩ :=
    kruskal_init_total hwf hfull g.size 0 _ hsing hsz (by omega)
      (fun v hv => absurd hv (Nat.not_lt_zero v))
  obtain ⟨hsing1, hsz1⟩ := kruskal_init_spec g g.size 0 _ groups1 hsing hinit
  obtain ⟨first, hfirst, hfspec⟩ := graph_first_edge_spec hwf hfull
  obtain ⟨filled, hfill, hfr, hfwf, hfall, hford, hfmax⟩ :=
    kruskal_fill_total hR hwf hfull hends (g.size * g.size) g h first rfl rfl (fun _ => rfl)
      hr0 hwf0 (hall0 _) hord0 (by
        intro e he
        obtain ⟨i2, j2, hi2, hj2, hcell⟩ := hfspec e he
        have hab : ∃ a b, edge_ends g e = some (a, b) := by
          rcases hwf.cell_ends i2 j2 hi2 hj2 e hcell with h | h
          · exact ⟨_, _, h⟩
          · exact ⟨_, _, h⟩
        obtain ⟨a, b, hab'⟩ := hab
        obtain ⟨ha, hb⟩ := hends e a b hab'
        refine ⟨⟨a, b, hab'⟩, by omega, ?_⟩
        simp only [graph_code, hab']
        have h1 : max a b < g.size := max_lt ha hb
        have h2 : min a b < g.size := lt_of_le_of_lt (min_le_left a b) ha
        have h3 : (max a b + 1) * g.size ≤ g.size * g.size := Nat.mul_le_mul_right _ h1
        rw [Nat.succ_mul] at h3
        omega)
  obtain ⟨hv, hs, he, hcb⟩ := kruskal_fill_spec (g.size * g.size) g h first filled hfill
  have hsz10 : groups1.size = g.size := hsz1.trans hsz
  have inv0 : KruskalInv g filled.1 groups1 [] := by
    refine ⟨hv, hs, he, hsz10, fun p hp => Or.inr (hcb p hp), List.nodup_nil,
      trivial, (fun v => v), (fun _ => 0), dsetsSingletons_inv hsing1, ?_, ?_⟩
    · intro u v _ _ huv
      have : u = v := huv
      rw [this]
      exact reach_refl _ _
    · intro a b hab
      simp [edges_ends] at hab
  obtain ⟨done, hproc⟩ :=
    kruskal_process_total hR hends (heap_size filled.2) filled.1 filled.2 groups1 [] inv0
      (fun v hv => dsets_placed_of_self (by rw [hsz10]; exact hv) (hall1 v (by omega)))
      hfr hfwf hfall hford (le_refl _) (by
        intro v k hv
        have hk0 := kruskal_init_rank g g.size 0 _ groups1 (by
          intro v2 k2 hv2
          have hv3 : (List.replicate g.size (0 : Int))[v2]? = some k2 := hv2
          rw [List.getElem?_replicate] at hv3
          split at hv3
          · exact (Option.some.inj hv3).symm
          · cases hv3) hinit v k hv
        have hsz2 : filled.2.size ≤ filled.2.max := hfwf.size_le
        rw [hfmax, hm0] at hsz2
        have hcast : ((heap_size filled.2 : Nat) : Int) ≤ ((INT_MAX : Nat) : Int) := by
          unfold heap_size
          exact_mod_cast le_trans hsz2 hsize
        rw [hk0]
        omega)
  refine ⟨done.1, ?_⟩
  simp only [kruskal, graph_max_size, hpos, if_true, hsize, hc, hnew, hinit, hfirst, hfill,
    hproc, bind, Except.bind, pure, Except.pure]

theorem dsetsForest_of_inv {root height : Nat → Nat} {ds : DSets}
    (inv : DSetsInv ds root height) : DSetsForest ds height := by
  refine ⟨inv.father_len, inv.rank_len, ?_⟩
  intro v hv
  obtain ⟨p, hfp, hpp, _, _, hh⟩ := inv.link v hv
  exact ⟨p, hfp, hpp, hh⟩

theorem fatherPath_of_root {ds : DSets} {r x : Nat} (hr : ds.father[r]? = some (r : Int))
    (h : FatherPath ds r x) : x = r := by
  induction h with
  | refl => rfl
  | @tail w v _ hstep ih =>
    subst ih
    rw [hr] at hstep
    have := Option.some.inj hstep
    omega

theorem fatherPath_unique_root {ds : DSets} {v r : Nat} (h : FatherPath ds v r)
    (hr : ds.father[r]? = some (r : Int)) :
    ∀ r2, FatherPath ds v r2 → ds.father[r2]? = some (r2 : Int) → r = r2 := by
  induction h using Relation.ReflTransGen.head_induction_on with
  | refl =>
    intro r2 h2 _
    exact (fatherPath_of_root hr h2).symm
  | @head v p hstep _ ih =>
    intro r2 h2 hr2
    rcases Relation.ReflTransGen.cases_head h2 with heq | ⟨c, hc, hrest⟩
    · subst heq
      rw [hr2] at hstep
      have hpv : p = v := by
        have := Option.some.inj hstep
        omega
      subst hpv
      exact ih p Relation.ReflTransGen.refl hr2
    · rw [hstep] at hc
      have hpc : p = c := by
        have := Option.some.inj hc
        omega
      subst hpc
      exact ih r2 hrest hr2

theorem dsetsForest_root_exists {ds : DSets} {height : Nat → Nat}
    (wf : DSetsForest ds height) :
    ∀ (k v : Nat), dsets_placed ds v →
      ((Finset.range ds.size).filter (fun m => height v < height m)).card ≤ k →
      ∃ r, FatherPath ds v r ∧ ds.father[r]? = some (r : Int) ∧ dsets_placed ds r := by
  intro k
  induction k with
  | zero =>
    intro v hv hk
    obtain ⟨p, hfp, hpp, hh⟩ := wf.link v hv
    by_cases hpv : p = v
    · subst hpv
      exact ⟨p, Relation.ReflTransGen.refl, hfp, hv⟩
    · have := @card_above_lt height ds.size v p hpp.1 (hh hpv)
      omega
  | succ k ih =>
    intro v hv hk
    obtain ⟨p, hfp, hpp, hh⟩ := wf.link v hv
    by_cases hpv : p = v
    · subst hpv
      exact ⟨p, Relation.ReflTransGen.refl, hfp, hv⟩
    · have := @card_above_lt height ds.size v p hpp.1 (hh hpv)
      obtain ⟨r, hpath, hr, hrp⟩ := ih p hpp (by omega)
      exact ⟨r, Relation.ReflTransGen.head hfp hpath, hr, hrp⟩

theorem dsetsForest_inv {ds : DSets} {height : Nat → Nat} (wf : DSetsForest ds height) :
    ∃ root : Nat → Nat, DSetsInv ds root height ∧
      ∀ v, dsets_placed ds v → FatherPath ds v (root v) := by
  have key : ∀ v, ∃ r, dsets_placed ds v →
      (FatherPath ds v r ∧ ds.father[r]? = some (r : Int) ∧ dsets_placed ds r) := by
    intro v
    by_cases hv : dsets_placed ds v
    · obtain ⟨r, hr⟩ := dsetsForest_root_exists wf _ v hv (le_refl _)
      exact ⟨r, fun _ => hr⟩
    · exact ⟨v, fun h => absurd h hv⟩
  choose root hroot using key
  refine ⟨root, ⟨wf.father_len, wf.rank_len, ?_, ?_⟩, fun v hv => (hroot v hv).1⟩
  · intro v hv
    obtain ⟨p, hfp, hpp, hh⟩ := wf.link v hv
    obtain ⟨hpv, hrv, _⟩ := hroot v hv
    obtain ⟨hpp2, hrp, _⟩ := hroot p hpp
    have heq : root v = root p :=
      fatherPath_unique_root hpv hrv (root p) (Relation.ReflTransGen.head hfp hpp2) hrp
    refine ⟨p, hfp, hpp, heq.symm, ?_, hh⟩
    intro e
    subst e
    exact fatherPath_of_root hfp hpv
  · intro v hv
    obtain ⟨_, hrv, hrp⟩ := hroot v hv
    exact ⟨hrp, hrv⟩

theorem dsets_rank_of_get {ds : DSets} {v : Nat} {x : Int} (h : ds.rank[v]? = some x) :
    dsets_rank ds (v : Int) = Except.ok x := by
  simp [dsets_rank, h]

theorem dsets_set_rank_of_lt {ds : DSets} {v : Nat} (x : Int) (hv : v < ds.rank.length) :
    dsets_set_rank ds (v : Int) x = Except.ok { ds with rank := ds.rank.set v x } := by
  simp [dsets_set_rank, hv]

/-- The result of `dsets_union` on two placed elements, in terms of the collection `ds2`
left by the two calls of `dsets_find_set`: on a tie the rank of the second root grows by
one, which overflows when it is `INT_MAX`. -/
theorem dsets_union_eval {root height : Nat → Nat} {ds : DSets} {a b : Nat}
    (inv : DSetsInv ds root height) (ha : dsets_placed ds a) (hb : dsets_placed ds b) :
    ∃ (ds2 : DSets) (ka kb : Int), DSetsInv ds2 root height ∧
      (∀ v, dsets_placed ds2 v ↔ dsets_placed ds v) ∧ ds2.size = ds.size ∧
      ds2.rank = ds.rank ∧ ds.rank[root a]? = some ka ∧ ds.rank[root b]? = some kb ∧
      dsets_union ds a b =
        if ka = kb ∧ ¬ kb < (INT_MAX : Int) then Except.error Fault.overflow
        else Except.ok
          { size := ds2.size
            father := ds2.father.set (if ka > kb then root b else root a)
              ((if ka > kb then root a else root b : Nat) : Int)
            rank := if ka = kb then ds2.rank.set (root b) (kb + 1) else ds2.rank } := by
  obtain ⟨r1, h1⟩ := dsets_find_set_total inv ha
  obtain ⟨inv1, hr1, hs1, hrk1, hpl1⟩ := @dsets_find_set_spec _ _ _ r1.1 _ r1.2 inv ha h1
  obtain ⟨r2, h2⟩ := dsets_find_set_total inv1 ((hpl1 b).mpr hb)
  obtain ⟨inv2, hr2, hs2, hrk2, hpl2⟩ :=
    @dsets_find_set_spec _ _ _ r2.1 _ r2.2 inv1 ((hpl1 b).mpr hb) h2
  have ha2 := (hpl2 a).mpr ((hpl1 a).mpr ha)
  have hb2 := (hpl2 b).mpr ((hpl1 b).mpr hb)
  obtain ⟨hpra, _⟩ := inv2.root_placed a ha2
  obtain ⟨hprb, _⟩ := inv2.root_placed b hb2
  have hla : root a < r2.1.rank.length := by rw [inv2.rank_len]; exact hpra.1
  have hlb : root b < r2.1.rank.length := by rw [inv2.rank_len]; exact hprb.1
  have hfa : root a < r2.1.father.length := by rw [inv2.father_len]; exact hpra.1
  have hfb : root b < r2.1.father.length := by rw [inv2.father_len]; exact hprb.1
  have hga : r2.1.rank[root a]? = some (r2.1.rank[root a]) := List.getElem?_eq_getElem hla
  have hgb : r2.1.rank[root b]? = some (r2.1.rank[root b]) := List.getElem?_eq_getElem hlb
  have hk1 := dsets_rank_of_get hga
  have hk2 := dsets_rank_of_get hgb
  refine ⟨r2.1, r2.1.rank[root a], r2.1.rank[root b], inv2,
    fun v => (hpl2 v).trans (hpl1 v), hs2.trans hs1, hrk2.trans hrk1,
    by rw [← hrk1, ← hrk2]; exact hga, by rw [← hrk1, ← hrk2]; exact hgb, ?_⟩
  generalize r2.1.rank[root a] = k1 at hk1 hga ⊢
  generalize r2.1.rank[root b] = k2 at hk2 hgb ⊢
  unfold dsets_union
  rw [if_neg (by have := ha.1; have := hb.1; omega)]
  simp only [h1, h2, bind, Except.bind]
  rw [hr1, hr2, if_neg (by omega)]
  simp only [hk1, hk2]
  by_cases hk : k1 > k2
  · simp only [if_pos hk, dsets_set_father_of_lt _ hfb]
    have hk1' : dsets_rank { r2.1 with father := r2.1.father.set (root b) (root a : Int) }
        (root a : Int) = Except.ok k1 := hk1
    have hk2' : dsets_rank { r2.1 with father := r2.1.father.set (root b) (root a : Int) }
        (root b : Int) = Except.ok k2 := hk2
    simp only [hk1', hk2']
    have hneq : ¬ k1 = k2 := by omega
    rw [if_neg hneq, if_neg (fun h => hneq h.1), if_neg hneq]
    rfl
  · simp only [if_neg hk, dsets_set_father_of_lt _ hfa]
    have hk1' : dsets_rank { r2.1 with father := r2.1.father.set (root a) (root b : Int) }
        (root a : Int) = Except.ok k1 := hk1
    have hk2' : dsets_rank { r2.1 with father := r2.1.father.set (root a) (root b : Int) }
        (root b : Int) = Except.ok k2 := hk2
    simp only [hk1', hk2']
    by_cases heq : k1 = k2
    · rw [if_pos heq, if_pos heq]
      by_cases hroom : k2 < (INT_MAX : Int)
      · rw [if_pos hroom, if_neg (fun h => h.2 hroom)]
        have hlb' : root b <
            ({ r2.1 with father := r2.1.father.set (root a) (root b : Int) } : DSets).rank.length :=
          hlb
        rw [dsets_set_rank_of_lt _ hlb']
      · rw [if_neg hroom, if_pos ⟨heq, hroom⟩]
    · rw [if_neg heq, if_neg (fun h => heq h.1), if_neg heq]
      rfl

/-- The effect of `dsets_union` on two placed elements when, on a tie, the rank of the
roots is below `INT_MAX`. -/
theorem dsets_union_effect {root height : Nat → Nat} {ds : DSets} {a b : Nat}
    (inv : DSetsInv ds root height) (ha : dsets_placed ds a) (hb : dsets_placed ds b)
    (hroom : ∀ k, ds.rank[root a]? = some k → ds.rank[root b]? = some k →
      k < (INT_MAX : Int)) :
    ∃ (ds2 : DSets) (ka kb : Int), DSetsInv ds2 root height ∧
      (∀ v, dsets_placed ds2 v ↔ dsets_placed ds v) ∧ ds2.size = ds.size ∧
      ds2.rank = ds.rank ∧ ds.rank[root a]? = some ka ∧ ds.rank[root b]? = some kb ∧
      dsets_union ds a b = Except.ok
        { size := ds2.size
          father := ds2.father.set (if ka > kb then root b else root a)
            ((if ka > kb then root a else root b : Nat) : Int)
          rank := if ka = kb then ds2.rank.set (root b) (kb + 1) else ds2.rank } := by
  obtain ⟨ds2, ka, kb, inv2, hpl2, hs2, hrk2, hka, hkb, heff⟩ := dsets_union_eval inv ha hb
  refine ⟨ds2, ka, kb, inv2, hpl2, hs2, hrk2, hka, hkb, ?_⟩
  rw [heff, if_neg]
  rintro ⟨heq, hlt⟩
  exact hlt (hroom kb (by rw [hka, heq]) hkb)

/-- The effect of a call of `dsets_union` on two placed elements that returned. -/
theorem dsets_union_effect_of_ok {root height : Nat → Nat} {ds ds1 : DSets} {a b : Nat}
    (inv : DSetsInv ds root height) (ha : dsets_placed ds a) (hb : dsets_placed ds b)
    (hrun : dsets_union ds a b = Except.ok ds1) :
    ∃ (ds2 : DSets) (ka kb : Int), DSetsInv ds2 root height ∧
      (∀ v, dsets_placed ds2 v ↔ dsets_placed ds v) ∧ ds2.size = ds.size ∧
      ds2.rank = ds.rank ∧ ds.rank[root a]? = some ka ∧ ds.rank[root b]? = some kb ∧
      (ka = kb → kb < (INT_MAX : Int)) ∧
      ds1 =
        { size := ds2.size
          father := ds2.father.set (if ka > kb then root b else root a)
            ((if ka > kb then root a else root b : Nat) : Int)
          rank := if ka = kb then ds2.rank.set (root b) (kb + 1) else ds2.rank } := by
  obtain ⟨ds2, ka, kb, inv2, hpl2, hs2, hrk2, hka, hkb, heff⟩ := dsets_union_eval inv ha hb
  rw [heff] at hrun
  split at hrun
  · cases hrun
  · next hno =>
    refine ⟨ds2, ka, kb, inv2, hpl2, hs2, hrk2, hka, hkb, ?_, (Except.ok.inj hrun).symm⟩
    intro heq
    by_contra hlt
    exact hno ⟨heq, hlt⟩

theorem list_set_same {α : Type} {l : List α} {i : Nat} {x : α} (h : l[i]? = some x) :
    l.set i x = l := by
  apply List.ext_getElem?
  intro n
  by_cases hn : i = n
  · subst hn
    have hlt : i < l.length := by
      rcases Nat.lt_or_ge i l.length with h1 | h1
      · exact h1
      · rw [List.getElem?_eq_none h1] at h
        cases h
    rw [List.getElem?_set_self hlt, h]
  · rw [List.getElem?_set_ne hn]

theorem dsets_union_spec_all {root height : Nat → Nat} {ds ds1 : DSets} {a b : Nat}
    (inv : DSetsInv ds root height) (ha : dsets_placed ds a) (hb : dsets_placed ds b)
    (hrun : dsets_union ds a b = Except.ok ds1) :
    ∃ (root1 height1 : Nat → Nat), DSetsInv ds1 root1 height1 ∧ ds1.size = ds.size ∧
      (∀ v, dsets_placed ds1 v ↔ dsets_placed ds v) ∧
      ∀ u v, (root1 u = root1 v ↔
        (root u = root v ∨ (root u = root a ∧ root v = root b) ∨
          (root u = root b ∧ root v = root a))) := by
  by_cases hne : root a = root b
  · obtain ⟨ds2, ka, kb, inv2, hpl2, hs2, _, _, _, _, hds1⟩ :=
      dsets_union_effect_of_ok inv ha hb hrun
    obtain ⟨_, hfr⟩ := inv2.root_placed a ((hpl2 a).mpr ha)
    have hfather : ds1.father = ds2.father := by
      rw [hds1]
      show ds2.father.set _ _ = ds2.father
      apply list_set_same
      rw [← hne]
      simp only [ite_self]
      exact hfr
    have hsize : ds1.size = ds2.size := by rw [hds1]
    have hrank : ds1.rank.length = ds2.rank.length := by
      rw [hds1]
      show (if ka = kb then ds2.rank.set (root b) (kb + 1) else ds2.rank).length = _
      split
      · simp
      · rfl
    refine ⟨root, height, dsetsInv_congr hfather hsize hrank inv2, hsize.trans hs2, ?_, ?_⟩
    · intro v
      have : dsets_placed ds1 v ↔ dsets_placed ds2 v := by
        unfold dsets_placed; rw [hfather, hsize]
      exact this.trans (hpl2 v)
    · intro u v
      constructor
      · intro h; exact Or.inl h
      · rintro (h | ⟨h1, h2⟩ | ⟨h1, h2⟩)
        · exact h
        · rw [h1, h2, hne]
        · rw [h1, h2, hne]
  · exact dsets_union_spec inv ha hb hne hrun

theorem dsets_make_set_forest {height : Nat → Nat} {ds ds1 : DSets} {n : Nat}
    (wf : DSetsForest ds height) (hrun : dsets_make_set ds n = Except.ok ds1) :
    DSetsForest ds1 height ∧ ds1.size = ds.size ∧
      ((ds.size < n ∧ ds1 = ds) ∨
        (n < ds.size ∧ ds1.father = ds.father.set n (n : Int) ∧
          ds1.rank = ds.rank.set n 0)) ∧
      ∀ v, dsets_placed ds v → dsets_placed ds1 v := by
  unfold dsets_make_set at hrun
  split at hrun
  · next hgt =>
    cases hrun
    exact ⟨wf, rfl, Or.inl ⟨hgt, rfl⟩, fun _ h => h⟩
  · obtain ⟨d, h1, h2⟩ := bind_ok hrun
    unfold dsets_set_father at h1
    split at h1
    · next hlt =>
      cases h1
      unfold dsets_set_rank at h2
      split at h2
      · cases h2
        have hn : n < ds.size := by
          have := hlt.2
          rw [wf.father_len] at this
          simpa using this
        have hnl : n < ds.father.length := by rw [wf.father_len]; exact hn
        have hget : ∀ v, (ds.father.set n (n : Int))[v]? =
            if v = n then some (n : Int) else ds.father[v]? := by
          intro v
          by_cases hvn : v = n
          · subst hvn; simp [hnl]
          · have : n ≠ v := fun e => hvn e.symm
            simp [List.getElem?_set_ne this, hvn]
        have hpn : dsets_placed
            { size := ds.size, father := ds.father.set n (n : Int),
              rank := ds.rank.set n 0 } n :=
          ⟨hn, (n : Int), by simp [hnl], by omega⟩
        have hpl : ∀ v, dsets_placed ds v → dsets_placed
            { size := ds.size, father := ds.father.set n (n : Int),
              rank := ds.rank.set n 0 } v := by
          intro v hv
          by_cases hvn : v = n
          · subst hvn; exact hpn
          · obtain ⟨h1, x, hx, hx1⟩ := hv
            refine ⟨h1, x, ?_, hx1⟩
            show (ds.father.set n (n : Int))[v]? = _
            rw [hget, if_neg hvn]; exact hx
        refine ⟨⟨?_, ?_, ?_⟩, rfl, Or.inr ⟨hn, by simp, by simp⟩, hpl⟩
        · simp [wf.father_len]
        · simp [wf.rank_len]
        · intro v hv
          by_cases hvn : v = n
          · subst hvn
            exact ⟨v, by simp [hnl], hpn, fun e => absurd rfl e⟩
          · have hv0 : dsets_placed ds v := by
              obtain ⟨h1, x, hx, hx1⟩ := hv
              refine ⟨h1, x, ?_, hx1⟩
              have hx' : (ds.father.set n (n : Int))[v]? = some x := hx
              rw [hget, if_neg hvn] at hx'
              exact hx'
            obtain ⟨p, hfp, hpp, hh⟩ := wf.link v hv0
            refine ⟨p, ?_, hpl p hpp, hh⟩
            show (ds.father.set n (n : Int))[v]? = _
            rw [hget, if_neg hvn]; exact hfp
      · cases h2
    · cases h1

theorem dsets_find_set_ok_cases {ds : DSets} {n : Nat} {x : DSets × Int}
    (hlen : ds.father.length = ds.size) (hrun : dsets_find_set ds n = Except.ok x) :
    (ds.size < n ∧ x = (ds, -1)) ∨ n < ds.size := by
  unfold dsets_find_set at hrun
  split at hrun
  · next hgt =>
    cases hrun
    exact Or.inl ⟨hgt, rfl⟩
  · next hle =>
    right
    rcases Nat.lt_or_ge n ds.size with h | h
    · exact h
    · exfalso
      have hn : n = ds.size := by omega
      have hnone : ds.father[n]? = none := by
        rw [List.getElem?_eq_none]; omega
      have hf : dsets_father ds (n : Int) = Except.error Fault.outOfBounds := by
        simp [dsets_father, hnone]
      cases hsz : ds.size with
      | zero =>
        rw [hsz] at hrun
        simp [dsets_find_set_loop, hf, bind, Except.bind] at hrun
      | succ k =>
        rw [hsz] at hrun
        simp [dsets_find_set_loop, hf, bind, Except.bind] at hrun

theorem dsets_apply_forest {height : Nat → Nat} {ds ds1 : DSets} {op : DSetsOp}
    (wf : DSetsForest ds height) (hrun : dsets_apply ds op = Except.ok ds1) :
    ∃ height1 : Nat → Nat, DSetsForest ds1 height1 ∧ ds1.size = ds.size := by
  obtain ⟨root, inv, _⟩ := dsetsForest_inv wf
  cases op with
  | make_set n =>
    obtain ⟨wf1, hs, _⟩ := dsets_make_set_forest wf hrun
    exact ⟨height, wf1, hs⟩
  | find_set n =>
    obtain ⟨r, h1, h2⟩ := bind_ok hrun
    cases h2
    rcases dsets_find_set_ok_cases wf.father_len h1 with ⟨_, hx⟩ | hn
    · rw [hx]
      exact ⟨height, wf, rfl⟩
    · have hp := dsets_find_set_placed inv hn h1
      obtain ⟨inv1, _, hs1, _, _⟩ := @dsets_find_set_spec _ _ _ r.1 _ r.2 inv hp h1
      exact ⟨height, dsetsForest_of_inv inv1, hs1⟩
  | union a b =>
    have hrun0 : dsets_union ds a b = Except.ok ds1 := hrun
    by_cases hgt : a > ds.size ∨ b > ds.size
    · unfold dsets_union at hrun0
      rw [if_pos hgt] at hrun0
      cases hrun0
      exact ⟨height, wf, rfl⟩
    · have hrun1 := hrun0
      unfold dsets_union at hrun1
      rw [if_neg hgt] at hrun1
      obtain ⟨r1, h1, hrun1⟩ := bind_ok hrun1
      obtain ⟨r2, h2, _⟩ := bind_ok hrun1
      have ha : dsets_placed ds a := by
        rcases dsets_find_set_ok_cases wf.father_len h1 with ⟨hlt, _⟩ | hn
        · omega
        · exact dsets_find_set_placed inv hn h1
      obtain ⟨inv1, _, hs1, _, hpl1⟩ := @dsets_find_set_spec _ _ _ r1.1 _ r1.2 inv ha h1
      have hb : dsets_placed ds b := by
        rcases dsets_find_set_ok_cases inv1.father_len h2 with ⟨hlt, _⟩ | hn
        · omega
        · exact (hpl1 b).mp (dsets_find_set_placed inv1 hn h2)
      obtain ⟨root1, height1, inv3, hs3, _, _⟩ := dsets_union_spec_all inv ha hb hrun0
      exact ⟨height1, dsetsForest_of_inv inv3, hs3⟩

theorem dsets_run_forest :
    ∀ (ops : List DSetsOp) (ds ds1 : DSets) (height : Nat → Nat),
      DSetsForest ds height → dsets_run ds ops = Except.ok ds1 →
      ∃ height1 : Nat → Nat, DSetsForest ds1 height1 ∧ ds1.size = ds.size := by
  intro ops
  induction ops with
  | nil =>
    intro ds ds1 height wf hrun
    cases hrun
    exact ⟨height, wf, rfl⟩
  | cons op ops ih =>
    intro ds ds1 height wf hrun
    obtain ⟨d, h1, h2⟩ := bind_ok hrun
    obtain ⟨height1, wf1, hs1⟩ := dsets_apply_forest wf h1
    obtain ⟨height2, wf2, hs2⟩ := ih d ds1 height1 wf1 h2
    exact ⟨height2, wf2, hs2.trans hs1⟩

theorem dsets_session_forest {size : Nat} {ops : List DSetsOp} {ds : DSets}
    (hrun : dsets_session size ops = Except.ok ds) :
    ∃ height : Nat → Nat, DSetsForest ds height ∧ ds.size = size := by
  obtain ⟨d, h1, h2⟩ := bind_ok hrun
  obtain ⟨hsing, hsz⟩ := dsets_new_spec h1
  obtain ⟨height, wf, hs⟩ :=
    dsets_run_forest ops d ds _ (dsetsForest_of_inv (dsetsSingletons_inv hsing)) h2
  exact ⟨height, wf, hs.trans hsz⟩

theorem dsets_apply_keeps {root height : Nat → Nat} {ds ds1 : DSets} {op : DSetsOp}
    (inv : DSetsInv ds root height) (hop : dsets_op_keeps_sets op = true)
    (hrun : dsets_apply ds op = Except.ok ds1) :
    ∃ (root1 height1 : Nat → Nat), DSetsInv ds1 root1 height1 ∧ ds1.size = ds.size ∧
      (∀ v, dsets_placed ds1 v ↔ dsets_placed ds v) ∧
      ∀ u v, root u = root v → root1 u = root1 v := by
  cases op with
  | make_set n => cases hop
  | find_set n =>
    obtain ⟨r, h1, h2⟩ := bind_ok hrun
    cases h2
    rcases dsets_find_set_ok_cases inv.father_len h1 with ⟨_, hx⟩ | hn
    · rw [hx]
      exact ⟨root, height, inv, rfl, fun _ => Iff.rfl, fun _ _ h => h⟩
    · have hp := dsets_find_set_placed inv hn h1
      obtain ⟨inv1, _, hs1, _, hpl1⟩ := @dsets_find_set_spec _ _ _ r.1 _ r.2 inv hp h1
      exact ⟨root, height, inv1, hs1, hpl1, fun _ _ h => h⟩
  | union a b =>
    have hrun0 : dsets_union ds a b = Except.ok ds1 := hrun
    by_cases hgt : a > ds.size ∨ b > ds.size
    · unfold dsets_union at hrun0
      rw [if_pos hgt] at hrun0
      cases hrun0
      exact ⟨root, height, inv, rfl, fun _ => Iff.rfl, fun _ _ h => h⟩
    · have hrun1 := hrun0
      unfold dsets_union at hrun1
      rw [if_neg hgt] at hrun1
      obtain ⟨r1, h1, hrun1⟩ := bind_ok hrun1
      obtain ⟨r2, h2, _⟩ := bind_ok hrun1
      have ha : dsets_placed ds a := by
        rcases dsets_find_set_ok_cases inv.father_len h1 with ⟨hlt, _⟩ | hn
        · omega
        · exact dsets_find_set_placed inv hn h1
      obtain ⟨inv1, _, hs1, _, hpl1⟩ := @dsets_find_set_spec _ _ _ r1.1 _ r1.2 inv ha h1
      have hb : dsets_placed ds b := by
        rcases dsets_find_set_ok_cases inv1.father_len h2 with ⟨hlt, _⟩ | hn
        · omega
        · exact (hpl1 b).mp (dsets_find_set_placed inv1 hn h2)
      obtain ⟨root1, height1, inv3, hs3, hpl3, hroots⟩ :=
        dsets_union_spec_all inv ha hb hrun0
      exact ⟨root1, height1, inv3, hs3, hpl3, fun u v h => (hroots u v).mpr (Or.inl h)⟩

theorem dsets_run_keeps :
    ∀ (ops : List DSetsOp) (ds ds1 : DSets) (root height : Nat → Nat),
      DSetsInv ds root height → (∀ op ∈ ops, dsets_op_keeps_sets op = true) →
      dsets_run ds ops = Except.ok ds1 →
      ∃ (root1 height1 : Nat → Nat), DSetsInv ds1 root1 height1 ∧ ds1.size = ds.size ∧
        (∀ v, dsets_placed ds1 v ↔ dsets_placed ds v) ∧
        ∀ u v, root u = root v → root1 u = root1 v := by
  intro ops
  induction ops with
  | nil =>
    intro ds ds1 root height inv _ hrun
    cases hrun
    exact ⟨root, height, inv, rfl, fun _ => Iff.rfl, fun _ _ h => h⟩
  | cons op ops ih =>
    intro ds ds1 root height inv hops hrun
    obtain ⟨d, h1, h2⟩ := bind_ok hrun
    obtain ⟨root1, height1, inv1, hs1, hpl1, hr1⟩ :=
      dsets_apply_keeps inv (hops op (List.mem_cons_self _ _)) h1
    obtain ⟨root2, height2, inv2, hs2, hpl2, hr2⟩ :=
      ih d ds1 root1 height1 inv1 (fun o ho => hops o (List.mem_cons_of_mem _ ho)) h2
    exact ⟨root2, height2, inv2, hs2.trans hs1, fun v => (hpl2 v).trans (hpl1 v),
      fun u v h => hr2 u v (hr1 u v h)⟩

theorem dsets_rank_room_get {ds : DSets} {n v : Nat} {k : Int}
    (h : dsets_rank_room ds n = true) (hv : ds.rank[v]? = some k) :
    k + (n : Int) ≤ (INT_MAX : Int) := by
  unfold dsets_rank_room at h
  rw [List.all_eq_true] at h
  have := h k (List.mem_iff_getElem?.mpr ⟨v, hv⟩)
  exact of_decide_eq_true this

theorem dsets_rank_room_of_get {ds : DSets} {n : Nat}
    (h : ∀ (v : Nat) (k : Int), ds.rank[v]? = some k → k + (n : Int) ≤ (INT_MAX : Int)) :
    dsets_rank_room ds n = true := by
  unfold dsets_rank_room
  rw [List.all_eq_true]
  intro k hk
  obtain ⟨v, hv⟩ := List.mem_iff_getElem?.mp hk
  exact decide_eq_true (h v k hv)

theorem dsets_apply_total {height : Nat → Nat} {ds : DSets} {op : DSetsOp} {m : Nat}
    (wf : DSetsForest ds height) (hop : dsets_op_placed ds op)
    (hm : (m : Int) ≤ (INT_MAX : Int)) (hroom : dsets_rank_room ds (m + 1) = true) :
    ∃ ds1, dsets_apply ds op = Except.ok ds1 ∧ ds1.size = ds.size ∧
      (∀ v, dsets_placed ds v → dsets_placed ds1 v) ∧
      (∃ height1 : Nat → Nat, DSetsForest ds1 height1) ∧ dsets_rank_room ds1 m = true := by
  obtain ⟨root, inv, _⟩ := dsetsForest_inv wf
  have hget : ∀ (v : Nat) (k : Int), ds.rank[v]? = some k →
      k + (m : Int) + 1 ≤ (INT_MAX : Int) := by
    intro v k hv
    have := dsets_rank_room_get hroom hv
    push_cast at this
    omega
  cases op with
  | make_set n =>
    have hn : n < ds.size := hop
    have hnr : n < ds.rank.length := by rw [wf.rank_len]; exact hn
    have hrun : dsets_apply ds (DSetsOp.make_set n) = Except.ok
        { size := ds.size, father := ds.father.set n (n : Int), rank := ds.rank.set n 0 } := by
      show dsets_make_set ds n = _
      unfold dsets_make_set
      rw [if_neg (by omega)]
      simp only [bind, Except.bind]
      rw [dsets_set_father_of_lt _ (by rw [wf.father_len]; exact hn)]
      simp only
      rw [dsets_set_rank_of_lt _ (by show n < ds.rank.length; exact hnr)]
    obtain ⟨wf1, hs, _, hpl⟩ := dsets_make_set_forest wf hrun
    refine ⟨_, hrun, hs, hpl, ⟨height, wf1⟩, dsets_rank_room_of_get ?_⟩
    intro v k hv
    have hv' : (ds.rank.set n 0)[v]? = some k := hv
    rw [list_getElem?_set _ _ _ _ hnr] at hv'
    split at hv'
    · cases hv'
      omega
    · have := hget v k hv'
      omega
  | find_set n =>
    have hn : dsets_placed ds n := hop
    obtain ⟨r, h1⟩ := dsets_find_set_total inv hn
    obtain ⟨inv1, _, hs1, hrk1, hpl1⟩ := @dsets_find_set_spec _ _ _ r.1 _ r.2 inv hn h1
    refine ⟨r.1, ?_, hs1, fun v hv => (hpl1 v).mpr hv, ⟨height, dsetsForest_of_inv inv1⟩,
      dsets_rank_room_of_get ?_⟩
    · show (dsets_find_set ds n >>= fun r => pure r.1) = _
      rw [h1]
      rfl
    · intro v k hv
      rw [hrk1] at hv
      have := hget v k hv
      omega
  | union a b =>
    have hab : dsets_placed ds a ∧ dsets_placed ds b := hop
    obtain ⟨ds1, h1⟩ := dsets_union_total inv hab.1 hab.2 (by
      intro v k hv
      have := hget v k hv
      omega)
    obtain ⟨root1, height1, inv1, hs1, hpl1, _⟩ := dsets_union_spec_all inv hab.1 hab.2 h1
    refine ⟨ds1, h1, hs1, fun v hv => (hpl1 v).mpr hv, ⟨height1, dsetsForest_of_inv inv1⟩,
      dsets_rank_room_of_get ?_⟩
    intro v k hv
    obtain ⟨k0, hk0, hle⟩ := dsets_union_rank_le inv hab.1 hab.2 h1 v k hv
    have := hget v k0 hk0
    omega

theorem dsets_op_placed_mono {ds ds1 : DSets} {op : DSetsOp} (hs : ds1.size = ds.size)
    (hpl : ∀ v, dsets_placed ds v → dsets_placed ds1 v) (hop : dsets_op_placed ds op) :
    dsets_op_placed ds1 op := by
  cases op with
  | make_set n =>
    show n < ds1.size
    rw [hs]; exact hop
  | find_set n => exact hpl n hop
  | union a b => exact ⟨hpl a hop.1, hpl b hop.2⟩

theorem dsets_run_total :
    ∀ (ops : List DSetsOp) (ds : DSets) (height : Nat → Nat),
      DSetsForest ds height → (∀ op ∈ ops, dsets_op_placed ds op) →
      (ops.length : Int) ≤ (INT_MAX : Int) → dsets_rank_room ds ops.length = true →
      ∃ ds1, dsets_run ds ops = Except.ok ds1 := by
  intro ops
  induction ops with
  | nil =>
    intro ds height _ _ _ _
    exact ⟨ds, rfl⟩
  | cons op ops ih =>
    intro ds height wf hops hlen hroom
    have hlen1 : (ops.length : Int) ≤ (INT_MAX : Int) := by
      simp only [List.length_cons] at hlen
      push_cast at hlen
      omega
    obtain ⟨d, h1, hs1, hpl1, ⟨height1, wf1⟩, hroom1⟩ :=
      dsets_apply_total wf (hops op (List.mem_cons_self _ _)) hlen1 hroom
    obtain ⟨ds1, h2⟩ := ih d height1 wf1
      (fun o ho => dsets_op_placed_mono hs1 hpl1 (hops o (List.mem_cons_of_mem _ ho)))
      hlen1 hroom1
    refine ⟨ds1, ?_⟩
    show (dsets_apply ds op >>= fun d => dsets_run d ops) = _
    rw [h1]
    exact h2

/-! ## Claims on the disjoint sets -/

theorem dsets_pairs_forest : ∃ height : Nat → Nat, DSetsForest dsets_pairs height :=
  (dsets_session_forest (by decide : dsets_session 4 dsets_pairs_ops = Except.ok dsets_pairs)).imp
    (fun _ h => h.1)

theorem dsets_find_set_of_unplaced {ds : DSets} {n : Nat}
    (h : ds.father[n]? = some (-1)) (hn : n ≤ ds.size) :
    dsets_find_set ds n = Except.error Fault.outOfBounds := by
  unfold dsets_find_set
  rw [if_neg (by omega)]
  cases hsz : ds.size with
  | zero => simp [dsets_find_set_loop, dsets_father_of_get h, dsets_father_neg_one, bind,
      Except.bind]
  | succ k => simp [dsets_find_set_loop, dsets_father_of_get h, dsets_father_neg_one, bind,
      Except.bind]

/-- C11: in every state reached from `dsets_new` by calls of `dsets_make_set`,
`dsets_union` and `dsets_find_set` (on any arguments), `dsets_find_set` on a placed
element `n` returns, and the value returned is an element `r` with `father[r] = r`
that the father links of the state before the call lead to from `n`. -/
theorem dsets_find_set_returns_root (size : Nat) (ops : List DSetsOp) (ds : DSets) (n : Nat)
    (hrun : dsets_session size ops = Except.ok ds) (hn : dsets_placed ds n) :
    ∃ (ds1 : DSets) (r : Nat), dsets_find_set ds n = Except.ok (ds1, (r : Int)) ∧
      ds.father[r]? = some (r : Int) ∧ FatherPath ds n r := by
  obtain ⟨height, wf, _⟩ := dsets_session_forest hrun
  obtain ⟨root, inv, hpath⟩ := dsetsForest_inv wf
  obtain ⟨x, hx⟩ := dsets_find_set_total inv hn
  obtain ⟨_, hr, _⟩ := @dsets_find_set_spec _ _ _ x.1 _ x.2 inv hn hx
  refine ⟨x.1, root n, ?_, (inv.root_placed n hn).2, hpath n hn⟩
  rw [hx, ← hr]

/-- Witness of C11: the collection with the father links `0 → 1 → 3` and `2 → 3`, and
the element `0`. -/
theorem dsets_find_set_returns_root_witness :
    dsets_session 4 (dsets_pairs_ops ++ [DSetsOp.union 0 2]) = Except.ok dsets_chain ∧
      dsets_placed dsets_chain 0 ∧
      ∃ (ds1 : DSets) (r : Nat), dsets_find_set dsets_chain 0 = Except.ok (ds1, (r : Int)) ∧
        dsets_chain.father[r]? = some (r : Int) ∧ FatherPath dsets_chain 0 r :=
  ⟨by decide, ⟨by decide, 1, by decide, by decide⟩,
    dsets_find_set_returns_root 4 (dsets_pairs_ops ++ [DSetsOp.union 0 2]) dsets_chain 0
      (by decide) ⟨by decide, 1, by decide, by decide⟩⟩

/-- C12: on a collection fresh from `dsets_new 3`, where no element was given to
`dsets_make_set`, `dsets_find_set` on the element `0` does not return `-1`: the loop
condition reads `father[father[0]]`, that is `father[-1]`, outside the array, before it
tests `father[0] != -1`; `dsets_same_set` on `0` and `1`, and on the placed `1` and the
unplaced `0`, make the same read. -/
theorem dsets_find_set_unplaced_out_of_bounds :
    (dsets_new 3 >>= fun ds => dsets_find_set ds 0) = Except.error Fault.outOfBounds ∧
      (dsets_new 3 >>= fun ds => dsets_same_set ds 0 1) = Except.error Fault.outOfBounds ∧
      (dsets_session 3 [DSetsOp.make_set 1] >>= fun ds => dsets_same_set ds 1 0) =
        Except.error Fault.outOfBounds ∧
      (dsets_session 3 [DSetsOp.make_set 1] >>= fun ds => dsets_same_set ds 0 1) =
        Except.error Fault.outOfBounds := by
  decide

/-- C13, as far as the ranks stay within `int`: in every state reached from `dsets_new`,
for placed `a` and `b`, whenever `dsets_union` on `a` and `b` returns, `dsets_same_set`
on `a` and `b` then returns true, and it still returns true after any further calls of
`dsets_union` and `dsets_find_set`, on any arguments, that return; `dsets_union` on `a`
and `b` returns, and so do such further calls on placed elements, when every rank of the
state can grow once per call without passing `INT_MAX`. -/
theorem dsets_union_same_set_stable (size : Nat) (ops more : List DSetsOp) (ds : DSets)
    (a b : Nat) (hrun : dsets_session size ops = Except.ok ds)
    (ha : dsets_placed ds a) (hb : dsets_placed ds b)
    (hmore : ∀ op ∈ more, dsets_op_keeps_sets op = true) :
    (∀ ds1, dsets_union ds a b = Except.ok ds1 →
      (∃ ds2, dsets_same_set ds1 a b = Except.ok (ds2, true)) ∧
      (∀ ds2, dsets_run ds1 more = Except.ok ds2 →
        ∃ ds3, dsets_same_set ds2 a b = Except.ok (ds3, true))) ∧
      (dsets_rank_room ds (more.length + 1) = true → (more.length : Int) < (INT_MAX : Int) →
        ∃ ds1, dsets_union ds a b = Except.ok ds1 ∧
          ((∀ op ∈ more, dsets_op_placed ds op) →
            ∃ ds2, dsets_run ds1 more = Except.ok ds2)) := by
  obtain ⟨height, wf, _⟩ := dsets_session_forest hrun
  obtain ⟨root, inv, _⟩ := dsetsForest_inv wf
  have same : ∀ (d : DSets) (rt ht : Nat → Nat), DSetsInv d rt ht → dsets_placed d a →
      dsets_placed d b → rt a = rt b → ∃ d3, dsets_same_set d a b = Except.ok (d3, true) := by
    intro d rt ht invd had hbd hrt
    obtain ⟨x, hx⟩ := dsets_same_set_total invd had hbd
    obtain ⟨_, _, _, hs, _⟩ := @dsets_same_set_spec _ _ d x.1 a b x.2 invd had.1 hbd.1 hx
    refine ⟨x.1, ?_⟩
    rw [hx]
    have : x.2 = true := by rw [hs]; exact decide_eq_true hrt
    rw [← this]
  constructor
  · intro ds1 h1
    obtain ⟨root1, height1, inv1, hs1, hpl1, hroots⟩ := dsets_union_spec_all inv ha hb h1
    have hab : root1 a = root1 b := (hroots a b).mpr (Or.inr (Or.inl ⟨rfl, rfl⟩))
    have ha1 := (hpl1 a).mpr ha
    have hb1 := (hpl1 b).mpr hb
    refine ⟨same ds1 root1 height1 inv1 ha1 hb1 hab, ?_⟩
    intro ds2 h2
    obtain ⟨root2, height2, inv2, _, hpl2, hr2⟩ :=
      dsets_run_keeps more ds1 ds2 root1 height1 inv1 hmore h2
    exact same ds2 root2 height2 inv2 ((hpl2 a).mpr ha1) ((hpl2 b).mpr hb1) (hr2 a b hab)
  · intro hroom hlen
    have hget : ∀ (v : Nat) (k : Int), ds.rank[v]? = some k →
        k + (more.length : Int) + 1 ≤ (INT_MAX : Int) := by
      intro v k hv
      have := dsets_rank_room_get hroom hv
      push_cast at this
      omega
    obtain ⟨ds1, h1⟩ := dsets_union_total inv ha hb (by
      intro v k hv
      have := hget v k hv
      omega)
    obtain ⟨root1, height1, inv1, hs1, hpl1, _⟩ := dsets_union_spec_all inv ha hb h1
    refine ⟨ds1, h1, ?_⟩
    intro hplaced
    refine dsets_run_total more ds1 height1 (dsetsForest_of_inv inv1)
      (fun op hop => dsets_op_placed_mono hs1 (fun v hv => (hpl1 v).mpr hv) (hplaced op hop))
      (le_of_lt hlen) (dsets_rank_room_of_get ?_)
    intro v k hv
    obtain ⟨k0, hk0, hle⟩ := dsets_union_rank_le inv ha hb h1 v k hv
    have := hget v k0 hk0
    omega

/-- Witness of C13 (amended): the pairs `{0, 1}` and `{2, 3}`, `dsets_union` on `0` and
`2`, then `dsets_find_set` on `3` and `dsets_union` on `1` and `3`. -/
theorem dsets_union_same_set_stable_witness :
    dsets_session 4 dsets_pairs_ops = Except.ok dsets_pairs ∧
      dsets_placed dsets_pairs 0 ∧ dsets_placed dsets_pairs 2 ∧
      (∀ op ∈ [DSetsOp.find_set 3, DSetsOp.union 1 3], dsets_op_keeps_sets op = true) ∧
      dsets_rank_room dsets_pairs ([DSetsOp.find_set 3, DSetsOp.union 1 3].length + 1) = true ∧
      (([DSetsOp.find_set 3, DSetsOp.union 1 3].length : Int) < (INT_MAX : Int)) ∧
      (∀ ds1, dsets_union dsets_pairs 0 2 = Except.ok ds1 →
        (∃ ds2, dsets_same_set ds1 0 2 = Except.ok (ds2, true)) ∧
        (∀ ds2, dsets_run ds1 [DSetsOp.find_set 3, DSetsOp.union 1 3] = Except.ok ds2 →
          ∃ ds3, dsets_same_set ds2 0 2 = Except.ok (ds3, true))) ∧
      (dsets_rank_room dsets_pairs ([DSetsOp.find_set 3, DSetsOp.union 1 3].length + 1) = true →
        (([DSetsOp.find_set 3, DSetsOp.union 1 3].length : Int) < (INT_MAX : Int)) →
        ∃ ds1, dsets_union dsets_pairs 0 2 = Except.ok ds1 ∧
          ((∀ op ∈ [DSetsOp.find_set 3, DSetsOp.union 1 3], dsets_op_placed dsets_pairs op) →
            ∃ ds2, dsets_run ds1 [DSetsOp.find_set 3, DSetsOp.union 1 3] = Except.ok ds2)) :=
  ⟨by decide, ⟨by decide, 1, by decide, by decide⟩, ⟨by decide, 3, by decide, by decide⟩,
    by decide, by decide, by decide,
    dsets_union_same_set_stable 4 dsets_pairs_ops [DSetsOp.find_set 3, DSetsOp.union 1 3]
      dsets_pairs 0 2 (by decide) ⟨by decide, 1, by decide, by decide⟩
      ⟨by decide, 3, by decide, by decide⟩ (by decide)⟩

/-- C14: in a collection whose father links form a forest, for placed `n` and `m`,
`dsets_find_set` on `n` returns and, in the collection it leaves, `dsets_find_set` on `m`
returns the value it returns in the collection before; so does `dsets_find_set` on `n`
again; and `dsets_same_set` on any placed `x` and `y` returns the same answer before
and after. -/
theorem dsets_find_set_transparent (ds : DSets) (n m : Nat)
    (wf : ∃ height : Nat → Nat, DSetsForest ds height)
    (hn : dsets_placed ds n) (hm : dsets_placed ds m) :
    ∃ (ds1 : DSets) (rn : Int), dsets_find_set ds n = Except.ok (ds1, rn) ∧
      (∃ (ds2 ds3 : DSets) (rm : Int), dsets_find_set ds m = Except.ok (ds2, rm) ∧
        dsets_find_set ds1 m = Except.ok (ds3, rm)) ∧
      (∃ ds4, dsets_find_set ds1 n = Except.ok (ds4, rn)) ∧
      ∀ x y, dsets_placed ds x → dsets_placed ds y →
        ∃ (ds5 ds6 : DSets) (s : Bool), dsets_same_set ds x y = Except.ok (ds5, s) ∧
          dsets_same_set ds1 x y = Except.ok (ds6, s) := by
  obtain ⟨height, wf⟩ := wf
  obtain ⟨root, inv, _⟩ := dsetsForest_inv wf
  obtain ⟨x1, h1⟩ := dsets_find_set_total inv hn
  obtain ⟨inv1, hr1, _, _, hpl1⟩ := @dsets_find_set_spec _ _ _ x1.1 _ x1.2 inv hn h1
  obtain ⟨x2, h2⟩ := dsets_find_set_total inv hm
  obtain ⟨_, hr2, _⟩ := @dsets_find_set_spec _ _ _ x2.1 _ x2.2 inv hm h2
  obtain ⟨x3, h3⟩ := dsets_find_set_total inv1 ((hpl1 m).mpr hm)
  obtain ⟨_, hr3, _⟩ := @dsets_find_set_spec _ _ _ x3.1 _ x3.2 inv1 ((hpl1 m).mpr hm) h3
  obtain ⟨x4, h4⟩ := dsets_find_set_total inv1 ((hpl1 n).mpr hn)
  obtain ⟨_, hr4, _⟩ := @dsets_find_set_spec _ _ _ x4.1 _ x4.2 inv1 ((hpl1 n).mpr hn) h4
  refine ⟨x1.1, x1.2, h1, ⟨x2.1, x3.1, x2.2, h2, ?_⟩, ⟨x4.1, ?_⟩, ?_⟩
  · rw [h3, hr2, ← hr3]
  · rw [h4, hr1, ← hr4]
  · intro x y hx hy
    obtain ⟨x5, h5⟩ := dsets_same_set_total inv hx hy
    obtain ⟨_, _, _, hs5, _⟩ := @dsets_same_set_spec _ _ ds x5.1 x y x5.2 inv hx.1 hy.1 h5
    have hx1 := (hpl1 x).mpr hx
    have hy1 := (hpl1 y).mpr hy
    obtain ⟨x6, h6⟩ := dsets_same_set_total inv1 hx1 hy1
    obtain ⟨_, _, _, hs6, _⟩ :=
      @dsets_same_set_spec _ _ x1.1 x6.1 x y x6.2 inv1 hx1.1 hy1.1 h6
    refine ⟨x5.1, x6.1, x5.2, h5, ?_⟩
    rw [h6, hs5, ← hs6]

/-- Witness of C14: the collection with the father links `0 → 1 → 3` and `2 → 3`;
`dsets_find_set` on `0` rewrites `father[0]`. -/
theorem dsets_find_set_transparent_witness :
    (∃ height : Nat → Nat, DSetsForest dsets_chain height) ∧
      dsets_placed dsets_chain 0 ∧ dsets_placed dsets_chain 2 ∧
      ∃ (ds1 : DSets) (rn : Int), dsets_find_set dsets_chain 0 = Except.ok (ds1, rn) ∧
        (∃ (ds2 ds3 : DSets) (rm : Int), dsets_find_set dsets_chain 2 = Except.ok (ds2, rm) ∧
          dsets_find_set ds1 2 = Except.ok (ds3, rm)) ∧
        (∃ ds4, dsets_find_set ds1 0 = Except.ok (ds4, rn)) ∧
        ∀ x y, dsets_placed dsets_chain x → dsets_placed dsets_chain y →
          ∃ (ds5 ds6 : DSets) (s : Bool), dsets_same_set dsets_chain x y = Except.ok (ds5, s) ∧
            dsets_same_set ds1 x y = Except.ok (ds6, s) :=
  have hwf : ∃ height : Nat → Nat, DSetsForest dsets_chain height :=
    (dsets_session_forest (by decide :
      dsets_session 4 (dsets_pairs_ops ++ [DSetsOp.union 0 2]) = Except.ok dsets_chain)).imp
      (fun _ h => h.1)
  ⟨hwf, ⟨by decide, 1, by decide, by decide⟩, ⟨by decide, 3, by decide, by decide⟩,
    dsets_find_set_transparent dsets_chain 0 2 hwf ⟨by decide, 1, by decide, by decide⟩
      ⟨by decide, 3, by decide, by decide⟩⟩

/-- C15, as the code has it: for placed `a` and `b` whose roots `ra` and `rb` differ, in
a collection whose ranks are all below `INT_MAX`, `dsets_union` returns; when the ranks
of the roots differ the root of lower rank gets
the other root as father and no rank changes; when the ranks are equal `ra`, the root
of the first argument, gets `rb`, the root of the second argument, as father and only
the rank of `rb` grows by one. -/
theorem dsets_union_by_rank (ds : DSets) (a b ra rb : Nat)
    (wf : ∃ height : Nat → Nat, DSetsForest ds height)
    (ha : dsets_placed ds a) (hb : dsets_placed ds b)
    (hra : FatherPath ds a ra) (hra1 : ds.father[ra]? = some (ra : Int))
    (hrb : FatherPath ds b rb) (hrb1 : ds.father[rb]? = some (rb : Int))
    (hne : ra ≠ rb) (hroom : dsets_rank_room ds 1 = true) :
    ∃ (ds1 : DSets) (ka kb : Int), dsets_union ds a b = Except.ok ds1 ∧
      ds.rank[ra]? = some ka ∧ ds.rank[rb]? = some kb ∧
      (kb < ka → ds1.father[rb]? = some (ra : Int) ∧ ds1.father[ra]? = some (ra : Int) ∧
        ds1.rank = ds.rank) ∧
      (ka < kb → ds1.father[ra]? = some (rb : Int) ∧ ds1.father[rb]? = some (rb : Int) ∧
        ds1.rank = ds.rank) ∧
      (ka = kb → ds1.father[ra]? = some (rb : Int) ∧ ds1.father[rb]? = some (rb : Int) ∧
        ds1.rank = ds.rank.set rb (kb + 1)) := by
  obtain ⟨height, wf⟩ := wf
  obtain ⟨root, inv, hpath⟩ := dsetsForest_inv wf
  have hroota : root a = ra :=
    fatherPath_unique_root (hpath a ha) (inv.root_placed a ha).2 ra hra hra1
  have hrootb : root b = rb :=
    fatherPath_unique_root (hpath b hb) (inv.root_placed b hb).2 rb hrb hrb1
  obtain ⟨ds2, ka, kb, inv2, hpl2, hs2, hrk2, hka, hkb, heff⟩ :=
    dsets_union_effect inv ha hb (by
      intro k _ hk
      have := dsets_rank_room_get hroom hk
      push_cast at this
      omega)
  rw [hroota] at hka
  rw [hrootb] at hkb
  rw [hroota, hrootb] at heff
  obtain ⟨hpa, hfa⟩ := inv2.root_placed a ((hpl2 a).mpr ha)
  obtain ⟨hpb, hfb⟩ := inv2.root_placed b ((hpl2 b).mpr hb)
  rw [hroota] at hpa hfa
  rw [hrootb] at hpb hfb
  have hla : ra < ds2.father.length := by rw [inv2.father_len]; exact hpa.1
  have hlb : rb < ds2.father.length := by rw [inv2.father_len]; exact hpb.1
  refine ⟨_, ka, kb, heff, hka, hkb, ?_, ?_, ?_⟩
  · intro hlt
    have hgt : ka > kb := hlt
    have hneq : ¬ ka = kb := by omega
    simp only [if_pos hgt, if_neg hneq]
    refine ⟨?_, ?_, hrk2⟩
    · rw [List.getElem?_set_self hlb]
    · rw [List.getElem?_set_ne (fun e => hne e.symm)]; exact hfa
  · intro hlt
    have hgt : ¬ ka > kb := by omega
    have hneq : ¬ ka = kb := by omega
    simp only [if_neg hgt, if_neg hneq]
    refine ⟨?_, ?_, hrk2⟩
    · rw [List.getElem?_set_self hla]
    · rw [List.getElem?_set_ne hne]; exact hfb
  · intro heq
    have hgt : ¬ ka > kb := by omega
    simp only [if_neg hgt, if_pos heq]
    refine ⟨?_, ?_, by rw [hrk2]⟩
    · rw [List.getElem?_set_self hla]
    · rw [List.getElem?_set_ne hne]; exact hfb

/-- Witness of C15 (amended): the pairs `{0, 1}` and `{2, 3}` with the roots `1` and `3`
of equal rank, and `dsets_union` on `0` and `2`. -/
theorem dsets_union_by_rank_witness :
    (∃ height : Nat → Nat, DSetsForest dsets_pairs height) ∧
      dsets_placed dsets_pairs 0 ∧ dsets_placed dsets_pairs 2 ∧
      FatherPath dsets_pairs 0 1 ∧ dsets_pairs.father[1]? = some ((1 : Nat) : Int) ∧
      FatherPath dsets_pairs 2 3 ∧ dsets_pairs.father[3]? = some ((3 : Nat) : Int) ∧
      1 ≠ 3 ∧ dsets_rank_room dsets_pairs 1 = true ∧
      ∃ (ds1 : DSets) (ka kb : Int), dsets_union dsets_pairs 0 2 = Except.ok ds1 ∧
        dsets_pairs.rank[1]? = some ka ∧ dsets_pairs.rank[3]? = some kb ∧
        (kb < ka → ds1.father[3]? = some ((1 : Nat) : Int) ∧
          ds1.father[1]? = some ((1 : Nat) : Int) ∧ ds1.rank = dsets_pairs.rank) ∧
        (ka < kb → ds1.father[1]? = some ((3 : Nat) : Int) ∧
          ds1.father[3]? = some ((3 : Nat) : Int) ∧ ds1.rank = dsets_pairs.rank) ∧
        (ka = kb → ds1.father[1]? = some ((3 : Nat) : Int) ∧
          ds1.father[3]? = some ((3 : Nat) : Int) ∧
          ds1.rank = dsets_pairs.rank.set 3 (kb + 1)) :=
  have hp0 : FatherPath dsets_pairs 0 1 :=
    Relation.ReflTransGen.single (by decide : dsets_pairs.father[0]? = some ((1 : Nat) : Int))
  have hp2 : FatherPath dsets_pairs 2 3 :=
    Relation.ReflTransGen.single (by decide : dsets_pairs.father[2]? = some ((3 : Nat) : Int))
  ⟨dsets_pairs_forest, ⟨by decide, 1, by decide, by decide⟩,
    ⟨by decide, 3, by decide, by decide⟩, hp0, by decide, hp2, by decide, by decide,
    by decide,
    dsets_union_by_rank dsets_pairs 0 2 1 3 dsets_pairs_forest
      ⟨by decide, 1, by decide, by decide⟩ ⟨by decide, 3, by decide, by decide⟩
      hp0 (by decide) hp2 (by decide) (by decide) (by decide)⟩

/-- Counterexample to C15 as stated: in the collection made of the pairs `{0, 1}` and
`{2, 3}`, `0` has the root `1`, `2` has the root `3`, both roots have rank 1, and
`dsets_union` on `0` and `2` gives the first root `1` the father `3` and raises the
rank of `3`: the second root was not attached under the first, and the rank of the
first root did not change. -/
theorem dsets_union_tie_counterexample :
    dsets_session 4 dsets_pairs_ops = Except.ok dsets_pairs ∧
      dsets_find_set dsets_pairs 0 = Except.ok (dsets_pairs, 1) ∧
      dsets_find_set dsets_pairs 2 = Except.ok (dsets_pairs, 3) ∧
      dsets_pairs.rank[1]? = some 1 ∧ dsets_pairs.rank[3]? = some 1 ∧
      dsets_union dsets_pairs 0 2 = Except.ok dsets_chain ∧
      dsets_chain.father[1]? = some 3 ∧ dsets_chain.father[3]? = some 3 ∧
      dsets_chain.rank[1]? = some 1 ∧ dsets_chain.rank[3]? = some 2 ∧
      ¬ (dsets_chain.father[3]? = some 1 ∧ dsets_chain.rank[1]? = some 2) := by
  decide

/-- C16, as far as the ranks stay within `int`: in a collection whose father links form
a forest and whose ranks are all below `INT_MAX`, for placed `a`, `b`, `x` and `y`,
`dsets_union` on `a` and `b` returns, and `dsets_same_set` on `x` and `y` answers true
afterwards exactly when it answered true before or, before, `x` was in the set of one of
`a`, `b` and `y` in the set of the other. -/
theorem dsets_union_merges_exactly (ds : DSets) (a b x y : Nat)
    (wf : ∃ height : Nat → Nat, DSetsForest ds height)
    (ha : dsets_placed ds a) (hb : dsets_placed ds b)
    (hx : dsets_placed ds x) (hy : dsets_placed ds y)
    (hroom : dsets_rank_room ds 1 = true) :
    ∃ (ds1 : DSets) (after sxy sxa syb sxb sya : Bool),
      dsets_union ds a b = Except.ok ds1 ∧
      (∃ d, dsets_same_set ds1 x y = Except.ok (d, after)) ∧
      (∃ d, dsets_same_set ds x y = Except.ok (d, sxy)) ∧
      (∃ d, dsets_same_set ds x a = Except.ok (d, sxa)) ∧
      (∃ d, dsets_same_set ds y b = Except.ok (d, syb)) ∧
      (∃ d, dsets_same_set ds x b = Except.ok (d, sxb)) ∧
      (∃ d, dsets_same_set ds y a = Except.ok (d, sya)) ∧
      (after = true ↔
        (sxy = true ∨ (sxa = true ∧ syb = true) ∨ (sxb = true ∧ sya = true))) := by
  obtain ⟨height, wf⟩ := wf
  obtain ⟨root, inv, _⟩ := dsetsForest_inv wf
  obtain ⟨ds1, h1⟩ := dsets_union_total inv ha hb (by
    intro v k hv
    have := dsets_rank_room_get hroom hv
    push_cast at this
    omega)
  obtain ⟨root1, height1, inv1, _, hpl1, hroots⟩ := dsets_union_spec_all inv ha hb h1
  have same : ∀ (d : DSets) (rt ht : Nat → Nat), DSetsInv d rt ht → ∀ u v,
      dsets_placed d u → dsets_placed d v →
      ∃ d3, dsets_same_set d u v = Except.ok (d3, decide (rt u = rt v)) := by
    intro d rt ht invd u v hu hv
    obtain ⟨r, hr⟩ := dsets_same_set_total invd hu hv
    obtain ⟨_, _, _, hs, _⟩ := @dsets_same_set_spec _ _ d r.1 u v r.2 invd hu.1 hv.1 hr
    refine ⟨r.1, ?_⟩
    rw [hr, ← hs]
  refine ⟨ds1, decide (root1 x = root1 y), decide (root x = root y),
    decide (root x = root a), decide (root y = root b), decide (root x = root b),
    decide (root y = root a), h1,
    same ds1 root1 height1 inv1 x y ((hpl1 x).mpr hx) ((hpl1 y).mpr hy),
    same ds root height inv x y hx hy, same ds root height inv x a hx ha,
    same ds root height inv y b hy hb, same ds root height inv x b hx hb,
    same ds root height inv y a hy ha, ?_⟩
  simp only [decide_eq_true_eq]
  exact hroots x y

/-- Witness of C16 (amended): the pairs `{0, 1}` and `{2, 3}`, `dsets_union` on `0` and `2`, and
the elements `1` and `3`. -/
theorem dsets_union_merges_exactly_witness :
    (∃ height : Nat → Nat, DSetsForest dsets_pairs height) ∧
      dsets_placed dsets_pairs 0 ∧ dsets_placed dsets_pairs 2 ∧
      dsets_placed dsets_pairs 1 ∧ dsets_placed dsets_pairs 3 ∧
      dsets_rank_room dsets_pairs 1 = true ∧
      ∃ (ds1 : DSets) (after sxy sxa syb sxb sya : Bool),
        dsets_union dsets_pairs 0 2 = Except.ok ds1 ∧
        (∃ d, dsets_same_set ds1 1 3 = Except.ok (d, after)) ∧
        (∃ d, dsets_same_set dsets_pairs 1 3 = Except.ok (d, sxy)) ∧
        (∃ d, dsets_same_set dsets_pairs 1 0 = Except.ok (d, sxa)) ∧
        (∃ d, dsets_same_set dsets_pairs 3 2 = Except.ok (d, syb)) ∧
        (∃ d, dsets_same_set dsets_pairs 1 2 = Except.ok (d, sxb)) ∧
        (∃ d, dsets_same_set dsets_pairs 3 0 = Except.ok (d, sya)) ∧
        (after = true ↔
          (sxy = true ∨ (sxa = true ∧ syb = true) ∨ (sxb = true ∧ sya = true))) :=
  ⟨dsets_pairs_forest, ⟨by decide, 1, by decide, by decide⟩,
    ⟨by decide, 3, by decide, by decide⟩, ⟨by decide, 1, by decide, by decide⟩,
    ⟨by decide, 3, by decide, by decide⟩, by decide,
    dsets_union_merges_exactly dsets_pairs 0 2 1 3 dsets_pairs_forest
      ⟨by decide, 1, by decide, by decide⟩ ⟨by decide, 3, by decide, by decide⟩
      ⟨by decide, 1, by decide, by decide⟩ ⟨by decide, 3, by decide, by decide⟩
      (by decide)⟩

/-- C17: the guards of `dsets_make_set`, `dsets_find_set` and `dsets_union` are
`n > ds->size`, so that the id `n = size` passes them: on a collection of capacity 2,
`dsets_make_set` on `2` writes `father[2]`, `dsets_find_set` on `2` reads `father[2]`,
and `dsets_union` on `2` and a placed element, in either order, reads `father[2]`,
all outside the arrays of 2 cells. -/
theorem dsets_guard_admits_size :
    (dsets_new 2 >>= fun ds => dsets_make_set ds 2) = Except.error Fault.outOfBounds ∧
      (dsets_new 2 >>= fun ds => dsets_find_set ds 2) = Except.error Fault.outOfBounds ∧
      (dsets_session 2 [DSetsOp.make_set 0] >>= fun ds => dsets_union ds 2 0) =
        Except.error Fault.outOfBounds ∧
      (dsets_session 2 [DSetsOp.make_set 0] >>= fun ds => dsets_union ds 0 2) =
        Except.error Fault.outOfBounds := by
  decide

/-! ## The matrix under the calls that change the graph -/

theorem graphShape_of_wf {g : Graph W} (hwf : GraphWF g) : GraphShape g :=
  ⟨hwf.size_pos, hwf.rows, hwf.cols⟩

theorem graph_present_lt {g : Graph W} (hs : GraphShape g) {v : Nat}
    (hp : graph_present g v = true) : v < g.size := by
  rcases Nat.lt_or_ge v g.size with h | h
  · exact h
  · have : g.vertex[v]? = none := by rw [List.getElem?_eq_none]; rw [hs.rows]; exact h
    simp [graph_present, this] at hp

theorem graph_present_row {g : Graph W} {v : Nat} (hp : graph_present g v = true) :
    ∃ row, g.vertex[v]? = some (some row) := by
  unfold graph_present at hp
  split at hp
  · next row heq => exact ⟨row, heq⟩
  · cases hp

theorem graph_cell_ptr_of_absent {g : Graph W} {i : Nat} (hp : graph_present g i = false)
    (j : Nat) : graph_cell_ptr g i j = none := by
  unfold graph_present at hp
  unfold graph_cell_ptr
  split
  · next row heq => simp [heq] at hp
  · rfl

theorem graph_cell_ptr_of_ge {g : Graph W} (hs : GraphShape g) (i : Nat) {j : Nat}
    (hj : g.size ≤ j) : graph_cell_ptr g i j = none := by
  unfold graph_cell_ptr
  split
  · next row heq =>
    have := hs.cols i row heq
    rw [List.getElem?_eq_none (by omega)]
    rfl
  · rfl

theorem graph_has_vertex_eq {g : Graph W} (hs : GraphShape g) (v : Nat) :
    graph_has_vertex g v = Except.ok (graph_present g v) := by
  unfold graph_has_vertex
  rw [if_pos hs.size_pos]
  split
  · next hge =>
    have : g.vertex[v]? = none := by rw [List.getElem?_eq_none]; rw [hs.rows]; exact hge
    simp [graph_present, this]
  · next hlt =>
    have hlt2 : v < g.vertex.length := by rw [hs.rows]; omega
    have hget : g.vertex[v]? = some (g.vertex[v]) := List.getElem?_eq_getElem hlt2
    simp only [graph_row, hget, bind, Except.bind, pure, Except.pure, graph_present]
    cases g.vertex[v] <;> rfl

theorem graph_cell_eq {g : Graph W} (hs : GraphShape g) {i j : Nat}
    (hp : graph_present g i = true) (hj : j < g.size) :
    graph_cell g i j = Except.ok (graph_cell_ptr g i j) := by
  obtain ⟨row, heq⟩ := graph_present_row hp
  have hjr : j < row.length := by rw [hs.cols i row heq]; exact hj
  simp [graph_cell, graph_cell_ptr, graph_row, heq, bind, Except.bind,
    List.getElem?_eq_getElem hjr]

theorem graph_has_edge_eq {g : Graph W} (hs : GraphShape g) (hsym : GraphSymmetric g)
    (i j : Nat) : graph_has_edge g i j = Except.ok (graph_cell_ptr g i j).isSome := by
  unfold graph_has_edge
  simp only [graph_has_vertex_eq hs, bind, Except.bind, pure, Except.pure]
  cases hpi : graph_present g i with
  | false =>
    rw [graph_cell_ptr_of_absent hpi]
    rfl
  | true =>
    cases hpj : graph_present g j with
    | false =>
      rw [hsym i j, graph_cell_ptr_of_absent hpj]
      rfl
    | true =>
      simp only [if_true, graph_cell_eq hs hpi (graph_present_lt hs hpj)]

theorem graph_get_edge_eq {g : Graph W} (hs : GraphShape g) (hsym : GraphSymmetric g)
    (i j : Nat) : graph_get_edge g i j = Except.ok (graph_cell_ptr g i j) := by
  unfold graph_get_edge
  simp only [graph_has_edge_eq hs hsym, bind, Except.bind]
  cases hc : graph_cell_ptr g i j with
  | none => rfl
  | some p =>
    have hpi : graph_present g i = true := by
      cases h : graph_present g i with
      | true => rfl
      | false => rw [graph_cell_ptr_of_absent h] at hc; cases hc
    have hj : j < g.size := by
      rcases Nat.lt_or_ge j g.size with h | h
      · exact h
      · rw [graph_cell_ptr_of_ge hs i h] at hc; cases hc
    simp only [Option.isSome_some, if_true, graph_cell_eq hs hpi hj, hc]

theorem graph_set_cell_spec {g : Graph W} (hs : GraphShape g) {i j : Nat}
    (hp : graph_present g i = true) (hj : j < g.size) (c : Option EdgePtr) :
    ∃ g1, graph_set_cell g i j c = Except.ok g1 ∧ g1.size = g.size ∧ g1.store = g.store ∧
      GraphShape g1 ∧ (∀ v, graph_present g1 v = graph_present g v) ∧
      ∀ a b, graph_cell_ptr g1 a b = if a = i ∧ b = j then c else graph_cell_ptr g a b := by
  obtain ⟨row, heq⟩ := graph_present_row hp
  have hlen := hs.cols i row heq
  have hjr : j < row.length := by rw [hlen]; exact hj
  have hi : i < g.vertex.length := by rw [hs.rows]; exact graph_present_lt hs hp
  refine ⟨{ g with vertex := g.vertex.set i (some (row.set j c)) }, ?_, rfl, rfl, ?_, ?_, ?_⟩
  · simp [graph_set_cell, graph_row, heq, bind, Except.bind, hjr]
  · refine ⟨hs.size_pos, by simp [hs.rows], ?_⟩
    intro a r hr
    have hr2 : (g.vertex.set i (some (row.set j c)))[a]? = some (some r) := hr
    rw [list_getElem?_set _ _ _ _ hi] at hr2
    split at hr2
    · have := Option.some.inj (Option.some.inj hr2)
      rw [← this]; simp [hlen]
    · exact hs.cols a r hr2
  · intro v
    show (match (g.vertex.set i (some (row.set j c)))[v]? with
      | some (some _) => true
      | _ => false) = graph_present g v
    rw [list_getElem?_set _ _ _ _ hi]
    split_ifs with h
    · subst h; rw [hp]
    · rfl
  · intro a b
    show (match (g.vertex.set i (some (row.set j c)))[a]? with
      | some (some r) => (r[b]?).getD none
      | _ => none) = _
    rw [list_getElem?_set _ _ _ _ hi]
    by_cases ha : a = i
    · subst ha
      simp only [if_true, true_and]
      rw [list_getElem?_set _ _ _ _ hjr]
      by_cases hb : b = j
      · simp [hb]
      · simp only [if_neg hb]
        simp [graph_cell_ptr, heq]
    · rw [if_neg ha, if_neg (fun h => ha h.1)]
      rfl

theorem graph_add_vertex_spec {g : Graph W} (hs : GraphShape g) {v : Nat} (hv : v < g.size) :
    ∃ g1, graph_add_vertex g v = Except.ok (g1, true) ∧ g1.size = g.size ∧
      g1.store = g.store ∧ GraphShape g1 ∧
      (∀ u, graph_present g1 u = (decide (u = v) || graph_present g u)) ∧
      ∀ a b, graph_cell_ptr g1 a b = graph_cell_ptr g a b := by
  have hi : v < g.vertex.length := by rw [hs.rows]; exact hv
  have hget : g.vertex[v]? = some (g.vertex[v]) := List.getElem?_eq_getElem hi
  cases hrow : g.vertex[v] with
  | some row =>
    rw [hrow] at hget
    have hp : graph_present g v = true := by simp [graph_present, hget]
    refine ⟨g, ?_, rfl, rfl, hs, ?_, fun _ _ => rfl⟩
    · simp [graph_add_vertex_eq, graph_max_size, hv, graph_row, hget, bind, Except.bind, pure,
        Except.pure]
    · intro u
      by_cases hu : u = v
      · subst hu; simp [hp]
      · simp [hu]
  | none =>
    rw [hrow] at hget
    have hp : graph_present g v = false := by simp [graph_present, hget]
    refine ⟨{ g with vertex := g.vertex.set v (some (List.replicate g.size none)) }, ?_, rfl,
      rfl, ?_, ?_, ?_⟩
    · simp [graph_add_vertex_eq, graph_max_size, hv, graph_row, hget, bind, Except.bind, pure,
        Except.pure]
    · refine ⟨hs.size_pos, by simp [hs.rows], ?_⟩
      intro a r hr
      have hr2 : (g.vertex.set v (some (List.replicate g.size none)))[a]? = some (some r) := hr
      rw [list_getElem?_set _ _ _ _ hi] at hr2
      split at hr2
      · have := Option.some.inj (Option.some.inj hr2)
        rw [← this]; simp
      · exact hs.cols a r hr2
    · intro u
      show (match (g.vertex.set v (some (List.replicate g.size none)))[u]? with
        | some (some _) => true
        | _ => false) = _
      rw [list_getElem?_set _ _ _ _ hi]
      by_cases hu : u = v
      · simp [hu]
      · simp only [if_neg hu, hu, decide_False, Bool.false_or]
        rfl
    · intro a b
      show (match (g.vertex.set v (some (List.replicate g.size none)))[a]? with
        | some (some r) => (r[b]?).getD none
        | _ => none) = _
      rw [list_getElem?_set _ _ _ _ hi]
      by_cases ha : a = v
      · subst ha
        simp only [if_true]
        rw [graph_cell_ptr_of_absent hp]
        simp only [List.getElem?_replicate]
        split <;> rfl
      · simp only [if_neg ha]
        rfl

theorem graph_remove_row_spec {g : Graph W} (hs : GraphShape g) {v : Nat} (hv : v < g.size) :
    GraphShape { g with vertex := g.vertex.set v none } ∧
      (∀ u, graph_present { g with vertex := g.vertex.set v none } u =
        (!decide (u = v) && graph_present g u)) ∧
      ∀ a b, graph_cell_ptr { g with vertex := g.vertex.set v none } a b =
        if a = v then none else graph_cell_ptr g a b := by
  have hi : v < g.vertex.length := by rw [hs.rows]; exact hv
  refine ⟨⟨hs.size_pos, by simp [hs.rows], ?_⟩, ?_, ?_⟩
  · intro a r hr
    have hr2 : (g.vertex.set v none)[a]? = some (some r) := hr
    rw [list_getElem?_set _ _ _ _ hi] at hr2
    split at hr2
    · cases Option.some.inj hr2
    · exact hs.cols a r hr2
  · intro u
    show (match (g.vertex.set v none)[u]? with
      | some (some _) => true
      | _ => false) = _
    rw [list_getElem?_set _ _ _ _ hi]
    by_cases hu : u = v
    · simp [hu]
    · simp only [if_neg hu, hu, decide_False, Bool.not_false, Bool.true_and]
      rfl
  · intro a b
    show (match (g.vertex.set v none)[a]? with
      | some (some r) => (r[b]?).getD none
      | _ => none) = _
    rw [list_getElem?_set _ _ _ _ hi]
    by_cases ha : a = v
    · simp [ha]
    · simp only [if_neg ha]
      rfl

theorem graph_add_edge_tail {g g2 : Graph W} {v1 v2 : Nat} (hs2 : GraphShape g2)
    (hsz : g2.size = g.size) (hst : g2.store = g.store)
    (hcell : ∀ a b, graph_cell_ptr g2 a b = graph_cell_ptr g a b)
    (hp1 : graph_present g2 v1 = true) (hp2 : graph_present g2 v2 = true)
    (w : W) (attr : Int) :
    ∃ g4 g5, graph_set_cell (edge_new g2 v1 v2 w attr).1 v1 v2
        (some (edge_new g2 v1 v2 w attr).2) = Except.ok g4 ∧
      graph_set_cell g4 v2 v1 (some (edge_new g2 v1 v2 w attr).2) = Except.ok g5 ∧
      g5.size = g.size ∧
      g5.store = g.store ++ [some { v1 := v1, v2 := v2, weight := w, attr := attr }] ∧
      GraphShape g5 ∧ (∀ u, graph_present g5 u = graph_present g2 u) ∧
      ∀ a b, graph_cell_ptr g5 a b =
        if (a = v1 ∧ b = v2) ∨ (a = v2 ∧ b = v1) then some g.store.length
        else graph_cell_ptr g a b := by
  have hs3 : GraphShape (edge_new g2 v1 v2 w attr).1 := ⟨hs2.size_pos, hs2.rows, hs2.cols⟩
  have hp31 : graph_present (edge_new g2 v1 v2 w attr).1 v1 = true := hp1
  have hv2 : v2 < (edge_new g2 v1 v2 w attr).1.size := graph_present_lt hs2 hp2
  obtain ⟨g4, h4, hsz4, hst4, hs4, hpr4, hc4⟩ :=
    graph_set_cell_spec hs3 hp31 hv2 (some (edge_new g2 v1 v2 w attr).2)
  have hp42 : graph_present g4 v2 = true := by rw [hpr4]; exact hp2
  have hv1 : v1 < g4.size := by rw [hsz4]; exact graph_present_lt hs2 hp1
  obtain ⟨g5, h5, hsz5, hst5, hs5, hpr5, hc5⟩ :=
    graph_set_cell_spec hs4 hp42 hv1 (some (edge_new g2 v1 v2 w attr).2)
  refine ⟨g4, g5, h4, h5, ?_, ?_, hs5, ?_, ?_⟩
  · rw [hsz5, hsz4]; exact hsz
  · rw [hst5, hst4]
    show g2.store ++ _ = _
    rw [hst]
  · intro u
    rw [hpr5, hpr4]
    rfl
  · intro a b
    rw [hc5, hc4]
    have he : (edge_new g2 v1 v2 w attr).2 = g.store.length := by
      show g2.store.length = _
      rw [hst]
    have hc3 : graph_cell_ptr (edge_new g2 v1 v2 w attr).1 a b = graph_cell_ptr g a b :=
      hcell a b
    rw [he, hc3]
    by_cases h21 : a = v2 ∧ b = v1
    · rw [if_pos h21, if_pos (Or.inr h21)]
    · rw [if_neg h21]
      by_cases h12 : a = v1 ∧ b = v2
      · rw [if_pos h12, if_pos (Or.inl h12)]
      · rw [if_neg h12, if_neg (by tauto)]

theorem graph_add_edge_spec {g : Graph W} (hs : GraphShape g) {v1 v2 : Nat}
    (h1 : v1 < g.size) (h2 : v2 < g.size) (w : W) (attr : Int) :
    ∃ g1, graph_add_edge g v1 v2 w attr = Except.ok (g1, true) ∧ g1.size = g.size ∧
      g1.store = g.store ++ [some { v1 := v1, v2 := v2, weight := w, attr := attr }] ∧
      GraphShape g1 ∧
      (∀ u, graph_present g1 u = (decide (u = v1) || decide (u = v2) || graph_present g u)) ∧
      ∀ a b, graph_cell_ptr g1 a b =
        if (a = v1 ∧ b = v2) ∨ (a = v2 ∧ b = v1) then some g.store.length
        else graph_cell_ptr g a b := by
  rw [graph_add_edge_eq]
  rw [if_neg (by simp only [graph_max_size]; omega)]
  simp only [graph_has_vertex_eq hs, bind, Except.bind, pure, Except.pure]
  cases hp1 : graph_present g v1 with
  | true =>
    simp only [if_true, graph_has_vertex_eq hs]
    cases hp2 : graph_present g v2 with
    | true =>
      obtain ⟨g4, g5, e4, e5, hsz, hst, hs5, hpr, hc⟩ :=
        graph_add_edge_tail hs rfl rfl (fun _ _ => rfl) hp1 hp2 w attr
      simp only [if_true, e4, e5]
      refine ⟨g5, rfl, hsz, hst, hs5, ?_, hc⟩
      intro u
      rw [hpr]
      by_cases hu1 : u = v1
      · subst hu1; simp [hp1]
      · by_cases hu2 : u = v2
        · subst hu2; simp [hp2]
        · simp [hu1, hu2]
    | false =>
      obtain ⟨gb, hb, hszb, hstb, hsb, hprb, hcb⟩ := graph_add_vertex_spec hs h2
      have hpb1 : graph_present gb v1 = true := by rw [hprb, hp1]; simp
      have hpb2 : graph_present gb v2 = true := by rw [hprb]; simp
      obtain ⟨g4, g5, e4, e5, hsz, hst, hs5, hpr, hc⟩ :=
        graph_add_edge_tail hsb hszb hstb hcb hpb1 hpb2 w attr
      simp only [Bool.false_eq_true, if_false, hb, e4, e5]
      refine ⟨g5, rfl, hsz, hst, hs5, ?_, hc⟩
      intro u
      rw [hpr, hprb]
      by_cases hu1 : u = v1
      · subst hu1; simp [hp1]
      · simp [hu1]
  | false =>
    obtain ⟨ga, ha, hsza, hsta, hsa, hpra, hca⟩ := graph_add_vertex_spec hs h1
    simp only [Bool.false_eq_true, if_false, ha, graph_has_vertex_eq hsa]
    have hpa1 : graph_present ga v1 = true := by rw [hpra]; simp
    cases hp2 : graph_present ga v2 with
    | true =>
      obtain ⟨g4, g5, e4, e5, hsz, hst, hs5, hpr, hc⟩ :=
        graph_add_edge_tail hsa hsza hsta hca hpa1 hp2 w attr
      simp only [if_true, e4, e5]
      refine ⟨g5, rfl, hsz, hst, hs5, ?_, hc⟩
      intro u
      rw [hpr]
      by_cases hu2 : u = v2
      · subst hu2; simp [hp2]
      · rw [hpra]; simp [hu2]
    | false =>
      have hv2a : v2 < ga.size := by rw [hsza]; exact h2
      obtain ⟨gb, hb, hszb, hstb, hsb, hprb, hcb⟩ := graph_add_vertex_spec hsa hv2a
      have hpb1 : graph_present gb v1 = true := by rw [hprb, hpa1]; simp
      have hpb2 : graph_present gb v2 = true := by rw [hprb]; simp
      obtain ⟨g4, g5, e4, e5, hsz, hst, hs5, hpr, hc⟩ :=
        graph_add_edge_tail hsb (hszb.trans hsza) (hstb.trans hsta)
          (fun a b => (hcb a b).trans (hca a b)) hpb1 hpb2 w attr
      simp only [Bool.false_eq_true, if_false, hb, e4, e5]
      refine ⟨g5, rfl, hsz, hst, hs5, ?_, hc⟩
      intro u
      rw [hpr, hprb, hpra]
      by_cases hu1 : u = v1 <;> by_cases hu2 : u = v2 <;> simp [hu1, hu2]

theorem graph_cell_ptr_lt {g : Graph W} (hs : GraphShape g) {i j : Nat} {p : EdgePtr}
    (hc : graph_cell_ptr g i j = some p) :
    graph_present g i = true ∧ i < g.size ∧ j < g.size := by
  have hpi : graph_present g i = true := by
    cases h : graph_present g i with
    | true => rfl
    | false => rw [graph_cell_ptr_of_absent h] at hc; cases hc
  refine ⟨hpi, graph_present_lt hs hpi, ?_⟩
  rcases Nat.lt_or_ge j g.size with h | h
  · exact h
  · rw [graph_cell_ptr_of_ge hs i h] at hc; cases hc

theorem edge_ends_live {g : Graph W} {p : EdgePtr} {x : Nat × Nat}
    (h : edge_ends g p = some x) :
    ∃ ed, g.store[p]? = some (some ed) ∧ x = (ed.v1, ed.v2) := by
  unfold edge_ends at h
  split at h
  · next ed heq => exact ⟨ed, heq, (Option.some.inj h).symm⟩
  · cases h

theorem edge_ends_free {g : Graph W} {p : EdgePtr} (hp : p < g.store.length) (q : EdgePtr) :
    edge_ends { g with store := g.store.set p none } q =
      if q = p then none else edge_ends g q := by
  show (match (g.store.set p none)[q]? with
    | some (some ed) => some (ed.v1, ed.v2)
    | _ => none) = _
  rw [list_getElem?_set _ _ _ _ hp]
  by_cases h : q = p
  · simp [h]
  · simp only [if_neg h]
    rfl

theorem graph_remove_edge_spec {g g1 : Graph W} {v1 v2 : Nat} {r : Bool}
    (hwf : GraphWF g) (hsym : GraphSymmetric g)
    (hrun : graph_remove_edge g v1 v2 = Except.ok (g1, r)) :
    (r = false ∧ g1 = g ∧
      (graph_present g v1 = false ∨ graph_present g v2 = false)) ∨
    (r = true ∧ ∃ p, graph_cell_ptr g v1 v2 = some p ∧ p < g.store.length ∧
      g1.size = g.size ∧ g1.store = g.store.set p none ∧ GraphShape g1 ∧
      (∀ u, graph_present g1 u = graph_present g u) ∧
      ∀ a b, graph_cell_ptr g1 a b =
        if (a = v1 ∧ b = v2) ∨ (a = v2 ∧ b = v1) then none else graph_cell_ptr g a b) := by
  have hs := graphShape_of_wf hwf
  unfold graph_remove_edge at hrun
  simp only [graph_has_vertex_eq hs, bind, Except.bind, pure, Except.pure] at hrun
  cases hp1 : graph_present g v1 with
  | false =>
    simp only [hp1, Bool.not_false, if_true] at hrun
    cases hrun
    exact Or.inl ⟨rfl, rfl, Or.inl rfl⟩
  | true =>
    simp only [hp1, Bool.not_true, Bool.false_eq_true, if_false] at hrun
    cases hp2 : graph_present g v2 with
    | false =>
      simp only [hp2, Bool.not_false, if_true] at hrun
      cases hrun
      exact Or.inl ⟨rfl, rfl, Or.inr rfl⟩
    | true =>
      simp only [hp2, Bool.not_true, Bool.false_eq_true, if_false,
        graph_get_edge_eq hs hsym] at hrun
      cases hc : graph_cell_ptr g v1 v2 with
      | none =>
        simp only [hc, edge_free] at hrun
        cases hrun
      | some p =>
        have hv1 := graph_present_lt hs hp1
        have hv2 := graph_present_lt hs hp2
        obtain ⟨ed, hed, _⟩ : ∃ ed, g.store[p]? = some (some ed) ∧ True := by
          rcases hwf.cell_ends v1 v2 hv1 hv2 p hc with h | h
          · obtain ⟨ed, hed, _⟩ := edge_ends_live h
            exact ⟨ed, hed, trivial⟩
          · obtain ⟨ed, hed, _⟩ := edge_ends_live h
            exact ⟨ed, hed, trivial⟩
        have hplt : p < g.store.length := by
          rcases Nat.lt_or_ge p g.store.length with h | h
          · exact h
          · rw [List.getElem?_eq_none h] at hed; cases hed
        simp only [hc, edge_free, hed] at hrun
        have hsf : GraphShape { g with store := g.store.set p none } :=
          ⟨hs.size_pos, hs.rows, hs.cols⟩
        have hpf2 : graph_present { g with store := g.store.set p none } v2 = true := hp2
        have hv1f : v1 < ({ g with store := g.store.set p none } : Graph W).size := hv1
        obtain ⟨g2, h2, hsz2, hst2, hs2, hpr2, hc2⟩ := graph_set_cell_spec hsf hpf2 hv1f none
        have hp21 : graph_present g2 v1 = true := by rw [hpr2]; exact hp1
        have hv2f : v2 < g2.size := by rw [hsz2]; exact hv2
        obtain ⟨g3, h3, hsz3, hst3, hs3, hpr3, hc3⟩ := graph_set_cell_spec hs2 hp21 hv2f none
        simp only [h2, h3] at hrun
        have hg : g3 = g1 := (Prod.mk.inj (Except.ok.inj hrun)).1
        have hr : true = r := (Prod.mk.inj (Except.ok.inj hrun)).2
        subst hg; subst hr
        refine Or.inr ⟨rfl, p, rfl, hplt, by rw [hsz3, hsz2], by rw [hst3, hst2], hs3, ?_, ?_⟩
        · intro u
          rw [hpr3, hpr2]
          rfl
        · intro a b
          rw [hc3, hc2]
          have hcf : graph_cell_ptr { g with store := g.store.set p none } a b =
              graph_cell_ptr g a b := rfl
          rw [hcf]
          by_cases h12 : a = v1 ∧ b = v2
          · rw [if_pos h12, if_pos (Or.inl h12)]
          · rw [if_neg h12]
            by_cases h21 : a = v2 ∧ b = v1
            · rw [if_pos h21, if_pos (Or.inr h21)]
            · rw [if_neg h21, if_neg (by tauto)]

theorem graph_remove_edge_inv {g g1 : Graph W} {v1 v2 : Nat} {r : Bool}
    (hwf : GraphWF g) (hsym : GraphSymmetric g)
    (hrun : graph_remove_edge g v1 v2 = Except.ok (g1, r)) :
    GraphWF g1 ∧ GraphSymmetric g1 ∧ g1.size = g.size ∧
      (∀ u, graph_present g1 u = graph_present g u) ∧
      (∀ a b p, graph_cell_ptr g1 a b = some p → graph_cell_ptr g a b = some p) ∧
      (r = true → graph_cell_ptr g1 v1 v2 = none) := by
  have hs := graphShape_of_wf hwf
  rcases graph_remove_edge_spec hwf hsym hrun with ⟨hr, hg, _⟩ |
    ⟨hr, p, hc, hplt, hsz, hst, hs1, hpr, hcell⟩
  · subst hg
    exact ⟨hwf, hsym, rfl, fun _ => rfl, fun _ _ _ h => h, fun h => by rw [hr] at h; cases h⟩
  · obtain ⟨_, hv1, hv2⟩ := graph_cell_ptr_lt hs hc
    have hmono : ∀ a b q, graph_cell_ptr g1 a b = some q →
        graph_cell_ptr g a b = some q ∧ ¬ ((a = v1 ∧ b = v2) ∨ (a = v2 ∧ b = v1)) := by
      intro a b q hq
      rw [hcell] at hq
      split at hq
      · cases hq
      · next hn => exact ⟨hq, hn⟩
    have hends : ∀ q, edge_ends g1 q = if q = p then none else edge_ends g q := by
      intro q
      have : edge_ends g1 q = edge_ends { g with store := g.store.set p none } q := by
        unfold edge_ends
        rw [hst]
      rw [this, edge_ends_free hplt]
    refine ⟨⟨hs1.size_pos, hs1.rows, hs1.cols, ?_⟩, ?_, hsz, hpr,
      fun a b q hq => (hmono a b q hq).1, fun _ => ?_⟩
    · intro a b ha hb q hq
      obtain ⟨hq0, hn⟩ := hmono a b q hq
      rw [hsz] at ha hb
      have hq1 := hwf.cell_ends a b ha hb q hq0
      have hqp : q ≠ p := by
        intro e
        subst e
        have hp1 := hwf.cell_ends v1 v2 hv1 hv2 q hc
        apply hn
        rcases hq1 with h | h <;> rcases hp1 with h2 | h2 <;> rw [h] at h2 <;>
          have h3 := Prod.mk.inj (Option.some.inj h2) <;> omega
      rw [hends, if_neg hqp]
      exact hq1
    · intro a b
      rw [hcell, hcell, hsym a b]
      by_cases h : (a = v1 ∧ b = v2) ∨ (a = v2 ∧ b = v1)
      · rw [if_pos h, if_pos (by tauto)]
      · rw [if_neg h, if_neg (by tauto)]
    · rw [hcell, if_pos (Or.inl ⟨rfl, rfl⟩)]

theorem graph_remove_edge_clears {g g1 : Graph W} {v1 v2 : Nat} {r : Bool}
    (hwf : GraphWF g) (hsym : GraphSymmetric g)
    (hrun : graph_remove_edge g v1 v2 = Except.ok (g1, r)) :
    graph_cell_ptr g1 v1 v2 = none := by
  rcases graph_remove_edge_spec hwf hsym hrun with ⟨_, hg, hp⟩ | ⟨_, p, _, _, _, _, _, _, hcell⟩
  · subst hg
    rcases hp with hp | hp
    · exact graph_cell_ptr_of_absent hp v2
    · rw [hsym]; exact graph_cell_ptr_of_absent hp v1
  · rw [hcell, if_pos (Or.inl ⟨rfl, rfl⟩)]

theorem graph_add_vertex_inv {g g1 : Graph W} {v : Nat} {r : Bool}
    (hwf : GraphWF g) (hsym : GraphSymmetric g)
    (hrun : graph_add_vertex g v = Except.ok (g1, r)) :
    GraphWF g1 ∧ GraphSymmetric g1 ∧ g1.size = g.size ∧
      ∀ a b, graph_cell_ptr g1 a b = graph_cell_ptr g a b := by
  have hs := graphShape_of_wf hwf
  rcases Nat.lt_or_ge v g.size with hv | hv
  · obtain ⟨g2, h2, hsz, hst, hs2, _, hcell⟩ := graph_add_vertex_spec hs hv
    rw [h2] at hrun
    have hg : g2 = g1 := (Prod.mk.inj (Except.ok.inj hrun)).1
    subst hg
    refine ⟨⟨hs2.size_pos, hs2.rows, hs2.cols, ?_⟩, ?_, hsz, hcell⟩
    · intro a b ha hb p hp
      rw [hcell] at hp
      rw [hsz] at ha hb
      have : edge_ends g2 p = edge_ends g p := by unfold edge_ends; rw [hst]
      rw [this]
      exact hwf.cell_ends a b ha hb p hp
    · intro a b
      rw [hcell, hcell]
      exact hsym a b
  · rw [graph_add_vertex_eq] at hrun
    rw [if_pos (by simp only [graph_max_size]; omega)] at hrun
    have hg : g = g1 := (Prod.mk.inj (Except.ok.inj hrun)).1
    subst hg
    exact ⟨hwf, hsym, rfl, fun _ _ => rfl⟩

theorem edge_ends_append {g g1 : Graph W} {ed : Edge W}
    (hst : g1.store = g.store ++ [some ed]) (q : Nat) :
    edge_ends g1 q = if q < g.store.length then edge_ends g q
      else if q = g.store.length then some (ed.v1, ed.v2) else none := by
  unfold edge_ends
  rw [hst]
  by_cases h : q < g.store.length
  · rw [if_pos h, List.getElem?_append_left h]
  · rw [if_neg h]
    by_cases h2 : q = g.store.length
    · subst h2
      rw [if_pos rfl]
      simp
    · rw [if_neg h2]
      have : (g.store ++ [some ed])[q]? = none := by
        rw [List.getElem?_eq_none]
        simp only [List.length_append, List.length_singleton]
        omega
      rw [this]

theorem graph_add_edge_inv {g g1 : Graph W} {v1 v2 : Nat} {w : W} {attr : Int} {r : Bool}
    (hwf : GraphWF g) (hsym : GraphSymmetric g)
    (hrun : graph_add_edge g v1 v2 w attr = Except.ok (g1, r)) :
    GraphWF g1 ∧ GraphSymmetric g1 ∧ g1.size = g.size ∧
      ∀ a b p, graph_cell_ptr g1 a b = some p →
        graph_cell_ptr g a b = some p ∨ (a = v1 ∧ b = v2) ∨ (a = v2 ∧ b = v1) := by
  have hs := graphShape_of_wf hwf
  by_cases hlt : v1 < g.size ∧ v2 < g.size
  · obtain ⟨g2, h2, hsz, hst, hs2, _, hcell⟩ := graph_add_edge_spec hs hlt.1 hlt.2 w attr
    rw [h2] at hrun
    have hg : g2 = g1 := (Prod.mk.inj (Except.ok.inj hrun)).1
    subst hg
    have hends := edge_ends_append hst
    refine ⟨⟨hs2.size_pos, hs2.rows, hs2.cols, ?_⟩, ?_, hsz, ?_⟩
    · intro a b ha hb p hp
      rw [hcell] at hp
      rw [hsz] at ha hb
      split at hp
      · next hit =>
        have hpe : p = g.store.length := (Option.some.inj hp).symm
        subst hpe
        rw [hends, if_neg (lt_irrefl _), if_pos rfl]
        rcases hit with ⟨e1, e2⟩ | ⟨e1, e2⟩
        · left; rw [e1, e2]
        · right; rw [e1, e2]
      · have h0 := hwf.cell_ends a b ha hb p hp
        have hplt : p < g.store.length := by
          rcases h0 with h | h
          · obtain ⟨ed, hed, _⟩ := edge_ends_live h
            rcases Nat.lt_or_ge p g.store.length with h1 | h1
            · exact h1
            · rw [List.getElem?_eq_none h1] at hed; cases hed
          · obtain ⟨ed, hed, _⟩ := edge_ends_live h
            rcases Nat.lt_or_ge p g.store.length with h1 | h1
            · exact h1
            · rw [List.getElem?_eq_none h1] at hed; cases hed
        rw [hends, if_pos hplt]
        exact h0
    · intro a b
      rw [hcell, hcell, hsym a b]
      by_cases h : (a = v1 ∧ b = v2) ∨ (a = v2 ∧ b = v1)
      · rw [if_pos h, if_pos (by tauto)]
      · rw [if_neg h, if_neg (by tauto)]
    · intro a b p hp
      rw [hcell] at hp
      split at hp
      · next hit => exact Or.inr hit
      · exact Or.inl hp
  · rw [graph_add_edge_eq] at hrun
    rw [if_pos (by simp only [graph_max_size]; omega)] at hrun
    have hg : g = g1 := (Prod.mk.inj (Except.ok.inj hrun)).1
    subst hg
    exact ⟨hwf, hsym, rfl, fun _ _ _ h => Or.inl h⟩

theorem graph_remove_vertex_loop_inv {v : Nat} :
    ∀ (n i : Nat) (g g1 : Graph W), GraphWF g → GraphSymmetric g →
      graph_remove_vertex_loop v n i g = Except.ok g1 →
      GraphWF g1 ∧ GraphSymmetric g1 ∧ g1.size = g.size ∧
        (∀ u, graph_present g1 u = graph_present g u) ∧
        (∀ a b p, graph_cell_ptr g1 a b = some p → graph_cell_ptr g a b = some p) ∧
        ∀ k, i ≤ k → k < i + n → graph_cell_ptr g1 k v = none := by
  intro n
  induction n with
  | zero =>
    intro i g g1 hwf hsym hrun
    cases hrun
    exact ⟨hwf, hsym, rfl, fun _ => rfl, fun _ _ _ h => h, fun k h1 h2 => by omega⟩
  | succ n ih =>
    intro i g g1 hwf hsym hrun
    have hs := graphShape_of_wf hwf
    unfold graph_remove_vertex_loop at hrun
    simp only [graph_has_edge_eq hs hsym, bind, Except.bind, pure, Except.pure] at hrun
    have key : ∃ g2, GraphWF g2 ∧ GraphSymmetric g2 ∧ g2.size = g.size ∧
        (∀ u, graph_present g2 u = graph_present g u) ∧
        (∀ a b p, graph_cell_ptr g2 a b = some p → graph_cell_ptr g a b = some p) ∧
        graph_cell_ptr g2 i v = none ∧
        graph_remove_vertex_loop v n (i + 1) g2 = Except.ok g1 := by
      cases hc : graph_cell_ptr g i v with
      | none =>
        simp only [hc, Option.isSome_none, Bool.false_eq_true, if_false] at hrun
        exact ⟨g, hwf, hsym, rfl, fun _ => rfl, fun _ _ _ h => h, hc, hrun⟩
      | some p =>
        simp only [hc, Option.isSome_some, if_true] at hrun
        cases hre : graph_remove_edge g i v with
        | error e =>
          rw [hre] at hrun
          cases hrun
        | ok r =>
          rw [hre] at hrun
          have hre2 : graph_remove_edge g i v = Except.ok (r.1, r.2) := hre
          obtain ⟨hwf2, hsym2, hsz2, hpr2, hmono2, _⟩ := graph_remove_edge_inv hwf hsym hre2
          exact ⟨r.1, hwf2, hsym2, hsz2, hpr2, hmono2,
            graph_remove_edge_clears hwf hsym hre2, hrun⟩
    obtain ⟨g2, hwf2, hsym2, hsz2, hpr2, hmono2, hclear, hrest⟩ := key
    obtain ⟨hwf1, hsym1, hsz1, hpr1, hmono1, hnone⟩ := ih (i + 1) g2 g1 hwf2 hsym2 hrest
    refine ⟨hwf1, hsym1, hsz1.trans hsz2, fun u => (hpr1 u).trans (hpr2 u),
      fun a b p h => hmono2 a b p (hmono1 a b p h), ?_⟩
    intro k hk1 hk2
    by_cases hki : k = i
    · subst hki
      cases hck : graph_cell_ptr g1 k v with
      | none => rfl
      | some q =>
        have := hmono1 k v q hck
        rw [hclear] at this
        cases this
    · exact hnone k (by omega) (by omega)

theorem graph_remove_vertex_inv {g g1 : Graph W} {v : Nat} {r : Bool}
    (hwf : GraphWF g) (hsym : GraphSymmetric g)
    (hrun : graph_remove_vertex g v = Except.ok (g1, r)) :
    GraphWF g1 ∧ GraphSymmetric g1 ∧ g1.size = g.size ∧
      ∀ a b p, graph_cell_ptr g1 a b = some p → graph_cell_ptr g a b = some p := by
  have hs := graphShape_of_wf hwf
  unfold graph_remove_vertex at hrun
  simp only [graph_has_vertex_eq hs, bind, Except.bind, pure, Except.pure] at hrun
  cases hp : graph_present g v with
  | false =>
    simp only [hp, Bool.not_false, if_true] at hrun
    have hg : g = g1 := (Prod.mk.inj (Except.ok.inj hrun)).1
    subst hg
    exact ⟨hwf, hsym, rfl, fun _ _ _ h => h⟩
  | true =>
    simp only [hp, Bool.not_true, Bool.false_eq_true, if_false] at hrun
    cases hloop : graph_remove_vertex_loop v g.size 0 g with
    | error e =>
      rw [hloop] at hrun
      cases hrun
    | ok g2 =>
      simp only [hloop] at hrun
      obtain ⟨hwf2, hsym2, hsz2, hpr2, hmono2, hnone⟩ :=
        graph_remove_vertex_loop_inv g.size 0 g g2 hwf hsym hloop
      have hs2 := graphShape_of_wf hwf2
      have hv : v < g2.size := by rw [hsz2]; exact graph_present_lt hs hp
      have hcol : ∀ k, graph_cell_ptr g2 k v = none := by
        intro k
        rcases Nat.lt_or_ge k g.size with hk | hk
        · exact hnone k (Nat.zero_le _) (by omega)
        · cases hc : graph_cell_ptr g2 k v with
          | none => rfl
          | some q =>
            have := (graph_cell_ptr_lt hs2 hc).2.1
            omega
      cases hrow : graph_row g2 v with
      | error e =>
        rw [hrow] at hrun
        cases hrun
      | ok row =>
        simp only [hrow] at hrun
        have hg : { g2 with vertex := g2.vertex.set v none } = g1 :=
          (Prod.mk.inj (Except.ok.inj hrun)).1
        obtain ⟨hs3, _, hc3⟩ := graph_remove_row_spec hs2 hv
        rw [hg] at hs3 hc3
        have hst : g1.store = g2.store := by rw [← hg]
        have hsz : g1.size = g2.size := by rw [← hg]
        have hmono3 : ∀ a b p, graph_cell_ptr g1 a b = some p →
            graph_cell_ptr g2 a b = some p ∧ a ≠ v := by
          intro a b p h
          rw [hc3] at h
          split at h
          · cases h
          · next hne => exact ⟨h, hne⟩
        refine ⟨⟨hs3.size_pos, hs3.rows, hs3.cols, ?_⟩, ?_, hsz.trans hsz2,
          fun a b p h => hmono2 a b p (hmono3 a b p h).1⟩
        · intro a b ha hb p h
          rw [hsz] at ha hb
          have : edge_ends g1 p = edge_ends g2 p := by unfold edge_ends; rw [hst]
          rw [this]
          exact hwf2.cell_ends a b ha hb p (hmono3 a b p h).1
        · intro a b
          rw [hc3, hc3]
          by_cases ha : a = v
          · subst ha
            rw [if_pos rfl]
            split
            · rfl
            · exact (hcol b).symm
          · rw [if_neg ha]
            by_cases hb : b = v
            · subst hb
              rw [if_pos rfl]
              exact hcol a
            · rw [if_neg hb]
              exact hsym2 a b

theorem graph_apply_inv {g g1 : Graph W} {op : GraphOp W}
    (hwf : GraphWF g) (hsym : GraphSymmetric g)
    (hrun : graph_apply g op = Except.ok g1) :
    GraphWF g1 ∧ GraphSymmetric g1 ∧ g1.size = g.size ∧
      ∀ a b p, graph_cell_ptr g1 a b = some p →
        graph_cell_ptr g a b = some p ∨ (a ≠ b ∧ graph_op_no_loop op = true) ∨
          graph_op_no_loop op = false := by
  cases op with
  | add_vertex v =>
    obtain ⟨r, h1, h2⟩ := bind_ok hrun
    cases h2
    have h1' : graph_add_vertex g v = Except.ok (r.1, r.2) := h1
    obtain ⟨hwf1, hsym1, hsz1, hcell⟩ := graph_add_vertex_inv hwf hsym h1'
    exact ⟨hwf1, hsym1, hsz1, fun a b p h => Or.inl (by rw [← hcell]; exact h)⟩
  | add_edge v1 v2 w attr =>
    obtain ⟨r, h1, h2⟩ := bind_ok hrun
    cases h2
    have h1' : graph_add_edge g v1 v2 w attr = Except.ok (r.1, r.2) := h1
    obtain ⟨hwf1, hsym1, hsz1, hcell⟩ := graph_add_edge_inv hwf hsym h1'
    refine ⟨hwf1, hsym1, hsz1, ?_⟩
    intro a b p h
    rcases hcell a b p h with h0 | ⟨e1, e2⟩ | ⟨e1, e2⟩
    · exact Or.inl h0
    · right
      by_cases hv : v1 = v2
      · right; simp [graph_op_no_loop, hv]
      · left; subst e1; subst e2; exact ⟨hv, by simp [graph_op_no_loop, hv]⟩
    · right
      by_cases hv : v1 = v2
      · right; simp [graph_op_no_loop, hv]
      · left; subst e1; subst e2; exact ⟨fun e => hv e.symm, by simp [graph_op_no_loop, hv]⟩
  | remove_edge v1 v2 =>
    obtain ⟨r, h1, h2⟩ := bind_ok hrun
    cases h2
    have h1' : graph_remove_edge g v1 v2 = Except.ok (r.1, r.2) := h1
    obtain ⟨hwf1, hsym1, hsz1, _, hmono, _⟩ := graph_remove_edge_inv hwf hsym h1'
    exact ⟨hwf1, hsym1, hsz1, fun a b p h => Or.inl (hmono a b p h)⟩
  | remove_vertex v =>
    obtain ⟨r, h1, h2⟩ := bind_ok hrun
    cases h2
    have h1' : graph_remove_vertex g v = Except.ok (r.1, r.2) := h1
    obtain ⟨hwf1, hsym1, hsz1, hmono⟩ := graph_remove_vertex_inv hwf hsym h1'
    exact ⟨hwf1, hsym1, hsz1, fun a b p h => Or.inl (hmono a b p h)⟩

theorem graph_new_inv {size : Nat} {g : Graph W} (h : graph_new size = Except.ok g) :
    GraphWF g ∧ GraphSymmetric g ∧ g.size = size ∧ ∀ a b, graph_cell_ptr g a b = none := by
  rw [graph_new_eq] at h
  split at h
  · next hpos =>
    cases h
    have hcell : ∀ a b, graph_cell_ptr
        ({ size := size, vertex := List.replicate size none, store := [] } : Graph W) a b =
        none := by
      intro a b
      simp only [graph_cell_ptr, List.getElem?_replicate]
      split
      · next row heq =>
        split at heq
        · cases Option.some.inj heq
        · cases heq
      · rfl
    refine ⟨⟨hpos, by simp, ?_, ?_⟩, ?_, rfl, hcell⟩
    · intro i row hrow
      simp only [List.getElem?_replicate] at hrow
      split at hrow
      · cases Option.some.inj hrow
      · cases hrow
    · intro i j _ _ p hp
      rw [hcell] at hp
      cases hp
    · intro a b
      rw [hcell, hcell]
  · cases h

theorem graph_run_inv :
    ∀ (ops : List (GraphOp W)) (g g1 : Graph W), GraphWF g → GraphSymmetric g →
      graph_run g ops = Except.ok g1 →
      GraphWF g1 ∧ GraphSymmetric g1 ∧ g1.size = g.size ∧
        ((∀ op ∈ ops, graph_op_no_loop op = true) → (∀ v, graph_cell_ptr g v v = none) →
          ∀ v, graph_cell_ptr g1 v v = none) := by
  intro ops
  induction ops with
  | nil =>
    intro g g1 hwf hsym hrun
    cases hrun
    exact ⟨hwf, hsym, rfl, fun _ h => h⟩
  | cons op ops ih =>
    intro g g1 hwf hsym hrun
    obtain ⟨g2, h1, h2⟩ := bind_ok hrun
    obtain ⟨hwf2, hsym2, hsz2, hframe⟩ := graph_apply_inv hwf hsym h1
    obtain ⟨hwf1, hsym1, hsz1, hdiag⟩ := ih g2 g1 hwf2 hsym2 h2
    refine ⟨hwf1, hsym1, hsz1.trans hsz2, ?_⟩
    intro hops hd
    apply hdiag (fun o ho => hops o (List.mem_cons_of_mem _ ho))
    intro v
    cases hc : graph_cell_ptr g2 v v with
    | none => rfl
    | some p =>
      rcases hframe v v p hc with h | ⟨h, _⟩ | h
      · rw [hd v] at h; cases h
      · exact absurd rfl h
      · rw [hops op (List.mem_cons_self _ _)] at h; cases h

theorem graph_session_inv {size : Nat} {ops : List (GraphOp W)} {g : Graph W}
    (hrun : graph_session size ops = Except.ok g) :
    GraphWF g ∧ GraphSymmetric g ∧ g.size = size ∧
      ((∀ op ∈ ops, graph_op_no_loop op = true) → ∀ v, graph_cell_ptr g v v = none) := by
  obtain ⟨g0, h0, h1⟩ := bind_ok hrun
  obtain ⟨hwf0, hsym0, hsz0, hnone⟩ := graph_new_inv h0
  obtain ⟨hwf, hsym, hsz, hdiag⟩ := graph_run_inv ops g0 g hwf0 hsym0 h1
  exact ⟨hwf, hsym, hsz.trans hsz0, fun hops => hdiag hops (fun v => hnone v v)⟩

theorem edge_deref_of_live {g : Graph W} {p : EdgePtr} {ed : Edge W}
    (h : g.store[p]? = some (some ed)) : edge_deref g p = Except.ok ed := by
  simp [edge_deref, h]

theorem graph_has_edge_of_shape {g : Graph W} (hs : GraphShape g) {i j : Nat}
    (hpi : graph_present g i = true) (hpj : graph_present g j = true) :
    graph_has_edge g i j = Except.ok (graph_cell_ptr g i j).isSome := by
  unfold graph_has_edge
  simp only [graph_has_vertex_eq hs, bind, Except.bind, pure, Except.pure, hpi, hpj, if_true,
    graph_cell_eq hs hpi (graph_present_lt hs hpj)]

theorem graph_get_edge_of_shape {g : Graph W} (hs : GraphShape g) {i j : Nat}
    (hpi : graph_present g i = true) (hpj : graph_present g j = true) :
    graph_get_edge g i j = Except.ok (graph_cell_ptr g i j) := by
  unfold graph_get_edge
  simp only [graph_has_edge_of_shape hs hpi hpj, bind, Except.bind]
  cases hc : graph_cell_ptr g i j with
  | none => rfl
  | some p =>
    simp only [Option.isSome_some, if_true, graph_cell_eq hs hpi (graph_present_lt hs hpj), hc]

/-! ## Claims on the matrix of the graph -/

/-- On memory that `malloc` returns filled with `NULL` (`graph_new`, `graph_add_vertex`):
in every state reached from `graph_new` by calls of `graph_add_vertex`,
`graph_add_edge`, `graph_remove_edge` and `graph_remove_vertex`, the cells `(i, j)` and
`(j, i)` have the same content for all `i` and `j`, an edge held by the cell `(i, j)` is
a live object with the ends `i` and `j`, `graph_has_edge` returns the same answer on
`(i, j)` and on `(j, i)`, and for present `i` and `j` `graph_get_edge` returns the
content of the cell on `(i, j)` and on `(j, i)`. -/
theorem graph_matrix_symmetric_cleared (size : Nat) (ops : List (GraphOp W)) (g : Graph W)
    (i j : Nat) (hrun : graph_session size ops = Except.ok g) :
    graph_cell_ptr g i j = graph_cell_ptr g j i ∧
      (∀ p, graph_cell_ptr g i j = some p → ∃ ed, edge_deref g p = Except.ok ed ∧
        ((ed.v1 = i ∧ ed.v2 = j) ∨ (ed.v1 = j ∧ ed.v2 = i))) ∧
      (∃ b, graph_has_edge g i j = Except.ok b ∧ graph_has_edge g j i = Except.ok b) ∧
      (graph_present g i = true → graph_present g j = true →
        graph_get_edge g i j = Except.ok (graph_cell_ptr g i j) ∧
          graph_get_edge g j i = Except.ok (graph_cell_ptr g i j)) := by
  obtain ⟨hwf, hsym, _, _⟩ := graph_session_inv hrun
  have hs := graphShape_of_wf hwf
  refine ⟨hsym i j, ?_, ?_, ?_⟩
  · intro p hp
    obtain ⟨_, hi, hj⟩ := graph_cell_ptr_lt hs hp
    rcases hwf.cell_ends i j hi hj p hp with h | h
    · obtain ⟨ed, hed, hx⟩ := edge_ends_live h
      have := Prod.mk.inj hx
      exact ⟨ed, edge_deref_of_live hed, Or.inl ⟨this.1.symm, this.2.symm⟩⟩
    · obtain ⟨ed, hed, hx⟩ := edge_ends_live h
      have := Prod.mk.inj hx
      exact ⟨ed, edge_deref_of_live hed, Or.inr ⟨this.1.symm, this.2.symm⟩⟩
  · refine ⟨(graph_cell_ptr g i j).isSome, graph_has_edge_eq hs hsym i j, ?_⟩
    rw [graph_has_edge_eq hs hsym j i, hsym j i]
  · intro _ _
    refine ⟨graph_get_edge_eq hs hsym i j, ?_⟩
    rw [graph_get_edge_eq hs hsym j i, hsym j i]

/-- An instance of `graph_matrix_symmetric_cleared`: capacity 3, the edges `(0, 1)` and
`(1, 2)` added and `(0, 1)` removed, and the cells `(1, 2)` and `(2, 1)`. -/
theorem graph_matrix_symmetric_cleared_witness :
    graph_session 3 graph_removal_ops = Except.ok graph_removal ∧
      graph_cell_ptr graph_removal 1 2 = graph_cell_ptr graph_removal 2 1 ∧
      (∀ p, graph_cell_ptr graph_removal 1 2 = some p →
        ∃ ed, edge_deref graph_removal p = Except.ok ed ∧
          ((ed.v1 = 1 ∧ ed.v2 = 2) ∨ (ed.v1 = 2 ∧ ed.v2 = 1))) ∧
      (∃ b, graph_has_edge graph_removal 1 2 = Except.ok b ∧
        graph_has_edge graph_removal 2 1 = Except.ok b) ∧
      (graph_present graph_removal 1 = true → graph_present graph_removal 2 = true →
        graph_get_edge graph_removal 1 2 = Except.ok (graph_cell_ptr graph_removal 1 2) ∧
          graph_get_edge graph_removal 2 1 = Except.ok (graph_cell_ptr graph_removal 1 2)) :=
  ⟨by decide,
    graph_matrix_symmetric_cleared 3 graph_removal_ops graph_removal 1 2 (by decide)⟩

/-- On memory that `malloc` returns filled with `NULL` (`graph_add_vertex`): on a graph
of well-formed shape, `graph_add_edge` returns 0 and leaves the graph as it is when
`v1` or `v2` is not below the capacity; otherwise it returns 1,
after which `v1` and `v2` are present, `graph_has_edge` returns true on `(v1, v2)` and
on `(v2, v1)`, `graph_get_edge` returns on both the same edge, whose ends are `v1` and
`v2`, whose weight is `w` and whose attribute is `attr`, and every other cell, the
presence of every other vertex and every other edge object are unchanged. -/
theorem graph_add_edge_contract_cleared (g : Graph W) (v1 v2 : Nat) (w : W) (attr : Int)
    (hs : GraphShape g) :
    ((graph_max_size g ≤ v1 ∨ graph_max_size g ≤ v2) →
      graph_add_edge g v1 v2 w attr = Except.ok (g, false)) ∧
    (v1 < graph_max_size g → v2 < graph_max_size g →
      ∃ (g1 : Graph W) (e : EdgePtr), graph_add_edge g v1 v2 w attr = Except.ok (g1, true) ∧
        graph_has_vertex g1 v1 = Except.ok true ∧ graph_has_vertex g1 v2 = Except.ok true ∧
        graph_has_edge g1 v1 v2 = Except.ok true ∧ graph_has_edge g1 v2 v1 = Except.ok true ∧
        graph_get_edge g1 v1 v2 = Except.ok (some e) ∧
        graph_get_edge g1 v2 v1 = Except.ok (some e) ∧
        edge_deref g1 e = Except.ok { v1 := v1, v2 := v2, weight := w, attr := attr } ∧
        (∀ a b, ¬ ((a = v1 ∧ b = v2) ∨ (a = v2 ∧ b = v1)) →
          graph_cell_ptr g1 a b = graph_cell_ptr g a b) ∧
        (∀ u, u ≠ v1 → u ≠ v2 → graph_present g1 u = graph_present g u) ∧
        (∀ p, p < g.store.length → g1.store[p]? = g.store[p]?)) := by
  constructor
  · intro hge
    rw [graph_add_edge_eq]
    rw [if_pos (by omega)]
  · intro h1 h2
    obtain ⟨g1, hrun, _, hst, hs1, hpr, hcell⟩ := graph_add_edge_spec hs h1 h2 w attr
    have hp1 : graph_present g1 v1 = true := by rw [hpr]; simp
    have hp2 : graph_present g1 v2 = true := by rw [hpr]; simp
    have hc12 : graph_cell_ptr g1 v1 v2 = some g.store.length := by
      rw [hcell, if_pos (Or.inl ⟨rfl, rfl⟩)]
    have hc21 : graph_cell_ptr g1 v2 v1 = some g.store.length := by
      rw [hcell, if_pos (Or.inr ⟨rfl, rfl⟩)]
    refine ⟨g1, g.store.length, hrun, ?_, ?_, ?_, ?_, ?_, ?_, ?_, ?_, ?_, ?_⟩
    · rw [graph_has_vertex_eq hs1, hp1]
    · rw [graph_has_vertex_eq hs1, hp2]
    · rw [graph_has_edge_of_shape hs1 hp1 hp2, hc12]; rfl
    · rw [graph_has_edge_of_shape hs1 hp2 hp1, hc21]; rfl
    · rw [graph_get_edge_of_shape hs1 hp1 hp2, hc12]
    · rw [graph_get_edge_of_shape hs1 hp2 hp1, hc21]
    · apply edge_deref_of_live
      rw [hst]
      simp
    · intro a b hn
      rw [hcell, if_neg hn]
    · intro u hu1 hu2
      rw [hpr]
      simp [hu1, hu2]
    · intro p hp
      rw [hst, List.getElem?_append_left hp]

/-- An instance of `graph_add_edge_contract_cleared`: the graph of capacity 3 with the
single edge `(1, 2)`, and `graph_add_edge` on the vertices `0` and `2`. -/
theorem graph_add_edge_contract_cleared_witness :
    GraphShape graph_removal ∧
    ((graph_max_size graph_removal ≤ 0 ∨ graph_max_size graph_removal ≤ 2) →
      graph_add_edge graph_removal 0 2 9 WHITE = Except.ok (graph_removal, false)) ∧
    (0 < graph_max_size graph_removal → 2 < graph_max_size graph_removal →
      ∃ (g1 : Graph Int) (e : EdgePtr),
        graph_add_edge graph_removal 0 2 9 WHITE = Except.ok (g1, true) ∧
        graph_has_vertex g1 0 = Except.ok true ∧ graph_has_vertex g1 2 = Except.ok true ∧
        graph_has_edge g1 0 2 = Except.ok true ∧ graph_has_edge g1 2 0 = Except.ok true ∧
        graph_get_edge g1 0 2 = Except.ok (some e) ∧
        graph_get_edge g1 2 0 = Except.ok (some e) ∧
        edge_deref g1 e = Except.ok { v1 := 0, v2 := 2, weight := 9, attr := WHITE } ∧
        (∀ a b, ¬ ((a = 0 ∧ b = 2) ∨ (a = 2 ∧ b = 0)) →
          graph_cell_ptr g1 a b = graph_cell_ptr graph_removal a b) ∧
        (∀ u, u ≠ 0 → u ≠ 2 → graph_present g1 u = graph_present graph_removal u) ∧
        (∀ p, p < graph_removal.store.length →
          g1.store[p]? = graph_removal.store[p]?)) :=
  have hs : GraphShape graph_removal :=
    graphShape_of_wf (graph_session_inv
      (by decide : graph_session 3 graph_removal_ops = Except.ok graph_removal)).1
  ⟨hs, graph_add_edge_contract_cleared graph_removal 0 2 9 WHITE hs⟩

/-! ## Claims on removal, enumeration start, heap order and forests -/

theorem graph_remove_edge_of_not_adjacent {g : Graph W} (hwf : GraphWF g)
    (hsym : GraphSymmetric g) {v1 v2 : Nat} (hp1 : graph_present g v1 = true)
    (hp2 : graph_present g v2 = true) (hc : graph_cell_ptr g v1 v2 = none) :
    graph_remove_edge g v1 v2 = Except.error Fault.assertion := by
  have hs := graphShape_of_wf hwf
  unfold graph_remove_edge
  simp only [graph_has_vertex_eq hs, bind, Except.bind, pure, Except.pure, hp1, hp2,
    Bool.not_true, Bool.false_eq_true, if_false, graph_get_edge_eq hs hsym, hc, edge_free]

/-- C21 on the failing input: on the graph of capacity 3 with the edges `(0, 1)` and
`(1, 2)`, the vertices `0` and `2` are present and not adjacent, and `graph_remove_edge`
on `0` and `2` does not return 0: it passes the `NULL` of `graph_get_edge` to
`edge_free`, whose assertion fails. -/
theorem graph_remove_edge_not_adjacent_asserts :
    (graph_session 3 [(GraphOp.add_edge 0 1 5 WHITE : GraphOp Int),
        GraphOp.add_edge 1 2 7 WHITE] >>= fun g => graph_has_vertex g 0) = Except.ok true ∧
      (graph_session 3 [(GraphOp.add_edge 0 1 5 WHITE : GraphOp Int),
        GraphOp.add_edge 1 2 7 WHITE] >>= fun g => graph_has_vertex g 2) = Except.ok true ∧
      (graph_session 3 [(GraphOp.add_edge 0 1 5 WHITE : GraphOp Int),
        GraphOp.add_edge 1 2 7 WHITE] >>= fun g => graph_has_edge g 0 2) = Except.ok false ∧
      (graph_session 3 [(GraphOp.add_edge 0 1 5 WHITE : GraphOp Int),
        GraphOp.add_edge 1 2 7 WHITE] >>= fun g => graph_remove_edge g 0 2) =
        Except.error Fault.assertion := by
  decide

/-- C26 on the failing input: `graph_path` is connected and all `WHITE`, yet after
`kruskal` and `bfs` the vertices `0` and `1` both have the parent `-1`: there are two
BFS trees for the single connected component of the graph. -/
theorem kruskal_bfs_path_two_roots :
    graph_of_edges 4 [(0, 3, (1 : Int)), (1, 2, 1), (2, 3, 1)] = Except.ok graph_path ∧
      (∀ e, e ∈ graph_edge_ptrs graph_path → edge_colour graph_path e = some WHITE) ∧
      kruskal graph_path = Except.ok graph_path_done ∧
      bfs graph_path_done [0, 0, 0, 0] = Except.ok [-1, -1, 3, 0] ∧
      graph_present graph_path 0 = true ∧ graph_present graph_path 1 = true ∧
      Reach (edges_ends graph_path (graph_edge_ptrs graph_path)) 0 1 :=
  ⟨by decide, by decide, by decide, by decide, by decide, by decide,
    graph_path_connected 0 1 (by decide) (by decide)⟩

/-- C30 on the failing input: on `graph_path` `graph_first_edge` returns the edge
`(0, 3)`, found in row 0, whose place in the scan of the lower triangle is row 3,
column 0, while the edge `(1, 2)` has the earlier place row 2, column 1. -/
theorem graph_first_edge_path_not_first :
    graph_of_edges 4 [(0, 3, (1 : Int)), (1, 2, 1), (2, 3, 1)] = Except.ok graph_path ∧
      graph_first_edge graph_path = Except.ok (some 0) ∧
      edge_ends graph_path 0 = some (0, 3) ∧
      graph_get_edge graph_path 2 1 = Except.ok (some 1) ∧
      edge_ends graph_path 1 = some (1, 2) ∧
      graph_code graph_path 1 < graph_code graph_path 0 := by
  decide

/-- C28, as the code has it: for a relation `R` that is a total preorder on the items
inserted, in every heap reached from the empty heap by calls of `heap_insert` and
`heap_extract_root`, every cell `i` with `0 < i < size` and its father
`(i + 1) / 2 - 1` hold items, and `R` holds from the item of the cell to the item of
its father. -/
theorem heap_order_invariant (P : α → Prop) (R : α → α → Bool) (max_size : Nat)
    (ops : List (HeapOp α)) (t : HeapTrace α) (i : Nat)
    (hR : TotalPreorderOn P R) (hops : ∀ x, HeapOp.insert x ∈ ops → P x)
    (hrun : heap_session max_size R ops = Except.ok t)
    (hi0 : 0 < i) (hi : i < heap_size t.heap) :
    ∃ a b, heap_cell t.heap i = some a ∧ heap_cell t.heap (heap_father i) = some b ∧
      R a b = true := by
  obtain ⟨h0, hc, hrun1⟩ := bind_ok hrun
  have hmax : 0 < max_size := by
    rcases Nat.eq_zero_or_pos max_size with h | h
    · subst h
      simp [heap_create] at hc
    · exact h
  obtain ⟨h0', hc', _, _, hr0, hwf0, hord0, hall0⟩ := heap_create_spec max_size R hmax
  rw [hc] at hc'
  have he : h0 = h0' := Except.ok.inj hc'
  subst he
  obtain ⟨t1, h1, hr1, hwf1, _, hord1⟩ :=
    heap_run_ordered hR ops hops { heap := h0, inserted := 0, extracted := 0 } hr0 hwf0
      (hall0 P) hord0
  rw [hrun1] at h1
  have ht : t = t1 := Except.ok.inj h1
  subst ht
  have hi' : i < t.heap.size := hi
  obtain ⟨a, ha⟩ := hwf1.filled i hi'
  have hf : heap_father i < t.heap.size := lt_trans (heap_father_lt hi0) hi'
  obtain ⟨b, hb⟩ := hwf1.filled (heap_father i) hf
  refine ⟨a, b, ha, hb, ?_⟩
  have := hord1 i hi0 hi' a b ha hb
  rw [hr1] at this
  exact this

/-- Witness of C28 (amended): the heap of capacity 3 ordered by `>=` after the inserts
of 2, 1 and 3, and the cell 1. -/
theorem heap_order_invariant_witness :
    TotalPreorderOn (fun _ : Nat => True) nat_relation ∧
      (∀ x, HeapOp.insert x ∈ [HeapOp.insert 2, HeapOp.insert 1, HeapOp.insert 3] → True) ∧
      heap_session 3 nat_relation [HeapOp.insert 2, HeapOp.insert 1, HeapOp.insert 3] =
        Except.ok { heap := heap_example, inserted := 3, extracted := 0 } ∧
      0 < 1 ∧ 1 < heap_size heap_example ∧
      ∃ a b, heap_cell heap_example 1 = some a ∧
        heap_cell heap_example (heap_father 1) = some b ∧ nat_relation a b = true :=
  have hR : TotalPreorderOn (fun _ : Nat => True) nat_relation :=
    ⟨fun a b _ _ => nat_relation_total a b, fun a b c _ _ _ => nat_relation_trans a b c⟩
  ⟨hR, fun _ _ => trivial, rfl, by decide, by decide,
    heap_order_invariant (fun _ : Nat => True) nat_relation 3
      [HeapOp.insert 2, HeapOp.insert 1, HeapOp.insert 3]
      { heap := heap_example, inserted := 3, extracted := 0 } 1 hR (fun _ _ => trivial) rfl
      (by decide) (by decide)⟩

/-- Counterexample to C28 as stated: in the heap ordered by `>=` after the inserts of
2, 1 and 3, the cell 1 holds 2, its father, the cell 0, holds 1, and the relation from
the item of the cell to the item of its father is true, not false. -/
theorem heap_order_counterexample :
    heap_session 3 nat_relation [HeapOp.insert 2, HeapOp.insert 1, HeapOp.insert 3] =
        Except.ok { heap := heap_example, inserted := 3, extracted := 0 } ∧
      heap_father 1 = 0 ∧ heap_cell heap_example 1 = some 2 ∧
      heap_cell heap_example 0 = some 1 ∧ nat_relation 2 1 = true ∧
      ¬ (nat_relation 2 1 = false) :=
  ⟨rfl, by decide, by decide, by decide, by decide, by decide⟩

theorem fatherPath_height {ds : DSets} {height : Nat → Nat} (wf : DSetsForest ds height)
    {v u : Nat} (hv : dsets_placed ds v) (h : FatherPath ds v u) :
    dsets_placed ds u ∧ (u = v ∨ height v < height u) := by
  induction h with
  | refl => exact ⟨hv, Or.inl rfl⟩
  | @tail w u _ hstep ih =>
    obtain ⟨hw, hcase⟩ := ih
    obtain ⟨p, hfp, hpp, hh⟩ := wf.link w hw
    have hstep' : ds.father[w]? = some (u : Int) := hstep
    rw [hfp] at hstep'
    have hpu : p = u := by
      have := Option.some.inj hstep'
      omega
    subst hpu
    refine ⟨hpp, ?_⟩
    by_cases hpw : p = w
    · subst hpw
      exact hcase
    · right
      have := hh hpw
      rcases hcase with h1 | h1
      · rw [h1] at this; exact this
      · exact lt_trans h1 this

/-- C29: in every state reached from `dsets_new` by calls of `dsets_make_set`,
`dsets_find_set` and `dsets_union` (on any arguments), the father of a placed element
is a placed element, the father links lead from a placed element to an element that is
its own father, and two elements that the father links lead to from each other are
equal: the only cycles are the loops on the roots. -/
theorem dsets_forest_invariant (size : Nat) (ops : List DSetsOp) (ds : DSets) (v : Nat)
    (hrun : dsets_session size ops = Except.ok ds) (hv : dsets_placed ds v) :
    (∃ p : Nat, ds.father[v]? = some (p : Int) ∧ dsets_placed ds p) ∧
      (∃ r, FatherPath ds v r ∧ ds.father[r]? = some (r : Int)) ∧
      (∀ u, FatherPath ds v u → FatherPath ds u v → u = v) := by
  obtain ⟨height, wf, _⟩ := dsets_session_forest hrun
  refine ⟨?_, ?_, ?_⟩
  · obtain ⟨p, hfp, hpp, _⟩ := wf.link v hv
    exact ⟨p, hfp, hpp⟩
  · obtain ⟨r, hpath, hr, _⟩ := dsetsForest_root_exists wf _ v hv (le_refl _)
    exact ⟨r, hpath, hr⟩
  · intro u hvu huv
    obtain ⟨hu, h1⟩ := fatherPath_height wf hv hvu
    obtain ⟨_, h2⟩ := fatherPath_height wf hu huv
    rcases h1 with h1 | h1
    · exact h1
    · rcases h2 with h2 | h2
      · exact h2.symm
      · omega

/-- Witness of C29: the collection with the father links `0 → 1 → 3` and `2 → 3`, and
the element `0`. -/
theorem dsets_forest_invariant_witness :
    dsets_session 4 (dsets_pairs_ops ++ [DSetsOp.union 0 2]) = Except.ok dsets_chain ∧
      dsets_placed dsets_chain 0 ∧
      (∃ p : Nat, dsets_chain.father[0]? = some (p : Int) ∧ dsets_placed dsets_chain p) ∧
      (∃ r, FatherPath dsets_chain 0 r ∧ dsets_chain.father[r]? = some (r : Int)) ∧
      (∀ u, FatherPath dsets_chain 0 u → FatherPath dsets_chain u 0 → u = 0) :=
  ⟨by decide, ⟨by decide, 1, by decide, by decide⟩,
    dsets_forest_invariant 4 (dsets_pairs_ops ++ [DSetsOp.union 0 2]) dsets_chain 0
      (by decide) ⟨by decide, 1, by decide, by decide⟩⟩

/-! ## The queue -/

theorem fifo_length_lt {f : Fifo α} (wf : FifoWF f) : fifo_length f < f.max_size := by
  have h1 := wf.newest_lt
  have h2 := wf.oldest_lt
  unfold fifo_length
  split <;> omega

theorem fifo_index_length {f : Fifo α} (wf : FifoWF f) :
    fifo_index f (fifo_length f) = f.newest := by
  have h1 := wf.newest_lt
  have h2 := wf.oldest_lt
  unfold fifo_index fifo_length
  split_ifs <;> omega

theorem fifo_index_ne_newest {f : Fifo α} (wf : FifoWF f) {k : Nat}
    (hk : k < fifo_length f) : fifo_index f k ≠ f.newest ∧ fifo_index f k < f.max_size := by
  have h1 := wf.newest_lt
  have h2 := wf.oldest_lt
  unfold fifo_length at hk
  unfold fifo_index
  split_ifs at hk ⊢ <;> omega

theorem fifo_contents_getElem? (f : Fifo α) (k : Nat) :
    (fifo_contents f)[k]? =
      if k < fifo_length f then some ((f.items[fifo_index f k]?).getD none) else none := by
  unfold fifo_contents
  rw [List.getElem?_map]
  by_cases hk : k < fifo_length f
  · rw [if_pos hk, List.getElem?_range hk]
    rfl
  · rw [if_neg hk, List.getElem?_eq_none (by simp only [List.length_range]; omega)]
    rfl

theorem fifo_contents_length (f : Fifo α) : (fifo_contents f).length = fifo_length f := by
  simp [fifo_contents]

theorem fifo_put_spec {f : Fifo α} (wf : FifoWF f) (x : α)
    (h : fifo_length f ≠ fifo_max_size f) :
    ∃ f1, fifo_put f (some x) = Except.ok f1 ∧ FifoWF f1 ∧ f1.max_size = f.max_size ∧
      fifo_length f1 = fifo_length f + 1 ∧
      fifo_contents f1 = fifo_contents f ++ [some x] := by
  have h1 := wf.newest_lt
  have h2 := wf.oldest_lt
  have hlt := fifo_length_lt wf
  have hnl : f.newest < f.items.length := by rw [wf.items_len]; exact h1
  have key : ∀ f1 : Fifo α, f1.max_size = f.max_size → f1.oldest = f.oldest →
      f1.items = f.items.set f.newest (some x) →
      f1.newest = (if f.newest + 1 = f.max_size then 0 else f.newest + 1) →
      FifoWF f1 ∧ f1.max_size = f.max_size ∧ fifo_length f1 = fifo_length f + 1 ∧
        fifo_contents f1 = fifo_contents f ++ [some x] := by
    intro f1 hm ho hi hn
    have hlen : fifo_length f1 = fifo_length f + 1 := by
      unfold fifo_max_size at h
      unfold fifo_length at h hlt ⊢
      rw [hn, ho, hm]
      split_ifs at h hlt ⊢ <;> omega
    refine ⟨⟨by rw [hi, hm]; simp [wf.items_len], ?_, by rw [ho, hm]; exact h2⟩, hm, hlen, ?_⟩
    · rw [hn, hm]
      split_ifs <;> omega
    · apply List.ext_getElem?
      intro k
      rw [fifo_contents_getElem?, hlen]
      have hidx : fifo_index f1 k = fifo_index f k := by
        unfold fifo_index
        rw [ho, hm]
      rw [hidx, hi]
      by_cases hk : k < fifo_length f
      · obtain ⟨hne, _⟩ := fifo_index_ne_newest wf hk
        rw [if_pos (by omega), List.getElem?_append_left (by rw [fifo_contents_length]; exact hk),
          fifo_contents_getElem?, if_pos hk, List.getElem?_set_ne (fun e => hne e.symm)]
      · by_cases hk2 : k = fifo_length f
        · subst hk2
          rw [if_pos (by omega), fifo_index_length wf, List.getElem?_set_self hnl,
            List.getElem?_append_right (by rw [fifo_contents_length]), fifo_contents_length]
          simp
        · rw [if_neg (by omega), List.getElem?_eq_none]
          simp only [List.length_append, fifo_contents_length, List.length_singleton]
          omega
  by_cases hw : f.newest + 1 = f.max_size
  · refine ⟨{ f with items := f.items.set f.newest (some x), newest := 0 }, ?_,
      key _ rfl rfl rfl (by simp [hw])⟩
    simp [fifo_put, h, hnl, hw]
  · refine ⟨{ f with items := f.items.set f.newest (some x), newest := f.newest + 1 }, ?_,
      key _ rfl rfl rfl (by simp [hw])⟩
    simp [fifo_put, h, hnl, hw]

theorem fifo_get_spec {f : Fifo α} (wf : FifoWF f) (h : fifo_length f ≠ 0) :
    ∃ f1 c, fifo_get f = Except.ok (f1, c) ∧ FifoWF f1 ∧ f1.max_size = f.max_size ∧
      fifo_length f1 + 1 = fifo_length f ∧ fifo_contents f = c :: fifo_contents f1 := by
  have h1 := wf.newest_lt
  have h2 := wf.oldest_lt
  have hol : f.oldest < f.items.length := by rw [wf.items_len]; exact h2
  have hget : f.items[f.oldest]? = some (f.items[f.oldest]) := List.getElem?_eq_getElem hol
  have key : ∀ f1 : Fifo α, f1.max_size = f.max_size → f1.newest = f.newest →
      f1.items = f.items →
      f1.oldest = (if f.oldest + 1 = f.max_size then 0 else f.oldest + 1) →
      FifoWF f1 ∧ f1.max_size = f.max_size ∧ fifo_length f1 + 1 = fifo_length f ∧
        fifo_contents f = f.items[f.oldest] :: fifo_contents f1 := by
    intro f1 hm hn hi ho
    have hlen : fifo_length f1 + 1 = fifo_length f := by
      unfold fifo_length at h ⊢
      rw [hn, ho, hm]
      split_ifs at h ⊢ <;> omega
    refine ⟨⟨by rw [hi, hm]; exact wf.items_len, by rw [hn, hm]; exact h1, ?_⟩, hm, hlen, ?_⟩
    · rw [ho, hm]
      split_ifs <;> omega
    · apply List.ext_getElem?
      intro k
      rw [fifo_contents_getElem?]
      cases k with
      | zero =>
        rw [if_pos (by omega)]
        have : fifo_index f 0 = f.oldest := by
          unfold fifo_index
          rw [if_pos (by omega)]
          rfl
        rw [this, hget]
        simp
      | succ k =>
        rw [List.getElem?_cons_succ, fifo_contents_getElem?]
        by_cases hk : k + 1 < fifo_length f
        · have hlt := fifo_length_lt wf
          have hidx : fifo_index f1 k = fifo_index f (k + 1) := by
            unfold fifo_index
            rw [ho, hm]
            split_ifs <;> omega
          rw [hidx, hi, if_pos hk, if_pos (by omega)]
        · rw [if_neg hk, if_neg (by omega)]
  have hne : fifo_empty f = false := by simp [fifo_empty, h]
  by_cases hw : f.oldest + 1 = f.max_size
  · refine ⟨{ f with oldest := 0 }, f.items[f.oldest], ?_, key _ rfl rfl rfl (by simp [hw])⟩
    simp [fifo_get, hne, hget, hw]
  · refine ⟨{ f with oldest := f.oldest + 1 }, f.items[f.oldest], ?_,
      key _ rfl rfl rfl (by simp [hw])⟩
    simp [fifo_get, hne, hget, hw]

theorem fifo_new_spec (n : Nat) (hn : 0 < n) :
    ∃ f : Fifo α, fifo_new n = Except.ok f ∧ FifoWF f ∧ f.max_size = n + 1 ∧
      fifo_length f = 0 ∧ fifo_contents f = [] := by
  refine ⟨{ max_size := n + 1, newest := 0, oldest := 0,
            items := List.replicate (n + 1) none }, by simp [fifo_new, hn],
    ⟨by simp, Nat.succ_pos _, Nat.succ_pos _⟩, rfl, rfl, rfl⟩

/-- C23 on the failing input: `graph_new` does not write the array of rows that it
allocates and `graph_add_vertex` does not write the row that it allocates. On memory
whose cells are not `NULL`, `graph_has_vertex` returns true on the vertex `0` of a
graph fresh from `graph_new 2`; and on a graph of capacity 2 whose only vertex is `1`,
`graph_add_vertex` on `0` returns 1, after which `graph_has_edge` returns true on
`(0, 1)` and `graph_vertex_degree` returns 2 on `0`. -/
theorem graph_fresh_memory_not_cleared :
    (graph_new_in (fun _ => some []) 2 >>= fun (g : Graph Int) => graph_has_vertex g 0) =
        Except.ok true ∧
      (graph_session 2 [(GraphOp.add_vertex 1 : GraphOp Int)] >>= fun g =>
        graph_has_vertex g 0) = Except.ok false ∧
      (graph_session 2 [(GraphOp.add_vertex 1 : GraphOp Int)] >>= fun g =>
        graph_add_vertex_in (fun _ => some 0) g 0 >>= fun r => pure r.2) = Except.ok true ∧
      (graph_session 2 [(GraphOp.add_vertex 1 : GraphOp Int)] >>= fun g =>
        graph_add_vertex_in (fun _ => some 0) g 0 >>= fun r => graph_has_edge r.1 0 1) =
        Except.ok true ∧
      (graph_session 2 [(GraphOp.add_vertex 1 : GraphOp Int)] >>= fun g =>
        graph_add_vertex_in (fun _ => some 0) g 0 >>= fun r =>
          graph_vertex_degree r.1 0) = Except.ok 2 := by
  decide

/-! ## The traversal -/

theorem arr_get_of_get {a : List Int} {i : Nat} {x : Int} (h : a[i]? = some x) :
    arr_get a i = Except.ok x := by
  simp [arr_get, h]

theorem arr_set_of_lt {a : List Int} {i : Nat} (x : Int) (h : i < a.length) :
    arr_set a i x = Except.ok (a.set i x) := by
  simp [arr_set, h]

theorem blueStep_symm {g : Graph W} (hsym : GraphSymmetric g) {a b : Nat}
    (h : BlueStep g a b) : BlueStep g b a := by
  obtain ⟨e, he, hc⟩ := h
  exact ⟨e, by rw [hsym]; exact he, hc⟩

theorem blueStep_present {g : Graph W} (hs : GraphShape g) (hsym : GraphSymmetric g)
    {a b : Nat} (h : BlueStep g a b) :
    graph_present g a = true ∧ graph_present g b = true ∧ a < g.size ∧ b < g.size := by
  obtain ⟨e, he, _⟩ := h
  have he2 : graph_cell_ptr g b a = some e := by rw [hsym]; exact he
  obtain ⟨h1, h2, h3⟩ := graph_cell_ptr_lt hs he
  obtain ⟨h4, _, _⟩ := graph_cell_ptr_lt hs he2
  exact ⟨h1, h4, h2, h3⟩

theorem bfs_closed_reach {g : Graph W} {mark : List Int}
    (hdone : ∀ a, mark[a]? = some 1 → BfsDone g mark a) {a b : Nat}
    (ha : mark[a]? = some 1) (h : BlueReach g a b) : mark[b]? = some 1 := by
  induction h with
  | refl => exact ha
  | tail _ hstep ih => exact hdone _ ih _ hstep

theorem bfs_unmarked_set {n k : Nat} {mark : List Int} (hk : k < n)
    (hm : mark[k]? = some 0) :
    bfs_unmarked n (mark.set k 1) + 1 ≤ bfs_unmarked n mark := by
  have hkl : k < mark.length := by
    rcases Nat.lt_or_ge k mark.length with h | h
    · exact h
    · rw [List.getElem?_eq_none h] at hm; cases hm
  apply Nat.succ_le_of_lt
  unfold bfs_unmarked
  apply Finset.card_lt_card
  constructor
  · intro v hv
    simp only [Finset.mem_filter, Finset.mem_range] at hv ⊢
    refine ⟨hv.1, ?_⟩
    have h2 := hv.2
    rw [list_getElem?_set _ _ _ _ hkl] at h2
    split at h2
    · cases h2
    · exact h2
  · intro hsub
    have hin : k ∈ (Finset.range n).filter (fun (v : Nat) => mark[v]? = some 0) := by
      simp only [Finset.mem_filter, Finset.mem_range]
      exact ⟨hk, hm⟩
    have := hsub hin
    simp only [Finset.mem_filter, Finset.mem_range] at this
    have h2 := this.2
    rw [List.getElem?_set_self hkl] at h2
    cases h2

theorem bfs_unmarked_pos {n k : Nat} {mark : List Int} (hk : k < n)
    (hm : mark[k]? = some 0) : 0 < bfs_unmarked n mark := by
  unfold bfs_unmarked
  apply Finset.card_pos.mpr
  exact ⟨k, by simp only [Finset.mem_filter, Finset.mem_range]; exact ⟨hk, hm⟩⟩

theorem bfs_unmarked_le (n : Nat) (mark : List Int) : bfs_unmarked n mark ≤ n := by
  unfold bfs_unmarked
  calc ((Finset.range n).filter (fun (v : Nat) => mark[v]? = some 0)).card
      ≤ (Finset.range n).card := Finset.card_filter_le _ _
    _ = n := Finset.card_range n

theorem bfs_mark_step {g : Graph W} (hs : GraphShape g) (hsym : GraphSymmetric g)
    {r u k : Nat} {q : List Nat} {st : BfsState} {time : Nat → Nat} {T : Nat}
    {f1 : Fifo Nat} (core : BfsCore g st.mark st.parent time T) (que : BfsQueue g r q st)
    (hu : st.mark[u]? = some 1) (hru : BlueReach g r u) (hk0 : st.mark[k]? = some 0)
    (hstep : BlueStep g u k) (hf1 : FifoWF f1) (hfm : f1.max_size = st.f.max_size)
    (hfc : fifo_contents f1 = fifo_contents st.f ++ [some k]) :
    BfsCore g (st.mark.set k 1) (st.parent.set k (u : Int))
        (fun x => if x = k then T else time x) (T + 1) ∧
      BfsQueue g r (q ++ [k])
        { f := f1, mark := st.mark.set k 1, parent := st.parent.set k (u : Int) } ∧
      (∀ a : Nat, st.mark[a]? = some 1 → (st.mark.set k 1)[a]? = some 1) ∧
      (q ++ [k]).length + bfs_unmarked g.size (st.mark.set k 1) ≤
        q.length + bfs_unmarked g.size st.mark := by
  obtain ⟨_, hpk, _, hks⟩ := blueStep_present hs hsym hstep
  have hkm : k < st.mark.length := by rw [core.mark_len]; exact hks
  have hkp : k < st.parent.length := by rw [core.parent_len]; exact hks
  have hmono : ∀ a : Nat, st.mark[a]? = some 1 → (st.mark.set k 1)[a]? = some 1 := by
    intro a ha
    rw [list_getElem?_set _ _ _ _ hkm]
    split
    · rfl
    · exact ha
  have hne1 : ∀ a : Nat, st.mark[a]? = some 1 → a ≠ k := by
    intro a ha e
    rw [e, hk0] at ha
    cases ha
  have hrk : r < k := by
    rcases Nat.lt_trichotomy r k with h | h | h
    · exact h
    · exact absurd h (hne1 r que.root_marked)
    · exact absurd rfl (hne1 k (que.low k h hpk))
  have hreach : BlueReach g r k := Relation.ReflTransGen.tail hru hstep
  refine ⟨⟨?_, ?_, ?_, ?_, ?_, ?_, ?_⟩, ⟨hf1, ?_, ?_, ?_, ?_, hmono r que.root_marked,
    que.root_present, fun j hj hp => hmono j (que.low j hj hp)⟩, hmono, ?_⟩
  · simp [core.mark_len]
  · simp [core.parent_len]
  · intro v hv
    rw [list_getElem?_set _ _ _ _ hkm]
    split
    · right; rfl
    · exact core.mark_bin v hv
  · intro v hv
    rw [list_getElem?_set _ _ _ _ hkm] at hv
    split at hv
    · next e => rw [e]; exact hpk
    · exact core.marked_present v hv
  · intro v hv
    rw [list_getElem?_set _ _ _ _ hkm] at hv
    split at hv
    · cases hv
    · next hne =>
      rw [list_getElem?_set _ _ _ _ hkp, if_neg hne]
      exact core.unmarked_parent v hv
  · intro v hv
    rw [list_getElem?_set _ _ _ _ hkm] at hv
    show (if v = k then T else time v) < T + 1
    split at hv
    · next e => rw [if_pos e]; omega
    · next hne =>
      rw [if_neg hne]
      have := core.time_lt v hv
      omega
  · intro v hv
    rw [list_getElem?_set _ _ _ _ hkm] at hv
    split at hv
    · next e =>
      subst e
      right
      refine ⟨u, by rw [List.getElem?_set_self hkp], hmono u hu, blueStep_symm hsym hstep, ?_,
        r, hrk, que.root_present, hreach⟩
      show (if u = v then T else time u) < (if v = v then T else time v)
      rw [if_neg (hne1 u hu), if_pos rfl]
      exact core.time_lt u hu
    · next hne =>
      rcases core.tree v hv with ⟨h1, h2⟩ | ⟨u2, h1, h2, h3, h4, h5⟩
      · left
        exact ⟨by rw [list_getElem?_set _ _ _ _ hkp, if_neg hne]; exact h1, h2⟩
      · right
        refine ⟨u2, by rw [list_getElem?_set _ _ _ _ hkp, if_neg hne]; exact h1, hmono u2 h2,
          h3, ?_, h5⟩
        show (if u2 = k then T else time u2) < (if v = k then T else time v)
        rw [if_neg (hne1 u2 h2), if_neg hne]
        exact h4
  · exact hfm.trans que.fifo_max
  · show fifo_contents f1 = (q ++ [k]).map some
    rw [hfc, que.fifo_q]
    simp
  · intro x hx
    rcases List.mem_append.mp hx with h | h
    · exact ⟨hmono x (que.q_marked x h).1, (que.q_marked x h).2⟩
    · have hxk : x = k := by simpa using h
      subst hxk
      exact ⟨by
        show (st.mark.set x 1)[x]? = some 1
        rw [List.getElem?_set_self hkm], hreach⟩
  · show (q ++ [k]).length + bfs_unmarked g.size (st.mark.set k 1) ≤ g.size
    have h1 := bfs_unmarked_set hks hk0
    have h2 := que.room
    simp only [List.length_append, List.length_singleton]
    omega
  · have h1 := bfs_unmarked_set hks hk0
    simp only [List.length_append, List.length_singleton]
    omega

theorem graph_row_of_present_shape {g : Graph W} {k : Nat}
    (hp : graph_present g k = true) :
    ∃ row, graph_row g k = Except.ok (some row) := by
  obtain ⟨row, heq⟩ := graph_present_row hp
  exact ⟨row, by simp [graph_row, heq]⟩

theorem bfs_visit_row_spec {g : Graph W} (hwf : GraphWF g) (hsym : GraphSymmetric g)
    {r u : Nat} (hpu : graph_present g u = true) :
    ∀ (n k : Nat) (st : BfsState) (q : List Nat) (time : Nat → Nat) (T : Nat),
      k + n = g.size → BfsCore g st.mark st.parent time T → BfsQueue g r q st →
      st.mark[u]? = some 1 → BlueReach g r u →
      (∀ a : Nat, st.mark[a]? = some 1 → a = u ∨ a ∈ q ∨ BfsDone g st.mark a) →
      (∀ b, b < k → BlueStep g u b → st.mark[b]? = some 1) →
      ∃ (st1 : BfsState) (q1 : List Nat) (time1 : Nat → Nat) (T1 : Nat),
        bfs_visit_row g u n k st = Except.ok st1 ∧
        BfsCore g st1.mark st1.parent time1 T1 ∧ BfsQueue g r q1 st1 ∧
        (∀ a : Nat, st1.mark[a]? = some 1 → a ∈ q1 ∨ BfsDone g st1.mark a) ∧
        q1.length + bfs_unmarked g.size st1.mark ≤ q.length + bfs_unmarked g.size st.mark := by
  have hs := graphShape_of_wf hwf
  intro n
  induction n with
  | zero =>
    intro k st q time T hkn core que hu _ hdone hpart
    refine ⟨st, q, time, T, rfl, core, que, ?_, le_refl _⟩
    intro a ha
    rcases hdone a ha with h | h | h
    · right
      subst h
      intro b hb
      have hb2 := (blueStep_present hs hsym hb).2.2.2
      exact hpart b (by omega) hb
    · exact Or.inl h
    · exact Or.inr h
  | succ n ih =>
    intro k st q time T hkn core que hu hru hdone hpart
    have hk : k < g.size := by omega
    have hcell := graph_cell_eq hs hpu hk
    unfold bfs_visit_row
    simp only [hcell, bind, Except.bind]
    have skip : (∀ b, b < k + 1 → BlueStep g u b → st.mark[b]? = some 1) →
        ∃ (st1 : BfsState) (q1 : List Nat) (time1 : Nat → Nat) (T1 : Nat),
          bfs_visit_row g u n (k + 1) st = Except.ok st1 ∧
          BfsCore g st1.mark st1.parent time1 T1 ∧ BfsQueue g r q1 st1 ∧
          (∀ a : Nat, st1.mark[a]? = some 1 → a ∈ q1 ∨ BfsDone g st1.mark a) ∧
          q1.length + bfs_unmarked g.size st1.mark ≤
            q.length + bfs_unmarked g.size st.mark :=
      fun hp => ih (k + 1) st q time T (by omega) core que hu hru hdone hp
    have part_of : (BlueStep g u k → st.mark[k]? = some 1) →
        ∀ b, b < k + 1 → BlueStep g u b → st.mark[b]? = some 1 := by
      intro h b hb hstep
      by_cases hbk : b = k
      · subst hbk; exact h hstep
      · exact hpart b (by omega) hstep
    cases hc : graph_cell_ptr g u k with
    | none =>
      simp only
      apply skip
      apply part_of
      rintro ⟨e, he, _⟩
      rw [hc] at he
      cases he
    | some e =>
      simp only
      obtain ⟨ed, hed, hends⟩ : ∃ ed, g.store[e]? = some (some ed) ∧
          ((ed.v1 = u ∧ ed.v2 = k) ∨ (ed.v1 = k ∧ ed.v2 = u)) := by
        rcases hwf.cell_ends u k (graph_present_lt hs hpu) hk e hc with h | h
        · obtain ⟨ed, hed, hx⟩ := edge_ends_live h
          have := Prod.mk.inj hx
          exact ⟨ed, hed, Or.inl ⟨this.1.symm, this.2.symm⟩⟩
        · obtain ⟨ed, hed, hx⟩ := edge_ends_live h
          have := Prod.mk.inj hx
          exact ⟨ed, hed, Or.inr ⟨this.1.symm, this.2.symm⟩⟩
      have hderef : edge_deref g e = Except.ok ed := edge_deref_of_live hed
      have hattr : edge_get_attr g e = Except.ok ed.attr := by
        simp [edge_get_attr, hderef, bind, Except.bind, pure, Except.pure]
      have hcol : edge_colour g e = some ed.attr := by simp [edge_colour, hed]
      rcases core.mark_bin k hk with hm | hm
      · by_cases hblue : ed.attr = BLUE
        · have hstep : BlueStep g u k := ⟨e, hc, by rw [hcol, hblue]⟩
          obtain ⟨_, hpk, _, _⟩ := blueStep_present hs hsym hstep
          obtain ⟨row, hrow⟩ := graph_row_of_present_shape hpk
          have hlen : fifo_length st.f = q.length := by
            rw [← fifo_contents_length, que.fifo_q, List.length_map]
          have hnotfull : fifo_length st.f ≠ fifo_max_size st.f := by
            have h1 := que.room
            have h2 := bfs_unmarked_pos hk hm
            unfold fifo_max_size
            rw [que.fifo_max, hlen]
            omega
          obtain ⟨f1, hput, hf1, hfm, _, hfc⟩ := fifo_put_spec que.fifo_wf k hnotfull
          have hkm : k < st.mark.length := by rw [core.mark_len]; exact hk
          have hkp : k < st.parent.length := by rw [core.parent_len]; exact hk
          have hku : k ≠ u := by
            intro e2
            rw [e2, hu] at hm
            cases hm
          have hnn : (if ed.v1 = k then ed.v2 else ed.v1) = u := by
            rcases hends with ⟨h1, h2⟩ | ⟨h1, h2⟩
            · rw [if_neg (by rw [h1]; exact fun e2 => hku e2.symm), h1]
            · rw [if_pos h1, h2]
          obtain ⟨core1, que1, hmono, hle⟩ :=
            bfs_mark_step hs hsym core que hu hru hm hstep hf1 hfm hfc
          have hdone1 : ∀ a : Nat, (st.mark.set k 1)[a]? = some 1 →
              a = u ∨ a ∈ q ++ [k] ∨ BfsDone g (st.mark.set k 1) a := by
            intro a ha
            by_cases hak : a = k
            · right; left; rw [hak]; simp
            · have ha0 : st.mark[a]? = some 1 := by
                rw [list_getElem?_set _ _ _ _ hkm, if_neg hak] at ha
                exact ha
              rcases hdone a ha0 with h | h | h
              · exact Or.inl h
              · exact Or.inr (Or.inl (List.mem_append_left _ h))
              · exact Or.inr (Or.inr (fun b hb => hmono b (h b hb)))
          have hpart1 : ∀ b, b < k + 1 → BlueStep g u b →
              (st.mark.set k 1)[b]? = some 1 := by
            intro b hb hsb
            by_cases hbk : b = k
            · rw [hbk, List.getElem?_set_self hkm]
            · exact hmono b (hpart b (by omega) hsb)
          obtain ⟨st1, q1, time1, T1, hrun, c1, q1', d1, hle1⟩ :=
            ih (k + 1) { f := f1, mark := st.mark.set k 1, parent := st.parent.set k (u : Int) }
              (q ++ [k]) _ _ (by omega) core1 que1 (hmono u hu) hru hdone1 hpart1
          refine ⟨st1, q1, time1, T1, ?_, c1, q1', d1, le_trans hle1 hle⟩
          simp only [arr_get_of_get hm, hattr, hblue, hderef, hrow, Option.map_some', hput,
            arr_set_of_lt _ hkm, arr_set_of_lt _ hkp, hnn, pure, Except.pure, if_true,
            decide_True]
          exact hrun
        · simp only [arr_get_of_get hm, hattr, hblue, pure, Except.pure, if_true,
            decide_False, Bool.false_eq_true, if_false]
          apply skip
          apply part_of
          rintro ⟨e2, he2, hc2⟩
          rw [hc] at he2
          have := Option.some.inj he2
          subst this
          rw [hcol] at hc2
          exact absurd (Option.some.inj hc2) hblue
      · have h10 : ¬ ((1 : Int) = 0) := by decide
        simp only [arr_get_of_get hm, h10, pure, Except.pure, if_false, Bool.false_eq_true]
        apply skip
        apply part_of
        intro _
        exact hm

theorem bfs_visit_loop_spec {g : Graph W} (hwf : GraphWF g) (hsym : GraphSymmetric g)
    {r : Nat} :
    ∀ (fuel : Nat) (st : BfsState) (q : List Nat) (time : Nat → Nat) (T : Nat),
      BfsCore g st.mark st.parent time T → BfsQueue g r q st →
      (∀ a : Nat, st.mark[a]? = some 1 → a ∈ q ∨ BfsDone g st.mark a) →
      q.length + bfs_unmarked g.size st.mark ≤ fuel →
      ∃ (st1 : BfsState) (time1 : Nat → Nat) (T1 : Nat),
        bfs_visit_loop g fuel st = Except.ok st1 ∧
        BfsCore g st1.mark st1.parent time1 T1 ∧
        (∀ a : Nat, st1.mark[a]? = some 1 → BfsDone g st1.mark a) ∧
        st1.mark[r]? = some 1 ∧
        (∀ j, j < r → graph_present g j = true → st1.mark[j]? = some 1) := by
  intro fuel
  induction fuel with
  | zero =>
    intro st q time T core que hdone hfuel
    have hq : q = [] := List.length_eq_zero.mp (by omega)
    subst hq
    have hlen : fifo_length st.f = 0 := by
      rw [← fifo_contents_length, que.fifo_q]; rfl
    refine ⟨st, time, T, ?_, core, ?_, que.root_marked, que.low⟩
    · simp [bfs_visit_loop, fifo_empty, hlen]
    · intro a ha
      rcases hdone a ha with h | h
      · cases h
      · exact h
  | succ fuel ih =>
    intro st q time T core que hdone hfuel
    have hlen : fifo_length st.f = q.length := by
      rw [← fifo_contents_length, que.fifo_q, List.length_map]
    cases q with
    | nil =>
      have hlen0 : fifo_length st.f = 0 := hlen
      refine ⟨st, time, T, ?_, core, ?_, que.root_marked, que.low⟩
      · simp [bfs_visit_loop, fifo_empty, hlen0]
      · intro a ha
        rcases hdone a ha with h | h
        · cases h
        · exact h
    | cons u rest =>
      have hne : fifo_length st.f ≠ 0 := by
        rw [hlen]; simp
      obtain ⟨f1, c, hget, hf1, hfm, _, hfc⟩ := fifo_get_spec que.fifo_wf hne
      rw [que.fifo_q, List.map_cons] at hfc
      have hcu : some u = c := (List.cons.inj hfc).1
      have hrest : rest.map some = fifo_contents f1 := (List.cons.inj hfc).2
      subst hcu
      obtain ⟨hum, hur⟩ := que.q_marked u (List.mem_cons_self _ _)
      have hpu := core.marked_present u hum
      have que1 : BfsQueue g r rest { st with f := f1 } := by
        refine ⟨hf1, hfm.trans que.fifo_max, hrest.symm, ?_, ?_, que.root_marked,
          que.root_present, que.low⟩
        · intro x hx
          exact que.q_marked x (List.mem_cons_of_mem _ hx)
        · have := que.room
          simp only [List.length_cons] at this
          show rest.length + bfs_unmarked g.size st.mark ≤ g.size
          omega
      have hdone1 : ∀ a : Nat, st.mark[a]? = some 1 →
          a = u ∨ a ∈ rest ∨ BfsDone g st.mark a := by
        intro a ha
        rcases hdone a ha with h | h
        · rcases List.mem_cons.mp h with h2 | h2
          · exact Or.inl h2
          · exact Or.inr (Or.inl h2)
        · exact Or.inr (Or.inr h)
      obtain ⟨st1, q1, time1, T1, hrow, core1, que1', done1, hle⟩ :=
        bfs_visit_row_spec hwf hsym hpu g.size 0 { st with f := f1 } rest time T (by omega)
          core que1 hum hur hdone1 (fun b hb => absurd hb (Nat.not_lt_zero b))
      have hfuel1 : q1.length + bfs_unmarked g.size st1.mark ≤ fuel := by
        have h1 : q1.length + bfs_unmarked g.size st1.mark ≤
            rest.length + bfs_unmarked g.size st.mark := hle
        simp only [List.length_cons] at hfuel
        omega
      obtain ⟨st2, time2, T2, hloop, core2, done2, hr2, hlow2⟩ :=
        ih st1 q1 time1 T1 core1 que1' done1 hfuel1
      refine ⟨st2, time2, T2, ?_, core2, done2, hr2, hlow2⟩
      have hempty : fifo_empty st.f = false := by simp [fifo_empty, hne]
      unfold bfs_visit_loop
      simp only [hempty, Bool.false_eq_true, if_false, hget, bind, Except.bind, hrow]
      exact hloop

theorem bfs_visit_spec {g : Graph W} (hwf : GraphWF g) (hsym : GraphSymmetric g)
    {i : Nat} {mark parent : List Int} {time : Nat → Nat} {T : Nat}
    (core : BfsCore g mark parent time T)
    (hclosed : ∀ a : Nat, mark[a]? = some 1 → BfsDone g mark a)
    (hlow : ∀ j, j < i → graph_present g j = true → mark[j]? = some 1)
    (hpi : graph_present g i = true) (hmi : mark[i]? = some 0) :
    ∃ (mark1 parent1 : List Int) (time1 : Nat → Nat) (T1 : Nat),
      bfs_visit g i mark parent = Except.ok (mark1, parent1) ∧
      BfsCore g mark1 parent1 time1 T1 ∧
      (∀ a : Nat, mark1[a]? = some 1 → BfsDone g mark1 a) ∧
      (∀ j, j < i + 1 → graph_present g j = true → mark1[j]? = some 1) := by
  have hs := graphShape_of_wf hwf
  have his : i < g.size := graph_present_lt hs hpi
  have him : i < mark.length := by rw [core.mark_len]; exact his
  obtain ⟨f, hnew, hfwf, hfmax, hfl, hfc⟩ := @fifo_new_spec Nat g.size hwf.size_pos
  obtain ⟨row, hrow⟩ := graph_row_of_present_shape hpi
  have hnotfull : fifo_length f ≠ fifo_max_size f := by
    have := hwf.size_pos
    unfold fifo_max_size
    rw [hfl, hfmax]
    omega
  obtain ⟨f1, hput, hf1, hfm1, _, hfc1⟩ := fifo_put_spec hfwf i hnotfull
  have hmono : ∀ a : Nat, mark[a]? = some 1 → (mark.set i 1)[a]? = some 1 := by
    intro a ha
    rw [list_getElem?_set _ _ _ _ him]
    split
    · rfl
    · exact ha
  have hne1 : ∀ a : Nat, mark[a]? = some 1 → a ≠ i := by
    intro a ha e
    rw [e, hmi] at ha
    cases ha
  have hroot : BlueRoot g i := by
    intro w hw hpw hreach
    have := bfs_closed_reach hclosed (hlow w hw hpw) hreach
    rw [hmi] at this
    cases this
  have core0 : BfsCore g (mark.set i 1) parent (fun x => if x = i then T else time x)
      (T + 1) := by
    refine ⟨by simp [core.mark_len], core.parent_len, ?_, ?_, ?_, ?_, ?_⟩
    · intro v hv
      rw [list_getElem?_set _ _ _ _ him]
      split
      · right; rfl
      · exact core.mark_bin v hv
    · intro v hv
      rw [list_getElem?_set _ _ _ _ him] at hv
      split at hv
      · next e => rw [e]; exact hpi
      · exact core.marked_present v hv
    · intro v hv
      rw [list_getElem?_set _ _ _ _ him] at hv
      split at hv
      · cases hv
      · exact core.unmarked_parent v hv
    · intro v hv
      rw [list_getElem?_set _ _ _ _ him] at hv
      show (if v = i then T else time v) < T + 1
      split at hv
      · next e => rw [if_pos e]; omega
      · next hne =>
        rw [if_neg hne]
        have := core.time_lt v hv
        omega
    · intro v hv
      rw [list_getElem?_set _ _ _ _ him] at hv
      split at hv
      · next e =>
        subst e
        left
        exact ⟨core.unmarked_parent v hmi, hroot⟩
      · next hne =>
        rcases core.tree v hv with ⟨h1, h2⟩ | ⟨u2, h1, h2, h3, h4, h5⟩
        · exact Or.inl ⟨h1, h2⟩
        · right
          refine ⟨u2, h1, hmono u2 h2, h3, ?_, h5⟩
          show (if u2 = i then T else time u2) < (if v = i then T else time v)
          rw [if_neg (hne1 u2 h2), if_neg hne]
          exact h4
  have que0 : BfsQueue g i [i] { f := f1, mark := mark.set i 1, parent := parent } := by
    refine ⟨hf1, hfm1.trans hfmax, ?_, ?_, ?_, ?_, hpi, ?_⟩
    · show fifo_contents f1 = [i].map some
      rw [hfc1, hfc]
      rfl
    · intro x hx
      have hxi : x = i := by simpa using hx
      subst hxi
      exact ⟨by
        show (mark.set x 1)[x]? = some 1
        rw [List.getElem?_set_self him], Relation.ReflTransGen.refl⟩
    · show [i].length + bfs_unmarked g.size (mark.set i 1) ≤ g.size
      have h1 := bfs_unmarked_set his hmi
      have h2 := bfs_unmarked_le g.size mark
      simp only [List.length_singleton]
      omega
    · show (mark.set i 1)[i]? = some 1
      rw [List.getElem?_set_self him]
    · intro j hj hp
      exact hmono j (hlow j hj hp)
  have hdone0 : ∀ a : Nat, (mark.set i 1)[a]? = some 1 →
      a ∈ [i] ∨ BfsDone g (mark.set i 1) a := by
    intro a ha
    by_cases hai : a = i
    · left; rw [hai]; simp
    · right
      rw [list_getElem?_set _ _ _ _ him, if_neg hai] at ha
      exact fun b hb => hmono b (hclosed a ha b hb)
  have hfuel : [i].length + bfs_unmarked g.size (mark.set i 1) ≤ g.size := que0.room
  obtain ⟨st1, time1, T1, hloop, core1, done1, hr1, hlow1⟩ :=
    bfs_visit_loop_spec hwf hsym g.size
      { f := f1, mark := mark.set i 1, parent := parent } [i] _ _ core0 que0 hdone0 hfuel
  refine ⟨st1.mark, st1.parent, time1, T1, ?_, core1, done1, ?_⟩
  · unfold bfs_visit
    simp only [graph_max_size, hnew, arr_set_of_lt _ him, hrow, Option.map_some', hput, hloop,
      bind, Except.bind, pure, Except.pure]
  · intro j hj hp
    by_cases hji : j = i
    · rw [hji]; exact hr1
    · exact hlow1 j (by omega) hp

theorem bfs_init_spec :
    ∀ (n i : Nat) (mark parent : List Int), i + n ≤ mark.length → i + n ≤ parent.length →
      ∃ mark1 parent1, bfs_init n i mark parent = Except.ok (mark1, parent1) ∧
        mark1.length = mark.length ∧ parent1.length = parent.length ∧
        (∀ v : Nat, i ≤ v → v < i + n → mark1[v]? = some 0 ∧ parent1[v]? = some (-1)) ∧
        (∀ v : Nat, v < i → mark1[v]? = mark[v]? ∧ parent1[v]? = parent[v]?) := by
  intro n
  induction n with
  | zero =>
    intro i mark parent _ _
    exact ⟨mark, parent, rfl, rfl, rfl, fun v h1 h2 => by omega, fun _ _ => ⟨rfl, rfl⟩⟩
  | succ n ih =>
    intro i mark parent hm hp
    have him : i < mark.length := by omega
    have hip : i < parent.length := by omega
    obtain ⟨mark1, parent1, hrun, hl1, hl2, hnew, hold⟩ :=
      ih (i + 1) (mark.set i 0) (parent.set i (-1)) (by simp; omega) (by simp; omega)
    refine ⟨mark1, parent1, ?_, by rw [hl1]; simp, by rw [hl2]; simp, ?_, ?_⟩
    · unfold bfs_init
      simp only [arr_set_of_lt _ him, arr_set_of_lt _ hip, bind, Except.bind]
      exact hrun
    · intro v h1 h2
      by_cases hvi : v = i
      · subst hvi
        obtain ⟨e1, e2⟩ := hold v (Nat.lt_succ_self v)
        rw [e1, e2, List.getElem?_set_self him, List.getElem?_set_self hip]
        exact ⟨rfl, rfl⟩
      · exact hnew v (by omega) (by omega)
    · intro v hv
      obtain ⟨e1, e2⟩ := hold v (by omega)
      rw [e1, e2, List.getElem?_set_ne (by omega), List.getElem?_set_ne (by omega)]
      exact ⟨rfl, rfl⟩

theorem bfs_loop_spec {g : Graph W} (hwf : GraphWF g) (hsym : GraphSymmetric g) :
    ∀ (n i : Nat) (mark parent : List Int) (time : Nat → Nat) (T : Nat),
      i + n = g.size → BfsCore g mark parent time T →
      (∀ a : Nat, mark[a]? = some 1 → BfsDone g mark a) →
      (∀ j, j < i → graph_present g j = true → mark[j]? = some 1) →
      ∃ (mark1 parent1 : List Int) (time1 : Nat → Nat) (T1 : Nat),
        bfs_loop g n i mark parent = Except.ok (mark1, parent1) ∧
        BfsCore g mark1 parent1 time1 T1 ∧
        (∀ j, graph_present g j = true → mark1[j]? = some 1) := by
  have hs := graphShape_of_wf hwf
  intro n
  induction n with
  | zero =>
    intro i mark parent time T hin core _ hlow
    refine ⟨mark, parent, time, T, rfl, core, ?_⟩
    intro j hp
    exact hlow j (by have := graph_present_lt hs hp; omega) hp
  | succ n ih =>
    intro i mark parent time T hin core hclosed hlow
    have his : i < g.size := by omega
    unfold bfs_loop
    simp only [graph_has_vertex_eq hs, bind, Except.bind, pure, Except.pure]
    have skip : (graph_present g i = true → mark[i]? = some 1) →
        ∃ (mark1 parent1 : List Int) (time1 : Nat → Nat) (T1 : Nat),
          bfs_loop g n (i + 1) mark parent = Except.ok (mark1, parent1) ∧
          BfsCore g mark1 parent1 time1 T1 ∧
          (∀ j, graph_present g j = true → mark1[j]? = some 1) := by
      intro h
      apply ih (i + 1) mark parent time T (by omega) core hclosed
      intro j hj hp
      by_cases hji : j = i
      · subst hji; exact h hp
      · exact hlow j (by omega) hp
    cases hpi : graph_present g i with
    | false =>
      simp only [Bool.false_eq_true, if_false]
      apply skip
      intro h
      rw [hpi] at h
      cases h
    | true =>
      simp only [if_true]
      rcases core.mark_bin i his with hm | hm
      · obtain ⟨mark1, parent1, time1, T1, hvisit, core1, closed1, hlow1⟩ :=
          bfs_visit_spec hwf hsym core hclosed hlow hpi hm
        obtain ⟨mark2, parent2, time2, T2, hrun, core2, hall⟩ :=
          ih (i + 1) mark1 parent1 time1 T1 (by omega) core1 closed1 hlow1
        refine ⟨mark2, parent2, time2, T2, ?_, core2, hall⟩
        simp only [arr_get_of_get hm, decide_True, if_true, hvisit]
        exact hrun
      · have h10 : ¬ ((1 : Int) = 0) := by decide
        simp only [arr_get_of_get hm, h10, decide_False, Bool.false_eq_true, if_false]
        exact skip (fun _ => hm)

theorem bfs_spec {g : Graph W} (hwf : GraphWF g) (hsym : GraphSymmetric g)
    {parent0 : List Int} (hlen : parent0.length = g.size) :
    ∃ (mark parent : List Int) (time : Nat → Nat) (T : Nat),
      bfs g parent0 = Except.ok parent ∧ BfsCore g mark parent time T ∧
      (∀ j, graph_present g j = true → mark[j]? = some 1) := by
  obtain ⟨mark0, parent1, hinit, hl1, hl2, hnew, _⟩ :=
    bfs_init_spec g.size 0 (List.replicate g.size 0) parent0 (by simp) (by omega)
  have hm0 : ∀ v : Nat, mark0[v]? = some 1 → False := by
    intro v hv
    rcases Nat.lt_or_ge v g.size with h | h
    · rw [(hnew v (Nat.zero_le _) (by omega)).1] at hv
      cases hv
    · rw [List.getElem?_eq_none (by rw [hl1]; simp; exact h)] at hv
      cases hv
  have core0 : BfsCore g mark0 parent1 (fun _ => 0) 0 := by
    refine ⟨by rw [hl1]; simp, by rw [hl2]; exact hlen, ?_, ?_, ?_, ?_, ?_⟩
    · intro v hv
      exact Or.inl (hnew v (Nat.zero_le _) (by omega)).1
    · intro v hv
      exact absurd hv (fun h => hm0 v h)
    · intro v hv
      rcases Nat.lt_or_ge v g.size with h | h
      · exact (hnew v (Nat.zero_le _) (by omega)).2
      · rw [List.getElem?_eq_none (by rw [hl1]; simp; exact h)] at hv
        cases hv
    · intro v hv
      exact absurd hv (fun h => hm0 v h)
    · intro v hv
      exact absurd hv (fun h => hm0 v h)
  obtain ⟨mark, parent, time, T, hloop, core, hall⟩ :=
    bfs_loop_spec hwf hsym g.size 0 mark0 parent1 _ _ (by omega) core0
      (fun a ha => absurd ha (fun h => hm0 a h))
      (fun j hj => absurd hj (Nat.not_lt_zero j))
  refine ⟨mark, parent, time, T, ?_, core, hall⟩
  unfold bfs
  simp only [graph_max_size, hinit, hloop, bind, Except.bind, pure, Except.pure]

theorem graph_square_done_inv :
    GraphWF graph_square_done ∧ GraphSymmetric graph_square_done :=
  have h := graph_session_inv (by decide : graph_session 4
    [(GraphOp.add_edge 0 1 1 BLUE : GraphOp Int), GraphOp.add_edge 1 2 2 BLUE,
      GraphOp.add_edge 2 3 1 BLUE, GraphOp.add_edge 0 3 5 RED] = Except.ok graph_square_done)
  ⟨h.1, h.2.1⟩

/-- C25: on a well-formed graph with a symmetric matrix, `bfs` on an array of `size`
parents returns, and in the array returned a vertex `v` has the parent `-1` exactly
when it is absent or has the smallest id of its component of the `SELECTED` subgraph;
any other parent is a present vertex `u` joined to `v` by a `SELECTED` edge, hence in
the component of `v`. -/
theorem bfs_roots_are_component_minima (g : Graph W) (parent0 : List Int)
    (hwf : GraphWF g) (hsym : GraphSymmetric g) (hlen : parent0.length = g.size) :
    ∃ parent : List Int, bfs g parent0 = Except.ok parent ∧
      ∀ v : Nat, v < g.size →
        (parent[v]? = some (-1) ↔ (graph_present g v = false ∨ BlueRoot g v)) ∧
        (∀ p : Int, parent[v]? = some p → p ≠ -1 →
          ∃ u : Nat, p = (u : Int) ∧ graph_present g v = true ∧
            graph_present g u = true ∧ BlueStep g u v ∧ BlueReach g u v) := by
  have hs := graphShape_of_wf hwf
  obtain ⟨mark, parent, time, T, hrun, core, hall⟩ := bfs_spec hwf hsym hlen
  refine ⟨parent, hrun, ?_⟩
  intro v hv
  constructor
  · constructor
    · intro hp
      cases hpv : graph_present g v with
      | false => exact Or.inl rfl
      | true =>
        right
        rcases core.tree v (hall v hpv) with ⟨_, h2⟩ | ⟨u, h1, _⟩
        · exact h2
        · rw [hp] at h1
          have := Option.some.inj h1
          omega
    · rintro (hab | hroot)
      · rcases core.mark_bin v hv with hm | hm
        · exact core.unmarked_parent v hm
        · rw [core.marked_present v hm] at hab
          cases hab
      · rcases core.mark_bin v hv with hm | hm
        · exact core.unmarked_parent v hm
        · rcases core.tree v hm with ⟨h1, _⟩ | ⟨u, _, _, _, _, r, hr, hpr, hreach⟩
          · exact h1
          · exact absurd hreach (hroot r hr hpr)
  · intro p hp hne
    rcases core.mark_bin v hv with hm | hm
    · rw [core.unmarked_parent v hm] at hp
      exact absurd (Option.some.inj hp).symm hne
    · rcases core.tree v hm with ⟨h1, _⟩ | ⟨u, h1, h2, h3, _, _⟩
      · rw [h1] at hp
        exact absurd (Option.some.inj hp).symm hne
      · rw [h1] at hp
        have hstep := blueStep_symm hsym h3
        exact ⟨u, (Option.some.inj hp).symm, core.marked_present v hm,
          core.marked_present u h2, hstep, Relation.ReflTransGen.single hstep⟩

/-- Witness of C25: the square after `kruskal`, with the edges `(0,1)`, `(1,2)`, `(2,3)`
`BLUE` and `(0,3)` `RED`. -/
theorem bfs_roots_are_component_minima_witness :
    GraphWF graph_square_done ∧ GraphSymmetric graph_square_done ∧
      [(0 : Int), 0, 0, 0].length = graph_square_done.size ∧
      ∃ parent : List Int, bfs graph_square_done [0, 0, 0, 0] = Except.ok parent ∧
        ∀ v : Nat, v < graph_square_done.size →
          (parent[v]? = some (-1) ↔
            (graph_present graph_square_done v = false ∨ BlueRoot graph_square_done v)) ∧
          (∀ p : Int, parent[v]? = some p → p ≠ -1 →
            ∃ u : Nat, p = (u : Int) ∧ graph_present graph_square_done v = true ∧
              graph_present graph_square_done u = true ∧ BlueStep graph_square_done u v ∧
              BlueReach graph_square_done u v) :=
  ⟨graph_square_done_inv.1, graph_square_done_inv.2, rfl,
    bfs_roots_are_component_minima graph_square_done [0, 0, 0, 0] graph_square_done_inv.1
      graph_square_done_inv.2 rfl⟩

/-! ## Claims on the enumeration of absent rows and on the choice of the son -/

/-- C31 on the failing input: in the graph of capacity 3 with the single edge `(0, 1)`
the vertex `2` is absent, and `graph_next_edge` on that edge reads the cell `(2, 0)` of
the row `2`, which is `NULL`. -/
theorem graph_next_edge_reads_absent_row :
    graph_of_edges 3 [(0, 1, (1 : Int))] = Except.ok graph_single ∧
      graph_has_vertex graph_single 2 = Except.ok false ∧
      graph_first_edge graph_single = Except.ok (some 0) ∧
      edge_ends graph_single 0 = some (0, 1) ∧
      graph_next_pos 1 0 = (2, 0) ∧
      graph_cell graph_single 2 0 = Except.error Fault.nullDeref ∧
      graph_next_edge graph_single 0 = Except.error Fault.nullDeref := by
  decide

theorem heap_shift_down_loop_next (h : Heap α) (max_i fuel i : Nat)
    (hc : heap_left_son i ≤ max_i ∨ heap_right_son i ≤ max_i) :
    heap_shift_down_loop max_i (fuel + 1) h i =
      (heap_shift_down_next h max_i i >>= fun next_i =>
        heap_peek h i >>= fun a => heap_peek h next_i >>= fun c =>
          heap_rel h a c >>= fun b =>
            if b then heap_swap h i next_i >>= fun h1 =>
              heap_shift_down_loop max_i fuel h1 next_i
            else pure h) := by
  conv_lhs => unfold heap_shift_down_loop
  unfold heap_shift_down_next
  rw [if_pos hc]
  cases heap_peek h (heap_left_son i) with
  | error e => rfl
  | ok l =>
    by_cases hr : heap_right_son i ≤ max_i
    · simp only [if_pos hr, bind, Except.bind]
      cases heap_peek h (heap_right_son i) with
      | error e => rfl
      | ok r =>
        dsimp only
        cases heap_rel h l r with
        | error e => rfl
        | ok b => rfl
    · simp only [if_neg hr, bind, Except.bind]

/-- C32, as the code has it: at a node `i` whose two sons hold the items `x` (left) and
`y` (right), `heap_shift_down` tests the item of `i` against the right son when the
relation holds from `x` to `y` and against the left son otherwise, and swaps with that
son when the test holds; for a total relation the relation holds from the item of the
other son to the item of the son chosen. -/
theorem heap_shift_down_chooses (h : Heap α) (max_i fuel i : Nat) (x y : α)
    (hx : heap_cell h (heap_left_son i) = some x)
    (hy : heap_cell h (heap_right_son i) = some y)
    (hlen : heap_right_son i < h.tab.length) (hmax : heap_right_son i ≤ max_i)
    (htotal : ∀ a b, h.rel a b = true ∨ h.rel b a = true) :
    ∃ (c other : Nat) (xc xo : α),
      heap_shift_down_next h max_i i = Except.ok c ∧
      ((h.rel x y = true ∧ c = heap_right_son i ∧ other = heap_left_son i) ∨
        (h.rel x y = false ∧ c = heap_left_son i ∧ other = heap_right_son i)) ∧
      heap_cell h c = some xc ∧ heap_cell h other = some xo ∧ h.rel xo xc = true ∧
      heap_shift_down_loop max_i (fuel + 1) h i =
        (heap_peek h i >>= fun a => heap_rel h a (some xc) >>= fun b =>
          if b then heap_swap h i c >>= fun h1 => heap_shift_down_loop max_i fuel h1 c
          else pure h) := by
  have hll : heap_left_son i < h.tab.length := by
    unfold heap_left_son; unfold heap_right_son at hlen; omega
  have hpl : heap_peek h (heap_left_son i) = Except.ok (some x) := by
    rw [heap_peek_of_lt hll, hx]
  have hpr : heap_peek h (heap_right_son i) = Except.ok (some y) := by
    rw [heap_peek_of_lt hlen, hy]
  have hnext : heap_shift_down_next h max_i i =
      Except.ok (if h.rel x y then heap_right_son i else heap_left_son i) := by
    unfold heap_shift_down_next
    simp only [hpl, hpr, bind, Except.bind, if_pos hmax, heap_rel, pure, Except.pure]
  have hloop := heap_shift_down_loop_next h max_i fuel i (Or.inr hmax)
  cases hb : h.rel x y with
  | true =>
    rw [hb] at hnext
    simp only [if_true] at hnext
    refine ⟨heap_right_son i, heap_left_son i, y, x, hnext, Or.inl ⟨rfl, rfl, rfl⟩, hy, hx,
      hb, ?_⟩
    rw [hloop, hnext]
    simp only [bind, Except.bind, hpr]
  | false =>
    rw [hb] at hnext
    simp only [Bool.false_eq_true, if_false] at hnext
    refine ⟨heap_left_son i, heap_right_son i, x, y, hnext, Or.inr ⟨rfl, rfl, rfl⟩, hx, hy,
      ?_, ?_⟩
    · rcases htotal x y with h1 | h1
      · rw [hb] at h1; cases h1
      · exact h1
    · rw [hloop, hnext]
      simp only [bind, Except.bind, hpl]

/-- Witness of C32 (amended): the heap holding 4, 2, 3 inside `heap_extract_root` of
`heap_four`, ordered by `>=`, at the root. -/
theorem heap_shift_down_chooses_witness :
    heap_cell heap_four_sift (heap_left_son 0) = some 2 ∧
      heap_cell heap_four_sift (heap_right_son 0) = some 3 ∧
      heap_right_son 0 < heap_four_sift.tab.length ∧ heap_right_son 0 ≤ 2 ∧
      (∀ a b, heap_four_sift.rel a b = true ∨ heap_four_sift.rel b a = true) ∧
      ∃ (c other : Nat) (xc xo : Nat),
        heap_shift_down_next heap_four_sift 2 0 = Except.ok c ∧
        ((heap_four_sift.rel 2 3 = true ∧ c = heap_right_son 0 ∧ other = heap_left_son 0) ∨
          (heap_four_sift.rel 2 3 = false ∧ c = heap_left_son 0 ∧
            other = heap_right_son 0)) ∧
        heap_cell heap_four_sift c = some xc ∧ heap_cell heap_four_sift other = some xo ∧
        heap_four_sift.rel xo xc = true ∧
        heap_shift_down_loop 2 (3 + 1) heap_four_sift 0 =
          (heap_peek heap_four_sift 0 >>= fun a =>
            heap_rel heap_four_sift a (some xc) >>= fun b =>
              if b then heap_swap heap_four_sift 0 c >>= fun h1 =>
                heap_shift_down_loop 2 3 h1 c
              else pure heap_four_sift) :=
  ⟨by decide, by decide, by decide, by decide, nat_relation_total,
    heap_shift_down_chooses heap_four_sift 2 3 0 2 3 (by decide) (by decide) (by decide)
      (by decide) nat_relation_total⟩

/-- Counterexample to C32 as stated: when `heap_extract_root` of the heap holding
1, 2, 3, 4 under `>=` sifts the item 4 down from the root, whose sons hold 2 and 3, the
son chosen is the left one, holding 2, and the root is swapped with it; the relation
from the item of the son chosen to the item of the other son, `R(2, 3)`, does not
hold. -/
theorem heap_shift_down_choice_counterexample :
    heap_session 4 nat_relation
        [HeapOp.insert 1, HeapOp.insert 2, HeapOp.insert 3, HeapOp.insert 4] =
        Except.ok { heap := heap_four, inserted := 4, extracted := 0 } ∧
      heap_cell heap_four_sift (heap_left_son 0) = some 2 ∧
      heap_cell heap_four_sift (heap_right_son 0) = some 3 ∧
      heap_shift_down_next heap_four_sift (heap_size heap_four_sift - 1) 0 =
        Except.ok (heap_left_son 0) ∧
      heap_shift_down heap_four_sift 0 = Except.ok heap_four_done ∧
      heap_extract_root heap_four = Except.ok (heap_four_done, some 1) ∧
      nat_relation 2 3 = false ∧ nat_relation 3 2 = true :=
  ⟨rfl, by decide, by decide, by decide, rfl, rfl, by decide, by decide⟩

/-! ## Ranks and heights -/

theorem dsets_placed_of_self_loop {ds : DSets} {r : Nat} (hlen : ds.father.length = ds.size)
    (hr : ds.father[r]? = some (r : Int)) : dsets_placed ds r := by
  refine ⟨?_, (r : Int), hr, by omega⟩
  rcases Nat.lt_or_ge r ds.father.length with h | h
  · rw [← hlen]; exact h
  · rw [List.getElem?_eq_none h] at hr
    cases hr

theorem dsets_root_kept {root height : Nat → Nat} {ds ds2 : DSets}
    (inv : DSetsInv ds root height) (inv2 : DSetsInv ds2 root height)
    (hpl : ∀ v, dsets_placed ds2 v ↔ dsets_placed ds v) {r : Nat}
    (hr : ds2.father[r]? = some (r : Int)) : ds.father[r]? = some (r : Int) := by
  have hp2 := dsets_placed_of_self_loop inv2.father_len hr
  obtain ⟨p, hfp, _, _, hself, _⟩ := inv2.link r hp2
  rw [hr] at hfp
  have hpr : p = r := by
    have := Option.some.inj hfp
    omega
  have hroot := hself hpr
  have := (inv.root_placed r ((hpl r).mp hp2)).2
  rw [hroot] at this
  exact this

theorem dsets_make_set_ranked {height : Nat → Nat} {ds ds1 : DSets} {n : Nat}
    (wf : DSetsForest ds height) (rk : DSetsRanked ds height)
    (hfresh : ds.father[n]? = some (-1)) (hrun : dsets_make_set ds n = Except.ok ds1) :
    DSetsForest ds1 (fun v => if v = n then 0 else height v) ∧
      DSetsRanked ds1 (fun v => if v = n then 0 else height v) ∧ ds1.size = ds.size := by
  obtain ⟨wf1, hs, hcase, _⟩ := dsets_make_set_forest wf hrun
  have hnl : n < ds.father.length := by
    rcases Nat.lt_or_ge n ds.father.length with h | h
    · exact h
    · rw [List.getElem?_eq_none h] at hfresh
      cases hfresh
  have hn : n < ds.size := by rw [← wf.father_len]; exact hnl
  rcases hcase with ⟨hgt, _⟩ | ⟨_, hf1, hr1⟩
  · omega
  have hget : ∀ v, ds1.father[v]? = if v = n then some (n : Int) else ds.father[v]? := by
    intro v
    rw [hf1]
    by_cases hvn : v = n
    · subst hvn; simp [hnl]
    · have : n ≠ v := fun e => hvn e.symm
      simp [List.getElem?_set_ne this, hvn]
  have hnp : ¬ dsets_placed ds n := by
    rintro ⟨_, x, hx, hne⟩
    rw [hfresh] at hx
    exact hne (Option.some.inj hx).symm
  refine ⟨⟨wf1.father_len, wf1.rank_len, ?_⟩, ?_, hs⟩
  · intro v hv
    obtain ⟨p, hfp, hpp, hh⟩ := wf1.link v hv
    refine ⟨p, hfp, hpp, ?_⟩
    intro hpv
    by_cases hvn : v = n
    · exfalso
      rw [hget, if_pos hvn] at hfp
      have := Option.some.inj hfp
      omega
    · have hfp0 : ds.father[v]? = some (p : Int) := by
        rw [hget, if_neg hvn] at hfp; exact hfp
      have hv0 : dsets_placed ds v := ⟨by rw [← hs]; exact hv.1, (p : Int), hfp0, by omega⟩
      obtain ⟨q, hfq, hqp, _⟩ := wf.link v hv0
      rw [hfp0] at hfq
      have hqe : q = p := by
        have := Option.some.inj hfq
        omega
      subst hqe
      have hqn : q ≠ n := fun e => hnp (e ▸ hqp)
      show (if v = n then 0 else height v) < (if q = n then 0 else height q)
      rw [if_neg hvn, if_neg hqn]
      exact hh hpv
  · intro r hr
    by_cases hrn : r = n
    · subst hrn
      refine ⟨0, ?_, ?_⟩
      · rw [hr1]
        have : r < ds.rank.length := by rw [wf.rank_len]; exact hn
        simp [this]
      · show ((if r = r then 0 else height r : Nat) : Int) ≤ 0
        rw [if_pos rfl]; simp
    · rw [hget, if_neg hrn] at hr
      obtain ⟨x, hx, hle⟩ := rk r hr
      refine ⟨x, ?_, ?_⟩
      · rw [hr1]
        have : n ≠ r := fun e => hrn e.symm
        rw [List.getElem?_set_ne this]; exact hx
      · show ((if r = n then 0 else height r : Nat) : Int) ≤ x
        rw [if_neg hrn]; exact hle

theorem dsets_find_set_ranked {height : Nat → Nat} {ds : DSets} {n : Nat} {x : DSets × Int}
    (wf : DSetsForest ds height) (rk : DSetsRanked ds height)
    (hrun : dsets_find_set ds n = Except.ok x) :
    DSetsForest x.1 height ∧ DSetsRanked x.1 height ∧ x.1.size = ds.size := by
  obtain ⟨root, inv, _⟩ := dsetsForest_inv wf
  rcases dsets_find_set_ok_cases wf.father_len hrun with ⟨_, hx⟩ | hn
  · rw [hx]
    exact ⟨wf, rk, rfl⟩
  · have hp := dsets_find_set_placed inv hn hrun
    obtain ⟨inv1, _, hs1, hrk1, hpl1⟩ := @dsets_find_set_spec _ _ _ x.1 _ x.2 inv hp hrun
    refine ⟨dsetsForest_of_inv inv1, ?_, hs1⟩
    intro r hr
    have := dsets_root_kept inv inv1 hpl1 hr
    rw [hrk1]
    exact rk r this

theorem dsets_link_ranked {root height : Nat → Nat} {ds2 : DSets}
    (inv2 : DSetsInv ds2 root height) (rk2 : DSetsRanked ds2 height) {sn fr : Nat}
    (hsn : dsets_placed ds2 sn) (hfr : dsets_placed ds2 fr) (hrsn : root sn = sn)
    (hrfr : root fr = fr) (hffr : ds2.father[fr]? = some (fr : Int)) (hne : sn ≠ fr)
    {ks kf x : Int} (hks : ds2.rank[sn]? = some ks) (hkf : ds2.rank[fr]? = some kf)
    (rank1 : List Int) (hlen : rank1.length = ds2.rank.length)
    (hother : ∀ r : Nat, r ≠ fr → rank1[r]? = ds2.rank[r]?)
    (hx : rank1[fr]? = some x) (hx1 : kf ≤ x) (hx2 : ks + 1 ≤ x) :
    ∃ height1 : Nat → Nat,
      DSetsForest { size := ds2.size, father := ds2.father.set sn (fr : Int), rank := rank1 }
        height1 ∧
      DSetsRanked { size := ds2.size, father := ds2.father.set sn (fr : Int), rank := rank1 }
        height1 := by
  obtain ⟨inv3, _⟩ := dsets_link_inv inv2 hsn hfr hrsn hrfr hffr hne
  have hfsn : ds2.father[sn]? = some (sn : Int) := by
    have := (inv2.root_placed sn hsn).2
    rw [hrsn] at this
    exact this
  have inv4 : DSetsInv
      { size := ds2.size, father := ds2.father.set sn (fr : Int), rank := rank1 }
      (fun v => if root v = sn then fr else root v)
      (fun v => if v = fr then max (height fr) (height sn + 1) else height v) :=
    @dsetsInv_congr _ _ { ds2 with father := ds2.father.set sn (fr : Int) }
      { size := ds2.size, father := ds2.father.set sn (fr : Int), rank := rank1 }
      rfl rfl hlen inv3
  refine ⟨_, dsetsForest_of_inv inv4, ?_⟩
  intro r hr
  have hlsn : sn < ds2.father.length := by rw [inv2.father_len]; exact hsn.1
  have hr' : (ds2.father.set sn (fr : Int))[r]? = some (r : Int) := hr
  have hrs : r ≠ sn := by
    intro e
    subst e
    rw [List.getElem?_set_self hlsn] at hr'
    have := Option.some.inj hr'
    omega
  rw [List.getElem?_set_ne (fun e => hrs e.symm)] at hr'
  obtain ⟨y, hy, hle⟩ := rk2 r hr'
  obtain ⟨ys, hys, hles⟩ := rk2 sn hfsn
  rw [hks] at hys
  cases hys
  by_cases hrf : r = fr
  · subst hrf
    rw [hkf] at hy
    cases hy
    refine ⟨x, hx, ?_⟩
    show ((if r = r then max (height r) (height sn + 1) else height r : Nat) : Int) ≤ x
    rw [if_pos rfl]
    have h1 : ((max (height r) (height sn + 1) : Nat) : Int) ≤ x := by
      rcases le_total (height r) (height sn + 1) with h | h
      · rw [max_eq_right h]; push_cast; omega
      · rw [max_eq_left h]; omega
    exact h1
  · refine ⟨y, ?_, ?_⟩
    · show rank1[r]? = some y
      rw [hother r hrf]; exact hy
    · show ((if r = fr then max (height fr) (height sn + 1) else height r : Nat) : Int) ≤ y
      rw [if_neg hrf]; exact hle

theorem dsets_union_ranked {height : Nat → Nat} {ds ds1 : DSets} {a b : Nat}
    (wf : DSetsForest ds height) (rk : DSetsRanked ds height)
    (hrun : dsets_union ds a b = Except.ok ds1) :
    ∃ height1 : Nat → Nat, DSetsForest ds1 height1 ∧ DSetsRanked ds1 height1 ∧
      ds1.size = ds.size := by
  obtain ⟨root, inv, _⟩ := dsetsForest_inv wf
  by_cases hgt : a > ds.size ∨ b > ds.size
  · unfold dsets_union at hrun
    rw [if_pos hgt] at hrun
    cases hrun
    exact ⟨height, wf, rk, rfl⟩
  have hrun1 := hrun
  unfold dsets_union at hrun1
  rw [if_neg hgt] at hrun1
  obtain ⟨r1, h1, hrun1⟩ := bind_ok hrun1
  obtain ⟨r2, h2, _⟩ := bind_ok hrun1
  have ha : dsets_placed ds a := by
    rcases dsets_find_set_ok_cases wf.father_len h1 with ⟨hlt, _⟩ | hn
    · omega
    · exact dsets_find_set_placed inv hn h1
  obtain ⟨inv1, _, _, _, hpl1⟩ := @dsets_find_set_spec _ _ _ r1.1 _ r1.2 inv ha h1
  have hb : dsets_placed ds b := by
    rcases dsets_find_set_ok_cases inv1.father_len h2 with ⟨hlt, _⟩ | hn
    · omega
    · exact (hpl1 b).mp (dsets_find_set_placed inv1 hn h2)
  obtain ⟨ds2, ka, kb, inv2, hpl2, hs2, hrk2, hka, hkb, _, hds1⟩ :=
    dsets_union_effect_of_ok inv ha hb hrun
  have rk2 : DSetsRanked ds2 height := by
    intro r hr
    rw [hrk2]
    exact rk r (dsets_root_kept inv inv2 hpl2 hr)
  have ha2 := (hpl2 a).mpr ha
  have hb2 := (hpl2 b).mpr hb
  obtain ⟨hpra, hfra⟩ := inv2.root_placed a ha2
  obtain ⟨hprb, hfrb⟩ := inv2.root_placed b hb2
  have hrra := dsets_root_of_root inv2 ha2
  have hrrb := dsets_root_of_root inv2 hb2
  rw [← hrk2] at hka hkb
  have hlb : root b < ds2.rank.length := by rw [inv2.rank_len]; exact hprb.1
  by_cases hne : root a = root b
  · have hkk : ka = kb := by
      rw [hne, hkb] at hka
      exact (Option.some.inj hka).symm
    have hfather : ds1.father = ds2.father := by
      rw [hds1]
      show ds2.father.set _ _ = ds2.father
      apply list_set_same
      rw [← hne]
      simp only [ite_self]
      exact hfra
    have hrank : ds1.rank = ds2.rank.set (root b) (kb + 1) := by
      rw [hds1]
      show (if ka = kb then ds2.rank.set (root b) (kb + 1) else ds2.rank) = _
      rw [if_pos hkk]
    have hsize : ds1.size = ds2.size := by rw [hds1]
    refine ⟨height, dsetsForest_of_inv
      (dsetsInv_congr hfather hsize (by rw [hrank]; simp) inv2), ?_, hsize.trans hs2⟩
    intro r hr
    rw [hfather] at hr
    obtain ⟨y, hy, hle⟩ := rk2 r hr
    rw [hrank]
    by_cases hrb : r = root b
    · rw [hrb, List.getElem?_set_self hlb]
      rw [hrb, hkb] at hy
      cases hy
      rw [hrb] at hle
      exact ⟨kb + 1, rfl, by omega⟩
    · rw [List.getElem?_set_ne (fun e => hrb e.symm)]
      exact ⟨y, hy, hle⟩
  · have hsize : ds1.size = ds.size := by rw [hds1]; exact hs2
    by_cases hk : ka > kb
    · have hshape : ds1 =
          { size := ds2.size, father := ds2.father.set (root b) (root a : Int),
            rank := ds2.rank } := by
        rw [hds1, if_pos hk, if_pos hk, if_neg (by omega)]
      obtain ⟨height1, wf1, rk1⟩ := dsets_link_ranked inv2 rk2 hprb hpra hrrb hrra hfra
        (Ne.symm hne) hkb hka ds2.rank rfl (fun _ _ => rfl) hka (le_refl _) (by omega)
      rw [← hshape] at wf1 rk1
      exact ⟨height1, wf1, rk1, hsize⟩
    · by_cases heq : ka = kb
      · have hshape : ds1 =
            { size := ds2.size, father := ds2.father.set (root a) (root b : Int),
              rank := ds2.rank.set (root b) (kb + 1) } := by
          rw [hds1, if_neg hk, if_neg hk, if_pos heq]
        obtain ⟨height1, wf1, rk1⟩ := dsets_link_ranked inv2 rk2 hpra hprb hrra hrrb hfrb
          hne hka hkb (ds2.rank.set (root b) (kb + 1)) (by simp)
          (fun r hr => List.getElem?_set_ne (fun e => hr e.symm))
          (List.getElem?_set_self hlb) (by omega) (by omega)
        rw [← hshape] at wf1 rk1
        exact ⟨height1, wf1, rk1, hsize⟩
      · have hshape : ds1 =
            { size := ds2.size, father := ds2.father.set (root a) (root b : Int),
              rank := ds2.rank } := by
          rw [hds1, if_neg hk, if_neg hk, if_neg heq]
        obtain ⟨height1, wf1, rk1⟩ := dsets_link_ranked inv2 rk2 hpra hprb hrra hrrb hfrb
          hne hka hkb ds2.rank rfl (fun _ _ => rfl) hkb (le_refl _) (by omega)
        rw [← hshape] at wf1 rk1
        exact ⟨height1, wf1, rk1, hsize⟩

theorem dsets_apply_ranked {height : Nat → Nat} {ds ds1 : DSets} {op : DSetsOp}
    (wf : DSetsForest ds height) (rk : DSetsRanked ds height)
    (hfresh : dsets_op_fresh ds op = true) (hrun : dsets_apply ds op = Except.ok ds1) :
    ∃ height1 : Nat → Nat, DSetsForest ds1 height1 ∧ DSetsRanked ds1 height1 ∧
      ds1.size = ds.size := by
  cases op with
  | make_set n =>
    have hf : ds.father[n]? = some (-1) := by
      simpa [dsets_op_fresh] using hfresh
    exact ⟨_, dsets_make_set_ranked wf rk hf hrun⟩
  | find_set n =>
    obtain ⟨r, h1, h2⟩ := bind_ok hrun
    cases h2
    exact ⟨height, dsets_find_set_ranked wf rk h1⟩
  | union a b => exact dsets_union_ranked wf rk hrun

theorem dsets_run_ranked :
    ∀ (ops : List DSetsOp) (ds ds1 : DSets) (height : Nat → Nat),
      DSetsForest ds height → DSetsRanked ds height → dsets_run_fresh ds ops = true →
      dsets_run ds ops = Except.ok ds1 →
      ∃ height1 : Nat → Nat, DSetsForest ds1 height1 ∧ DSetsRanked ds1 height1 ∧
        ds1.size = ds.size := by
  intro ops
  induction ops with
  | nil =>
    intro ds ds1 height wf rk _ hrun
    cases hrun
    exact ⟨height, wf, rk, rfl⟩
  | cons op ops ih =>
    intro ds ds1 height wf rk hfresh hrun
    obtain ⟨d, h1, h2⟩ := bind_ok hrun
    unfold dsets_run_fresh at hfresh
    rw [h1, Bool.and_eq_true] at hfresh
    obtain ⟨height1, wf1, rk1, hs1⟩ := dsets_apply_ranked wf rk hfresh.1 h1
    obtain ⟨height2, wf2, rk2, hs2⟩ := ih d ds1 height1 wf1 rk1 hfresh.2 h2
    exact ⟨height2, wf2, rk2, hs2.trans hs1⟩

theorem dsets_session_ranked {size : Nat} {ops : List DSetsOp} {ds : DSets}
    (hfresh : dsets_session_fresh size ops = true)
    (hrun : dsets_session size ops = Except.ok ds) :
    ∃ height : Nat → Nat, DSetsForest ds height ∧ DSetsRanked ds height := by
  obtain ⟨d, h1, h2⟩ := bind_ok hrun
  unfold dsets_session_fresh at hfresh
  rw [h1] at hfresh
  obtain ⟨hsing, _⟩ := dsets_new_spec h1
  have rk : DSetsRanked d (fun _ => 0) := by
    intro r hr
    have hp := dsets_placed_of_self_loop hsing.1 hr
    have hlt : r < d.rank.length := by rw [hsing.2.1]; exact hp.1
    unfold dsets_new at h1
    split at h1
    · cases h1
      refine ⟨0, ?_, le_refl _⟩
      show (List.replicate size (0 : Int))[r]? = some 0
      rw [List.getElem?_replicate, if_pos (by simpa using hlt)]
    · cases h1
  obtain ⟨height, wf, rk1, _⟩ :=
    dsets_run_ranked ops d ds _ (dsetsForest_of_inv (dsetsSingletons_inv hsing)) rk hfresh h2
  exact ⟨height, wf, rk1⟩

theorem dsets_ancestor_of_root {ds : DSets} {v : Nat} (hv : ds.father[v]? = some (v : Int)) :
    ∀ k, dsets_ancestor ds k v = some v := by
  intro k
  induction k with
  | zero => rfl
  | succ k ih =>
    unfold dsets_ancestor
    rw [hv]
    simp only [Int.toNat_ofNat]
    rw [if_pos (by omega)]
    exact ih

theorem dsets_ancestor_height {ds : DSets} {height : Nat → Nat} (wf : DSetsForest ds height)
    (r : Nat) :
    ∀ (k v : Nat), dsets_ancestor ds k v = some r →
      (∀ j, j < k → dsets_ancestor ds j v ≠ some r) → height v + k ≤ height r := by
  intro k
  induction k with
  | zero =>
    intro v hk _
    have : v = r := Option.some.inj hk
    rw [this]; omega
  | succ k ih =>
    intro v hk hmin
    have hstep : ∀ j, dsets_ancestor ds (j + 1) v =
        match ds.father[v]? with
        | some p => if 0 ≤ p then dsets_ancestor ds j p.toNat else none
        | none => none := fun j => rfl
    rw [hstep] at hk
    cases hf : ds.father[v]? with
    | none => simp [hf] at hk
    | some p =>
      simp only [hf] at hk
      by_cases hp : 0 ≤ p
      · rw [if_pos hp] at hk
        have hpq : p = ((p.toNat : Nat) : Int) := (Int.toNat_of_nonneg hp).symm
        have hf' : ds.father[v]? = some ((p.toNat : Nat) : Int) := by rw [hf, ← hpq]
        have hvlt : v < ds.size := by
          rcases Nat.lt_or_ge v ds.father.length with h | h
          · rw [← wf.father_len]; exact h
          · rw [List.getElem?_eq_none h] at hf
            cases hf
        have hvp : dsets_placed ds v := ⟨hvlt, p, hf, by omega⟩
        obtain ⟨q, hfq, _, hh⟩ := wf.link v hvp
        rw [hf'] at hfq
        have hqe : q = p.toNat := by
          have := Option.some.inj hfq
          omega
        subst hqe
        have hne : p.toNat ≠ v := by
          intro e
          rw [e] at hf'
          have h0 := hmin 0 (Nat.succ_pos _)
          have hr2 := dsets_ancestor_of_root hf' k
          rw [e, hr2] at hk
          exact h0 hk
        have hlt := hh hne
        have hmin' : ∀ j, j < k → dsets_ancestor ds j p.toNat ≠ some r := by
          intro j hj hcontra
          apply hmin (j + 1) (by omega)
          rw [hstep]
          simp only [hf, if_pos hp]
          exact hcontra
        have := ih p.toNat hk hmin'
        omega
      · rw [if_neg hp] at hk
        cases hk

/-- C35, amended to the sessions in which `dsets_make_set` is never called on an element
already placed: in every state reached from `dsets_new` by such a sequence of
`dsets_make_set`, `dsets_find_set` and `dsets_union` calls, the rank of every root `r`
bounds the height of its tree: an element `v` whose `k`-th ancestor is the first to be
`r` has `k ≤ rank[r]`. The ranks are those of the C object: `dsets_union` faults where
the increment of an `int` rank would overflow, so no rank of a session that returns has
wrapped. -/
theorem dsets_rank_bounds_height (size : Nat) (ops : List DSetsOp) (ds : DSets)
    (r v k : Nat) (hfresh : dsets_session_fresh size ops = true)
    (hrun : dsets_session size ops = Except.ok ds)
    (hr : ds.father[r]? = some (r : Int)) (hk : dsets_ancestor ds k v = some r)
    (hmin : ∀ j, j < k → dsets_ancestor ds j v ≠ some r) :
    ∃ x : Int, ds.rank[r]? = some x ∧ (k : Int) ≤ x := by
  obtain ⟨height, wf, rk⟩ := dsets_session_ranked hfresh hrun
  obtain ⟨x, hx, hle⟩ := rk r hr
  have := dsets_ancestor_height wf r k v hk hmin
  exact ⟨x, hx, by omega⟩

/-- Witness of C35 (amended): the four singletons merged into the chain `0 → 1 → 3`,
`2 → 3`; the element `0` is two links below the root `3`, whose rank is 2. -/
theorem dsets_rank_bounds_height_witness :
    dsets_session_fresh 4 (dsets_pairs_ops ++ [DSetsOp.union 0 2]) = true ∧
      dsets_session 4 (dsets_pairs_ops ++ [DSetsOp.union 0 2]) = Except.ok dsets_chain ∧
      dsets_chain.father[3]? = some ((3 : Nat) : Int) ∧
      dsets_ancestor dsets_chain 2 0 = some 3 ∧
      (∀ j, j < 2 → dsets_ancestor dsets_chain j 0 ≠ some 3) ∧
      ∃ x : Int, dsets_chain.rank[3]? = some x ∧ ((2 : Nat) : Int) ≤ x :=
  ⟨by decide, by decide, by decide, by decide, by decide,
    dsets_rank_bounds_height 4 (dsets_pairs_ops ++ [DSetsOp.union 0 2]) dsets_chain 3 0 2
      (by decide) (by decide) (by decide) (by decide) (by decide)⟩

/-- Counterexample to C35 as stated: after `dsets_make_set` on 0 and 1, `dsets_union` of
0 and 1 and `dsets_make_set` on the root 1 (an element already placed), the element 0 is
one link below the root 1, whose rank is 0. -/
theorem dsets_rank_reset_counterexample :
    dsets_session 2 dsets_reset_ops = Except.ok dsets_reset ∧
      dsets_session_fresh 2 dsets_reset_ops = false ∧
      dsets_reset.father[1]? = some ((1 : Nat) : Int) ∧
      dsets_ancestor dsets_reset 1 0 = some 1 ∧
      dsets_ancestor dsets_reset 0 0 ≠ some 1 ∧
      dsets_reset.rank[1]? = some 0 ∧ ¬ ((1 : Nat) : Int) ≤ 0 := by
  decide

/-! ## The traversal and the record of its calls of `fifo_put` -/

theorem bfs_visit_row_traced_erase (g : Graph W) (u : Nat) :
    ∀ (n k : Nat) (st : BfsState) (log : BfsLog),
      Except.map Prod.fst (bfs_visit_row_traced g u n k st log) =
        bfs_visit_row g u n k st := by
  intro n
  induction n with
  | zero => intro k st log; rfl
  | succ n ih =>
    intro k st log
    unfold bfs_visit_row_traced bfs_visit_row
    simp only [bind, Except.bind]
    cases graph_cell g u k with
    | error e => rfl
    | ok c =>
      cases c with
      | none => exact ih _ _ _
      | some e =>
        dsimp only
        cases arr_get st.mark k with
        | error e => rfl
        | ok mk =>
          dsimp only
          by_cases hmk : mk = 0
          · simp only [if_pos hmk]
            cases edge_get_attr g e with
            | error e => rfl
            | ok a =>
              dsimp only [pure, Except.pure]
              by_cases ha : a = BLUE
              · simp only [ha, decide_True, if_true]
                cases edge_deref g e with
                | error e => rfl
                | ok ed =>
                  dsimp only
                  cases graph_row g k with
                  | error e => rfl
                  | ok rk =>
                    dsimp only
                    cases fifo_put st.f (rk.map (fun _ => k)) with
                    | error e => rfl
                    | ok f1 =>
                      dsimp only
                      cases arr_set st.mark k 1 with
                      | error e => rfl
                      | ok mark1 =>
                        dsimp only
                        cases arr_set st.parent k
                          ((if ed.v1 = k then ed.v2 else ed.v1 : Nat) : Int) with
                        | error e => rfl
                        | ok parent1 => exact ih _ _ _
              · simp only [ha, decide_False, Bool.false_eq_true, if_false]
                exact ih _ _ _
          · simp only [if_neg hmk, pure, Except.pure, Bool.false_eq_true, if_false]
            exact ih _ _ _

theorem bfs_visit_loop_traced_erase (g : Graph W) :
    ∀ (fuel : Nat) (st : BfsState) (log : BfsLog),
      Except.map Prod.fst (bfs_visit_loop_traced g fuel st log) =
        bfs_visit_loop g fuel st := by
  intro fuel
  induction fuel with
  | zero =>
    intro st log
    unfold bfs_visit_loop_traced bfs_visit_loop
    split <;> rfl
  | succ fuel ih =>
    intro st log
    unfold bfs_visit_loop_traced bfs_visit_loop
    split
    · rfl
    · simp only [bind, Except.bind]
      cases fifo_get st.f with
      | error e => rfl
      | ok r =>
        dsimp only
        cases r.2 with
        | none => rfl
        | some u =>
          dsimp only
          have h := bfs_visit_row_traced_erase g u g.size 0 { st with f := r.1 } log
          cases ht : bfs_visit_row_traced g u g.size 0 { st with f := r.1 } log with
          | error e =>
            rw [ht] at h
            rw [← h]
            rfl
          | ok t1 =>
            rw [ht] at h
            rw [← h]
            exact ih _ _

theorem bfs_visit_traced_erase (g : Graph W) (i : Nat) (mark parent : List Int)
    (log : BfsLog) :
    Except.map Prod.fst (bfs_visit_traced g i mark parent log) =
      bfs_visit g i mark parent := by
  unfold bfs_visit_traced bfs_visit
  simp only [bind, Except.bind]
  cases (fifo_new (graph_max_size g) : Except Fault (Fifo Nat)) with
  | error e => rfl
  | ok f =>
    dsimp only
    cases arr_set mark i 1 with
    | error e => rfl
    | ok mark1 =>
      dsimp only
      cases graph_row g i with
      | error e => rfl
      | ok ri =>
        dsimp only
        cases fifo_put f (ri.map (fun _ => i)) with
        | error e => rfl
        | ok f1 =>
          dsimp only
          have h := bfs_visit_loop_traced_erase g (graph_max_size g)
            { f := f1, mark := mark1, parent := parent } (bfs_log_put f i log)
          cases ht : bfs_visit_loop_traced g (graph_max_size g)
              { f := f1, mark := mark1, parent := parent } (bfs_log_put f i log) with
          | error e =>
            rw [ht] at h
            rw [← h]
            rfl
          | ok t =>
            rw [ht] at h
            rw [← h]
            rfl

theorem bfs_loop_traced_erase (g : Graph W) :
    ∀ (n i : Nat) (mark parent : List Int) (log : BfsLog),
      Except.map Prod.fst (bfs_loop_traced g n i mark parent log) =
        bfs_loop g n i mark parent := by
  intro n
  induction n with
  | zero => intro i mark parent log; rfl
  | succ n ih =>
    intro i mark parent log
    unfold bfs_loop_traced bfs_loop
    simp only [bind, Except.bind]
    cases graph_has_vertex g i with
    | error e => rfl
    | ok b =>
      dsimp only
      cases b with
      | false => exact ih _ _ _ _
      | true =>
        simp only [if_true]
        cases arr_get mark i with
        | error e => rfl
        | ok mi =>
          by_cases hmi : mi = 0
          · simp only [hmi, decide_True, pure, Except.pure, if_true]
            have h := bfs_visit_traced_erase g i mark parent log
            cases ht : bfs_visit_traced g i mark parent log with
            | error e =>
              rw [ht] at h
              rw [← h]
              rfl
            | ok t =>
              rw [ht] at h
              rw [← h]
              exact ih _ _ _ _
          · simp only [hmi, decide_False, pure, Except.pure, Bool.false_eq_true, if_false]
            exact ih _ _ _ _

theorem bfs_traced_erase (g : Graph W) (parent : List Int) :
    Except.map Prod.fst (bfs_traced g parent) = bfs g parent := by
  unfold bfs_traced bfs
  simp only [bind, Except.bind]
  cases bfs_init (graph_max_size g) 0 (List.replicate (graph_max_size g) 0) parent with
  | error e => rfl
  | ok r =>
    dsimp only
    have h := bfs_loop_traced_erase g (graph_max_size g) 0 r.1 r.2 { puts := [], full := [] }
    cases ht : bfs_loop_traced g (graph_max_size g) 0 r.1 r.2 { puts := [], full := [] } with
    | error e =>
      rw [ht] at h
      rw [← h]
      rfl
    | ok t =>
      rw [ht] at h
      rw [← h]
      rfl

theorem arr_get_ok {a : List Int} {i : Nat} {x : Int} (h : arr_get a i = Except.ok x) :
    a[i]? = some x := by
  unfold arr_get at h
  cases hx : a[i]? with
  | none => rw [hx] at h; cases h
  | some y => rw [hx] at h; cases h; rfl

theorem arr_set_ok {a a1 : List Int} {i : Nat} {x : Int}
    (h : arr_set a i x = Except.ok a1) : i < a.length ∧ a1 = a.set i x := by
  unfold arr_set at h
  split at h
  · next hlt => cases h; exact ⟨hlt, rfl⟩
  · cases h

theorem graph_present_of_row {g : Graph W} {k : Nat} {row : List (Option EdgePtr)}
    (h : graph_row g k = Except.ok (some row)) : graph_present g k = true := by
  unfold graph_row at h
  unfold graph_present
  cases hx : g.vertex[k]? with
  | none => rw [hx] at h; cases h
  | some r =>
    rw [hx] at h
    cases h
    rfl

/-- One call of `fifo_put` by the traversal, on a vertex whose mark is 0 and that is
marked by the same step. -/
theorem bfs_log_put_inv {g : Graph W} {f f1 : Fifo Nat} {mark : List Int} {log : BfsLog}
    {k : Nat} {rk : Option (List (Option EdgePtr))}
    (inv : BfsLogInv g mark log) (room : BfsRoom g f mark) (hm : mark[k]? = some 0)
    (hrow : graph_row g k = Except.ok rk)
    (hput : fifo_put f (rk.map (fun _ => k)) = Except.ok f1) :
    BfsLogInv g (mark.set k 1) (bfs_log_put f k log) ∧ BfsRoom g f1 (mark.set k 1) := by
  have hkl : k < mark.length := by
    rcases Nat.lt_or_ge k mark.length with h | h
    · exact h
    · rw [List.getElem?_eq_none h] at hm; cases hm
  have hk : k < g.size := by rw [← inv.mark_len]; exact hkl
  cases rk with
  | none => cases hput
  | some row =>
    have hpk := graph_present_of_row hrow
    have hnotfull : fifo_length f ≠ fifo_max_size f := by
      have h1 := room.room
      have h2 := bfs_unmarked_pos hk hm
      unfold fifo_max_size
      rw [room.fifo_max]
      omega
    obtain ⟨f2, hput2, hwf2, hmax2, hlen2, _⟩ := fifo_put_spec room.fifo_wf k hnotfull
    have hput' : fifo_put f (some k) = Except.ok f1 := hput
    rw [hput2] at hput'
    cases hput'
    have hset := bfs_unmarked_set hk hm
    have hnotin : k ∉ log.puts := by
      intro hin
      have := inv.puts_marked k hin
      rw [hm] at this
      cases this
    refine ⟨⟨by rw [List.length_set]; exact inv.mark_len, ?_, ?_, ?_, ?_, ?_⟩,
      ⟨hwf2, hmax2.trans room.fifo_max, by have := room.room; omega⟩⟩
    · intro v hv
      rw [list_getElem?_set _ _ _ _ hkl]
      split
      · right; rfl
      · exact inv.mark_bin v hv
    · show (if fifo_full f = true then k :: log.full else log.full) = []
      have : fifo_full f = false := by
        unfold fifo_full
        exact decide_eq_false hnotfull
      rw [this]
      exact inv.full_nil
    · show (k :: log.puts).Nodup
      exact List.nodup_cons.mpr ⟨hnotin, inv.puts_nodup⟩
    · intro v hv
      have hv' : v ∈ k :: log.puts := hv
      rw [list_getElem?_set _ _ _ _ hkl]
      split
      · rfl
      · next hne =>
        rcases List.mem_cons.mp hv' with h | h
        · exact absurd h hne
        · exact inv.puts_marked v h
    · intro v hv
      have hv' : v ∈ k :: log.puts := hv
      rcases List.mem_cons.mp hv' with h | h
      · rw [h]; exact hpk
      · exact inv.puts_present v h

theorem bfs_visit_row_traced_inv (g : Graph W) (u : Nat) :
    ∀ (n k : Nat) (st : BfsState) (log : BfsLog) (t1 : BfsState × BfsLog),
      BfsLogInv g st.mark log → BfsRoom g st.f st.mark →
      bfs_visit_row_traced g u n k st log = Except.ok t1 →
      BfsLogInv g t1.1.mark t1.2 ∧ BfsRoom g t1.1.f t1.1.mark := by
  intro n
  induction n with
  | zero =>
    intro k st log t1 inv room hrun
    cases hrun
    exact ⟨inv, room⟩
  | succ n ih =>
    intro k st log t1 inv room hrun
    unfold bfs_visit_row_traced at hrun
    obtain ⟨c, _, hrun⟩ := bind_ok hrun
    cases c with
    | none => exact ih _ _ _ _ inv room hrun
    | some e =>
      dsimp only at hrun
      obtain ⟨mk, hmk, hrun⟩ := bind_ok hrun
      by_cases hm0 : mk = 0
      · subst hm0
        rw [if_pos rfl] at hrun
        obtain ⟨a, _, hrun⟩ := bind_ok hrun
        obtain ⟨y, hy, hrun⟩ := bind_ok hrun
        have hy1 : decide (a = BLUE) = y := Except.ok.inj hy
        subst hy1
        by_cases ha : a = BLUE
        · rw [if_pos (decide_eq_true ha)] at hrun
          obtain ⟨ed, _, hrun⟩ := bind_ok hrun
          obtain ⟨rk, hrk, hrun⟩ := bind_ok hrun
          obtain ⟨f1, hput, hrun⟩ := bind_ok hrun
          obtain ⟨mark1, hmark1, hrun⟩ := bind_ok hrun
          obtain ⟨parent1, _, hrun⟩ := bind_ok hrun
          obtain ⟨_, hm1⟩ := arr_set_ok hmark1
          subst hm1
          obtain ⟨inv1, room1⟩ := bfs_log_put_inv inv room (arr_get_ok hmk) hrk hput
          exact ih _ _ _ _ inv1 room1 hrun
        · rw [if_neg (by rw [decide_eq_false ha]; exact Bool.false_ne_true)] at hrun
          exact ih _ _ _ _ inv room hrun
      · rw [if_neg hm0] at hrun
        obtain ⟨y, hy, hrun⟩ := bind_ok hrun
        have hy1 : false = y := Except.ok.inj hy
        subst hy1
        rw [if_neg Bool.false_ne_true] at hrun
        exact ih _ _ _ _ inv room hrun

theorem bfs_visit_loop_traced_inv (g : Graph W) :
    ∀ (fuel : Nat) (st : BfsState) (log : BfsLog) (t1 : BfsState × BfsLog),
      BfsLogInv g st.mark log → BfsRoom g st.f st.mark →
      bfs_visit_loop_traced g fuel st log = Except.ok t1 →
      BfsLogInv g t1.1.mark t1.2 := by
  intro fuel
  induction fuel with
  | zero =>
    intro st log t1 inv room hrun
    unfold bfs_visit_loop_traced at hrun
    split at hrun
    · cases hrun; exact inv
    · cases hrun
  | succ fuel ih =>
    intro st log t1 inv room hrun
    unfold bfs_visit_loop_traced at hrun
    split at hrun
    · cases hrun; exact inv
    · next hne =>
      obtain ⟨r, hget, hrun⟩ := bind_ok hrun
      have hlen : fifo_length st.f ≠ 0 := by
        intro h0
        apply hne
        unfold fifo_empty
        exact decide_eq_true h0
      obtain ⟨f1, c, hget2, hwf1, hmax1, hlen1, _⟩ := fifo_get_spec room.fifo_wf hlen
      rw [hget2] at hget
      cases hget
      cases c with
      | none => cases hrun
      | some u =>
        dsimp only at hrun
        obtain ⟨t2, hrow, hrun⟩ := bind_ok hrun
        have room1 : BfsRoom g f1 st.mark :=
          ⟨hwf1, hmax1.trans room.fifo_max, by have := room.room; omega⟩
        obtain ⟨inv2, room2⟩ :=
          bfs_visit_row_traced_inv g u g.size 0 { st with f := f1 } log t2 inv room1 hrow
        exact ih _ _ _ inv2 room2 hrun

theorem bfs_visit_traced_inv {g : Graph W} {i : Nat} {mark parent : List Int} {log : BfsLog}
    {t : (List Int × List Int) × BfsLog} (inv : BfsLogInv g mark log)
    (hm : mark[i]? = some 0) (hrun : bfs_visit_traced g i mark parent log = Except.ok t) :
    BfsLogInv g t.1.1 t.2 := by
  unfold bfs_visit_traced at hrun
  obtain ⟨f, hnew, hrun⟩ := bind_ok hrun
  obtain ⟨mark1, hmark1, hrun⟩ := bind_ok hrun
  obtain ⟨ri, hri, hrun⟩ := bind_ok hrun
  obtain ⟨f1, hput, hrun⟩ := bind_ok hrun
  obtain ⟨t2, hloop, hrun⟩ := bind_ok hrun
  cases hrun
  obtain ⟨_, hm1⟩ := arr_set_ok hmark1
  subst hm1
  have hpos : 0 < g.size := by
    by_contra h0
    unfold fifo_new graph_max_size at hnew
    rw [if_neg h0] at hnew
    cases hnew
  obtain ⟨f0, hnew0, hwf0, hmax0, hlen0, _⟩ := @fifo_new_spec Nat g.size hpos
  have hnew' : (fifo_new g.size : Except Fault (Fifo Nat)) = Except.ok f := hnew
  rw [hnew0] at hnew'
  cases hnew'
  have room : BfsRoom g f mark :=
    ⟨hwf0, hmax0, by have := bfs_unmarked_le g.size mark; omega⟩
  obtain ⟨inv1, room1⟩ := bfs_log_put_inv inv room hm hri hput
  exact bfs_visit_loop_traced_inv g _ _ _ _ inv1 room1 hloop

theorem bfs_loop_traced_inv (g : Graph W) :
    ∀ (n i : Nat) (mark parent : List Int) (log : BfsLog)
      (t : (List Int × List Int) × BfsLog),
      BfsLogInv g mark log → bfs_loop_traced g n i mark parent log = Except.ok t →
      BfsLogInv g t.1.1 t.2 := by
  intro n
  induction n with
  | zero =>
    intro i mark parent log t inv hrun
    cases hrun
    exact inv
  | succ n ih =>
    intro i mark parent log t inv hrun
    unfold bfs_loop_traced at hrun
    obtain ⟨b, _, hrun⟩ := bind_ok hrun
    dsimp only at hrun
    cases b with
    | false =>
      rw [if_neg Bool.false_ne_true] at hrun
      obtain ⟨y, hy, hrun⟩ := bind_ok hrun
      have hy1 : false = y := Except.ok.inj hy
      subst hy1
      rw [if_neg Bool.false_ne_true] at hrun
      obtain ⟨r, hr, hrun⟩ := bind_ok hrun
      cases hr
      exact ih _ _ _ _ _ inv hrun
    | true =>
      rw [if_pos rfl] at hrun
      obtain ⟨mi, hmi, hrun⟩ := bind_ok hrun
      obtain ⟨y, hy, hrun⟩ := bind_ok hrun
      have hy1 : decide (mi = 0) = y := Except.ok.inj hy
      subst hy1
      by_cases hm0 : mi = 0
      · subst hm0
        rw [if_pos (decide_eq_true rfl)] at hrun
        obtain ⟨r, hr, hrun⟩ := bind_ok hrun
        exact ih _ _ _ _ _ (bfs_visit_traced_inv inv (arr_get_ok hmi) hr) hrun
      · rw [if_neg (by rw [decide_eq_false hm0]; exact Bool.false_ne_true)] at hrun
        obtain ⟨r, hr, hrun⟩ := bind_ok hrun
        cases hr
        exact ih _ _ _ _ _ inv hrun

theorem bfs_traced_inv {g : Graph W} {parent0 : List Int} {t : List Int × BfsLog}
    (hlen : parent0.length = g.size) (hrun : bfs_traced g parent0 = Except.ok t) :
    t.2.full = [] ∧ t.2.puts.Nodup ∧ ∀ v : Nat, v ∈ t.2.puts → graph_present g v = true := by
  unfold bfs_traced at hrun
  obtain ⟨r, hinit, hrun⟩ := bind_ok hrun
  obtain ⟨r1, hloop, hrun⟩ := bind_ok hrun
  cases hrun
  obtain ⟨mark0, parent1, hinit0, hl1, _, hnew, _⟩ :=
    bfs_init_spec g.size 0 (List.replicate g.size 0) parent0 (by simp) (by omega)
  have hinit' : bfs_init g.size 0 (List.replicate g.size 0) parent0 = Except.ok r := hinit
  rw [hinit0] at hinit'
  cases hinit'
  have inv0 : BfsLogInv g mark0 { puts := [], full := [] } := by
    refine ⟨by rw [hl1]; simp, ?_, rfl, List.nodup_nil, ?_, ?_⟩
    · intro v hv
      exact Or.inl (hnew v (Nat.zero_le _) (by omega)).1
    · intro v hv; cases hv
    · intro v hv; cases hv
  have inv1 := bfs_loop_traced_inv g _ _ _ _ _ _ inv0 hloop
  exact ⟨inv1.full_nil, inv1.puts_nodup, inv1.puts_present⟩

/-- C34: on a well-formed graph with a symmetric matrix, `bfs` on an array of `size`
parents returns, so no `fifo_get` in the loop of `bfs_visit` yields `NULL` (the loop
would dereference it), and the record of its calls of `fifo_put` on the queues made by
`fifo_new(size)` shows that no call was made on a full queue, so no item was dropped,
and that the vertices given to `fifo_put` during the call of `bfs` are present and
pairwise distinct. -/
theorem bfs_queue_never_full (g : Graph W) (parent0 : List Int) (hwf : GraphWF g)
    (hsym : GraphSymmetric g) (hlen : parent0.length = g.size) :
    ∃ (parent : List Int) (log : BfsLog),
      bfs_traced g parent0 = Except.ok (parent, log) ∧ bfs g parent0 = Except.ok parent ∧
      log.full = [] ∧ log.puts.Nodup ∧
      ∀ v : Nat, v ∈ log.puts → graph_present g v = true := by
  obtain ⟨_, parent, _, _, hrun, _, _⟩ := bfs_spec hwf hsym hlen
  have herase := bfs_traced_erase g parent0
  rw [hrun] at herase
  cases ht : bfs_traced g parent0 with
  | error e =>
    rw [ht] at herase
    cases herase
  | ok t =>
    rw [ht] at herase
    have hp : t.1 = parent := Except.ok.inj herase
    obtain ⟨h1, h2, h3⟩ := bfs_traced_inv hlen ht
    refine ⟨parent, t.2, ?_, hrun, h1, h2, h3⟩
    rw [← hp]

/-- Witness of C34: the square after `kruskal`, with the edges `(0,1)`, `(1,2)`, `(2,3)`
`BLUE` and `(0,3)` `RED`. -/
theorem bfs_queue_never_full_witness :
    GraphWF graph_square_done ∧ GraphSymmetric graph_square_done ∧
      [(0 : Int), 0, 0, 0].length = graph_square_done.size ∧
      ∃ (parent : List Int) (log : BfsLog),
        bfs_traced graph_square_done [0, 0, 0, 0] = Except.ok (parent, log) ∧
        bfs graph_square_done [0, 0, 0, 0] = Except.ok parent ∧
        log.full = [] ∧ log.puts.Nodup ∧
        ∀ v : Nat, v ∈ log.puts → graph_present graph_square_done v = true :=
  ⟨graph_square_done_inv.1, graph_square_done_inv.2, rfl,
    bfs_queue_never_full graph_square_done [0, 0, 0, 0] graph_square_done_inv.1
      graph_square_done_inv.2 rfl⟩

/-! ## The edges that `kruskal` rejects -/

theorem graph_cell_ptr_of_cell {g : Graph W} {i j : Nat} {c : Option EdgePtr}
    (h : graph_cell g i j = Except.ok c) : graph_cell_ptr g i j = c := by
  unfold graph_cell at h
  obtain ⟨r, hr, h⟩ := bind_ok h
  unfold graph_row at hr
  unfold graph_cell_ptr
  cases hv : g.vertex[i]? with
  | none => rw [hv] at hr; cases hr
  | some r0 =>
    rw [hv] at hr
    cases hr
    cases r with
    | none => cases h
    | some row =>
      dsimp only at h ⊢
      cases hc : row[j]? with
      | none => rw [hc] at h; cases h
      | some c0 =>
        rw [hc] at h
        cases h
        rfl

theorem mem_graph_edge_ptrs {g : Graph W} {i j : Nat} {p : EdgePtr} (hi : i < g.size)
    (hj : j < g.size) (h : graph_cell_ptr g i j = some p) : p ∈ graph_edge_ptrs g := by
  unfold graph_edge_ptrs
  rw [List.mem_dedup, List.mem_flatMap]
  exact ⟨i, List.mem_range.mpr hi, List.mem_filterMap.mpr ⟨j, List.mem_range.mpr hj, h⟩⟩

theorem graph_first_edge_row_mem {g : Graph W} {i : Nat} {p : EdgePtr} :
    ∀ (n j : Nat), graph_first_edge_row g i n j = Except.ok (some p) →
      ∃ j2, j2 < j + n ∧ graph_cell g i j2 = Except.ok (some p) := by
  intro n
  induction n with
  | zero =>
    intro j h
    cases h
  | succ n ih =>
    intro j h
    unfold graph_first_edge_row at h
    obtain ⟨c, hc, h⟩ := bind_ok h
    cases c with
    | none =>
      obtain ⟨j2, hj2, hcell⟩ := ih (j + 1) h
      exact ⟨j2, by omega, hcell⟩
    | some e =>
      have : e = p := Option.some.inj (Except.ok.inj h)
      subst this
      exact ⟨j, by omega, hc⟩

theorem graph_first_edge_rows_mem {g : Graph W} {p : EdgePtr} :
    ∀ (n i : Nat), graph_first_edge_rows g n i = Except.ok (some p) →
      ∃ i2 j2, i2 < i + n ∧ j2 < g.size ∧ graph_cell g i2 j2 = Except.ok (some p) := by
  intro n
  induction n with
  | zero =>
    intro i h
    cases h
  | succ n ih =>
    intro i h
    unfold graph_first_edge_rows at h
    obtain ⟨r, _, h⟩ := bind_ok h
    dsimp only at h
    split at h
    · obtain ⟨tmp, htmp, h⟩ := bind_ok h
      cases tmp with
      | none =>
        obtain ⟨i2, j2, hi2, hj2, hcell⟩ := ih (i + 1) h
        exact ⟨i2, j2, by omega, hj2, hcell⟩
      | some e =>
        have : e = p := Option.some.inj (Except.ok.inj h)
        subst this
        obtain ⟨j2, hj2, hcell⟩ := graph_first_edge_row_mem g.size 0 htmp
        exact ⟨i, j2, by omega, by omega, hcell⟩
    · obtain ⟨tmp, htmp, h⟩ := bind_ok h
      have : none = tmp := Except.ok.inj htmp
      subst this
      obtain ⟨i2, j2, hi2, hj2, hcell⟩ := ih (i + 1) h
      exact ⟨i2, j2, by omega, hj2, hcell⟩

theorem graph_first_edge_mem {g : Graph W} {p : EdgePtr}
    (h : graph_first_edge g = Except.ok (some p)) : p ∈ graph_edge_ptrs g := by
  obtain ⟨i2, j2, hi2, hj2, hcell⟩ := graph_first_edge_rows_mem g.size 0 h
  exact mem_graph_edge_ptrs (by omega) hj2 (graph_cell_ptr_of_cell hcell)

theorem graph_has_vertex_true {g : Graph W} {v : Nat}
    (h : graph_has_vertex g v = Except.ok true) : v < g.size := by
  unfold graph_has_vertex at h
  split at h
  · split at h
    · cases h
    · omega
  · cases h

theorem graph_get_edge_mem {g : Graph W} {i j : Nat} {p : EdgePtr}
    (h : graph_get_edge g i j = Except.ok (some p)) : p ∈ graph_edge_ptrs g := by
  unfold graph_get_edge at h
  obtain ⟨b, hb, h⟩ := bind_ok h
  cases b with
  | false => cases h
  | true =>
    rw [if_pos rfl] at h
    unfold graph_has_edge at hb
    obtain ⟨b1, hb1, hb⟩ := bind_ok hb
    cases b1 with
    | false => cases hb
    | true =>
      rw [if_pos rfl] at hb
      obtain ⟨b2, hb2, hb⟩ := bind_ok hb
      cases b2 with
      | false => cases hb
      | true =>
        exact mem_graph_edge_ptrs (graph_has_vertex_true hb1) (graph_has_vertex_true hb2)
          (graph_cell_ptr_of_cell h)

theorem graph_next_edge_mem {g : Graph W} {e p : EdgePtr}
    (h : graph_next_edge g e = Except.ok (some p)) : p ∈ graph_edge_ptrs g := by
  unfold graph_next_edge at h
  obtain ⟨ed, _, h⟩ := bind_ok h
  split at h
  · cases h
  · dsimp only at h
    obtain ⟨q, _, h⟩ := bind_ok h
    split at h
    · cases h
    · exact graph_get_edge_mem h

theorem edge_set_attr_weight {g g1 : Graph W} {e : EdgePtr} {c : Int}
    (h : edge_set_attr g e c = Except.ok g1) :
    ∀ p, edge_weight g1 p = edge_weight g p := by
  unfold edge_set_attr at h
  obtain ⟨ed, hd, h⟩ := bind_ok h
  cases h
  unfold edge_deref at hd
  intro p
  unfold edge_weight
  split at hd
  · next ed2 heq =>
    cases hd
    have hlt : e < g.store.length := by
      rcases Nat.lt_or_ge e g.store.length with hc | hc
      · exact hc
      · rw [List.getElem?_eq_none hc] at heq
        cases heq
    show (match (g.store.set e (some { ed with attr := c }))[p]? with
      | some (some x) => some x.weight
      | _ => none) = _
    by_cases hpe : p = e
    · subst hpe
      rw [List.getElem?_set_self hlt, heq]
    · rw [List.getElem?_set_ne (fun e2 => hpe e2.symm)]
  · cases hd

theorem edge_relation_congr [LE W] [DecidableRel (α := W) (· ≤ ·)] {g g1 : Graph W}
    (h : ∀ p, edge_weight g1 p = edge_weight g p) (a b : EdgePtr) :
    edge_relation g1 a b = edge_relation g a b := by
  have key : ∀ (g2 : Graph W) (x y : EdgePtr), edge_relation g2 x y =
      match edge_weight g2 x, edge_weight g2 y with
      | some u, some v => decide (u ≥ v)
      | _, _ => false := by
    intro g2 x y
    unfold edge_relation edge_weight
    rcases hx : g2.store[x]? with _ | _ | ex <;> rcases hy : g2.store[y]? with _ | _ | ey <;> rfl
  rw [key, key, h a, h b]

theorem kruskal_fill_cycle [LE W] [DecidableRel (α := W) (· ≤ ·)] {g0 : Graph W}
    (hR : TotalPreorderOn (edge_live g0) (edge_relation g0)) :
    ∀ (fuel : Nat) (g : Graph W) (h : Heap EdgePtr) (cur : Option EdgePtr)
      (r : Graph W × Heap EdgePtr),
      g.vertex = g0.vertex → g.size = g0.size → (∀ p, edge_ends g p = edge_ends g0 p) →
      (∀ p, edge_weight g p = edge_weight g0 p) →
      h.rel = edge_relation g0 → HeapWF h → HeapAll (edge_live g0) h → HeapOrdered h →
      h.size + fuel ≤ h.max →
      (∀ p, p ∈ heap_items h → p ∈ graph_edge_ptrs g0) →
      (∀ e, cur = some e → e ∈ graph_edge_ptrs g0) →
      (∀ p, edge_colour g p = some RED → p ∈ heap_items h ∨ edge_colour g0 p = some RED) →
      kruskal_fill fuel g h cur = Except.ok r →
      r.2.rel = edge_relation g0 ∧ HeapWF r.2 ∧ HeapAll (edge_live g0) r.2 ∧
        HeapOrdered r.2 ∧ (∀ p, p ∈ heap_items r.2 → p ∈ graph_edge_ptrs g0) ∧
        (∀ p, edge_colour r.1 p = some RED →
          p ∈ heap_items r.2 ∨ edge_colour g0 p = some RED) ∧
        (∀ p, edge_weight r.1 p = edge_weight g0 p) := by
  intro fuel
  induction fuel with
  | zero =>
    intro g h cur r _ _ _ hw hrel hwf hall hord _ hin _ hred hrun
    cases cur with
    | none =>
      simp only [kruskal_fill] at hrun
      cases hrun
      exact ⟨hrel, hwf, hall, hord, hin, hred, hw⟩
    | some c =>
      simp only [kruskal_fill] at hrun
      cases hrun
  | succ fuel ih =>
    intro g h cur r hv hs he hw hrel hwf hall hord hroom hin hcur hred hrun
    cases cur with
    | none =>
      simp only [kruskal_fill] at hrun
      cases hrun
      exact ⟨hrel, hwf, hall, hord, hin, hred, hw⟩
    | some c =>
      simp only [kruskal_fill] at hrun
      obtain ⟨r1, hins, hrun⟩ := bind_ok hrun
      obtain ⟨g1, hset, hrun⟩ := bind_ok hrun
      obtain ⟨nxt, hnext, hrun⟩ := bind_ok hrun
      obtain ⟨hv1, hs1, he1, hc1⟩ := edge_set_attr_spec hset
      have hw1 := edge_set_attr_weight hset
      have hlive : edge_live g0 c := by
        obtain ⟨ed, hd, _⟩ := bind_ok hset
        have := edge_ends_of_deref hd
        rw [he] at this
        exact edge_live_iff_ends.mpr ⟨_, _, this⟩
      obtain ⟨h1, hins1, hsz1, hmax1, hrel1, hwf1, hall1, hord1, hperm1⟩ :=
        heap_insert_spec hR c hrel hwf hall hord hlive
          (by omega)
      rw [hins1] at hins
      cases hins
      have hv10 : g1.vertex = g0.vertex := hv1.trans hv
      have hs10 : g1.size = g0.size := hs1.trans hs
      have hmem1 : ∀ p, p ∈ heap_items h1 ↔ p = c ∨ p ∈ heap_items h := by
        intro p
        rw [hperm1.mem_iff, List.mem_cons]
      refine ih g1 h1 nxt r hv10 hs10 (fun p => (he1 p).trans (he p))
        (fun p => (hw1 p).trans (hw p)) (hrel1.trans hrel) hwf1 hall1 hord1 (by omega)
        ?_ ?_ ?_ hrun
      · intro p hp
        rcases (hmem1 p).mp hp with h2 | h2
        · rw [h2]; exact hcur c rfl
        · exact hin p h2
      · intro e hne
        rw [hne] at hnext
        have := graph_next_edge_mem hnext
        rw [graph_edge_ptrs_congr hv10 hs10] at this
        exact this
      · intro p hp
        rw [hc1 p] at hp
        split at hp
        · next hpe => exact Or.inl ((hmem1 p).mpr (Or.inl hpe))
        · rcases hred p hp with h2 | h2
          · exact Or.inl ((hmem1 p).mpr (Or.inr h2))
          · exact Or.inr h2

theorem kruskalJoined_mono [LE W] [DecidableRel (α := W) (· ≤ ·)] {g : Graph W}
    {sel sel1 : List EdgePtr}
    {e : EdgePtr} (hsub : ∀ s, s ∈ sel → s ∈ sel1) (h : KruskalJoined g sel e) :
    KruskalJoined g sel1 e := by
  obtain ⟨a, b, hab, hreach⟩ := h
  refine ⟨a, b, hab, reach_mono ?_ hreach⟩
  intro x hx
  unfold edges_ends at hx ⊢
  obtain ⟨s, hs, hsx⟩ := List.mem_filterMap.mp hx
  obtain ⟨hs1, hs2⟩ := List.mem_filter.mp hs
  exact List.mem_filterMap.mpr ⟨s, List.mem_filter.mpr ⟨hsub s hs1, hs2⟩, hsx⟩

theorem kruskal_process_cycle [LE W] [DecidableRel (α := W) (· ≤ ·)] {g0 : Graph W}
    (hR : TotalPreorderOn (edge_live g0) (edge_relation g0)) (hends : GraphEndsInRange g0) :
    ∀ (fuel : Nat) (g : Graph W) (h : Heap EdgePtr) (groups : DSets) (sel : List EdgePtr)
      (r : Graph W × Heap EdgePtr × DSets),
      KruskalInv g0 g groups sel → (∀ p, edge_weight g p = edge_weight g0 p) →
      h.rel = edge_relation g0 → HeapWF h → HeapAll (edge_live g0) h → HeapOrdered h →
      (∀ p, p ∈ heap_items h → p ∈ graph_edge_ptrs g0) →
      (∀ s y, s ∈ sel → y ∈ heap_items h → edge_relation g0 y s = true) →
      (∀ s, s ∈ sel → edge_colour g s = some BLUE ∧ s ∈ graph_edge_ptrs g0) →
      (∀ p, edge_colour g p = some RED →
        p ∈ heap_items h ∨ edge_colour g0 p = some RED ∨ KruskalJoined g0 sel p) →
      kruskal_process fuel g h groups = Except.ok r →
      ∃ sel1, KruskalInv g0 r.1 r.2.2 sel1 ∧ (∀ p, edge_weight r.1 p = edge_weight g0 p) ∧
        (∀ s, s ∈ sel1 → edge_colour r.1 s = some BLUE ∧ s ∈ graph_edge_ptrs g0) ∧
        (∀ p, edge_colour r.1 p = some RED →
          edge_colour g0 p = some RED ∨ KruskalJoined g0 sel1 p) := by
  have done : ∀ (g : Graph W) (h : Heap EdgePtr) (groups : DSets) (sel : List EdgePtr),
      KruskalInv g0 g groups sel → (∀ p, edge_weight g p = edge_weight g0 p) →
      (∀ s, s ∈ sel → edge_colour g s = some BLUE ∧ s ∈ graph_edge_ptrs g0) →
      (∀ p, edge_colour g p = some RED →
        p ∈ heap_items h ∨ edge_colour g0 p = some RED ∨ KruskalJoined g0 sel p) →
      ¬ heap_size h ≠ 0 →
      ∃ sel1, KruskalInv g0 g groups sel1 ∧ (∀ p, edge_weight g p = edge_weight g0 p) ∧
        (∀ s, s ∈ sel1 → edge_colour g s = some BLUE ∧ s ∈ graph_edge_ptrs g0) ∧
        (∀ p, edge_colour g p = some RED →
          edge_colour g0 p = some RED ∨ KruskalJoined g0 sel1 p) := by
    intro g h groups sel inv hw hblue hred h0
    refine ⟨sel, inv, hw, hblue, ?_⟩
    intro p hp
    rcases hred p hp with h1 | h1
    · have hz : h.size = 0 := by
        unfold heap_size at h0
        omega
      rw [heap_items_of_size_zero hz] at h1
      cases h1
    · exact h1
  intro fuel
  induction fuel with
  | zero =>
    intro g h groups sel r inv hw _ _ _ _ _ _ hblue hred hrun
    unfold kruskal_process at hrun
    split at hrun
    · cases hrun
    · next h0 =>
      cases hrun
      exact done g h groups sel inv hw hblue hred h0
  | succ fuel ih =>
    intro g h groups sel r inv hw hrel hwf hall hord hin hlight hblue hred hrun
    unfold kruskal_process at hrun
    split at hrun
    · next hne =>
      have hne0 : h.size ≠ 0 := hne
      obtain ⟨x, h1, hext, hx0, _, _, hr1, hwf1, hall1, hord1, hperm, hmin⟩ :=
        heap_extract_root_spec hR hrel hwf hall hord hne0
      obtain ⟨r0, hr0, hrun⟩ := bind_ok hrun
      rw [hext] at hr0
      cases hr0
      dsimp only at hrun
      obtain ⟨ed, hd, hrun⟩ := bind_ok hrun
      obtain ⟨s, hsame, hrun⟩ := bind_ok hrun
      have hxin : x ∈ heap_items h := hperm.mem_iff.mp (List.mem_cons_self _ _)
      have hsub : ∀ y, y ∈ heap_items h1 → y ∈ heap_items h :=
        fun y hy => hperm.mem_iff.mp (List.mem_cons_of_mem _ hy)
      have hin1 : ∀ p, p ∈ heap_items h1 → p ∈ graph_edge_ptrs g0 :=
        fun p hp => hin p (hsub p hp)
      split at hrun
      · next hsel =>
        obtain ⟨g1, hset, hrun⟩ := bind_ok hrun
        obtain ⟨ed1, hd1, hrun⟩ := bind_ok hrun
        obtain ⟨groups2, hun, hrun⟩ := bind_ok hrun
        have hs : s.2 = false := by simpa using hsel
        obtain ⟨_, _, _, hc1⟩ := edge_set_attr_spec hset
        have hw1 := edge_set_attr_weight hset
        refine ih g1 h1 groups2 (x :: sel) r
          (kruskal_select_inv hends inv hd hsame hs hset hd1 hun)
          (fun p => (hw1 p).trans (hw p)) (hr1.trans hrel) hwf1 hall1 hord1 hin1 ?_ ?_ ?_ hrun
        · intro s2 y hs2 hy
          rcases List.mem_cons.mp hs2 with h2 | h2
          · rw [h2]; exact hmin y (hsub y hy)
          · exact hlight s2 y h2 (hsub y hy)
        · intro s2 hs2
          rw [hc1 s2]
          rcases List.mem_cons.mp hs2 with h2 | h2
          · rw [if_pos h2, h2]
            exact ⟨rfl, hin x hxin⟩
          · split
            · exact ⟨rfl, (hblue s2 h2).2⟩
            · exact hblue s2 h2
        · intro p hp
          rw [hc1 p] at hp
          split at hp
          · exact absurd (Option.some.inj hp) (by decide)
          · next hpx =>
            rcases hred p hp with h2 | h2 | h2
            · rcases List.mem_cons.mp (hperm.mem_iff.mpr h2) with h3 | h3
              · exact absurd h3 hpx
              · exact Or.inl h3
            · exact Or.inr (Or.inl h2)
            · exact Or.inr (Or.inr
                (kruskalJoined_mono (fun s2 hs2 => List.mem_cons_of_mem _ hs2) h2))
      · next hsel =>
        have hs : s.2 = true := by simpa using hsel
        refine ih g h1 s.1 sel r (kruskal_reject_inv hends inv hd hsame) hw
          (hr1.trans hrel) hwf1 hall1 hord1 hin1
          (fun s2 y hs2 hy => hlight s2 y hs2 (hsub y hy)) hblue ?_ hrun
        intro p hp
        rcases hred p hp with h2 | h2 | h2
        · rcases List.mem_cons.mp (hperm.mem_iff.mpr h2) with h3 | h3
          · right; right
            rw [h3]
            obtain ⟨root, height, dinv, hfwd, _⟩ := inv.forest
            have hends0 : edge_ends g0 x = some (ed.v1, ed.v2) := by
              rw [← inv.ends_eq]; exact edge_ends_of_deref hd
            obtain ⟨hr1', hr2'⟩ := hends x ed.v1 ed.v2 hends0
            rw [← inv.groups_size] at hr1' hr2'
            obtain ⟨hp1, hp2, _, hsdec, _, _⟩ := dsets_same_set_spec dinv hr1' hr2' hsame
            have hroot : root ed.v1 = root ed.v2 := by
              rw [hs] at hsdec
              exact of_decide_eq_true hsdec.symm
            have hall2 : sel.filter (fun s2 => edge_relation g0 x s2) = sel :=
              List.filter_eq_self.mpr (fun s2 hs2 => hlight s2 x hs2 hxin)
            refine ⟨ed.v1, ed.v2, hends0, ?_⟩
            rw [hall2]
            exact hfwd _ _ hp1 hp2 hroot
          · exact Or.inl h3
        · exact Or.inr (Or.inl h2)
        · exact Or.inr (Or.inr h2)
    · next h0 =>
      cases hrun
      exact done g h groups sel inv hw hblue hred h0

theorem kruskal_rejected_of_run [LE W] [DecidableRel (α := W) (· ≤ ·)] (g g1 : Graph W)
    (hR : TotalPreorderOn (edge_live g) (edge_relation g))
    (hends : GraphEndsInRange g) (hwhite : GraphAllWhite g)
    (hrun : kruskal g = Except.ok g1) :
    ∀ e, e ∈ graph_edge_ptrs g1 → edge_colour g1 e = some RED →
      KruskalJoined g1 (graph_selected g1) e := by
  unfold kruskal at hrun
  simp only [graph_max_size] at hrun
  split at hrun
  · next hpos =>
    split at hrun
    · obtain ⟨h, hcreate, hrun⟩ := bind_ok hrun
      obtain ⟨groups, hnew, hrun⟩ := bind_ok hrun
      obtain ⟨groups1, hinit, hrun⟩ := bind_ok hrun
      obtain ⟨first, hfirst, hrun⟩ := bind_ok hrun
      obtain ⟨filled, hfill, hrun⟩ := bind_ok hrun
      obtain ⟨done, hproc, hrun⟩ := bind_ok hrun
      cases hrun
      obtain ⟨h0, hc0, hs0, hm0, hr0, hwf0, hord0, hall0⟩ :=
        heap_create_spec (g.size * g.size) (edge_relation g) (Nat.mul_pos hpos hpos)
      rw [hc0] at hcreate
      cases hcreate
      have hitems0 : heap_items h = [] := heap_items_of_size_zero hs0
      obtain ⟨hsing, hsz⟩ := dsets_new_spec hnew
      obtain ⟨hsing1, hsz1⟩ := kruskal_init_spec g g.size 0 groups groups1 hsing hinit
      obtain ⟨hv, hs, he, hc⟩ := kruskal_fill_spec (g.size * g.size) g h first filled hfill
      obtain ⟨hfr, hfwf, hfall, hford, hfin, hfred, hfw⟩ :=
        kruskal_fill_cycle hR (g.size * g.size) g h first filled rfl rfl (fun _ => rfl)
          (fun _ => rfl) hr0 hwf0 (hall0 _) hord0 (by omega)
          (fun p hp => by rw [hitems0] at hp; cases hp)
          (fun e hfe => graph_first_edge_mem (by rw [← hfe]; exact hfirst))
          (fun p hp => Or.inr hp) hfill
      have inv0 : KruskalInv g filled.1 groups1 [] := by
        refine ⟨hv, hs, he, hsz1.trans hsz, fun p hp => Or.inr (hc p hp), List.nodup_nil,
          trivial, (fun v => v), (fun _ => 0), dsetsSingletons_inv hsing1, ?_, ?_⟩
        · intro u v _ _ huv
          have : u = v := huv
          rw [this]
          exact reach_refl _ _
        · intro a b hab
          simp [edges_ends] at hab
      obtain ⟨sel, inv, hw, hblue, hred⟩ :=
        kruskal_process_cycle hR hends (heap_size filled.2) filled.1 filled.2 groups1 [] done
          inv0 hfw hfr hfwf hfall hford hfin (fun s y hs2 _ => by cases hs2)
          (fun s hs2 => by cases hs2)
          (fun p hp => by
            rcases hfred p hp with h1 | h1
            · exact Or.inl h1
            · exact Or.inr (Or.inl h1)) hproc
      have hptrs := graph_edge_ptrs_congr inv.vertex_eq inv.size_eq
      intro e hmem hcol
      rw [hptrs] at hmem
      rcases hred e hcol with h1 | h1
      · rw [hwhite e hmem] at h1
        exact absurd (Option.some.inj h1) (by decide)
      · obtain ⟨a, b, hab, hreach⟩ := h1
        refine ⟨a, b, by rw [inv.ends_eq]; exact hab, reach_mono ?_ hreach⟩
        intro x hx
        unfold edges_ends at hx ⊢
        obtain ⟨s, hs1, hsx⟩ := List.mem_filterMap.mp hx
        obtain ⟨hs2, hs3⟩ := List.mem_filter.mp hs1
        refine List.mem_filterMap.mpr ⟨s, List.mem_filter.mpr ⟨?_, ?_⟩, ?_⟩
        · unfold graph_selected graph_coloured
          refine List.mem_filter.mpr ⟨by rw [hptrs]; exact (hblue s hs2).2, ?_⟩
          exact decide_eq_true (hblue s hs2).1
        · rw [edge_relation_congr hw]
          exact hs3
        · rw [inv.ends_eq]; exact hsx
    · cases hrun
  · cases hrun

/-- C33, amended to weights without NaN: for every graph in which `>=` is a total
preorder on the weights of the edges (for `float` weights: none of them is a NaN), whose
edges are all `WHITE` (and have
their ends below the capacity, as `graph_add_edge` makes them), whenever `kruskal` runs
to its end every edge of the graph that is `RED` has its two ends joined by a path made
of `BLUE` edges of the graph only, each of them an edge `s` for which
`edge_relation(e, s)` holds: the weight of `s` is at most the weight of the `RED` edge.
`kruskal` does run to its end, without fault, on every such graph that is well-formed,
has all its vertices present and a squared capacity that fits an `int`. -/
theorem kruskal_rejected_edges_cycle [LE W] [DecidableRel (α := W) (· ≤ ·)] (g : Graph W)
    (hnum : TotalPreorderOn (edge_live g) (edge_relation g))
    (hends : GraphEndsInRange g) (hwhite : GraphAllWhite g) :
    (∀ g1, kruskal g = Except.ok g1 →
      ∀ e, e ∈ graph_edge_ptrs g1 → edge_colour g1 e = some RED →
        ∃ a b, edge_ends g1 e = some (a, b) ∧
          Reach (edges_ends g1
            ((graph_selected g1).filter (fun s => edge_relation g1 e s))) a b) ∧
      (GraphWF g → GraphFull g → g.size * g.size ≤ INT_MAX →
        ∃ g1, kruskal g = Except.ok g1) :=
  ⟨fun g1 hrun e hmem hcol =>
      kruskal_rejected_of_run g g1 hnum hends hwhite hrun e hmem hcol,
    fun hwf hfull hsize => kruskal_returns hnum hwf hfull hends hsize⟩

/-- Witness of C33 (amended): the square with `float` weights, none of them a NaN, where `kruskal`
leaves the edge `(0, 3)` of weight 5 `RED` and the three other edges, of weights 1, 2
and 1, `BLUE`. -/
theorem kruskal_rejected_edges_cycle_witness :
    TotalPreorderOn (edge_live graph_square_float) (edge_relation graph_square_float) ∧
      GraphEndsInRange graph_square_float ∧ GraphAllWhite graph_square_float ∧
      GraphWF graph_square_float ∧ GraphFull graph_square_float ∧
      kruskal graph_square_float = Except.ok graph_square_float_done ∧
      3 ∈ graph_edge_ptrs graph_square_float_done ∧
      edge_colour graph_square_float_done 3 = some RED ∧
      (∀ g1, kruskal graph_square_float = Except.ok g1 →
        ∀ e, e ∈ graph_edge_ptrs g1 → edge_colour g1 e = some RED →
          ∃ a b, edge_ends g1 e = some (a, b) ∧
            Reach (edges_ends g1
              ((graph_selected g1).filter (fun s => edge_relation g1 e s))) a b) ∧
      (GraphWF graph_square_float → GraphFull graph_square_float →
        graph_square_float.size * graph_square_float.size ≤ INT_MAX →
        ∃ g1, kruskal graph_square_float = Except.ok g1) :=
  have hwhite : GraphAllWhite graph_square_float := by
    unfold GraphAllWhite
    decide
  ⟨graph_square_float_numbers, graph_square_float_ends_in_range, hwhite,
    graph_square_float_wf, graph_square_float_full, by decide, by decide, by decide,
    kruskal_rejected_edges_cycle graph_square_float graph_square_float_numbers
      graph_square_float_ends_in_range hwhite⟩

/-! ## Overflow of a rank -/

theorem except_ok_bind {ε α β : Type} (x : α) (f : α → Except ε β) :
    (Except.ok x >>= f) = f x := rfl

theorem dsets_run_cons (ds : DSets) (op : DSetsOp) (ops : List DSetsOp) :
    dsets_run ds (op :: ops) = (dsets_apply ds op >>= fun d => dsets_run d ops) := rfl

theorem dsets_session_eq (size : Nat) (ops : List DSetsOp) :
    dsets_session size ops = (dsets_new size >>= fun ds => dsets_run ds ops) := rfl

theorem dsets_union_self_step (k : Int) (hk : k < (INT_MAX : Int)) :
    dsets_union { size := 1, father := [0], rank := [k] } 0 0 =
      Except.ok { size := 1, father := [0], rank := [k + 1] } := by
  simp [dsets_union, dsets_find_set, dsets_find_set_loop, dsets_father, dsets_rank,
    dsets_set_father, dsets_set_rank, bind, Except.bind, pure, Except.pure, hk]

theorem dsets_union_self_run :
    ∀ (n : Nat) (k : Int), k + (n : Int) ≤ (INT_MAX : Int) →
      dsets_run { size := 1, father := [0], rank := [k] }
          (List.replicate n (DSetsOp.union 0 0)) =
        Except.ok { size := 1, father := [0], rank := [k + (n : Int)] } := by
  intro n
  induction n with
  | zero =>
    intro k _
    simp [dsets_run]
  | succ n ih =>
    intro k hk
    push_cast at hk
    rw [List.replicate_succ]
    show (dsets_union { size := 1, father := [0], rank := [k] } 0 0 >>= fun d =>
      dsets_run d (List.replicate n (DSetsOp.union 0 0))) = _
    rw [dsets_union_self_step k (by omega)]
    show dsets_run { size := 1, father := [0], rank := [k + 1] }
      (List.replicate n (DSetsOp.union 0 0)) = _
    rw [ih (k + 1) (by omega)]
    push_cast
    congr 3
    omega

theorem dsets_union_pair_step (k : Int) (hk : k < (INT_MAX : Int)) :
    dsets_union { size := 2, father := [1, 1], rank := [0, k] } 0 1 =
      Except.ok { size := 2, father := [1, 1], rank := [0, k + 1] } := by
  simp [dsets_union, dsets_find_set, dsets_find_set_loop, dsets_father, dsets_rank,
    dsets_set_father, dsets_set_rank, bind, Except.bind, pure, Except.pure, hk]

theorem dsets_union_pair_run :
    ∀ (n : Nat) (k : Int), k + (n : Int) ≤ (INT_MAX : Int) →
      dsets_run { size := 2, father := [1, 1], rank := [0, k] }
          (List.replicate n (DSetsOp.union 0 1)) =
        Except.ok { size := 2, father := [1, 1], rank := [0, k + (n : Int)] } := by
  intro n
  induction n with
  | zero =>
    intro k _
    simp [dsets_run]
  | succ n ih =>
    intro k hk
    push_cast at hk
    rw [List.replicate_succ]
    show (dsets_union { size := 2, father := [1, 1], rank := [0, k] } 0 1 >>= fun d =>
      dsets_run d (List.replicate n (DSetsOp.union 0 1))) = _
    rw [dsets_union_pair_step k (by omega)]
    show dsets_run { size := 2, father := [1, 1], rank := [0, k + 1] }
      (List.replicate n (DSetsOp.union 0 1)) = _
    rw [ih (k + 1) (by omega)]
    push_cast
    congr 4
    omega

/-- Counterexample to C13 as stated: after `dsets_make_set` on 0 and `INT_MAX` calls of
`dsets_union` on 0 and 0, the element 0 is placed and the rank of its root is
`INT_MAX`; the next `dsets_union` on 0 and 0 increments that rank, a signed overflow,
where the claim has `dsets_same_set` true after it. -/
theorem dsets_union_same_set_overflow_counterexample :
    dsets_session 1 (DSetsOp.make_set 0 :: List.replicate INT_MAX (DSetsOp.union 0 0)) =
        Except.ok dsets_top ∧
      dsets_placed dsets_top 0 ∧
      dsets_union dsets_top 0 0 = Except.error Fault.overflow := by
  refine ⟨?_, ⟨by decide, 0, by decide, by decide⟩, by decide⟩
  have hnew : dsets_new 1 = Except.ok { size := 1, father := [-1], rank := [0] } := by
    decide
  have hmake : dsets_apply { size := 1, father := [-1], rank := [0] } (DSetsOp.make_set 0) =
      Except.ok { size := 1, father := [0], rank := [0] } := by
    decide
  rw [dsets_session_eq, hnew, except_ok_bind, dsets_run_cons, hmake, except_ok_bind,
    dsets_union_self_run INT_MAX 0 (by omega)]
  simp [dsets_top]

/-- Counterexample to C16 as stated: after `dsets_make_set` on 0 and on 1 and `INT_MAX`
calls of `dsets_union` on 0 and 1, the father links form the tree `0 → 1`, both elements
are placed and the rank of the root 1 is `INT_MAX`; the next `dsets_union` on 0 and 1
increments that rank, a signed overflow, where the claim has it return with the sets
unchanged. -/
theorem dsets_union_merge_overflow_counterexample :
    dsets_session 2 (DSetsOp.make_set 0 :: DSetsOp.make_set 1 :: DSetsOp.union 0 1 ::
        List.replicate (INT_MAX - 1) (DSetsOp.union 0 1)) = Except.ok dsets_pair_top ∧
      (∃ height : Nat → Nat, DSetsForest dsets_pair_top height) ∧
      dsets_placed dsets_pair_top 0 ∧ dsets_placed dsets_pair_top 1 ∧
      dsets_union dsets_pair_top 0 1 = Except.error Fault.overflow := by
  have hnew : dsets_new 2 = Except.ok { size := 2, father := [-1, -1], rank := [0, 0] } := by
    decide
  have hm0 : dsets_apply { size := 2, father := [-1, -1], rank := [0, 0] }
      (DSetsOp.make_set 0) = Except.ok { size := 2, father := [0, -1], rank := [0, 0] } := by
    decide
  have hm1 : dsets_apply { size := 2, father := [0, -1], rank := [0, 0] }
      (DSetsOp.make_set 1) = Except.ok { size := 2, father := [0, 1], rank := [0, 0] } := by
    decide
  have hu : dsets_apply { size := 2, father := [0, 1], rank := [0, 0] }
      (DSetsOp.union 0 1) = Except.ok { size := 2, father := [1, 1], rank := [0, 1] } := by
    decide
  have hlast : (1 : Int) + ((INT_MAX - 1 : Nat) : Int) = (INT_MAX : Int) := by
    simp [INT_MAX]
  have hrun : dsets_session 2 (DSetsOp.make_set 0 :: DSetsOp.make_set 1 ::
      DSetsOp.union 0 1 :: List.replicate (INT_MAX - 1) (DSetsOp.union 0 1)) =
      Except.ok dsets_pair_top := by
    rw [dsets_session_eq, hnew, except_ok_bind, dsets_run_cons, hm0, except_ok_bind,
      dsets_run_cons, hm1, except_ok_bind, dsets_run_cons, hu, except_ok_bind,
      dsets_union_pair_run (INT_MAX - 1) 1 (by rw [hlast]), hlast]
    rfl
  exact ⟨hrun, (dsets_session_forest hrun).imp (fun _ h => h.1),
    ⟨by decide, 1, by decide, by decide⟩, ⟨by decide, 1, by decide, by decide⟩, by decide⟩

/-! ## A NaN among the weights -/

theorem graph_nan_ends_in_range : GraphEndsInRange graph_nan := by
  intro p a b h
  rcases p with _ | _ | _ | _ | p <;> simp [edge_ends, graph_nan] at h <;>
    simp [graph_nan, ← h.1, ← h.2]

theorem graph_nan_wf : GraphWF graph_nan := by
  refine ⟨by decide, rfl, ?_, ?_⟩
  · intro i row h
    rcases i with _ | _ | _ | _ | i <;> simp [graph_nan] at h <;> subst h <;> rfl
  · have key : ∀ i, i < 4 → ∀ j, j < 4 → ∀ p, p ∈ graph_cell_ptr graph_nan i j →
        (edge_ends graph_nan p = some (i, j) ∨ edge_ends graph_nan p = some (j, i)) := by
      decide
    intro i j hi hj p hp
    exact key i hi j hj p hp

theorem graph_nan_full : GraphFull graph_nan := by
  unfold GraphFull
  decide

/-- Counterexample to C33: `graph_nan`, built by `graph_add_edge` of `(0,1,1)`,
`(0,2,NaN)`, `(0,3,1)` and `(1,3,5)`, is well-formed, has all its vertices present and
all its edges `WHITE`; `kruskal` returns on it and leaves the edge `(0,1)` of weight 1
`RED`, the three others `BLUE`. The only `BLUE` edge whose weight is at most 1 is
`(0,3)`, and it does not join 0 and 1: the `BLUE` path from 0 to 1 goes through
`(1,3)`, of weight 5. -/
theorem kruskal_nan_counterexample :
    graph_of_edges 4 [(0, 1, CFloat.num 1), (0, 2, CFloat.nan), (0, 3, CFloat.num 1),
        (1, 3, CFloat.num 5)] = Except.ok graph_nan ∧
      GraphEndsInRange graph_nan ∧ GraphAllWhite graph_nan ∧ GraphWF graph_nan ∧
      GraphFull graph_nan ∧
      kruskal graph_nan = Except.ok graph_nan_done ∧
      0 ∈ graph_edge_ptrs graph_nan_done ∧ edge_colour graph_nan_done 0 = some RED ∧
      edge_ends graph_nan_done 0 = some (0, 1) ∧
      edge_weight graph_nan_done 0 = some (CFloat.num 1) ∧
      graph_selected graph_nan_done = [1, 2, 3] ∧
      edge_ends graph_nan_done 3 = some (1, 3) ∧
      edge_weight graph_nan_done 3 = some (CFloat.num 5) ∧
      edges_ends graph_nan_done ((graph_selected graph_nan_done).filter
        (fun s => edge_relation graph_nan_done 0 s)) = [(0, 3)] ∧
      ¬ Reach (edges_ends graph_nan_done ((graph_selected graph_nan_done).filter
        (fun s => edge_relation graph_nan_done 0 s))) 0 1 := by
  have hwhite : GraphAllWhite graph_nan := by
    unfold GraphAllWhite
    decide
  have hes : edges_ends graph_nan_done ((graph_selected graph_nan_done).filter
      (fun s => edge_relation graph_nan_done 0 s)) = [(0, 3)] := by
    decide
  refine ⟨by decide, graph_nan_ends_in_range, hwhite, graph_nan_wf, graph_nan_full,
    by decide, by decide, by decide, by decide, by decide, by decide, by decide, by decide,
    hes, ?_⟩
  rw [hes]
  intro h
  have key : ∀ a b, Reach [(0, 3)] a b → b = 1 → a = 1 := by
    intro a b hab
    induction hab with
    | refl => exact id
    | tail _ hstep ih =>
      intro hc
      subst hc
      rcases hstep with hm | hm <;>
        simp only [List.mem_singleton, Prod.mk.injEq] at hm <;> omega
  exact absurd (key 0 1 h rfl) (by decide)

/-! ## The matrix on memory that `malloc` does not clear -/

/-- C18 on the failing input: `graph_add_vertex` does not write the row that it
allocates. On a graph of capacity 3, after `graph_add_edge` on 1 and 2 and
`graph_remove_edge` on 1 and 2, both on memory filled with `NULL`, `graph_add_vertex` on
0 receives from `malloc` a row whose cell 1 is not `NULL`. The vertices 0 and 1 are then
present, the cell `(0, 1)` is not `NULL` while the cell `(1, 0)` is `NULL`,
`graph_has_edge` returns true on `(0, 1)` and false on `(1, 0)`, and `graph_get_edge`
returns on `(0, 1)` a pointer to no live `Edge`. -/
theorem graph_matrix_asymmetric_uncleared :
    graph_session_in (fun _ => none) 3 graph_dirty_ops = Except.ok graph_dirty ∧
      graph_has_vertex graph_dirty 0 = Except.ok true ∧
      graph_has_vertex graph_dirty 1 = Except.ok true ∧
      graph_cell graph_dirty 0 1 = Except.ok (some 0) ∧
      graph_cell graph_dirty 1 0 = Except.ok none ∧
      graph_has_edge graph_dirty 0 1 = Except.ok true ∧
      graph_has_edge graph_dirty 1 0 = Except.ok false ∧
      graph_get_edge graph_dirty 0 1 = Except.ok (some 0) ∧
      edge_deref graph_dirty 0 = Except.error Fault.dangling := by
  decide

/-- C20 on the failing input: `graph_add_vertex` does not write the row that it
allocates. On `graph_lone`, the graph of capacity 3 whose only vertex is 2 (made by
`graph_add_vertex` on memory filled with `NULL`), `graph_has_edge` returns false on
`(0, 2)`; `graph_add_edge` on the vertices 0 and 1, when `malloc` returns for the row
of 0 a block whose cell 2 is not `NULL`, returns 1, and afterwards the cell `(0, 2)` is
not `NULL` and `graph_has_edge` returns true on `(0, 2)` and false on `(2, 0)`:
a cell other than `(0, 1)` and `(1, 0)` has changed. -/
theorem graph_add_edge_uncleared_row :
    graph_session_in (fun _ => none) 3 [GraphOpIn.add_vertex (fun _ => none) 2] =
        Except.ok graph_lone ∧
      graph_has_edge graph_lone 0 1 = Except.ok false ∧
      graph_has_edge graph_lone 0 2 = Except.ok false ∧
      graph_add_edge_in (fun j => if j = 2 then some 7 else none) (fun _ => none)
        graph_lone 0 1 5 WHITE = Except.ok (graph_lone_edge, true) ∧
      graph_has_edge graph_lone_edge 0 1 = Except.ok true ∧
      graph_cell graph_lone_edge 0 2 = Except.ok (some 7) ∧
      graph_has_edge graph_lone_edge 0 2 = Except.ok true ∧
      graph_has_edge graph_lone_edge 2 0 = Except.ok false ∧
      edge_deref graph_lone_edge 7 = Except.error Fault.dangling := by
  decide

end DataStructures
